import Mathlib

/-! # BankSim3000: a discrete-event bank/teller simulation

Shallow embedding of the two simulators of the repository

* `src/BankSim3000/src/main.cpp`   (busy-time variant, namespace `BusyTime`)
* `src/Lab4(trackCustomer).cpp`    (wait-time variant, namespace `TrackCustomer`)

Conventions of the embedding.

* `Time` is the C++ `int`, 32 bits wide.  A value of the type is modelled by the
  integer it holds, and every addition and subtraction of the source is modelled by
  `intAdd` and `intSub`: the exact result reduced to the range of `int` (two's
  complement wrap-around, which is how the compiled program computes; signed overflow
  has no defined result in C++).  The properties that need the exact result carry
  the hypothesis that the values fit, see `Fits`.
* A member function of the simulator class is a function from the object state
  to the state after the call paired with `Except Failure α`: either the value
  returned or the way the call failed (exception thrown, assertion failed,
  undefined access).
* `std::priority_queue` is library code.  The library only promises that `top()`
  is an element `e` for which `comp(e, x)` is false for every stored `x`; which
  of several such elements is returned is left open.  The queue is modelled by
  the list of stored events in insertion order, and the choice among the
  candidates is made by a tie-break oracle `tie : Nat → Nat` (the `i`-th pop uses
  `tie i`).  Theorems quantify over every oracle.
* The `while` loop of `runSimulation` is modelled with fuel; `runSimulation`
  provides the fuel `pendingWork`, which is shown to be enough.

The stack algorithms of `src/lab2.cpp` and `src/lab2#2.cpp`, the list classes and the
insertion sort of `src/lab3.cpp`, the eight-queens search of `src/lab2part4.cpp` and the
N-queens solver of `src/lab2part4(new).cpp` are embedded after the simulators, in the
namespaces `Lab2`, `Lab3`, `Lab2Part4` and `Lab2Part4New`.
-/

namespace BankSim

/-- Integer time units (`using Time = int`). -/
abbrev Time := Int

/-- The value of type `int` (32 bits, two's complement) that holds the exact result `x` of
an arithmetic operation: `x` itself when it lies between `-2147483648` and `2147483647`,
and `x` reduced modulo `4294967296` into that range otherwise. -/
def wrap (x : Int) : Time := (x + 2147483648) % 4294967296 - 2147483648

/-- The sum `a + b` of two `int` values. -/
def intAdd (a b : Time) : Time := wrap (a + b)

/-- The difference `a - b` of two `int` values. -/
def intSub (a b : Time) : Time := wrap (a - b)

/-- Index into the teller vector (`using TellerIndex = size_t`). -/
abbrev TellerIndex := Nat

/-- Lower bound on the teller count. -/
def MIN_TELLERS : Nat := 1

/-- Upper bound on the teller count. -/
def MAX_TELLERS : Nat := 5

/-- Arrival event containing only the arrival and transaction times. -/
structure ArrivalEvent where
  arrivalTime : Time
  transactionTime : Time
deriving DecidableEq, Repr

/-- A list of arrival events used to start the simulation. -/
abbrev SimulationInput := List ArrivalEvent

/-- Ways in which a call can fail to return normally. -/
inductive Failure where
  /-- The call threw `std::invalid_argument` with the given message. -/
  | invalidArgument (msg : String)
  /-- An `assert(...)` did not hold. -/
  | assertionFailed
  /-- Call of `optional::value()` on an empty optional (`bad_optional_access`). -/
  | badOptionalAccess
  /-- Access `v[i]` with `i` outside the vector (undefined behaviour). -/
  | outOfBounds
  /-- Dereference of the end iterator returned by `max_element` on an empty range. -/
  | emptyRange
deriving DecidableEq, Repr

/-- The input used by `main` in both files. -/
def SimulationInput00 : SimulationInput :=
  [⟨20, 6⟩, ⟨22, 4⟩, ⟨23, 2⟩, ⟨30, 3⟩]

/-! ## The priority queue -/

section PriorityQueue

variable {α : Type}

/-- Candidates for `top()`: the stored elements `e` such that `comp e x` is false
for every stored `x`, in insertion order. -/
def tops (comp : α → α → Bool) (q : List α) : List α :=
  q.filter (fun e => q.all (fun x => !comp e x))

/-- Result of `top()` on the stored elements `q`, where `k` resolves the choice among
the candidates; `none` exactly when nothing is stored. -/
def top (comp : α → α → Bool) (k : Nat) (q : List α) : Option α :=
  (tops comp q)[k % (tops comp q).length]?

end PriorityQueue

/-! ## Busy-time variant: `src/BankSim3000/src/main.cpp` -/

namespace BusyTime

/-- Wrapper of the arrival event of a waiting customer. -/
structure Customer where
  arrivalEvent : ArrivalEvent
deriving DecidableEq, Repr

/-- A departure event including the expected departure time and the teller being
departed from. -/
structure DepartureEvent where
  departureTime : Time
  tellerIndex : TellerIndex
deriving DecidableEq, Repr

/-- Either an arrival or departure event (`std::variant`). -/
inductive Event where
  | arrival (a : ArrivalEvent)
  | departure (d : DepartureEvent)
deriving DecidableEq, Repr

/-- Helper to get the time from either an arrival or departure event. -/
def get_event_time : Event → Time
  | .arrival a => a.arrivalTime
  | .departure d => d.departureTime

/-- The compare functor handed to the priority queue:
`get_event_time(e1) > get_event_time(e2)`. -/
def CompareEvent (e1 e2 : Event) : Bool :=
  decide (get_event_time e1 > get_event_time e2)

/-- Teller state: when the teller became busy (if busy) and the accumulated busy time. -/
structure Teller where
  startBusy : Option Time
  elapsedTimeBusy : Time
deriving DecidableEq, Repr

namespace Teller

/-- Default constructor `Teller()`. -/
def new : Teller := ⟨none, 0⟩

/-- Availability `isAvailable()`. -/
def isAvailable (t : Teller) : Bool := !t.startBusy.isSome

/-- Method `startWork(currentTime)`. -/
def startWork (t : Teller) (currentTime : Time) : Teller :=
  { t with startBusy := some currentTime }

/-- Method `stopWork(currentTime)`; `startBusy.value()` throws when the optional is empty. -/
def stopWork (t : Teller) (currentTime : Time) : Except Failure Teller :=
  match t.startBusy with
  | none => .error .badOptionalAccess
  | some s =>
    .ok { startBusy := none, elapsedTimeBusy := intAdd t.elapsedTimeBusy (intSub currentTime s) }

/-- Accessor `elapsedTimeWorking()`. -/
def elapsedTimeWorking (t : Teller) : Time := t.elapsedTimeBusy

end Teller

/-- Result object of a run. -/
structure SimulationResults where
  elapsedTimeBusy : List Time
deriving DecidableEq, Repr

/-- Value of `*max_element(first, last)` for the range starting with `x`: the scan
keeps the current largest and replaces it when it is smaller than the next element. -/
def maxElementFrom (x : Time) (xs : List Time) : Time :=
  xs.foldl (fun largest y => if largest < y then y else largest) x

/-- Method `SimulationResults::maxTellerBusyTime()`. -/
def SimulationResults.maxTellerBusyTime (r : SimulationResults) : Except Failure Time :=
  match r.elapsedTimeBusy with
  | [] => .error .emptyRange
  | x :: xs => .ok (maxElementFrom x xs)

/-- State of a `BankSim3000` object. -/
structure BankSim3000 where
  simulationInput : SimulationInput
  eventQueue : List Event
  bankLine : List Customer
  tellers : List Teller
deriving DecidableEq, Repr

/-- Constructor `BankSim3000(simulationInput)`. -/
def BankSim3000.new (simulationInput : SimulationInput) : BankSim3000 :=
  ⟨simulationInput, [], [], []⟩

/-- Method `resetTellers(tellerCount)`: the vector is cleared and `tellerCount` tellers are
constructed in place. -/
def resetTellers (s : BankSim3000) (tellerCount : Nat) : BankSim3000 :=
  { s with tellers := List.replicate tellerCount Teller.new }

/-- Method `clearBankLine()`.  The `assert` is active: a line that is not empty fails the
call (with assertions compiled out the loop after it would empty the line). -/
def clearBankLine (s : BankSim3000) : BankSim3000 × Except Failure Unit :=
  if s.bankLine.isEmpty then ({ s with bankLine := [] }, .ok ())
  else (s, .error .assertionFailed)

/-- Method `setupEventQueue()`.  The `assert` is active: a queue that is not empty fails
the call (with assertions compiled out the loop after it would empty the queue).  The
arrivals are pushed in input order. -/
def setupEventQueue (s : BankSim3000) : BankSim3000 × Except Failure Unit :=
  if s.eventQueue.isEmpty then
    ({ s with eventQueue := s.simulationInput.map Event.arrival }, .ok ())
  else (s, .error .assertionFailed)

/-- Method `setupSimulation(tellerCount)`. -/
def setupSimulation (s : BankSim3000) (tellerCount : Nat) : BankSim3000 × Except Failure Unit :=
  if tellerCount < MIN_TELLERS then
    (s, .error (.invalidArgument "Teller count must be >= 1"))
  else if tellerCount > MAX_TELLERS then
    (s, .error (.invalidArgument "Teller count must be <= 5"))
  else
    match setupEventQueue s with
    | (s1, .error f) => (s1, .error f)
    | (s1, .ok ()) => clearBankLine (resetTellers s1 tellerCount)

/-- Scan of `searchAvailableTellers` from index `i` on. -/
def searchFrom : Nat → List Teller → Option Nat
  | _, [] => none
  | i, t :: ts => if t.isAvailable then some i else searchFrom (i + 1) ts

/-- Method `searchAvailableTellers()`. -/
def searchAvailableTellers (s : BankSim3000) : Option Nat :=
  searchFrom 0 s.tellers

/-- Method `processArrival(currentTime, arrivalEvent)`. -/
def processArrival (s : BankSim3000) (currentTime : Time) (arrivalEvent : ArrivalEvent) :
    BankSim3000 × Except Failure Unit :=
  match searchAvailableTellers s with
  | some tellerIndex =>
    match s.tellers[tellerIndex]? with
    | none => (s, .error .outOfBounds)
    | some t =>
      let departureTime := intAdd currentTime arrivalEvent.transactionTime
      ({ s with
          tellers := s.tellers.set tellerIndex (t.startWork currentTime)
          eventQueue := s.eventQueue ++ [Event.departure ⟨departureTime, tellerIndex⟩] },
        .ok ())
  | none => ({ s with bankLine := s.bankLine ++ [⟨arrivalEvent⟩] }, .ok ())

/-- Method `processDeparture(currentTime, departureEvent)`.  With a customer waiting the
teller gets `startWork(currentTime)` for the head of the line, without a `stopWork`; with
nobody waiting the teller gets `stopWork(currentTime)`. -/
def processDeparture (s : BankSim3000) (currentTime : Time) (departureEvent : DepartureEvent) :
    BankSim3000 × Except Failure Unit :=
  let tellerIndex := departureEvent.tellerIndex
  match s.bankLine with
  | nextCustomer :: rest =>
    let s1 := { s with bankLine := rest }
    match s1.tellers[tellerIndex]? with
    | none => (s1, .error .outOfBounds)
    | some t =>
      let nextDepartureTime := intAdd currentTime nextCustomer.arrivalEvent.transactionTime
      ({ s1 with
          tellers := s1.tellers.set tellerIndex (t.startWork currentTime)
          eventQueue := s1.eventQueue ++ [Event.departure ⟨nextDepartureTime, tellerIndex⟩] },
        .ok ())
  | [] =>
    match s.tellers[tellerIndex]? with
    | none => (s, .error .outOfBounds)
    | some t =>
      match t.stopWork currentTime with
      | .error f => (s, .error f)
      | .ok t1 => ({ s with tellers := s.tellers.set tellerIndex t1 }, .ok ())

/-- Method `processEvent(currentTime, e)`. -/
def processEvent (s : BankSim3000) (currentTime : Time) (e : Event) :
    BankSim3000 × Except Failure Unit :=
  match e with
  | .arrival arrivalEvent => processArrival s currentTime arrivalEvent
  | .departure departureEvent => processDeparture s currentTime departureEvent

/-- Weight of a stored event in the termination measure. -/
def eventWeight : Event → Nat
  | .arrival _ => 2
  | .departure _ => 1

/-- Termination measure of the simulation loop: two units per pending arrival, one
per pending departure and one per waiting customer. -/
def pendingWork (s : BankSim3000) : Nat :=
  (s.eventQueue.map eventWeight).sum + s.bankLine.length

/-- Body of the loop of `runSimulation` for a non-empty queue and the choice `k`:
`top()`, `pop()`, then `processEvent`.  Returns the event removed as well. -/
def loopBody (k : Nat) (s : BankSim3000) : Option (Event × BankSim3000 × Except Failure Unit) :=
  match top CompareEvent k s.eventQueue with
  | none => none
  | some e =>
    some (e, processEvent { s with eventQueue := s.eventQueue.erase e } (get_event_time e) e)

/-- One entry of the run log: the state at the head of the loop and the event that the
iteration removed and processed. -/
structure Step where
  before : BankSim3000
  event : Event
deriving DecidableEq, Repr

/-- The loop `while(!eventQueue.empty())` of `runSimulation` with `fuel` iterations
allowed; `none` when the fuel runs out.  The result carries the log of the iterations
made, the final state and how the loop ended. -/
def runLoop : Nat → (Nat → Nat) → BankSim3000 →
    Option (List Step × BankSim3000 × Except Failure Unit)
  | fuel, tie, s =>
    match loopBody (tie 0) s with
    | none => some ([], s, .ok ())
    | some (e, s1, .error f) => some ([⟨s, e⟩], s1, .error f)
    | some (e, s1, .ok ()) =>
      match fuel with
      | 0 => none
      | fuel + 1 =>
        match runLoop fuel (fun i => tie (i + 1)) s1 with
        | none => none
        | some (log, r) => some (⟨s, e⟩ :: log, r)

/-- Method `runSimulation()`, with its log. -/
def runSimulation (tie : Nat → Nat) (s : BankSim3000) :
    Option (List Step × BankSim3000 × Except Failure Unit) :=
  runLoop (pendingWork s) tie s

/-- Method `gatherResults()`. -/
def gatherResults (s : BankSim3000) : SimulationResults :=
  ⟨s.tellers.map Teller.elapsedTimeWorking⟩

/-- Method `maxTellerBusyTime(tellerCount)` together with the log of the run. -/
def maxTellerBusyTimeLog (tie : Nat → Nat) (s : BankSim3000) (tellerCount : Nat) :
    Option (List Step × BankSim3000 × Except Failure Time) :=
  match setupSimulation s tellerCount with
  | (s1, .error f) => some ([], s1, .error f)
  | (s1, .ok ()) =>
    match runSimulation tie s1 with
    | none => none
    | some (log, s2, .error f) => some (log, s2, .error f)
    | some (log, s2, .ok ()) => some (log, s2, (gatherResults s2).maxTellerBusyTime)

/-- Method `maxTellerBusyTime(tellerCount)`: state after the call and its outcome. -/
def maxTellerBusyTime (tie : Nat → Nat) (s : BankSim3000) (tellerCount : Nat) :
    Option (BankSim3000 × Except Failure Time) :=
  (maxTellerBusyTimeLog tie s tellerCount).map (fun r => r.2)

end BusyTime

/-! ## Wait-time variant: `src/Lab4(trackCustomer).cpp` -/

namespace TrackCustomer

/-- A customer with the time of entering the bank. -/
structure Customer where
  arrivalEvent : ArrivalEvent
  entryTime : Time
deriving DecidableEq, Repr

/-- A departure event including the expected departure time, the teller being
departed from and the customer served. -/
structure DepartureEvent where
  departureTime : Time
  tellerIndex : TellerIndex
  customer : Customer
deriving DecidableEq, Repr

/-- Either an arrival or departure event (`std::variant`). -/
inductive Event where
  | arrival (a : ArrivalEvent)
  | departure (d : DepartureEvent)
deriving DecidableEq, Repr

/-- Helper to get the time from either an arrival or departure event. -/
def get_event_time : Event → Time
  | .arrival a => a.arrivalTime
  | .departure d => d.departureTime

/-- The compare functor handed to the priority queue:
`get_event_time(e1) < get_event_time(e2)`. -/
def CompareEvent (e1 e2 : Event) : Bool :=
  decide (get_event_time e1 < get_event_time e2)

/-- Teller state: a busy flag. -/
structure Teller where
  isBusy : Bool
deriving DecidableEq, Repr

namespace Teller

/-- Default constructor `Teller()`. -/
def new : Teller := ⟨false⟩

/-- Availability `isAvailable()`. -/
def isAvailable (t : Teller) : Bool := !t.isBusy

/-- Method `startService()`. -/
def startService (_t : Teller) : Teller := ⟨true⟩

/-- Method `stopService()`. -/
def stopService (_t : Teller) : Teller := ⟨false⟩

end Teller

/-- Result object of a run. -/
structure SimulationResults where
  customerWaitTimes : List Time
deriving DecidableEq, Repr

/-- Method `SimulationResults::averageWaitTime()`, as an exact rational. -/
def SimulationResults.averageWaitTime (r : SimulationResults) : ℚ :=
  if r.customerWaitTimes.isEmpty then 0
  else ((r.customerWaitTimes.foldl (fun acc x => intAdd acc x) 0 : Int) : ℚ) /
    (r.customerWaitTimes.length : ℚ)

/-- Method `SimulationResults::maxWaitTime()`. -/
def SimulationResults.maxWaitTime (r : SimulationResults) : Time :=
  match r.customerWaitTimes with
  | [] => 0
  | x :: xs => xs.foldl (fun largest y => if largest < y then y else largest) x

/-- State of a `BankSim3000` object. -/
structure BankSim3000 where
  simulationInput : SimulationInput
  eventQueue : List Event
  bankLine : List Customer
  tellers : List Teller
  completedCustomerWaitTimes : List Time
deriving DecidableEq, Repr

/-- Constructor `BankSim3000(simulationInput)`. -/
def BankSim3000.new (simulationInput : SimulationInput) : BankSim3000 :=
  ⟨simulationInput, [], [], [], []⟩

/-- Method `resetTellers(tellerCount)`: the vector is cleared and `tellerCount` tellers are
constructed in place. -/
def resetTellers (s : BankSim3000) (tellerCount : Nat) : BankSim3000 :=
  { s with tellers := List.replicate tellerCount Teller.new }

/-- Method `clearBankLine()`.  The `assert` is active: a line that is not empty fails the
call (with assertions compiled out the loop after it would empty the line). -/
def clearBankLine (s : BankSim3000) : BankSim3000 × Except Failure Unit :=
  if s.bankLine.isEmpty then ({ s with bankLine := [] }, .ok ())
  else (s, .error .assertionFailed)

/-- Method `setupEventQueue()`.  The `assert` is active: a queue that is not empty fails
the call (with assertions compiled out the loop after it would empty the queue).  The
arrivals are pushed in input order. -/
def setupEventQueue (s : BankSim3000) : BankSim3000 × Except Failure Unit :=
  if s.eventQueue.isEmpty then
    ({ s with eventQueue := s.simulationInput.map Event.arrival }, .ok ())
  else (s, .error .assertionFailed)

/-- Method `clearCompletedWaitTimes()`. -/
def clearCompletedWaitTimes (s : BankSim3000) : BankSim3000 :=
  { s with completedCustomerWaitTimes := [] }

/-- Method `setupSimulation(tellerCount)`. -/
def setupSimulation (s : BankSim3000) (tellerCount : Nat) : BankSim3000 × Except Failure Unit :=
  if tellerCount < MIN_TELLERS then
    (s, .error (.invalidArgument "Teller count must >= 1"))
  else if tellerCount > MAX_TELLERS then
    (s, .error (.invalidArgument "Teller count must be <= 5"))
  else
    match setupEventQueue s with
    | (s1, .error f) => (s1, .error f)
    | (s1, .ok ()) =>
      match clearBankLine (resetTellers s1 tellerCount) with
      | (s2, .error f) => (s2, .error f)
      | (s2, .ok ()) => (clearCompletedWaitTimes s2, .ok ())

/-- Scan of `searchAvailableTellers` from index `i` on. -/
def searchFrom : Nat → List Teller → Option Nat
  | _, [] => none
  | i, t :: ts => if t.isAvailable then some i else searchFrom (i + 1) ts

/-- Method `searchAvailableTellers()`. -/
def searchAvailableTellers (s : BankSim3000) : Option Nat :=
  searchFrom 0 s.tellers

/-- Method `processArrival(currentTime, arrivalEvent)`. -/
def processArrival (s : BankSim3000) (currentTime : Time) (arrivalEvent : ArrivalEvent) :
    BankSim3000 × Except Failure Unit :=
  match searchAvailableTellers s with
  | some tellerIndex =>
    match s.tellers[tellerIndex]? with
    | none => (s, .error .outOfBounds)
    | some t =>
      let customer : Customer := ⟨arrivalEvent, currentTime⟩
      let departureTime := intAdd currentTime arrivalEvent.transactionTime
      ({ s with
          tellers := s.tellers.set tellerIndex t.startService
          eventQueue := s.eventQueue ++ [Event.departure ⟨departureTime, tellerIndex, customer⟩] },
        .ok ())
  | none => ({ s with bankLine := s.bankLine ++ [⟨arrivalEvent, currentTime⟩] }, .ok ())

/-- The wait time that `processDeparture` computes for the departing customer. -/
def waitTimeOf (currentTime : Time) (departingCustomer : Customer) : Time :=
  intSub (intSub currentTime departingCustomer.entryTime)
    departingCustomer.arrivalEvent.transactionTime

/-- Method `processDeparture(currentTime, departureEvent)`. -/
def processDeparture (s : BankSim3000) (currentTime : Time) (departureEvent : DepartureEvent) :
    BankSim3000 × Except Failure Unit :=
  let tellerIndex := departureEvent.tellerIndex
  let departingCustomer := departureEvent.customer
  let waitTime := waitTimeOf currentTime departingCustomer
  let s0 : BankSim3000 :=
    { s with completedCustomerWaitTimes :=
        if waitTime > 0 then s.completedCustomerWaitTimes ++ [waitTime]
        else s.completedCustomerWaitTimes }
  match s0.bankLine with
  | nextCustomer :: rest =>
    let s1 := { s0 with bankLine := rest }
    match s1.tellers[tellerIndex]? with
    | none => (s1, .error .outOfBounds)
    | some t =>
      let nextDepartureTime := intAdd currentTime nextCustomer.arrivalEvent.transactionTime
      ({ s1 with
          tellers := s1.tellers.set tellerIndex t.startService
          eventQueue :=
            s1.eventQueue ++ [Event.departure ⟨nextDepartureTime, tellerIndex, nextCustomer⟩] },
        .ok ())
  | [] =>
    match s0.tellers[tellerIndex]? with
    | none => (s0, .error .outOfBounds)
    | some t => ({ s0 with tellers := s0.tellers.set tellerIndex t.stopService }, .ok ())

/-- Method `processEvent(currentTime, e)`. -/
def processEvent (s : BankSim3000) (currentTime : Time) (e : Event) :
    BankSim3000 × Except Failure Unit :=
  match e with
  | .arrival arrivalEvent => processArrival s currentTime arrivalEvent
  | .departure departureEvent => processDeparture s currentTime departureEvent

/-- Weight of a stored event in the termination measure. -/
def eventWeight : Event → Nat
  | .arrival _ => 2
  | .departure _ => 1

/-- Termination measure of the simulation loop: two units per pending arrival, one
per pending departure and one per waiting customer. -/
def pendingWork (s : BankSim3000) : Nat :=
  (s.eventQueue.map eventWeight).sum + s.bankLine.length

/-- Body of the loop of `runSimulation` for a non-empty queue and the choice `k`:
`top()`, `pop()`, then `processEvent`.  Returns the event removed as well. -/
def loopBody (k : Nat) (s : BankSim3000) : Option (Event × BankSim3000 × Except Failure Unit) :=
  match top CompareEvent k s.eventQueue with
  | none => none
  | some e =>
    some (e, processEvent { s with eventQueue := s.eventQueue.erase e } (get_event_time e) e)

/-- One entry of the run log: the state at the head of the loop and the event that the
iteration removed and processed. -/
structure Step where
  before : BankSim3000
  event : Event
deriving DecidableEq, Repr

/-- The loop `while(!eventQueue.empty())` of `runSimulation` with `fuel` iterations
allowed; `none` when the fuel runs out.  The result carries the log of the iterations
made, the final state and how the loop ended. -/
def runLoop : Nat → (Nat → Nat) → BankSim3000 →
    Option (List Step × BankSim3000 × Except Failure Unit)
  | fuel, tie, s =>
    match loopBody (tie 0) s with
    | none => some ([], s, .ok ())
    | some (e, s1, .error f) => some ([⟨s, e⟩], s1, .error f)
    | some (e, s1, .ok ()) =>
      match fuel with
      | 0 => none
      | fuel + 1 =>
        match runLoop fuel (fun i => tie (i + 1)) s1 with
        | none => none
        | some (log, r) => some (⟨s, e⟩ :: log, r)

/-- Method `runSimulation()`, with its log. -/
def runSimulation (tie : Nat → Nat) (s : BankSim3000) :
    Option (List Step × BankSim3000 × Except Failure Unit) :=
  runLoop (pendingWork s) tie s

/-- Method `gatherResults()`. -/
def gatherResults (s : BankSim3000) : SimulationResults :=
  ⟨s.completedCustomerWaitTimes⟩

/-- Method `run(tellerCount)` together with the log of the run. -/
def runLog (tie : Nat → Nat) (s : BankSim3000) (tellerCount : Nat) :
    Option (List Step × BankSim3000 × Except Failure SimulationResults) :=
  match setupSimulation s tellerCount with
  | (s1, .error f) => some ([], s1, .error f)
  | (s1, .ok ()) =>
    match runSimulation tie s1 with
    | none => none
    | some (log, s2, .error f) => some (log, s2, .error f)
    | some (log, s2, .ok ()) => some (log, s2, .ok (gatherResults s2))

/-- Method `run(tellerCount)`: state after the call and its outcome. -/
def run (tie : Nat → Nat) (s : BankSim3000) (tellerCount : Nat) :
    Option (BankSim3000 × Except Failure SimulationResults) :=
  (runLog tie s tellerCount).map (fun r => r.2)

end TrackCustomer

end BankSim

/-! ## The stack algorithms of `lab2.cpp` and `lab2#2.cpp`

Both files define `infixToPostFix` with the helpers `precedence`, `isOperator` and
`isOperand`, whose text is the same in the two files.  In `lab2.cpp` the operators wait
on a `std::stack<char>`, in `lab2#2.cpp` on the `ListStack<char>` of that file, and the
tests on a character are made in a different order.  A `std::string` is a list of
characters; a stack is the list of its elements with the top first.  A character is a
`Char`, and `isalpha` is the test for an ASCII letter of the "C" locale.  The failures
are the `assert` of `precedence`, `top()` or `pop()` on an empty `std::stack`, which is
undefined in C++, the exception of `ListStack::peek` on an empty stack, and an index
outside a string.

Both files also define `areCurleyBracesMatched`, with the same text, and `isPalindrome`:
in `lab2.cpp` it reverses the string through a stack and compares, in `lab2#2.cpp` it
pushes the first half and compares it with the second half.  The lengths and indices of
`isPalindrome` are `int` and `size_t` in the source and natural numbers here: they are
bounded by the length of the string. -/

namespace Lab2

/-- Failures of the conversion. -/
inductive Failure where
  | assertionFailed
  | emptyStack
  | logicError (message : String)
  | outOfRange
deriving DecidableEq, Repr

/-- Helper `precedence(op)`. -/
def precedence (op : Char) : Except Failure Int :=
  if op = '*' ∨ op = '/' then .ok 2
  else if op = '+' ∨ op = '-' then .ok 1
  else .error .assertionFailed

/-- Helper `isOperator(ch)`. -/
def isOperator (ch : Char) : Bool :=
  ch = '+' || ch = '-' || ch = '*' || ch = '/'

/-- Helper `isOperand(ch)`. -/
def isOperand (ch : Char) : Bool :=
  ch.isAlpha

/-- The final loop of `infixToPostFix`, the same in both files: the operators that remain
on the stack are appended to the output from the top down. -/
def popAll : List Char → List Char → List Char
  | [], postfixExp => postfixExp
  | top :: rest, postfixExp => popAll rest (postfixExp ++ [top])

/-- The loop on a closing parenthesis, the same in both files: operators are moved from
the stack to the output until the stack is empty or its top is an opening parenthesis. -/
def popToParen : List Char → List Char → List Char × List Char
  | [], postfixExp => ([], postfixExp)
  | top :: rest, postfixExp =>
    if top ≠ '(' then popToParen rest (postfixExp ++ [top]) else (top :: rest, postfixExp)

/-- The loop on an operator `ch`, the same in both files: operators are moved from the
stack to the output while the stack is not empty, its top is not an opening parenthesis
and the precedence of `ch` does not exceed that of the top. -/
def popHigher (ch : Char) : List Char → List Char → Except Failure (List Char × List Char)
  | [], postfixExp => .ok ([], postfixExp)
  | top :: rest, postfixExp =>
    if top ≠ '(' then
      match precedence ch with
      | .error f => .error f
      | .ok pch =>
        match precedence top with
        | .error f => .error f
        | .ok ptop =>
          if pch ≤ ptop then popHigher ch rest (postfixExp ++ [top])
          else .ok (top :: rest, postfixExp)
    else .ok (top :: rest, postfixExp)

/-! ### The version of `lab2.cpp`, on a `std::stack<char>` -/

namespace StdStack

/-- Body of the loop over the characters of the input: the state is the stack `aStack`
and the output `postfixExp`. -/
def processChar (ch : Char) (aStack postfixExp : List Char) :
    Except Failure (List Char × List Char) :=
  if isOperand ch then .ok (aStack, postfixExp ++ [ch])
  else if ch = '(' then .ok (ch :: aStack, postfixExp)
  else if isOperator ch then
    match popHigher ch aStack postfixExp with
    | .error f => .error f
    | .ok (aStack1, postfixExp1) => .ok (ch :: aStack1, postfixExp1)
  else if ch = ')' then
    match popToParen aStack postfixExp with
    | ([], _) => .error .emptyStack
    | (_ :: aStack1, postfixExp1) => .ok (aStack1, postfixExp1)
  else .ok (aStack, postfixExp)

/-- The loop `for (char ch : infix)`. -/
def processAll : List Char → List Char → List Char → Except Failure (List Char × List Char)
  | [], aStack, postfixExp => .ok (aStack, postfixExp)
  | ch :: rest, aStack, postfixExp =>
    match processChar ch aStack postfixExp with
    | .error f => .error f
    | .ok (aStack1, postfixExp1) => processAll rest aStack1 postfixExp1

/-- Function `infixToPostFix(infix)` of `lab2.cpp`. -/
def infixToPostFix (infixExp : List Char) : Except Failure (List Char) :=
  match processAll infixExp [] [] with
  | .error f => .error f
  | .ok (aStack, postfixExp) => .ok (popAll aStack postfixExp)

end StdStack

/-! ### The version of `lab2#2.cpp`, on a `ListStack<char>` -/

namespace ListStack

/-- Body of the loop over the characters of the input: the state is the stack
`operators` and the output.  Here `pop()` on an empty stack returns `false` and does
nothing. -/
def processChar (ch : Char) (operators postfixExp : List Char) :
    Except Failure (List Char × List Char) :=
  if isOperand ch then .ok (operators, postfixExp ++ [ch])
  else if isOperator ch then
    match popHigher ch operators postfixExp with
    | .error f => .error f
    | .ok (operators1, postfixExp1) => .ok (ch :: operators1, postfixExp1)
  else if ch = '(' then .ok (ch :: operators, postfixExp)
  else if ch = ')' then
    match popToParen operators postfixExp with
    | ([], postfixExp1) => .ok ([], postfixExp1)
    | (_ :: operators1, postfixExp1) => .ok (operators1, postfixExp1)
  else .ok (operators, postfixExp)

/-- The loop `for (char ch : infix)`. -/
def processAll : List Char → List Char → List Char → Except Failure (List Char × List Char)
  | [], operators, postfixExp => .ok (operators, postfixExp)
  | ch :: rest, operators, postfixExp =>
    match processChar ch operators postfixExp with
    | .error f => .error f
    | .ok (operators1, postfixExp1) => processAll rest operators1 postfixExp1

/-- Function `infixToPostFix(infix)` of `lab2#2.cpp`. -/
def infixToPostFix (infixExp : List Char) : Except Failure (List Char) :=
  match processAll infixExp [] [] with
  | .error f => .error f
  | .ok (operators, postfixExp) => .ok (popAll operators postfixExp)

end ListStack

/-! ### Function `areCurleyBracesMatched`, the same in both files -/

/-- The loop of `areCurleyBracesMatched` over the characters of the input, with the
stack; the result is `none` when the loop is left by `return false`, and the stack after
the last character otherwise. -/
def bracesLoop : List Char → List Char → Option (List Char)
  | [], stack => some stack
  | ch :: rest, stack =>
    if ch = '\x7b' then bracesLoop rest (ch :: stack)
    else if ch = '\x7d' then
      match stack with
      | [] => none
      | _ :: stack1 => bracesLoop rest stack1
    else bracesLoop rest stack

/-- Function `areCurleyBracesMatched(inputString)`. -/
def areCurleyBracesMatched (inputString : List Char) : Bool :=
  match bracesLoop inputString [] with
  | none => false
  | some stack => stack.isEmpty

/-! ### Function `isPalindrome` of `lab2.cpp` -/

namespace ReverseCompare

/-- The loop `for (char ch : inputString) stack.push(ch)`. -/
def pushLoop : List Char → List Char → List Char
  | [], stack => stack
  | ch :: rest, stack => pushLoop rest (ch :: stack)

/-- The loop `while (!stack.isEmpty())`, which appends the top of the stack to
`reversed` and pops it. -/
def popLoop : List Char → List Char → List Char
  | [], reversed => reversed
  | top :: rest, reversed => popLoop rest (reversed ++ [top])

/-- Function `isPalindrome(inputString)` of `lab2.cpp`. -/
def isPalindrome (inputString : List Char) : Bool :=
  let stack := pushLoop inputString []
  let reversed := popLoop stack []
  decide (inputString = reversed)

end ReverseCompare

/-! ### Function `isPalindrome` of `lab2#2.cpp` -/

namespace HalfStack

/-- The character `inputString[i]`. -/
def charAt (inputString : List Char) (i : Nat) : Except Failure Char :=
  match inputString[i]? with
  | some ch => .ok ch
  | none => .error .outOfRange

/-- The loop `for (int i = 0; i < mid; ++i) stack.push(inputString[i])`, over the values
of `i`. -/
def pushLoop (inputString : List Char) : List Nat → List Char → Except Failure (List Char)
  | [], stack => .ok stack
  | i :: rest, stack =>
    match charAt inputString i with
    | .error f => .error f
    | .ok ch => pushLoop inputString rest (ch :: stack)

/-- The loop `for (int i = start; i < inputString.length(); ++i)`, over the values of
`i`; the result is `none` when the loop is left by `return false`, and the stack after
the last character otherwise. -/
def compareLoop (inputString : List Char) :
    List Nat → List Char → Except Failure (Option (List Char))
  | [], stack => .ok (some stack)
  | i :: rest, stack =>
    match stack with
    | [] => .ok none
    | top :: stack1 =>
      match charAt inputString i with
      | .error f => .error f
      | .ok ch => if top ≠ ch then .ok none else compareLoop inputString rest stack1

/-- Function `isPalindrome(inputString)` of `lab2#2.cpp`. -/
def isPalindrome (inputString : List Char) : Except Failure Bool :=
  if inputString.isEmpty then .ok true
  else
    let mid := inputString.length / 2
    match pushLoop inputString (List.range mid) [] with
    | .error f => .error f
    | .ok stack =>
      let start := if inputString.length % 2 = 0 then mid else mid + 1
      match compareLoop inputString (List.range' start (inputString.length - start)) stack with
      | .error f => .error f
      | .ok none => .ok false
      | .ok (some stack1) => .ok stack1.isEmpty

end HalfStack

end Lab2

/-! ## The list implementations and the insertion sort of `lab3.cpp`

`src/lab3.cpp` declares the interface `ListInterface<T>`, implements it twice, as
`ArrayList<T, N>` over a C array of `N` `int`s and as `LinkedList<ItemType>` over a chain
of heap nodes, and sorts any `ListInterface` with `insertionSort`.  The entries are
modelled for `T = int` as `Int`; no arithmetic is done on them.  Positions and counts are
`int` in the source and `Int` here: they are bounded by the number of entries, so that
no overflow arises.  A method returns `Except Failure`: the exceptions thrown, the
`assert`s, and the accesses that are undefined in C++ (an array index out of range, a
null pointer dereferenced) are failures.  Counted `for` loops run over the list of the
values that their loop variable takes.  The methods `remove` and `clear` are not used by
the functions verified here and are not modelled. -/

namespace Lab3

/-- Failures of the list operations. -/
inductive Failure where
  | invalidArgument (message : String)
  | assertionFailed
  | outOfBounds
  | nullPointer
deriving DecidableEq, Repr

/-- Constant `MIN_ARRAY_SIZE`. -/
def MIN_ARRAY_SIZE : Int := 64

/-- Values `lo, lo + 1, …` taken by the variable of a loop that counts upwards, `count`
of them. -/
def countUpFrom : Nat → Int → List Int
  | 0, _ => []
  | count + 1, lo => lo :: countUpFrom count (lo + 1)

/-- Values taken by `i` in `for (int i = lo; i <= hi; ++i)`, in order. -/
def countUp (lo hi : Int) : List Int :=
  countUpFrom (hi - lo + 1).toNat lo

/-- Values `hi, hi - 1, …` taken by the variable of a loop that counts downwards, `count`
of them. -/
def countDownFrom : Nat → Int → List Int
  | 0, _ => []
  | count + 1, hi => hi :: countDownFrom count (hi - 1)

/-- Values taken by `pos` in `for (int pos = hi; pos >= lo; pos--)`, in order. -/
def countDown (hi lo : Int) : List Int :=
  countDownFrom (hi - lo + 1).toNat hi

/-- Read of the element `items[index]` of a C array. -/
def readAt (items : List Int) (index : Int) : Except Failure Int :=
  if 0 ≤ index then
    match items[index.toNat]? with
    | some v => .ok v
    | none => .error .outOfBounds
  else .error .outOfBounds

/-- Assignment `items[index] = v` to an element of a C array. -/
def writeAt (items : List Int) (index : Int) (v : Int) : Except Failure (List Int) :=
  if 0 ≤ index ∧ index.toNat < items.length then .ok (items.set index.toNat v)
  else .error .outOfBounds

/-- The pure virtual methods of `ListInterface<int>` that the verified functions call,
for an implementation with state `L`. -/
structure ListInterface (L : Type) where
  isEmpty : L → Bool
  getLength : L → Int
  insert : L → Int → Int → Except Failure (L × Bool)
  getEntry : L → Int → Except Failure Int
  setEntry : L → Int → Int → Except Failure L

/-- State of an `ArrayList<int, N>` object; `items` holds the `N` elements of the
array. -/
structure ArrayList where
  itemCount : Int
  maxItems : Int
  items : List Int
deriving DecidableEq, Repr

namespace ArrayList

/-- Constructor `ArrayList()` for the template argument `N`, which the `static_assert`
requires to be at least `MIN_ARRAY_SIZE`; the array is value-initialised. -/
def new (N : Nat) : ArrayList :=
  ⟨0, N, List.replicate N 0⟩

/-- Method `isEmpty()`. -/
def isEmpty (l : ArrayList) : Bool :=
  l.itemCount == 0

/-- Method `getLength()`. -/
def getLength (l : ArrayList) : Int :=
  l.itemCount

/-- The loop of `insert` that makes room: `items[pos] = items[pos - 1]` for each value of
`pos`. -/
def shiftUp (items : List Int) : List Int → Except Failure (List Int)
  | [] => .ok items
  | pos :: rest =>
    match readAt items (pos - 1) with
    | .error f => .error f
    | .ok v =>
      match writeAt items pos v with
      | .error f => .error f
      | .ok items1 => shiftUp items1 rest

/-- Method `insert(newPosition, newEntry)`. -/
def insert (l : ArrayList) (newPosition : Int) (newEntry : Int) :
    Except Failure (ArrayList × Bool) :=
  let ableToInsert := decide (newPosition ≥ 1) && decide (newPosition ≤ l.itemCount + 1) &&
    decide (l.itemCount < l.maxItems)
  if ableToInsert then
    match shiftUp l.items (countDown l.itemCount newPosition) with
    | .error f => .error f
    | .ok items1 =>
      match writeAt items1 (newPosition - 1) newEntry with
      | .error f => .error f
      | .ok items2 => .ok ({ l with items := items2, itemCount := l.itemCount + 1 }, ableToInsert)
  else .ok (l, ableToInsert)

/-- Method `getEntry(position)`. -/
def getEntry (l : ArrayList) (position : Int) : Except Failure Int :=
  let ableToGet := decide (position ≥ 1) && decide (position ≤ l.itemCount)
  if ableToGet then readAt l.items (position - 1)
  else .error (.invalidArgument "getEntry() called with an empty list or invalid position.")

/-- Method `setEntry(position, newEntry)`. -/
def setEntry (l : ArrayList) (position : Int) (newEntry : Int) : Except Failure ArrayList :=
  let ableToSet := decide (position ≥ 1) && decide (position ≤ l.itemCount)
  if ableToSet then
    match writeAt l.items (position - 1) newEntry with
    | .error f => .error f
    | .ok items1 => .ok { l with items := items1 }
  else .error (.invalidArgument "setEntry() called with an empty list or invalid position.")

/-- The class `ArrayList<int, N>` as a `ListInterface<int>`. -/
def interface : ListInterface ArrayList :=
  ⟨isEmpty, getLength, insert, getEntry, setEntry⟩

end ArrayList

/-- State of a `LinkedList<int>` object.  The field `headPtr` holds the items of the
nodes of the chain that starts at `headPtr`, in order; the empty list is `nullptr`.  A
pointer into the chain is the number of nodes before the node it points to, and the
length of the chain when it is the null pointer that ends the chain. -/
structure LinkedList where
  headPtr : List Int
  itemCount : Int
deriving DecidableEq, Repr

namespace LinkedList

/-- Constructor `LinkedList()`. -/
def new : LinkedList :=
  ⟨[], 0⟩

/-- Method `isEmpty()`. -/
def isEmpty (l : LinkedList) : Bool :=
  l.itemCount == 0

/-- Method `getLength()`. -/
def getLength (l : LinkedList) : Int :=
  l.itemCount

/-- The loop of `getNodeAt`: `curPtr = curPtr->getNext()` for each value of `skip`. -/
def follow (chain : List Int) : List Int → Nat → Except Failure Nat
  | [], curPtr => .ok curPtr
  | _ :: rest, curPtr =>
    if curPtr < chain.length then follow chain rest (curPtr + 1) else .error .nullPointer

/-- Method `getNodeAt(position)`. -/
def getNodeAt (l : LinkedList) (position : Int) : Except Failure Nat :=
  if position ≥ 1 ∧ position ≤ l.itemCount then follow l.headPtr (countUp 1 (position - 1)) 0
  else .error .assertionFailed

/-- Method `insert(newPosition, newEntry)`. -/
def insert (l : LinkedList) (newPosition : Int) (newEntry : Int) :
    Except Failure (LinkedList × Bool) :=
  let ableToInsert := decide (newPosition ≥ 1) && decide (newPosition ≤ l.itemCount + 1)
  if ableToInsert then
    if newPosition = 1 then
      .ok ({ headPtr := newEntry :: l.headPtr, itemCount := l.itemCount + 1 }, ableToInsert)
    else
      match getNodeAt l (newPosition - 1) with
      | .error f => .error f
      | .ok prevPtr =>
        if prevPtr < l.headPtr.length then
          .ok ({ headPtr := l.headPtr.take (prevPtr + 1) ++ newEntry :: l.headPtr.drop (prevPtr + 1)
                 itemCount := l.itemCount + 1 }, ableToInsert)
        else .error .nullPointer
  else .ok (l, ableToInsert)

/-- Method `getEntry(position)`. -/
def getEntry (l : LinkedList) (position : Int) : Except Failure Int :=
  let ableToGet := decide (position ≥ 1) && decide (position ≤ l.itemCount)
  if ableToGet then
    match getNodeAt l position with
    | .error f => .error f
    | .ok nodePtr =>
      match l.headPtr[nodePtr]? with
      | some item => .ok item
      | none => .error .nullPointer
  else .error (.invalidArgument "getEntry() called with an empty list or invalid position.")

/-- Method `setEntry(position, newEntry)`.  The position is checked by the `assert` of
`getNodeAt` only. -/
def setEntry (l : LinkedList) (position : Int) (newEntry : Int) : Except Failure LinkedList :=
  match getNodeAt l position with
  | .error f => .error f
  | .ok n =>
    if n < l.headPtr.length then .ok { l with headPtr := l.headPtr.set n newEntry }
    else .error .nullPointer

/-- The class `LinkedList<int>` as a `ListInterface<int>`. -/
def interface : ListInterface LinkedList :=
  ⟨isEmpty, getLength, insert, getEntry, setEntry⟩

end LinkedList

/-- The `while` loop of `insertionSort`: entries greater than `nextItem` are moved one
position towards the end.  The variable `loc` starts at `unsorted - 1 ≥ 1` and is
decremented only while it is positive, so that it is a natural number; the result holds
the list and the final value of `loc`. -/
def shiftLarger {L : Type} (list : ListInterface L) (nextItem : Int) :
    Nat → L → Except Failure (L × Nat)
  | 0, l => .ok (l, 0)
  | loc + 1, l =>
    match list.getEntry l ((loc : Int) + 1) with
    | .error f => .error f
    | .ok entry =>
      if entry > nextItem then
        match list.getEntry l ((loc : Int) + 1) with
        | .error f => .error f
        | .ok moved =>
          match list.setEntry l ((loc : Int) + 1 + 1) moved with
          | .error f => .error f
          | .ok l1 => shiftLarger list nextItem loc l1
      else .ok (l, loc + 1)

/-- The `for` loop of `insertionSort`, over the values of `unsorted`. -/
def sortLoop {L : Type} (list : ListInterface L) : List Int → L → Except Failure L
  | [], l => .ok l
  | unsorted :: rest, l =>
    match list.getEntry l unsorted with
    | .error f => .error f
    | .ok nextItem =>
      match shiftLarger list nextItem (unsorted - 1).toNat l with
      | .error f => .error f
      | .ok (l1, loc) =>
        match list.setEntry l1 ((loc : Int) + 1) nextItem with
        | .error f => .error f
        | .ok l2 => sortLoop list rest l2

/-- Function `insertionSort(list)`. -/
def insertionSort {L : Type} (list : ListInterface L) (l : L) : Except Failure L :=
  let n := list.getLength l
  sortLoop list (countUp 2 n) l

/-- The `for` loop of `isSorted`, over the values of `i`. -/
def isSortedLoop (l : LinkedList) : List Int → Except Failure Bool
  | [] => .ok true
  | i :: rest =>
    match l.getEntry i with
    | .error f => .error f
    | .ok a =>
      match l.getEntry (i + 1) with
      | .error f => .error f
      | .ok b => if a > b then .ok false else isSortedLoop l rest

/-- Function `isSorted(list)`. -/
def isSorted (l : LinkedList) : Except Failure Bool :=
  let n := l.getLength
  if n ≤ 1 then .ok true
  else isSortedLoop l (countUp 1 (n - 1))

end Lab3

/-! ## The stack-based eight-queens search of `lab2part4.cpp`

Function `solveEightQueens` keeps the column of the queen of each row in the vector
`currentQueens` (`-1` for a row without a queen), the row it works on in `row`, and
collects the placements it finds on the stack `solutions`.  The columns, rows and indices
are `int` in the source and `Int` here; all of them stay between `-1` and `8`.  An index
outside a vector is a failure.  The search loop `while (row >= 0)` is modelled with fuel:
the result is `none` when the fuel does not suffice for the loop to end.  The loop that
prints the solutions afterwards is not modelled. -/

namespace Lab2Part4

/-- Failures of the search. -/
inductive Failure where
  | outOfBounds
deriving DecidableEq, Repr

/-- Read of the element `v[index]` of a vector. -/
def readAt (v : List Int) (index : Int) : Except Failure Int :=
  if 0 ≤ index then
    match v[index.toNat]? with
    | some x => .ok x
    | none => .error .outOfBounds
  else .error .outOfBounds

/-- Assignment `v[index] = x` to an element of a vector. -/
def writeAt (v : List Int) (index : Int) (x : Int) : Except Failure (List Int) :=
  if 0 ≤ index ∧ index.toNat < v.length then .ok (v.set index.toNat x)
  else .error .outOfBounds

/-- The loop of `isSafe`, over the values of `i`. -/
def isSafeLoop (queens : List Int) (row col : Int) : List Int → Except Failure Bool
  | [] => .ok true
  | i :: rest =>
    match readAt queens i with
    | .error f => .error f
    | .ok q =>
      if q = col ∨ q - col = i - row ∨ q - col = row - i then .ok false
      else isSafeLoop queens row col rest

/-- Function `isSafe(queens, row, col)`; the loop variable takes the values
`0, …, row - 1`. -/
def isSafe (queens : List Int) (row col : Int) : Except Failure Bool :=
  isSafeLoop queens row col ((List.range row.toNat).map (fun i => (i : Int)))

/-- The variables of `solveEightQueens`: the stack `solutions` with its top first, the
vector `currentQueens` and `row`. -/
structure State where
  solutions : List (List Int)
  currentQueens : List Int
  row : Int
deriving DecidableEq, Repr

/-- The variables at the start of the search loop. -/
def State.initial : State :=
  ⟨[], List.replicate 8 (-1), 0⟩

/-- The inner loop `while (col < 8)`, with the variables and the value of `col` when it
is left; it makes at most `8 - col` iterations, which is the value given for
`iterations`. -/
def columnLoop : Nat → State → Int → Except Failure (State × Int)
  | 0, st, col => .ok (st, col)
  | iterations + 1, st, col =>
    if col < 8 then
      match isSafe st.currentQueens st.row col with
      | .error f => .error f
      | .ok true =>
        match writeAt st.currentQueens st.row col with
        | .error f => .error f
        | .ok placed =>
          if st.row = 7 then
            match writeAt placed st.row (-1) with
            | .error f => .error f
            | .ok reset =>
              .ok ({ solutions := placed :: st.solutions, currentQueens := reset, row := st.row },
                col)
          else .ok ({ st with currentQueens := placed, row := st.row + 1 }, col)
      | .ok false => columnLoop iterations st (col + 1)
    else .ok (st, col)

/-- Body of the search loop `while (row >= 0)`. -/
def loopBody (st : State) : Except Failure State :=
  match readAt st.currentQueens st.row with
  | .error f => .error f
  | .ok q =>
    let col := q + 1
    match columnLoop (8 - col).toNat st col with
    | .error f => .error f
    | .ok (st1, col1) =>
      if col1 = 8 then
        match writeAt st1.currentQueens st1.row (-1) with
        | .error f => .error f
        | .ok reset => .ok { st1 with currentQueens := reset, row := st1.row - 1 }
      else .ok st1

/-- The search loop `while (row >= 0)` with fuel: `none` when the loop has not ended
after `fuel` iterations. -/
def searchLoop : Nat → State → Option (Except Failure State)
  | fuel, st =>
    if st.row ≥ 0 then
      match fuel with
      | 0 => none
      | fuel + 1 =>
        match loopBody st with
        | .error f => some (.error f)
        | .ok st1 => searchLoop fuel st1
    else some (.ok st)

end Lab2Part4

/-! ## The recursive N-queens solver of `lab2part4(new).cpp`

The board is a `std::vector<std::vector<int>>`, here a list of rows; a cell holds 1 for a
queen and 0 otherwise.  Function `solveNQUtil` places the queens column by column and
takes the board by reference: the model returns the board together with the result.  The
sizes, rows and columns are `int` in the source; they are read and written only while
they are not negative and are natural numbers here, and a loop that counts down ends
after the value 0.  A cell outside the board is a failure.  The recursion of
`solveNQUtil` is modelled with fuel: the result is `none` when the fuel does not suffice;
`solveNQ` provides the fuel `n + 1`.  The text written to `std::cout` is not modelled. -/

namespace Lab2Part4New

/-- Failures of the solver. -/
inductive Failure where
  | outOfBounds
deriving DecidableEq, Repr

/-- The chessboard. -/
abbrev Board := List (List Int)

/-- Read of the cell `board[i][j]`. -/
def readCell (board : Board) (i j : Nat) : Except Failure Int :=
  match board[i]? with
  | none => .error .outOfBounds
  | some row =>
    match row[j]? with
    | none => .error .outOfBounds
    | some v => .ok v

/-- Assignment `board[i][j] = v`. -/
def writeCell (board : Board) (i j : Nat) (v : Int) : Except Failure Board :=
  match board[i]? with
  | none => .error .outOfBounds
  | some row => if j < row.length then .ok (board.set i (row.set j v)) else .error .outOfBounds

/-- The first loop of `isSafe`, over the values of `i`: `false` when a cell `board[row][i]`
holds a queen. -/
def rowLoop (board : Board) (row : Nat) : List Nat → Except Failure Bool
  | [] => .ok true
  | i :: rest =>
    match readCell board row i with
    | .error f => .error f
    | .ok v => if v = 1 then .ok false else rowLoop board row rest

/-- The second loop of `isSafe`, `for (i = row, j = col; i >= 0 && j >= 0; --i, --j)`,
from the values `i` and `j` on: `false` when a cell `board[i][j]` holds a queen. -/
def upperLoop (board : Board) : Nat → Nat → Except Failure Bool
  | 0, j =>
    match readCell board 0 j with
    | .error f => .error f
    | .ok v => if v = 1 then .ok false else .ok true
  | i + 1, 0 =>
    match readCell board (i + 1) 0 with
    | .error f => .error f
    | .ok v => if v = 1 then .ok false else .ok true
  | i + 1, j + 1 =>
    match readCell board (i + 1) (j + 1) with
    | .error f => .error f
    | .ok v => if v = 1 then .ok false else upperLoop board i j

/-- The third loop of `isSafe`, `for (i = row, j = col; i < n && j >= 0; ++i, --j)`, from
the values `i` and `j` on: `false` when a cell `board[i][j]` holds a queen. -/
def lowerLoop (board : Board) (n : Nat) : Nat → Nat → Except Failure Bool
  | i, 0 =>
    if i < n then
      match readCell board i 0 with
      | .error f => .error f
      | .ok v => if v = 1 then .ok false else .ok true
    else .ok true
  | i, j + 1 =>
    if i < n then
      match readCell board i (j + 1) with
      | .error f => .error f
      | .ok v => if v = 1 then .ok false else lowerLoop board n (i + 1) j
    else .ok true

/-- Function `isSafe(board, row, col)`. -/
def isSafe (board : Board) (row col : Nat) : Except Failure Bool :=
  let n := board.length
  match rowLoop board row (List.range col) with
  | .error f => .error f
  | .ok false => .ok false
  | .ok true =>
    match upperLoop board row col with
    | .error f => .error f
    | .ok false => .ok false
    | .ok true => lowerLoop board n row col

/-- The loop of `solveNQUtil` over the rows `i` of column `col`; `solveNext` is the
recursive call `solveNQUtil(board, col + 1)`. -/
def tryRows (solveNext : Board → Option (Except Failure (Board × Bool))) (col : Nat) :
    List Nat → Board → Option (Except Failure (Board × Bool))
  | [], board => some (.ok (board, false))
  | i :: rest, board =>
    match isSafe board i col with
    | .error f => some (.error f)
    | .ok false => tryRows solveNext col rest board
    | .ok true =>
      match writeCell board i col 1 with
      | .error f => some (.error f)
      | .ok placed =>
        match solveNext placed with
        | none => none
        | some (.error f) => some (.error f)
        | some (.ok (solved, true)) => some (.ok (solved, true))
        | some (.ok (back, false)) =>
          match writeCell back i col 0 with
          | .error f => some (.error f)
          | .ok removed => tryRows solveNext col rest removed

/-- Function `solveNQUtil(board, col)`, with fuel for the depth of the recursion. -/
def solveNQUtil : Nat → Board → Nat → Option (Except Failure (Board × Bool))
  | 0, _, _ => none
  | fuel + 1, board, col =>
    let n := board.length
    if col ≥ n then some (.ok (board, true))
    else tryRows (fun b => solveNQUtil fuel b (col + 1)) col (List.range n) board

/-- Function `solveNQ(n)`. -/
def solveNQ (n : Nat) : Option (Except Failure Board) :=
  let board : Board := List.replicate n (List.replicate n 0)
  match solveNQUtil (n + 1) board 0 with
  | none => none
  | some (.error f) => some (.error f)
  | some (.ok (_, false)) => some (.ok [])
  | some (.ok (solved, true)) => some (.ok solved)

end Lab2Part4New

/-! ## Vocabulary of the specification

Predicates and measures used to state the properties of the two simulators, of the
stack algorithms, of the lists and of the queens searches. -/

namespace BankSim

namespace BusyTime

/-- Is the event a departure from teller `i`? -/
def isDepartureOf (i : Nat) : Event → Bool
  | .arrival _ => false
  | .departure d => d.tellerIndex == i

/-- Number of stored departure events of teller `i`. -/
def pendingDepartures (i : Nat) (q : List Event) : Nat :=
  q.countP (isDepartureOf i)

/-- Consistency of tellers, event queue and waiting line: every stored departure names
an existing teller, a busy teller has exactly one stored departure and an available one
has none, and nobody waits while a teller is available. -/
structure Consistent (s : BankSim3000) : Prop where
  index_lt : ∀ d, Event.departure d ∈ s.eventQueue → d.tellerIndex < s.tellers.length
  pending : ∀ i t, s.tellers[i]? = some t →
    pendingDepartures i s.eventQueue = if t.isAvailable then 0 else 1
  line : s.bankLine ≠ [] → ∀ t ∈ s.tellers, t.isAvailable = false

/-- Complete runs of the loop: `Run s log s1` holds when the loop started in `s` can make
the iterations recorded in `log`, all of them successful, and then stops in `s1` with
an empty queue. -/
inductive Run : BankSim3000 → List Step → BankSim3000 → Prop where
  | done {s : BankSim3000} : s.eventQueue = [] → Run s [] s
  | step {k : Nat} {s s1 s2 : BankSim3000} {e : Event} {log : List Step} :
      loopBody k s = some (e, s1, .ok ()) → Run s1 log s2 → Run s (⟨s, e⟩ :: log) s2

/-- The state that a successful `setupSimulation(tellerCount)` produces. -/
def setupState (s : BankSim3000) (tellerCount : Nat) : BankSim3000 :=
  { simulationInput := s.simulationInput
    eventQueue := s.simulationInput.map Event.arrival
    bankLine := []
    tellers := List.replicate tellerCount Teller.new }

/-- Is the event an arrival? -/
def Event.isArrival : Event → Bool
  | .arrival _ => true
  | .departure _ => false

/-- Number of arrival events processed in a log. -/
def arrivalsProcessed (log : List Step) : Nat :=
  log.countP (fun st => st.event.isArrival)

/-- Number of departure events processed in a log. -/
def departuresProcessed (log : List Step) : Nat :=
  log.countP (fun st => !st.event.isArrival)

/-- Number of stored arrival events. -/
def arrivalsPending (s : BankSim3000) : Nat :=
  s.eventQueue.countP Event.isArrival

/-- Number of customers in the bank: stored departure events and waiting customers. -/
def customersInside (s : BankSim3000) : Nat :=
  s.eventQueue.countP (fun e => !e.isArrival) + s.bankLine.length

/-- States of a simulator object constructed from `input`: the new object, and the
object after any call of `maxTellerBusyTime` that returned or threw. -/
inductive Reachable (input : SimulationInput) : BankSim3000 → Prop where
  | fresh : Reachable input (BankSim3000.new input)
  | call {s : BankSim3000} {r : BankSim3000 × Except Failure Time} (tie : Nat → Nat) (n : Nat) :
      Reachable input s → maxTellerBusyTime tie s n = some r → Reachable input r.1

/-- State of a log entry after `pop()`. -/
def Step.popped (st : Step) : BankSim3000 :=
  { st.before with eventQueue := st.before.eventQueue.erase st.event }

/-- State of a log entry after its iteration. -/
def Step.after (st : Step) : BankSim3000 :=
  (processEvent st.popped (get_event_time st.event) st.event).1

/-- Events pushed on the queue by the iteration of a log entry: what the queue holds
after the iteration beyond what `pop()` had left. -/
def Step.pushed (st : Step) : List Event :=
  st.after.eventQueue.drop st.popped.eventQueue.length

/-- No transaction time of a pending arrival or of a waiting customer is negative. -/
structure NonNeg (s : BankSim3000) : Prop where
  arrivals : ∀ a, Event.arrival a ∈ s.eventQueue → 0 ≤ a.transactionTime
  line : ∀ c ∈ s.bankLine, 0 ≤ c.arrivalEvent.transactionTime

/-- Transaction time that a stored event announces: that of the customer of an arrival
event, nothing for a departure event. -/
def pendingTransaction : Event → Time
  | .arrival a => a.transactionTime
  | .departure _ => 0

/-- Service that has not started yet: the transaction times of the pending arrivals and of
the waiting customers. -/
def pendingService (s : BankSim3000) : Time :=
  (s.eventQueue.map pendingTransaction).sum +
    (s.bankLine.map (fun c => c.arrivalEvent.transactionTime)).sum

/-- No transaction time of a pending arrival or of a waiting customer is negative, and the
time of every stored event is a value of `int` that stays one when the service that has
not started yet is added to it. -/
structure Exact (s : BankSim3000) : Prop where
  nonNeg : NonNeg s
  low : ∀ e ∈ s.eventQueue, -2147483648 ≤ get_event_time e
  high : ∀ e ∈ s.eventQueue, get_event_time e + pendingService s ≤ 2147483647

/-- Sum of the transaction times of the input. -/
def totalService (input : SimulationInput) : Time :=
  (input.map (fun a => a.transactionTime)).sum

/-- The input fits the arithmetic of `int`: every arrival time is a value of `int`, and
the sum of all transaction times, alone and added to any arrival time, does not exceed
the largest value of `int`. -/
def Fits (input : SimulationInput) : Prop :=
  totalService input ≤ 2147483647 ∧
    ∀ a ∈ input, -2147483648 ≤ a.arrivalTime ∧ a.arrivalTime + totalService input ≤ 2147483647

/-- What the loop returns under every resolution of the ties: `runAll fuel s` lists the
result of the loop for each way of choosing among the candidates of each `top()`. -/
def runAll : Nat → BankSim3000 → List (Option (List Step × BankSim3000 × Except Failure Unit))
  | fuel, s =>
    match tops CompareEvent s.eventQueue with
    | [] => [some ([], s, .ok ())]
    | c :: cs =>
      (c :: cs).flatMap (fun e =>
        match processEvent { s with eventQueue := s.eventQueue.erase e } (get_event_time e) e with
        | (s1, .error f) => [some ([⟨s, e⟩], s1, .error f)]
        | (s1, .ok ()) =>
          match fuel with
          | 0 => [none]
          | fuel + 1 => (runAll fuel s1).map (fun r => r.map (fun r => (⟨s, e⟩ :: r.1, r.2))))

/-- Does a result of the loop end normally, with a log and a final state that pass the
check `p`? -/
def endsWith (p : List Step → BankSim3000 → Bool) :
    Option (List Step × BankSim3000 × Except Failure Unit) → Bool
  | some (log, s2, .ok ()) => p log s2
  | _ => false

/-- Check on a final state: the greatest accumulated busy time exists and passes `p`. -/
def maxPasses (p : Time → Bool) (s2 : BankSim3000) : Bool :=
  match (gatherResults s2).maxTellerBusyTime with
  | .ok w => p w
  | .error _ => false

/-- Service time that a log hands to teller `i`: for every departure of teller `i` pushed
during an iteration, the departure time minus the time of the event processed in that
iteration, which is the transaction time of the customer who starts to be served. -/
def serviceTime (log : List Step) (i : Nat) : Time :=
  (log.map (fun st => (st.pushed.map (fun x =>
    match x with
    | .departure d => if d.tellerIndex = i then d.departureTime - get_event_time st.event else 0
    | .arrival _ => 0)).sum)).sum

/-- An input without ties between an arrival and a departure: customers arrive at times
1, 5, 6 and 8 and need 6, 5, 4 and 6 units. -/
def staggeredInput : SimulationInput :=
  [⟨1, 6⟩, ⟨5, 5⟩, ⟨6, 4⟩, ⟨8, 6⟩]

/-- Value of a stored event in the balance of work: the transaction time of an arrival,
the departure time of a departure. -/
def eventValue : Event → Time
  | .arrival a => a.transactionTime
  | .departure d => d.departureTime

/-- Start of the current busy period of a teller, 0 for an available teller. -/
def startValue (t : Teller) : Time := t.startBusy.getD 0

/-- Balance of work: accumulated busy time of the tellers, plus what the pending
departures will add to it (departure time minus start of work), plus the transaction
times of the waiting customers and of the pending arrivals. -/
def balance (s : BankSim3000) : Time :=
  (s.tellers.map Teller.elapsedTimeBusy).sum + (s.eventQueue.map eventValue).sum +
    (s.bankLine.map (fun c => c.arrivalEvent.transactionTime)).sum -
    (s.tellers.map startValue).sum

/-- Invariant of the runs without negative transaction times on an input that fits the
arithmetic of `int`: the state is consistent and satisfies `Exact`, the teller of every
pending departure started working at or before the departure time, no accumulated busy
time is negative, and the accumulated busy time of a teller, with what a pending
departure of the teller will add to it and with the service that has not started, does
not exceed the sum of the transaction times of the input, which is a value of `int`. -/
structure Timed (s : BankSim3000) : Prop where
  consistent : Consistent s
  exact : Exact s
  started : ∀ d, Event.departure d ∈ s.eventQueue →
    ∃ t st, s.tellers[d.tellerIndex]? = some t ∧ t.startBusy = some st ∧ st ≤ d.departureTime
  elapsed : ∀ t ∈ s.tellers, 0 ≤ t.elapsedTimeBusy
  due : ∀ d, Event.departure d ∈ s.eventQueue →
    ∀ t st, s.tellers[d.tellerIndex]? = some t → t.startBusy = some st →
      t.elapsedTimeBusy + (d.departureTime - st) + pendingService s ≤
        totalService s.simulationInput
  cap : ∀ t ∈ s.tellers,
    t.elapsedTimeBusy + pendingService s ≤ totalService s.simulationInput
  total : totalService s.simulationInput ≤ 2147483647

/-- States at the head of the loop during a run: the state before each iteration of the
log, then the final state.  These are the states between two event-processing steps. -/
def loopHeads (log : List Step) (s2 : BankSim3000) : List BankSim3000 :=
  log.map (fun st => st.before) ++ [s2]

/-- Times of the departure events processed in a log, in order. -/
def departureTimes (log : List Step) : List Time :=
  log.filterMap (fun st =>
    match st.event with
    | .departure d => some d.departureTime
    | .arrival _ => none)

/-- Service intervals started during a log, in order: for every departure pushed during
an iteration, the time of the event processed in that iteration (start of service) and
the departure time (end of service). -/
def serviceIntervals (log : List Step) : List (Time × Time) :=
  log.flatMap (fun st => st.pushed.filterMap (fun x =>
    match x with
    | .departure d => some (get_event_time st.event, d.departureTime)
    | .arrival _ => none))

/-- Does the entry record a departure processed while a customer waits, for a teller that
has been busy since `since`, and after which that teller is busy since `now`? -/
def handsOverBusyTeller (since now : Time) (st : Step) : Bool :=
  match st.event with
  | .arrival _ => false
  | .departure d =>
    !st.before.bankLine.isEmpty &&
      (match st.before.tellers[d.tellerIndex]?, st.after.tellers[d.tellerIndex]? with
        | some t, some t1 =>
          decide (t.startBusy = some since) && decide (t1 = t.startWork now)
        | _, _ => false)

/-- Customers that the iteration of a log entry appended to the waiting line: what the
line holds after the iteration beyond the length it had before. -/
def Step.joined (st : Step) : List Customer :=
  st.after.bankLine.drop st.before.bankLine.length

/-- Customers that the iteration of a log entry removed from the head of the waiting line
to begin service: the leading entries by which the line became shorter. -/
def Step.left (st : Step) : List Customer :=
  st.before.bankLine.take (st.before.bankLine.length - st.after.bankLine.length)

/-- Customers that joined the waiting line during the iterations of a log, in order. -/
def joins (log : List Step) : List Customer :=
  log.flatMap Step.joined

/-- Customers that left the waiting line during the iterations of a log, in order. -/
def leaves (log : List Step) : List Customer :=
  log.flatMap Step.left

/-- Example state: two tellers, the first busy since time 20 with its departure pending,
the second available; nobody waits. -/
def oneBusyOneFree : BankSim3000 :=
  ⟨[], [Event.departure ⟨26, 0⟩], [], [⟨some 20, 0⟩, ⟨none, 0⟩]⟩

/-- Example state: one teller, busy since time 20 with its departure pending, and one
customer waiting in the line. -/
def allBusyOneWaiting : BankSim3000 :=
  ⟨[], [Event.departure ⟨26, 0⟩], [⟨⟨22, 4⟩⟩], [⟨some 20, 0⟩]⟩

/-- Does a call of `maxTellerBusyTime` return the value `v` after processing exactly the
events `events`, in that order? -/
def traceIs (events : List Event) (v : Time) :
    Option (List Step × BankSim3000 × Except Failure Time) → Bool
  | some (log, _, .ok w) => decide (log.map (fun st => st.event) = events) && decide (w = v)
  | _ => false

end BusyTime

namespace TrackCustomer

/-- Is the event a departure from teller `i`? -/
def isDepartureOf (i : Nat) : Event → Bool
  | .arrival _ => false
  | .departure d => d.tellerIndex == i

/-- Number of stored departure events of teller `i`. -/
def pendingDepartures (i : Nat) (q : List Event) : Nat :=
  q.countP (isDepartureOf i)

/-- Consistency of tellers, event queue and waiting line: every stored departure names
an existing teller, a busy teller has exactly one stored departure and an available one
has none, and nobody waits while a teller is available. -/
structure Consistent (s : BankSim3000) : Prop where
  index_lt : ∀ d, Event.departure d ∈ s.eventQueue → d.tellerIndex < s.tellers.length
  pending : ∀ i t, s.tellers[i]? = some t →
    pendingDepartures i s.eventQueue = if t.isAvailable then 0 else 1
  line : s.bankLine ≠ [] → ∀ t ∈ s.tellers, t.isAvailable = false

/-- Complete runs of the loop: `Run s log s1` holds when the loop started in `s` can make
the iterations recorded in `log`, all of them successful, and then stops in `s1` with
an empty queue. -/
inductive Run : BankSim3000 → List Step → BankSim3000 → Prop where
  | done {s : BankSim3000} : s.eventQueue = [] → Run s [] s
  | step {k : Nat} {s s1 s2 : BankSim3000} {e : Event} {log : List Step} :
      loopBody k s = some (e, s1, .ok ()) → Run s1 log s2 → Run s (⟨s, e⟩ :: log) s2

/-- The state that a successful `setupSimulation(tellerCount)` produces. -/
def setupState (s : BankSim3000) (tellerCount : Nat) : BankSim3000 :=
  { simulationInput := s.simulationInput
    eventQueue := s.simulationInput.map Event.arrival
    bankLine := []
    tellers := List.replicate tellerCount Teller.new
    completedCustomerWaitTimes := [] }

/-- Is the event an arrival? -/
def Event.isArrival : Event → Bool
  | .arrival _ => true
  | .departure _ => false

/-- Number of arrival events processed in a log. -/
def arrivalsProcessed (log : List Step) : Nat :=
  log.countP (fun st => st.event.isArrival)

/-- Number of departure events processed in a log. -/
def departuresProcessed (log : List Step) : Nat :=
  log.countP (fun st => !st.event.isArrival)

/-- Number of stored arrival events. -/
def arrivalsPending (s : BankSim3000) : Nat :=
  s.eventQueue.countP Event.isArrival

/-- Number of customers in the bank: stored departure events and waiting customers. -/
def customersInside (s : BankSim3000) : Nat :=
  s.eventQueue.countP (fun e => !e.isArrival) + s.bankLine.length

/-- States of a simulator object constructed from `input`: the new object, and the
object after any call of `run` that returned or threw. -/
inductive Reachable (input : SimulationInput) : BankSim3000 → Prop where
  | fresh : Reachable input (BankSim3000.new input)
  | call {s : BankSim3000} {r : BankSim3000 × Except Failure SimulationResults} (tie : Nat → Nat) (n : Nat) :
      Reachable input s → run tie s n = some r → Reachable input r.1

/-- The input fits the arithmetic of `int`: the arrival time of every customer is a
value of `int`, and its sum with the transaction time of the customer, the time at which
a customer who is served on arrival departs, does not exceed the largest value of
`int`. -/
def Fits (input : SimulationInput) : Prop :=
  ∀ a ∈ input, -2147483648 ≤ a.arrivalTime ∧ a.arrivalTime + a.transactionTime ≤ 2147483647

/-- State of the wait-time variant between two iterations when every transaction time is
positive and the input fits the arithmetic of `int`: nobody waits and no wait time is
recorded; either no departure is pending and every teller is available, or one departure
is pending, it is later than every pending arrival, its computed wait time is 0 and all
other tellers are available. -/
structure Quiet (s : BankSim3000) : Prop where
  line : s.bankLine = []
  waits : s.completedCustomerWaitTimes = []
  positive : ∀ a, Event.arrival a ∈ s.eventQueue → 0 < a.transactionTime
  fits : ∀ a, Event.arrival a ∈ s.eventQueue → -2147483648 ≤ a.arrivalTime ∧
    a.arrivalTime + a.transactionTime ≤ 2147483647
  tellers_pos : 0 < s.tellers.length
  departures :
    ((∀ d, Event.departure d ∉ s.eventQueue) ∧ ∀ t ∈ s.tellers, t.isAvailable = true) ∨
    ∃ d, Event.departure d ∈ s.eventQueue ∧
      (∀ x ∈ s.eventQueue.erase (Event.departure d),
        ∃ a, x = Event.arrival a ∧ a.arrivalTime < d.departureTime) ∧
      waitTimeOf d.departureTime d.customer = 0 ∧ d.tellerIndex < s.tellers.length ∧
      ∀ i t, s.tellers[i]? = some t → i ≠ d.tellerIndex → t.isAvailable = true

/-- State of a log entry after `pop()`. -/
def Step.popped (st : Step) : BankSim3000 :=
  { st.before with eventQueue := st.before.eventQueue.erase st.event }

/-- State of a log entry after its iteration. -/
def Step.after (st : Step) : BankSim3000 :=
  (processEvent st.popped (get_event_time st.event) st.event).1

/-- Events pushed on the queue by the iteration of a log entry: what the queue holds
after the iteration beyond what `pop()` had left. -/
def Step.pushed (st : Step) : List Event :=
  st.after.eventQueue.drop st.popped.eventQueue.length

/-- States at the head of the loop during a run: the state before each iteration of the
log, then the final state.  These are the states between two event-processing steps. -/
def loopHeads (log : List Step) (s2 : BankSim3000) : List BankSim3000 :=
  log.map (fun st => st.before) ++ [s2]

/-- Every waiting customer entered the line at its arrival time. -/
def EntryOk (s : BankSim3000) : Prop :=
  ∀ c ∈ s.bankLine, c.entryTime = c.arrivalEvent.arrivalTime

/-- State of the wait-time variant between two iterations when the tellers are at least
as many as the arrivals: the state is consistent, nobody waits, no wait time is recorded,
the available tellers are at least as many as the pending arrivals, and every pending
departure has computed wait time 0. -/
structure Roomy (s : BankSim3000) : Prop where
  consistent : Consistent s
  line : s.bankLine = []
  waits : s.completedCustomerWaitTimes = []
  room : arrivalsPending s ≤ s.tellers.countP Teller.isAvailable
  served : ∀ d, Event.departure d ∈ s.eventQueue → waitTimeOf d.departureTime d.customer = 0

/-- Customers that the iteration of a log entry appended to the waiting line: what the
line holds after the iteration beyond the length it had before. -/
def Step.joined (st : Step) : List Customer :=
  st.after.bankLine.drop st.before.bankLine.length

/-- Customers that the iteration of a log entry removed from the head of the waiting line
to begin service: the leading entries by which the line became shorter. -/
def Step.left (st : Step) : List Customer :=
  st.before.bankLine.take (st.before.bankLine.length - st.after.bankLine.length)

/-- Customers that joined the waiting line during the iterations of a log, in order. -/
def joins (log : List Step) : List Customer :=
  log.flatMap Step.joined

/-- Customers that left the waiting line during the iterations of a log, in order. -/
def leaves (log : List Step) : List Customer :=
  log.flatMap Step.left

/-- Example state: two tellers, the first busy with its departure pending, the second
available; nobody waits. -/
def oneBusyOneFree : BankSim3000 :=
  ⟨[], [Event.departure ⟨26, 0, ⟨⟨20, 6⟩, 20⟩⟩], [], [⟨true⟩, ⟨false⟩], []⟩

/-- Example state: one teller, busy with its departure pending, and one customer waiting
in the line. -/
def allBusyOneWaiting : BankSim3000 :=
  ⟨[], [Event.departure ⟨26, 0, ⟨⟨20, 6⟩, 20⟩⟩], [⟨⟨22, 4⟩, 22⟩], [⟨true⟩], []⟩

/-- Wait time that the iteration of a log entry records: the wait time computed for the
departing customer when it is positive, and nothing on an arrival or when the computed
wait is not positive. -/
def Step.recorded (st : Step) : List Time :=
  match st.event with
  | .arrival _ => []
  | .departure d =>
    if waitTimeOf (get_event_time st.event) d.customer > 0 then
      [waitTimeOf (get_event_time st.event) d.customer]
    else []

end TrackCustomer

end BankSim

namespace Lab2

/-- An infix expression as the grammar of the specification parses it: a single-letter
operand, a binary operator applied to two expressions, or an expression in
parentheses. -/
inductive Expr where
  | operand (c : Char)
  | binary (op : Char) (left right : Expr)
  | group (e : Expr)
deriving DecidableEq, Repr

/-- Binding strength of an operator: 2 for `*` and `/`, 1 for the others. -/
def strength (op : Char) : Nat :=
  if op = '*' ∨ op = '/' then 2 else 1

/-- Binding strength of the outermost construct of an expression: that of the operator of
a binary expression, and 3 for an operand and for an expression in parentheses. -/
def Expr.level : Expr → Nat
  | .operand _ => 3
  | .binary op _ _ => strength op
  | .group _ => 3

/-- The expression is the parse of its text with `*` and `/` binding tighter than `+` and
`-`, and all operators associating to the left: operands are letters, operators are among
`+ - * /`, the left operand of an operator binds at least as strongly as the operator and
the right operand binds more strongly. -/
def Expr.WellFormed : Expr → Prop
  | .operand c => isOperand c = true
  | .binary op left right =>
    isOperator op = true ∧ left.WellFormed ∧ right.WellFormed ∧
      strength op ≤ left.level ∧ strength op < right.level
  | .group e => e.WellFormed

/-- Text of the expression in infix form. -/
def Expr.written : Expr → List Char
  | .operand c => [c]
  | .binary op left right => left.written ++ op :: right.written
  | .group e => '(' :: e.written ++ [')']

/-- Postfix form of the expression: the operands of an operator, then the operator. -/
def Expr.reversePolish : Expr → List Char
  | .operand c => [c]
  | .binary op left right => left.reversePolish ++ right.reversePolish ++ [op]
  | .group e => e.reversePolish

/-- The top of the stack, if any, is an opening parenthesis or an operator that binds
less strongly than `q`. -/
def LowTop (q : Nat) : List Char → Prop
  | [] => True
  | top :: _ => top = '(' ∨ (isOperator top = true ∧ strength top < q)

/-- Example expression: the parse of `a+b*c`. -/
def Expr.sumWithProduct : Expr :=
  .binary '+' (.operand 'a') (.binary '*' (.operand 'b') (.operand 'c'))

/-- Example expression: the parse of `(a+b)*c`. -/
def Expr.productOfSum : Expr :=
  .binary '*' (.group (.binary '+' (.operand 'a') (.operand 'b'))) (.operand 'c')

/-- The braces of a string are balanced: every leading part of the string holds at least
as many opening braces as closing braces, and the string holds equally many of each. -/
def BracesBalanced (s : List Char) : Prop :=
  (∀ p, p <+: s → p.count '\x7d' ≤ p.count '\x7b') ∧ s.count '\x7b' = s.count '\x7d'

/-- What the second loop of the half-stack `isPalindrome` computes on the characters
`cs` that it compares: the stack that remains when every character equals the top of the
stack at its turn, and `none` otherwise. -/
def matchTop : List Char → List Char → Option (List Char)
  | [], stack => some stack
  | _ :: _, [] => none
  | ch :: cs, top :: stack => if top ≠ ch then none else matchTop cs stack

end Lab2

namespace Lab3

/-- Class invariant of `ArrayList`: the count of entries lies between 0 and the capacity,
and the capacity is the size of the array. -/
def ArrayList.WF (l : ArrayList) : Prop :=
  0 ≤ l.itemCount ∧ l.itemCount ≤ l.maxItems ∧ l.maxItems = l.items.length

/-- Entries of an `ArrayList`, in order of position. -/
def ArrayList.entries (l : ArrayList) : List Int :=
  l.items.take l.itemCount.toNat

/-- Class invariant of `LinkedList`: the count of entries is the number of nodes of the
chain. -/
def LinkedList.WF (l : LinkedList) : Prop :=
  l.itemCount = l.headPtr.length

/-- Entries of a `LinkedList`, in order of position. -/
def LinkedList.entries (l : LinkedList) : List Int :=
  l.headPtr

/-- An implementation of `ListInterface` behaves as a list: under its class invariant
`inv`, its length is the number of its entries, `getEntry` reads the entry at a position
in range, and `setEntry` replaces that entry and nothing else. -/
structure Lawful {L : Type} (list : ListInterface L) (inv : L → Prop)
    (entries : L → List Int) : Prop where
  getLength : ∀ l, inv l → list.getLength l = (entries l).length
  getEntry : ∀ l (k : Nat) (x : Int), inv l → (entries l)[k]? = some x →
    list.getEntry l ((k : Int) + 1) = .ok x
  setEntry : ∀ l (k : Nat) (x : Int), inv l → k < (entries l).length →
    ∃ l1, list.setEntry l ((k : Int) + 1) x = .ok l1 ∧ inv l1 ∧
      entries l1 = (entries l).set k x

/-- Example object: an `ArrayList<int, 64>` that holds 30, 10, 20. -/
def ArrayList.example3 : ArrayList :=
  ⟨3, 64, [30, 10, 20] ++ List.replicate 61 0⟩

/-- Example object: a `LinkedList<int>` that holds 30, 10, 20. -/
def LinkedList.example3 : LinkedList :=
  ⟨[30, 10, 20], 3⟩

end Lab3

namespace Lab2Part4

/-- The variables after `k` iterations of the search loop, all of them begun with
`row >= 0` and ended without failure; `none` when the loop ends or fails before. -/
def reaches : Nat → State → Option State
  | 0, st => some st
  | k + 1, st =>
    if st.row ≥ 0 then
      match loopBody st with
      | .error _ => none
      | .ok st1 => reaches k st1
    else none

/-- The first placement that the search finds. -/
def firstSolution : List Int :=
  [0, 4, 7, 5, 2, 6, 1, 3]

/-- The variables of the search once it has found the first placement `times` times: the
placement is on the stack `times` times, the queens of the rows 0 to 6 stand as in the
placement, row 7 has been reset and `row` is still 7. -/
def State.repeating (times : Nat) : State :=
  ⟨List.replicate times firstSolution, [0, 4, 7, 5, 2, 6, 1, -1], 7⟩

end Lab2Part4

namespace Lab2Part4New

/-- The `n` by `n` board whose cell in row `i` and column `j` holds `f i j`. -/
def tabulate (n : Nat) (f : Nat → Nat → Int) : Board :=
  (List.range n).map (fun i => (List.range n).map (fun j => f i j))

/-- Content of the cell in row `i` and column `j` of the board that holds the queens
`qs`: `qs` lists, for the columns from 0 on, the row of the queen of the column. -/
def cellOf (qs : List Nat) (i j : Nat) : Int :=
  if qs[j]? = some i then 1 else 0

/-- The `n` by `n` board that holds the queens `qs`, one in each of the first columns. -/
def boardOf (n : Nat) (qs : List Nat) : Board :=
  tabulate n (cellOf qs)

/-- No two of the queens `qs` share a row or a diagonal (they are in different columns
by construction). -/
def Safe (qs : List Nat) : Prop :=
  ∀ (j1 j2 r1 r2 : Nat), j1 < j2 → qs[j1]? = some r1 → qs[j2]? = some r2 →
    r1 ≠ r2 ∧ r1 + (j2 - j1) ≠ r2 ∧ r2 + (j2 - j1) ≠ r1

/-- A queen in row `row` of the next free column shares no row and no diagonal with the
queens `qs`. -/
def SafeAt (qs : List Nat) (row : Nat) : Prop :=
  ∀ (j r : Nat), qs[j]? = some r →
    r ≠ row ∧ r + (qs.length - j) ≠ row ∧ row + (qs.length - j) ≠ r

/-- The queens `qs` solve the problem of size `n`: there is one in each of the `n`
columns, all are on the board, and no two share a row or a diagonal. -/
def Solution (n : Nat) (qs : List Nat) : Prop :=
  qs.length = n ∧ (∀ r ∈ qs, r < n) ∧ Safe qs

/-- What a call of `solveNQUtil` on the board with the queens `qs` has to return: with
`true` the board of a solution that keeps the queens `qs`, and with `false` the board as
it was, when no solution keeps the queens `qs`. -/
def Good (n : Nat) (qs : List Nat) (res : Option (Except Failure (Board × Bool))) : Prop :=
  ∃ b r, res = some (.ok (b, r)) ∧
    (r = true → ∃ qs1, Solution n qs1 ∧ qs <+: qs1 ∧ b = boardOf n qs1) ∧
    (r = false → b = boardOf n qs ∧ ∀ qs1, Solution n qs1 → ¬ qs <+: qs1)

/-- The cell in row `i` and column `j` of the board holds a queen, the value 1. -/
def queenAt (board : Board) (i j : Nat) : Bool :=
  match board[i]? with
  | none => false
  | some row => row[j]? == some 1

/-- The squares (row, column) of the `n` by `n` board that hold a queen. -/
def queens (n : Nat) (board : Board) : Finset (Nat × Nat) :=
  (Finset.range n ×ˢ Finset.range n).filter (fun p => queenAt board p.1 p.2 = true)

/-- Two squares are in the same row, in the same column or on a common diagonal. -/
def attacks (p q : Nat × Nat) : Bool :=
  p.1 == q.1 || p.2 == q.2 || p.1 + q.2 == q.1 + p.2 || p.1 + p.2 == q.1 + q.2

/-- A placement of `n` queens on the `n` by `n` board: `n` squares of the board, no two of
them in the same row, in the same column or on a common diagonal. -/
def Placement (n : Nat) (squares : Finset (Nat × Nat)) : Prop :=
  squares ⊆ Finset.range n ×ˢ Finset.range n ∧ squares.card = n ∧
    ∀ p ∈ squares, ∀ q ∈ squares, p ≠ q → attacks p q = false

/-- An `n` by `n` board that contains exactly `n` queens, no two of them in the same row,
in the same column or on a common diagonal. -/
def ValidBoard (n : Nat) (board : Board) : Prop :=
  board.length = n ∧ (∀ row ∈ board, row.length = n) ∧ Placement n (queens n board)

/-- The board that `solveNQ 8` returns. -/
def board8 : Board :=
  [[1, 0, 0, 0, 0, 0, 0, 0],
   [0, 0, 0, 0, 0, 0, 1, 0],
   [0, 0, 0, 0, 1, 0, 0, 0],
   [0, 0, 0, 0, 0, 0, 0, 1],
   [0, 1, 0, 0, 0, 0, 0, 0],
   [0, 0, 0, 1, 0, 0, 0, 0],
   [0, 0, 0, 0, 0, 1, 0, 0],
   [0, 0, 1, 0, 0, 0, 0, 0]]

end Lab2Part4New

namespace BankSim

/-! ## Facts about the priority queue -/

section PriorityQueueFacts

variable {α : Type}

/-- Every candidate for `top()` is stored and no stored element is preferred to it. -/
theorem mem_tops {comp : α → α → Bool} {q : List α} {e : α} :
    e ∈ tops comp q ↔ e ∈ q ∧ ∀ x ∈ q, comp e x = false := by
  simp [tops, List.mem_filter, List.all_eq_true]

/-- A list of integers-keyed elements that is not empty has an element of least key. -/
theorem exists_least_key (key : α → Int) :
    ∀ q : List α, q ≠ [] → ∃ e ∈ q, ∀ x ∈ q, key e ≤ key x
  | [], h => absurd rfl h
  | [a], _ => ⟨a, by simp, by simp⟩
  | a :: b :: t, _ => by
    obtain ⟨m, hm, hmin⟩ := exists_least_key key (b :: t) (by simp)
    by_cases hle : key a ≤ key m
    · refine ⟨a, by simp, ?_⟩
      intro x hx
      rcases List.mem_cons.1 hx with rfl | hx
      · exact le_refl _
      · exact le_trans hle (hmin x hx)
    · refine ⟨m, List.mem_cons_of_mem _ hm, ?_⟩
      intro x hx
      rcases List.mem_cons.1 hx with rfl | hx
      · omega
      · exact hmin x hx

/-- When the comparison is "has the larger key", a non-empty queue has a candidate. -/
theorem tops_ne_nil {comp : α → α → Bool} (key : α → Int)
    (hcomp : ∀ a b, comp a b = decide (key b < key a)) {q : List α} (hq : q ≠ []) :
    tops comp q ≠ [] := by
  obtain ⟨e, he, hmin⟩ := exists_least_key key q hq
  have : e ∈ tops comp q := by
    refine mem_tops.2 ⟨he, ?_⟩
    intro x hx
    have := hmin x hx
    simp [hcomp]
    omega
  exact List.ne_nil_of_mem this

/-- The element returned by `top()` is one of the candidates. -/
theorem top_mem_tops {comp : α → α → Bool} {k : Nat} {q : List α} {e : α}
    (h : top comp k q = some e) : e ∈ tops comp q := by
  unfold top at h
  exact List.getElem?_mem h

/-- Nothing is returned by `top()` on an empty queue. -/
theorem top_nil (comp : α → α → Bool) (k : Nat) : top comp k ([] : List α) = none := by
  simp [top, tops]

/-- Under a key comparison `top()` returns an element for every non-empty queue. -/
theorem top_isSome {comp : α → α → Bool} (key : α → Int)
    (hcomp : ∀ a b, comp a b = decide (key b < key a)) (k : Nat) {q : List α} (hq : q ≠ []) :
    ∃ e, top comp k q = some e := by
  have hne := tops_ne_nil key hcomp hq
  have hpos : 0 < (tops comp q).length := List.length_pos.2 hne
  have hlt : k % (tops comp q).length < (tops comp q).length := Nat.mod_lt _ hpos
  exact ⟨(tops comp q)[k % (tops comp q).length], by
    unfold top
    exact List.getElem?_eq_getElem hlt⟩

/-- Every candidate can be returned by `top()`: some choice selects it. -/
theorem top_of_mem_tops {comp : α → α → Bool} {q : List α} {e : α}
    (h : e ∈ tops comp q) : ∃ k, top comp k q = some e := by
  obtain ⟨i, hi, hget⟩ := List.getElem_of_mem h
  refine ⟨i, ?_⟩
  unfold top
  rw [Nat.mod_eq_of_lt hi, List.getElem?_eq_getElem hi, hget]

/-- Removing a stored element removes its weight from the sum of weights. -/
theorem sum_map_erase [DecidableEq α] {β : Type} [AddCommMonoid β] (f : α → β) {q : List α}
    {e : α} (h : e ∈ q) : (q.map f).sum = f e + ((q.erase e).map f).sum := by
  have hp := (List.perm_cons_erase h).map f
  simpa using hp.sum_eq

/-- Removing a stored element lowers the count of a property by one if the element has it. -/
theorem countP_erase_of_mem [DecidableEq α] (p : α → Bool) {q : List α} {e : α} (h : e ∈ q) :
    q.countP p = (q.erase e).countP p + (if p e then 1 else 0) := by
  have hp := (List.perm_cons_erase h).countP_eq p
  rw [hp, List.countP_cons]

/-- Replacing one element changes the sum of an integer-valued map by the difference. -/
theorem sum_map_set (f : α → Int) : ∀ (l : List α) (i : Nat) (t t1 : α), l[i]? = some t →
    ((l.set i t1).map f).sum = (l.map f).sum - f t + f t1
  | [], i, t, t1, h => by simp at h
  | x :: l, 0, t, t1, h => by
    simp at h
    subst h
    simp only [List.set_cons_zero, List.map_cons, List.sum_cons]
    omega
  | x :: l, i + 1, t, t1, h => by
    simp at h
    simp only [List.set_cons_succ, List.map_cons, List.sum_cons, sum_map_set f l i t t1 h]
    omega

/-- A member of a list of non-negative integers is at most their sum. -/
theorem le_sum_of_mem_nonneg : ∀ (l : List Int), (∀ x ∈ l, 0 ≤ x) → ∀ x ∈ l, x ≤ l.sum
  | [], _, x, hx => by simp at hx
  | y :: l, h, x, hx => by
    have hy : 0 ≤ y := h y (List.mem_cons_self _ _)
    have hl : ∀ z ∈ l, 0 ≤ z := fun z hz => h z (List.mem_cons_of_mem _ hz)
    have hsum : 0 ≤ l.sum := List.sum_nonneg hl
    simp only [List.sum_cons]
    rcases List.mem_cons.1 hx with rfl | hx
    · omega
    · have := le_sum_of_mem_nonneg l hl x hx
      omega

/-- Replacing one element changes the count of a property by the difference. -/
theorem countP_set (p : α → Bool) : ∀ (l : List α) (i : Nat) (t t1 : α), l[i]? = some t →
    (l.set i t1).countP p + (if p t then 1 else 0) = l.countP p + (if p t1 then 1 else 0)
  | [], i, t, t1, h => by simp at h
  | x :: l, 0, t, t1, h => by
    simp at h
    subst h
    simp only [List.set_cons_zero, List.countP_cons]
    omega
  | x :: l, i + 1, t, t1, h => by
    simp at h
    have ih := countP_set p l i t t1 h
    simp only [List.set_cons_succ, List.countP_cons]
    omega

end PriorityQueueFacts


/-! ## Facts about the arithmetic of `int` -/

/-- A result within the range of `int` is stored as it is. -/
theorem wrap_eq {x : Int} (h1 : -2147483648 ≤ x) (h2 : x ≤ 2147483647) : wrap x = x := by
  show ((x + 2147483648) % 4294967296 - 2147483648 : Int) = x
  omega

/-- Every value stored is within the range of `int`. -/
theorem wrap_range (x : Int) : -2147483648 ≤ wrap x ∧ wrap x ≤ 2147483647 := by
  show (-2147483648 : Int) ≤ (x + 2147483648) % 4294967296 - 2147483648 ∧
    ((x + 2147483648) % 4294967296 - 2147483648 : Int) ≤ 2147483647
  omega

/-- The sum of two `int` values is exact when it is within the range of `int`. -/
theorem intAdd_eq {a b : Int} (h1 : -2147483648 ≤ a + b) (h2 : a + b ≤ 2147483647) :
    intAdd a b = a + b :=
  wrap_eq h1 h2

/-- The difference of two `int` values is exact when it is within the range of `int`. -/
theorem intSub_eq {a b : Int} (h1 : -2147483648 ≤ a - b) (h2 : a - b ≤ 2147483647) :
    intSub a b = a - b :=
  wrap_eq h1 h2

/-- The difference of an `int` value and itself is 0. -/
theorem intSub_self (a : Int) : intSub a a = 0 := by
  unfold intSub wrap
  simp

/-- In the arithmetic of `int`, adding a value and subtracting it again after another
subtraction leaves the difference of the two other values. -/
theorem intSub_intAdd_cancel (t a x : Int) : intSub (intSub (intAdd t x) a) x = intSub t a := by
  show ((((t + x + 2147483648) % 4294967296 - 2147483648 - a + 2147483648) % 4294967296 -
      2147483648 - x + 2147483648) % 4294967296 - 2147483648 : Int) =
    (t - a + 2147483648) % 4294967296 - 2147483648
  omega

/-- Reducing a summand to the range of `int` first does not change the reduced sum. -/
theorem wrap_add_left (a x : Int) : wrap (wrap a + x) = wrap (a + x) := by
  show (((a + 2147483648) % 4294967296 - 2147483648 + x + 2147483648) % 4294967296 -
      2147483648 : Int) = (a + x + 2147483648) % 4294967296 - 2147483648
  omega

/-! ## Busy-time variant: proofs -/

namespace BusyTime

/-! ## Busy-time variant: one iteration of the loop -/

theorem compareEvent_key (a b : Event) :
    CompareEvent a b = decide (get_event_time b < get_event_time a) := rfl

/-- The loop body does nothing exactly when the queue is empty. -/
theorem loopBody_eq_none {k : Nat} {s : BankSim3000} :
    loopBody k s = none ↔ s.eventQueue = [] := by
  constructor
  · intro h
    by_contra hq
    obtain ⟨e, he⟩ := top_isSome get_event_time compareEvent_key k hq
    simp [loopBody, he] at h
  · intro h
    simp [loopBody, h, top_nil]

/-- The event removed by the loop body is stored, has the least time of all stored events,
and the body processes it at its own time in the state without it. -/
theorem loopBody_some {k : Nat} {s : BankSim3000} {e : Event}
    {r : BankSim3000 × Except Failure Unit} (h : loopBody k s = some (e, r)) :
    e ∈ s.eventQueue ∧ (∀ x ∈ s.eventQueue, get_event_time e ≤ get_event_time x) ∧
      r = processEvent { s with eventQueue := s.eventQueue.erase e } (get_event_time e) e := by
  unfold loopBody at h
  split at h
  · exact absurd h (by simp)
  · rename_i e0 he0
    simp only [Option.some.injEq, Prod.mk.injEq] at h
    obtain ⟨rfl, rfl⟩ := h
    have hm := mem_tops.1 (top_mem_tops he0)
    refine ⟨hm.1, ?_, rfl⟩
    intro x hx
    have := hm.2 x hx
    simp [compareEvent_key] at this
    exact this

theorem searchFrom_none {i : Nat} {ts : List Teller} (h : searchFrom i ts = none) :
    ∀ t ∈ ts, t.isAvailable = false := by
  induction ts generalizing i with
  | nil => simp
  | cons t ts ih =>
    unfold searchFrom at h
    split at h
    · exact absurd h (by simp)
    · rename_i hav
      intro x hx
      rcases List.mem_cons.1 hx with rfl | hx
      · simpa using hav
      · exact ih h x hx

theorem searchFrom_some {i j : Nat} {ts : List Teller} (h : searchFrom i ts = some j) :
    i ≤ j ∧ (∃ t, ts[j - i]? = some t ∧ t.isAvailable = true) ∧
      ∀ m t, m < j - i → ts[m]? = some t → t.isAvailable = false := by
  induction ts generalizing i with
  | nil => simp [searchFrom] at h
  | cons t ts ih =>
    unfold searchFrom at h
    split at h
    · rename_i hav
      simp only [Option.some.injEq] at h
      subst h
      exact ⟨le_refl _, ⟨t, by simp, hav⟩, by intro m t hm; omega⟩
    · rename_i hav
      obtain ⟨hle, ⟨t', ht', hav'⟩, hlow⟩ := ih h
      have hj : j - i = (j - (i + 1)) + 1 := by omega
      refine ⟨by omega, ⟨t', by rw [hj]; simpa using ht', hav'⟩, ?_⟩
      intro m x hm hx
      cases m with
      | zero =>
        simp at hx
        subst hx
        simpa using hav
      | succ m =>
        simp at hx
        exact hlow m x (by omega) hx

/-- The teller found by `searchAvailableTellers` exists and is available. -/
theorem searchAvailableTellers_some {s : BankSim3000} {j : Nat}
    (h : searchAvailableTellers s = some j) :
    ∃ t, s.tellers[j]? = some t ∧ t.isAvailable = true := by
  have := (searchFrom_some h).2.1
  simpa using this

theorem pendingDepartures_append (i : Nat) (q : List Event) (e : Event) :
    pendingDepartures i (q ++ [e]) = pendingDepartures i q + (if isDepartureOf i e then 1 else 0) := by
  simp [pendingDepartures, List.countP_append, List.countP_cons]

theorem pendingDepartures_erase (i : Nat) {q : List Event} {e : Event} (h : e ∈ q) :
    pendingDepartures i q =
      pendingDepartures i (q.erase e) + (if isDepartureOf i e then 1 else 0) :=
  countP_erase_of_mem _ h

/-- Processing an arrival in a consistent state succeeds and keeps the state consistent. -/
theorem processArrival_consistent {s : BankSim3000} (hs : Consistent s) (currentTime : Time)
    (a : ArrivalEvent) :
    (processArrival s currentTime a).2 = .ok () ∧ Consistent (processArrival s currentTime a).1 := by
  unfold processArrival
  cases hsearch : searchAvailableTellers s with
  | none =>
    have hbusy := searchFrom_none hsearch
    refine ⟨rfl, ⟨hs.index_lt, hs.pending, fun _ => hbusy⟩⟩
  | some j =>
    obtain ⟨t, ht, hav⟩ := searchAvailableTellers_some hsearch
    have hj : j < s.tellers.length := by
      rcases List.getElem?_eq_some.1 ht with ⟨h, _⟩
      exact h
    have h0 : pendingDepartures j s.eventQueue = 0 := by
      simpa [hav] using hs.pending j t ht
    simp only [ht]
    refine ⟨trivial, ⟨?_, ?_, ?_⟩⟩
    · intro d hd
      simp only [List.mem_append, List.mem_singleton, Event.departure.injEq] at hd
      rcases hd with hd | rfl
      · simpa using hs.index_lt d hd
      · simpa using hj
    · intro i t' hi
      simp only [pendingDepartures_append, isDepartureOf]
      by_cases hij : j = i
      · subst hij
        simp [List.getElem?_set, hj] at hi
        subst hi
        simp [h0, Teller.isAvailable, Teller.startWork]
      · simp [List.getElem?_set, hij] at hi
        simpa [hij] using hs.pending i t' hi
    · intro hline
      have := hs.line hline t (List.getElem?_mem ht)
      simp [hav] at this

/-- Processing a stored departure in a consistent state, after its removal from the
queue, succeeds and keeps the state consistent. -/
theorem processDeparture_consistent {s : BankSim3000} (hs : Consistent s) (currentTime : Time)
    (d : DepartureEvent) (hd : Event.departure d ∈ s.eventQueue) :
    (processDeparture { s with eventQueue := s.eventQueue.erase (.departure d) }
        currentTime d).2 = .ok () ∧
      Consistent (processDeparture { s with eventQueue := s.eventQueue.erase (.departure d) }
        currentTime d).1 := by
  have hidx := hs.index_lt d hd
  obtain ⟨t, ht⟩ : ∃ t, s.tellers[d.tellerIndex]? = some t :=
    ⟨s.tellers[d.tellerIndex], List.getElem?_eq_getElem hidx⟩
  have herase := pendingDepartures_erase d.tellerIndex hd
  simp only [isDepartureOf, beq_self_eq_true, if_true] at herase
  have hpend := hs.pending _ t ht
  have hbusy : t.isAvailable = false := by
    cases hav : t.isAvailable with
    | false => rfl
    | true => rw [hav] at hpend; simp at hpend; omega
  have h0 : pendingDepartures d.tellerIndex (s.eventQueue.erase (.departure d)) = 0 := by
    rw [hbusy] at hpend; simp at hpend; omega
  have hother : ∀ i, i ≠ d.tellerIndex →
      pendingDepartures i (s.eventQueue.erase (.departure d)) =
        pendingDepartures i s.eventQueue := by
    intro i hi
    have := pendingDepartures_erase i hd
    simp only [isDepartureOf] at this
    have hne : (d.tellerIndex == i) = false := by simpa using fun h => hi h.symm
    simp [hne] at this
    exact this.symm
  have hsub : ∀ d', Event.departure d' ∈ s.eventQueue.erase (.departure d) →
      d'.tellerIndex < s.tellers.length :=
    fun d' hd' => hs.index_lt d' (List.mem_of_mem_erase hd')
  unfold processDeparture
  cases hline : s.bankLine with
  | nil =>
    obtain ⟨st, hst⟩ : ∃ st, t.startBusy = some st := by
      cases hsb : t.startBusy with
      | none => simp [Teller.isAvailable, hsb] at hbusy
      | some st => exact ⟨st, rfl⟩
    simp only [hline, ht, Teller.stopWork, hst]
    refine ⟨trivial, ⟨?_, ?_, ?_⟩⟩
    · intro d' hd'
      simpa using hsub d' hd'
    · intro i t' hi
      by_cases hij : d.tellerIndex = i
      · subst hij
        simp [List.getElem?_set, hidx] at hi
        subst hi
        simp [h0, Teller.isAvailable]
      · simp [List.getElem?_set, hij] at hi
        rw [hother i (fun h => hij h.symm)]
        exact hs.pending i t' hi
    · intro h
      exact absurd rfl h
  | cons c rest =>
    have hall := hs.line (by simp [hline])
    simp only [hline, ht]
    refine ⟨trivial, ⟨?_, ?_, ?_⟩⟩
    · intro d' hd'
      simp only [List.mem_append, List.mem_singleton, Event.departure.injEq] at hd'
      rcases hd' with hd' | rfl
      · simpa using hsub d' hd'
      · simpa using hidx
    · intro i t' hi
      simp only [pendingDepartures_append, isDepartureOf]
      by_cases hij : d.tellerIndex = i
      · subst hij
        simp [List.getElem?_set, hidx] at hi
        subst hi
        simp [h0, Teller.isAvailable, Teller.startWork]
      · simp [List.getElem?_set, hij] at hi
        rw [hother i (fun h => hij h.symm)]
        simpa [hij] using hs.pending i t' hi
    · intro _ t' ht'
      rcases List.mem_or_eq_of_mem_set ht' with h | rfl
      · exact hall t' h
      · simp [Teller.isAvailable, Teller.startWork]

/-- Removing a stored arrival keeps the state consistent. -/
theorem consistent_erase_arrival {s : BankSim3000} (hs : Consistent s) (a : ArrivalEvent)
    (ha : Event.arrival a ∈ s.eventQueue) :
    Consistent { s with eventQueue := s.eventQueue.erase (.arrival a) } := by
  refine ⟨fun d hd => hs.index_lt d (List.mem_of_mem_erase hd), ?_, hs.line⟩
  intro i t hi
  have := pendingDepartures_erase i ha
  simp only [isDepartureOf] at this
  simp at this
  rw [← this]
  exact hs.pending i t hi

/-- One iteration of the loop in a consistent state succeeds and keeps the state
consistent. -/
theorem loopBody_consistent {k : Nat} {s : BankSim3000} {e : Event}
    {r : BankSim3000 × Except Failure Unit} (hs : Consistent s)
    (h : loopBody k s = some (e, r)) : r.2 = .ok () ∧ Consistent r.1 := by
  obtain ⟨hmem, _, rfl⟩ := loopBody_some h
  cases e with
  | arrival a =>
    exact processArrival_consistent (consistent_erase_arrival hs a hmem) _ a
  | departure d =>
    exact processDeparture_consistent hs _ d hmem

/-! ## Busy-time variant: the loop -/

theorem pendingWork_erase {s : BankSim3000} {e : Event} (h : e ∈ s.eventQueue) :
    pendingWork s =
      eventWeight e + pendingWork { s with eventQueue := s.eventQueue.erase e } := by
  simp only [pendingWork]
  rw [sum_map_erase eventWeight h]
  omega

/-- A successful `processArrival` leaves at most one unit of work more. -/
theorem processArrival_pendingWork (s : BankSim3000) (currentTime : Time) (a : ArrivalEvent) :
    pendingWork (processArrival s currentTime a).1 ≤ pendingWork s + 1 := by
  unfold processArrival
  split
  · split
    · simp
    · simp [pendingWork, eventWeight]; omega
  · simp [pendingWork]; omega

/-- A `processDeparture` never adds work. -/
theorem processDeparture_pendingWork (s : BankSim3000) (currentTime : Time)
    (d : DepartureEvent) :
    pendingWork (processDeparture s currentTime d).1 ≤ pendingWork s := by
  unfold processDeparture
  cases hline : s.bankLine with
  | nil =>
    simp only
    cases s.tellers[d.tellerIndex]? with
    | none => simp
    | some t =>
      simp only
      cases t.stopWork currentTime with
      | error f => simp
      | ok t1 => simp [pendingWork, hline]
  | cons c rest =>
    simp only
    cases s.tellers[d.tellerIndex]? with
    | none => simp [pendingWork, hline]
    | some t => simp [pendingWork, eventWeight, hline]; omega

/-- Every iteration of the loop lowers the termination measure. -/
theorem loopBody_pendingWork {k : Nat} {s : BankSim3000} {e : Event}
    {r : BankSim3000 × Except Failure Unit} (h : loopBody k s = some (e, r)) :
    pendingWork r.1 < pendingWork s := by
  obtain ⟨hmem, _, rfl⟩ := loopBody_some h
  rw [pendingWork_erase hmem]
  cases e with
  | arrival a =>
    have := processArrival_pendingWork { s with eventQueue := s.eventQueue.erase (.arrival a) }
      a.arrivalTime a
    simp only [processEvent, get_event_time, eventWeight]
    omega
  | departure d =>
    have := processDeparture_pendingWork
      { s with eventQueue := s.eventQueue.erase (.departure d) } d.departureTime d
    simp only [processEvent, get_event_time, eventWeight]
    omega

/-- Termination of the loop: with fuel at least the termination measure the loop returns,
whatever the state, the times and the tie-breaks. -/
theorem runLoop_isSome : ∀ (fuel : Nat) (tie : Nat → Nat) (s : BankSim3000),
    pendingWork s ≤ fuel → (runLoop fuel tie s).isSome = true := by
  intro fuel
  induction fuel with
  | zero =>
    intro tie s hf
    unfold runLoop
    cases hb : loopBody (tie 0) s with
    | none => rfl
    | some r =>
      obtain ⟨e, s1, res⟩ := r
      have := loopBody_pendingWork hb
      omega
  | succ fuel ih =>
    intro tie s hf
    unfold runLoop
    cases hb : loopBody (tie 0) s with
    | none => rfl
    | some r =>
      obtain ⟨e, s1, res⟩ := r
      have hlt := loopBody_pendingWork hb
      cases res with
      | error f => rfl
      | ok u =>
        cases u
        have := ih (fun i => tie (i + 1)) s1 (by simp at hlt; omega)
        simp only
        cases hr : runLoop fuel (fun i => tie (i + 1)) s1 with
        | none => simp [hr] at this
        | some r => rfl

/-- From a consistent state and with enough fuel the loop returns normally, and what it
returns is a complete run. -/
theorem runLoop_run : ∀ (fuel : Nat) (tie : Nat → Nat) (s : BankSim3000),
    Consistent s → pendingWork s ≤ fuel →
    ∃ log s2, runLoop fuel tie s = some (log, s2, .ok ()) ∧ Run s log s2 := by
  intro fuel
  induction fuel with
  | zero =>
    intro tie s _ hf
    unfold runLoop
    cases hb : loopBody (tie 0) s with
    | none => exact ⟨[], s, rfl, Run.done (loopBody_eq_none.1 hb)⟩
    | some r =>
      obtain ⟨e, s1, res⟩ := r
      have := loopBody_pendingWork hb
      omega
  | succ fuel ih =>
    intro tie s hs hf
    unfold runLoop
    cases hb : loopBody (tie 0) s with
    | none => exact ⟨[], s, rfl, Run.done (loopBody_eq_none.1 hb)⟩
    | some r =>
      obtain ⟨e, s1, res⟩ := r
      have hlt := loopBody_pendingWork hb
      obtain ⟨hok, hs1⟩ := loopBody_consistent hs hb
      simp only at hok hs1 hlt
      subst hok
      obtain ⟨log, s2, hrun, hR⟩ := ih (fun i => tie (i + 1)) s1 hs1 (by omega)
      exact ⟨⟨s, e⟩ :: log, s2, by simp [hrun], Run.step hb hR⟩

/-- A complete run ends with an empty queue. -/
theorem Run.eventQueue_eq_nil {s s2 : BankSim3000} {log : List Step} (h : Run s log s2) :
    s2.eventQueue = [] := by
  induction h with
  | done hq => exact hq
  | step _ _ ih => exact ih

/-- Consistency holds at the head of every iteration of a complete run and at its end. -/
theorem Run.consistent {s s2 : BankSim3000} {log : List Step} (h : Run s log s2)
    (hs : Consistent s) : Consistent s2 ∧ ∀ st ∈ log, Consistent st.before := by
  induction h with
  | done _ => exact ⟨hs, by simp⟩
  | step hb _ ih =>
    obtain ⟨h2, hlog⟩ := ih (loopBody_consistent hs hb).2
    refine ⟨h2, ?_⟩
    intro st hst
    rcases List.mem_cons.1 hst with rfl | hst
    · exact hs
    · exact hlog st hst

theorem processArrival_frame (s : BankSim3000) (currentTime : Time) (a : ArrivalEvent) :
    (processArrival s currentTime a).1.tellers.length = s.tellers.length ∧
      (processArrival s currentTime a).1.simulationInput = s.simulationInput := by
  unfold processArrival
  split
  · split <;> simp
  · simp

theorem processDeparture_frame (s : BankSim3000) (currentTime : Time) (d : DepartureEvent) :
    (processDeparture s currentTime d).1.tellers.length = s.tellers.length ∧
      (processDeparture s currentTime d).1.simulationInput = s.simulationInput := by
  unfold processDeparture
  cases s.bankLine with
  | nil =>
    simp only
    cases s.tellers[d.tellerIndex]? with
    | none => simp
    | some t =>
      simp only
      cases t.stopWork currentTime with
      | error f => simp
      | ok t1 => simp
  | cons c rest =>
    simp only
    cases s.tellers[d.tellerIndex]? with
    | none => simp
    | some t => simp

/-- An iteration changes neither the number of tellers nor the stored input. -/
theorem loopBody_frame {k : Nat} {s : BankSim3000} {e : Event}
    {r : BankSim3000 × Except Failure Unit} (h : loopBody k s = some (e, r)) :
    r.1.tellers.length = s.tellers.length ∧ r.1.simulationInput = s.simulationInput := by
  obtain ⟨_, _, rfl⟩ := loopBody_some h
  cases e with
  | arrival a => exact processArrival_frame _ _ a
  | departure d => exact processDeparture_frame _ _ d

theorem Run.frame {s s2 : BankSim3000} {log : List Step} (h : Run s log s2) :
    s2.tellers.length = s.tellers.length ∧ s2.simulationInput = s.simulationInput := by
  induction h with
  | done _ => exact ⟨rfl, rfl⟩
  | step hb _ ih =>
    have := loopBody_frame hb
    simp only at this
    exact ⟨ih.1.trans this.1, ih.2.trans this.2⟩

/-- In a consistent state with at least one teller and an empty queue nobody waits. -/
theorem Consistent.bankLine_eq_nil {s : BankSim3000} (hs : Consistent s)
    (hq : s.eventQueue = []) (hn : 0 < s.tellers.length) : s.bankLine = [] := by
  by_contra hline
  have hbusy := hs.line hline (s.tellers[0]) (List.getElem_mem hn)
  have := hs.pending 0 (s.tellers[0]) (List.getElem?_eq_getElem hn)
  rw [hbusy, hq] at this
  simp [pendingDepartures] at this

/-- In a consistent state with an empty queue every teller is available. -/
theorem Consistent.all_available {s : BankSim3000} (hs : Consistent s)
    (hq : s.eventQueue = []) : ∀ t ∈ s.tellers, t.isAvailable = true := by
  intro t ht
  obtain ⟨i, hi⟩ := List.mem_iff_getElem?.1 ht
  have := hs.pending i t hi
  rw [hq] at this
  cases hav : t.isAvailable with
  | true => rfl
  | false => rw [hav] at this; simp [pendingDepartures] at this

/-- With a valid teller count and nothing left over from an earlier run, the set-up
succeeds and produces `setupState`. -/
theorem setupSimulation_ok {s : BankSim3000} {n : Nat} (h1 : 1 ≤ n) (h5 : n ≤ 5)
    (hq : s.eventQueue = []) (hl : s.bankLine = []) :
    setupSimulation s n = (setupState s n, .ok ()) := by
  have h1' : ¬ n < MIN_TELLERS := by simp [MIN_TELLERS]; omega
  have h5' : ¬ n > MAX_TELLERS := by simp [MAX_TELLERS]; omega
  simp [setupSimulation, h1', h5', setupEventQueue, hq, clearBankLine, resetTellers, hl,
    setupState]

theorem pendingDepartures_arrivals (i : Nat) (l : List ArrivalEvent) :
    pendingDepartures i (l.map Event.arrival) = 0 := by
  simp [pendingDepartures, List.countP_eq_zero, isDepartureOf]

/-- The state after set-up is consistent. -/
theorem setupState_consistent (s : BankSim3000) (n : Nat) : Consistent (setupState s n) := by
  refine ⟨?_, ?_, ?_⟩
  · intro d hd
    simp [setupState] at hd
  · intro i t hi
    simp only [setupState] at hi ⊢
    rw [pendingDepartures_arrivals]
    have : t = Teller.new := by
      have := List.getElem?_mem hi
      exact (List.mem_replicate.1 this).2
    subst this
    simp [Teller.isAvailable, Teller.new]
  · intro h
    simp [setupState] at h

/-- With at least one teller `maxTellerBusyTime()` of the gathered results has a value. -/
theorem gatherResults_max_ok {s : BankSim3000} (hn : 0 < s.tellers.length) :
    ∃ v, (gatherResults s).maxTellerBusyTime = .ok v := by
  cases hts : s.tellers with
  | nil => simp [hts] at hn
  | cons t ts =>
    exact ⟨maxElementFrom t.elapsedTimeWorking (ts.map Teller.elapsedTimeWorking), by
      simp [gatherResults, SimulationResults.maxTellerBusyTime, hts]⟩

/-- A call of `maxTellerBusyTime(n)` with a valid `n`, on an object whose queue and line
are empty, returns a value after a complete run from the set-up state. -/
theorem maxTellerBusyTimeLog_run (tie : Nat → Nat) {s : BankSim3000} {n : Nat}
    (h1 : 1 ≤ n) (h5 : n ≤ 5) (hq : s.eventQueue = []) (hl : s.bankLine = []) :
    ∃ log s2 v, maxTellerBusyTimeLog tie s n = some (log, s2, .ok v) ∧
      Run (setupState s n) log s2 ∧ (gatherResults s2).maxTellerBusyTime = .ok v := by
  obtain ⟨log, s2, hrun, hR⟩ :=
    runLoop_run (pendingWork (setupState s n)) tie (setupState s n)
      (setupState_consistent s n) (le_refl _)
  have hlen : 0 < s2.tellers.length := by
    rw [(Run.frame hR).1]
    simp [setupState]
    omega
  obtain ⟨v, hv⟩ := gatherResults_max_ok hlen
  refine ⟨log, s2, v, ?_, hR, hv⟩
  simp [maxTellerBusyTimeLog, setupSimulation_ok h1 h5 hq hl, runSimulation, hrun, hv]

/-- After a complete run from the set-up state the queue and the line are empty and the
stored input is the one given. -/
theorem run_setupState_drained {s s2 : BankSim3000} {n : Nat} {log : List Step} (h1 : 1 ≤ n)
    (hR : Run (setupState s n) log s2) :
    s2.eventQueue = [] ∧ s2.bankLine = [] ∧ s2.simulationInput = s.simulationInput := by
  have hc := (Run.consistent hR (setupState_consistent s n)).1
  have hlen : 0 < s2.tellers.length := by
    rw [(Run.frame hR).1]
    simp [setupState]
    omega
  exact ⟨Run.eventQueue_eq_nil hR,
    Consistent.bankLine_eq_nil hc (Run.eventQueue_eq_nil hR) hlen, (Run.frame hR).2⟩

/-! ### Unfolding the loop, fuel, and the kinds of failure -/

theorem runLoop_of_none {fuel : Nat} {tie : Nat → Nat} {s : BankSim3000}
    (h : loopBody (tie 0) s = none) : runLoop fuel tie s = some ([], s, .ok ()) := by
  unfold runLoop
  simp [h]

theorem runLoop_of_error {fuel : Nat} {tie : Nat → Nat} {s s1 : BankSim3000} {e : Event}
    {f : Failure} (h : loopBody (tie 0) s = some (e, s1, .error f)) :
    runLoop fuel tie s = some ([⟨s, e⟩], s1, .error f) := by
  unfold runLoop
  simp [h]

theorem runLoop_of_ok {fuel : Nat} {tie : Nat → Nat} {s s1 : BankSim3000} {e : Event}
    (h : loopBody (tie 0) s = some (e, s1, .ok ())) :
    runLoop (fuel + 1) tie s =
      (runLoop fuel (fun i => tie (i + 1)) s1).map (fun r => (⟨s, e⟩ :: r.1, r.2)) := by
  rw [runLoop]
  simp only [h]
  cases runLoop fuel (fun i => tie (i + 1)) s1 with
  | none => rfl
  | some r => rfl

/-- Fuel beyond the termination measure does not change what the loop returns. -/
theorem runLoop_fuel : ∀ (f1 f2 : Nat) (tie : Nat → Nat) (s : BankSim3000),
    pendingWork s ≤ f1 → pendingWork s ≤ f2 → runLoop f1 tie s = runLoop f2 tie s := by
  intro f1
  induction f1 with
  | zero =>
    intro f2 tie s h1 _
    cases hb : loopBody (tie 0) s with
    | none => rw [runLoop_of_none hb, runLoop_of_none hb]
    | some r =>
      have := loopBody_pendingWork hb
      omega
  | succ f1 ih =>
    intro f2 tie s h1 h2
    cases hb : loopBody (tie 0) s with
    | none => rw [runLoop_of_none hb, runLoop_of_none hb]
    | some r =>
      obtain ⟨e, s1, res⟩ := r
      have hlt := loopBody_pendingWork hb
      simp only at hlt
      cases res with
      | error f => rw [runLoop_of_error hb, runLoop_of_error hb]
      | ok u =>
        cases u
        cases f2 with
        | zero => omega
        | succ f2 =>
          rw [runLoop_of_ok hb, runLoop_of_ok hb,
            ih f2 (fun i => tie (i + 1)) s1 (by omega) (by omega)]

/-- The failures that event processing can produce. -/
theorem processEvent_error {s : BankSim3000} {currentTime : Time} {e : Event} {f : Failure}
    (h : (processEvent s currentTime e).2 = .error f) :
    f = .outOfBounds ∨ f = .badOptionalAccess := by
  cases e with
  | arrival a =>
    simp only [processEvent, processArrival] at h
    split at h
    · split at h
      · simp at h; exact Or.inl h.symm
      · simp at h
    · simp at h
  | departure d =>
    simp only [processEvent, processDeparture] at h
    split at h
    · split at h
      · simp at h; exact Or.inl h.symm
      · simp at h
    · split at h
      · simp at h; exact Or.inl h.symm
      · rename_i t ht
        simp only [Teller.stopWork] at h
        split at h
        · rename_i hst
          split at hst
          · simp at hst
            subst hst
            simp at h
            exact Or.inr h.symm
          · simp at hst
        · simp at h

/-- The failures with which the loop can end. -/
theorem runLoop_error : ∀ (fuel : Nat) (tie : Nat → Nat) (s s2 : BankSim3000)
    (log : List Step) (f : Failure), runLoop fuel tie s = some (log, s2, .error f) →
    f = .outOfBounds ∨ f = .badOptionalAccess := by
  intro fuel
  induction fuel with
  | zero =>
    intro tie s s2 log f h
    cases hb : loopBody (tie 0) s with
    | none => rw [runLoop_of_none hb] at h; simp at h
    | some r =>
      obtain ⟨e, s1, res⟩ := r
      cases res with
      | error f1 =>
        rw [runLoop_of_error hb] at h
        simp at h
        obtain ⟨_, _, rfl⟩ := h
        obtain ⟨_, _, hr⟩ := loopBody_some hb
        exact processEvent_error (by rw [← hr])
      | ok u =>
        cases u
        unfold runLoop at h
        simp [hb] at h
  | succ fuel ih =>
    intro tie s s2 log f h
    cases hb : loopBody (tie 0) s with
    | none => rw [runLoop_of_none hb] at h; simp at h
    | some r =>
      obtain ⟨e, s1, res⟩ := r
      cases res with
      | error f1 =>
        rw [runLoop_of_error hb] at h
        simp at h
        obtain ⟨_, _, rfl⟩ := h
        obtain ⟨_, _, hr⟩ := loopBody_some hb
        exact processEvent_error (by rw [← hr])
      | ok u =>
        cases u
        rw [runLoop_of_ok hb] at h
        cases hr : runLoop fuel (fun i => tie (i + 1)) s1 with
        | none => simp [hr] at h
        | some r =>
          obtain ⟨log1, s3, res1⟩ := r
          simp [hr] at h
          obtain ⟨_, _, hres⟩ := h
          subst hres
          exact ih _ _ _ _ _ hr

/-! ### The configuration check -/

/-- A rejected teller count: the call throws `invalid_argument` before anything is
touched, so the log is empty and the state is the one before the call. -/
theorem maxTellerBusyTimeLog_invalid (tie : Nat → Nat) (s : BankSim3000) {n : Nat}
    (h : n < 1 ∨ 5 < n) :
    ∃ msg, maxTellerBusyTimeLog tie s n = some ([], s, .error (.invalidArgument msg)) := by
  rcases h with h | h
  · have : n < MIN_TELLERS := by simpa [MIN_TELLERS] using h
    exact ⟨"Teller count must be >= 1", by simp [maxTellerBusyTimeLog, setupSimulation, this]⟩
  · have h1 : ¬ n < MIN_TELLERS := by simp [MIN_TELLERS]; omega
    have h5 : n > MAX_TELLERS := by simpa [MAX_TELLERS] using h
    exact ⟨"Teller count must be <= 5", by
      simp [maxTellerBusyTimeLog, setupSimulation, h1, h5]⟩

/-- An accepted teller count: whatever the state, the call does not end with
`invalid_argument`. -/
theorem maxTellerBusyTimeLog_valid (tie : Nat → Nat) (s : BankSim3000) {n : Nat}
    (h1 : 1 ≤ n) (h5 : n ≤ 5) (log : List Step) (s2 : BankSim3000) (msg : String) :
    maxTellerBusyTimeLog tie s n ≠ some (log, s2, .error (.invalidArgument msg)) := by
  have h1' : ¬ n < MIN_TELLERS := by simp [MIN_TELLERS]; omega
  have h5' : ¬ n > MAX_TELLERS := by simp [MAX_TELLERS]; omega
  intro h
  unfold maxTellerBusyTimeLog at h
  have hsetup : ∀ s1 f, setupSimulation s n = (s1, .error f) → f = .assertionFailed := by
    intro s1 f hs
    simp only [setupSimulation, h1', h5', if_false, setupEventQueue, clearBankLine] at hs
    split at hs
    · rename_i heq
      split at heq <;> simp at heq
      simp at hs
      exact heq.2.symm ▸ hs.2.symm ▸ rfl
    · rename_i heq
      split at hs
      · simp at hs
      · simp at hs
        exact hs.2.symm
  split at h
  · rename_i s1 f hs
    have := hsetup s1 f hs
    subst this
    simp at h
  · rename_i s1 hs
    unfold runSimulation at h
    split at h
    · simp at h
    · rename_i log1 s3 f hr
      have := runLoop_error _ _ _ _ _ _ hr
      simp at h
      rcases this with rfl | rfl <;> simp at h
    · rename_i log1 s3 hr
      simp only [Option.some.injEq, Prod.mk.injEq] at h
      obtain ⟨_, _, hres⟩ := h
      simp only [SimulationResults.maxTellerBusyTime] at hres
      split at hres <;> simp at hres

/-! ### Counting the events processed -/

@[simp]
theorem isArrival_arrival (a : ArrivalEvent) : (Event.arrival a).isArrival = true := rfl

@[simp]
theorem isArrival_departure (d : DepartureEvent) :
    (Event.departure d).isArrival = false := rfl

/-- A successful iteration on an arrival moves one customer from the pending arrivals
into the bank; one on a departure lets one customer leave the bank. -/
theorem loopBody_counts {k : Nat} {s s1 : BankSim3000} {e : Event}
    (h : loopBody k s = some (e, s1, .ok ())) :
    (e.isArrival = true →
      arrivalsPending s = arrivalsPending s1 + 1 ∧ customersInside s1 = customersInside s + 1) ∧
    (e.isArrival = false →
      arrivalsPending s = arrivalsPending s1 ∧ customersInside s = customersInside s1 + 1) := by
  obtain ⟨hmem, _, hr⟩ := loopBody_some h
  have hA := countP_erase_of_mem Event.isArrival hmem
  have hD := countP_erase_of_mem (fun e => !e.isArrival) hmem
  cases e with
  | arrival a =>
    simp only [isArrival_arrival, if_true, Bool.not_true, Bool.false_eq_true, if_false] at hA hD
    refine ⟨fun _ => ?_, fun h => by simp at h⟩
    simp only [processEvent, processArrival] at hr
    split at hr
    · split at hr
      · simp at hr
      · simp only [Prod.mk.injEq, and_true] at hr
        subst hr
        simp only [arrivalsPending, customersInside, List.countP_append, List.countP_cons,
          List.countP_nil, isArrival_departure, hA, hD, Bool.false_eq_true, if_false,
          Bool.not_false, if_true, List.length_nil]
        exact ⟨trivial, by omega⟩
    · simp only [Prod.mk.injEq, and_true] at hr
      subst hr
      simp only [arrivalsPending, customersInside, hA, hD, List.length_append,
        List.length_singleton]
      exact ⟨trivial, by omega⟩
  | departure d =>
    simp only [isArrival_departure, Bool.false_eq_true, if_false, Bool.not_false, if_true]
      at hA hD
    refine ⟨fun h => by simp at h, fun _ => ?_⟩
    simp only [processEvent, processDeparture] at hr
    split at hr
    · rename_i c rest hline
      split at hr
      · simp at hr
      · simp only [Prod.mk.injEq, and_true] at hr
        subst hr
        simp only [arrivalsPending, customersInside, List.countP_append, List.countP_cons,
          List.countP_nil, isArrival_departure, hA, hD, hline, List.length_cons,
          Bool.false_eq_true, if_false, Bool.not_false, if_true]
        exact ⟨trivial, by omega⟩
    · rename_i hline
      split at hr
      · simp at hr
      · split at hr
        · simp at hr
        · simp only [Prod.mk.injEq, and_true] at hr
          subst hr
          simp only [arrivalsPending, customersInside, hA, hD, hline, List.length_nil]
          exact ⟨by omega, by trivial⟩

/-- Over a complete run that ends with an empty line, every pending arrival is processed
once, and there is one departure for every pending arrival and every customer inside. -/
theorem Run.counts {s s2 : BankSim3000} {log : List Step} (h : Run s log s2)
    (hl : s2.bankLine = []) :
    arrivalsProcessed log = arrivalsPending s ∧
      departuresProcessed log = arrivalsPending s + customersInside s := by
  induction h with
  | done hq => simp [arrivalsProcessed, departuresProcessed, arrivalsPending, customersInside, hq, hl]
  | @step k s s1 s2 e log hb _ ih =>
    obtain ⟨ihA, ihD⟩ := ih hl
    have hc := loopBody_counts hb
    cases he : e.isArrival with
    | true =>
      obtain ⟨h1, h2⟩ := hc.1 he
      simp [arrivalsProcessed, departuresProcessed, List.countP_cons, he] at ihA ihD ⊢
      omega
    | false =>
      obtain ⟨h1, h2⟩ := hc.2 he
      simp [arrivalsProcessed, departuresProcessed, List.countP_cons, he] at ihA ihD ⊢
      omega

theorem setupState_counts (s : BankSim3000) (n : Nat) :
    arrivalsPending (setupState s n) = s.simulationInput.length ∧
      customersInside (setupState s n) = 0 := by
  simp [arrivalsPending, customersInside, setupState, List.countP_eq_zero, Event.isArrival,
    List.countP_eq_length]

/-! ### Objects that have been used before -/

/-- The outcome of a call depends on the stored input only, once queue and line are
empty. -/
theorem maxTellerBusyTimeLog_clean (tie : Nat → Nat) {s : BankSim3000} {n : Nat}
    (h1 : 1 ≤ n) (h5 : n ≤ 5) (hq : s.eventQueue = []) (hl : s.bankLine = []) :
    maxTellerBusyTimeLog tie s n =
      maxTellerBusyTimeLog tie (BankSim3000.new s.simulationInput) n := by
  have e1 : setupSimulation s n = (setupState s n, .ok ()) := setupSimulation_ok h1 h5 hq hl
  have e2 : setupSimulation (BankSim3000.new s.simulationInput) n =
      (setupState (BankSim3000.new s.simulationInput) n, .ok ()) :=
    setupSimulation_ok h1 h5 rfl rfl
  have e3 : setupState (BankSim3000.new s.simulationInput) n = setupState s n := rfl
  simp only [maxTellerBusyTimeLog, e1, e2, e3]

/-- An object that has been used holds its input and has an empty queue and line. -/
theorem Reachable.clean {input : SimulationInput} {s : BankSim3000} (h : Reachable input s) :
    s.simulationInput = input ∧ s.eventQueue = [] ∧ s.bankLine = [] := by
  induction h with
  | fresh => exact ⟨rfl, rfl, rfl⟩
  | @call s r tie n _ hcall ih =>
    obtain ⟨hin, hq, hl⟩ := ih
    by_cases hn : 1 ≤ n ∧ n ≤ 5
    · obtain ⟨log, s2, v, hlog, hR, _⟩ := maxTellerBusyTimeLog_run tie hn.1 hn.2 hq hl
      have hd := run_setupState_drained hn.1 hR
      simp [maxTellerBusyTime, hlog] at hcall
      subst hcall
      exact ⟨hd.2.2.trans hin, hd.1, hd.2.1⟩
    · obtain ⟨msg, hlog⟩ := maxTellerBusyTimeLog_invalid tie s (n := n) (by omega)
      simp [maxTellerBusyTime, hlog] at hcall
      subst hcall
      exact ⟨hin, hq, hl⟩

/-! ### Times of the events processed -/

/-- What `processEvent` does to the queue and the line: the queue is unchanged or gets one
departure at the current time plus the transaction time of the arriving customer or of
a waiting customer; a customer in the line afterwards was in the line before or is the
arriving one. -/
theorem processEvent_queue (s : BankSim3000) (currentTime : Time) (e : Event) :
    ((processEvent s currentTime e).1.eventQueue = s.eventQueue ∨
      ∃ tx i, (processEvent s currentTime e).1.eventQueue =
          s.eventQueue ++ [Event.departure ⟨intAdd currentTime tx, i⟩] ∧
        ((∃ a, e = Event.arrival a ∧ a.transactionTime = tx) ∨
          ∃ c ∈ s.bankLine, c.arrivalEvent.transactionTime = tx)) ∧
    (∀ c ∈ (processEvent s currentTime e).1.bankLine,
      c ∈ s.bankLine ∨ e = Event.arrival c.arrivalEvent) := by
  cases e with
  | arrival a =>
    simp only [processEvent, processArrival]
    split
    · split
      · exact ⟨Or.inl rfl, fun c hc => Or.inl hc⟩
      · exact ⟨Or.inr ⟨a.transactionTime, _, rfl, Or.inl ⟨a, rfl, rfl⟩⟩, fun c hc => Or.inl hc⟩
    · refine ⟨Or.inl rfl, fun c hc => ?_⟩
      simp only [List.mem_append, List.mem_singleton] at hc
      rcases hc with hc | rfl
      · exact Or.inl hc
      · exact Or.inr rfl
  | departure d =>
    simp only [processEvent, processDeparture]
    split
    · rename_i c rest hline
      split
      · refine ⟨Or.inl rfl, fun x hx => Or.inl ?_⟩
        rw [hline]
        exact List.mem_cons_of_mem _ hx
      · refine ⟨Or.inr ⟨c.arrivalEvent.transactionTime, _, rfl, Or.inr ⟨c, ?_, rfl⟩⟩,
          fun x hx => Or.inl ?_⟩
        · rw [hline]; exact List.mem_cons_self _ _
        · rw [hline]; exact List.mem_cons_of_mem _ hx
    · split
      · exact ⟨Or.inl rfl, fun c hc => Or.inl hc⟩
      · split
        · exact ⟨Or.inl rfl, fun c hc => Or.inl hc⟩
        · exact ⟨Or.inl rfl, fun c hc => Or.inl hc⟩

theorem pendingService_nonneg {s : BankSim3000} (hs : NonNeg s) : 0 ≤ pendingService s := by
  unfold pendingService
  apply add_nonneg
  · apply List.sum_nonneg
    intro x hx
    obtain ⟨e, he, rfl⟩ := List.mem_map.1 hx
    cases e with
    | arrival a => exact hs.arrivals a he
    | departure d => exact le_refl _
  · apply List.sum_nonneg
    intro x hx
    obtain ⟨c, hc, rfl⟩ := List.mem_map.1 hx
    exact hs.line c hc

/-- What `processEvent` does to the queue and to the service that has not started, for an
event `e` of the queue that has been popped: the queue is unchanged and that service did
not grow, or the queue gets one departure at the current time plus a transaction time
that is not negative, and that service shrinks by this transaction time. -/
theorem processEvent_service {s : BankSim3000} (hs : NonNeg s) (currentTime : Time)
    {e : Event} (hmem : e ∈ s.eventQueue) :
    ((processEvent { s with eventQueue := s.eventQueue.erase e } currentTime e).1.eventQueue =
        s.eventQueue.erase e ∧
      pendingService (processEvent { s with eventQueue := s.eventQueue.erase e }
        currentTime e).1 ≤ pendingService s) ∨
    ∃ tx i, 0 ≤ tx ∧
      (processEvent { s with eventQueue := s.eventQueue.erase e } currentTime e).1.eventQueue =
        s.eventQueue.erase e ++ [Event.departure ⟨intAdd currentTime tx, i⟩] ∧
      pendingService (processEvent { s with eventQueue := s.eventQueue.erase e }
        currentTime e).1 + tx = pendingService s := by
  have hsum := sum_map_erase pendingTransaction hmem
  cases e with
  | arrival a =>
    have ha0 : 0 ≤ a.transactionTime := hs.arrivals a hmem
    simp only [pendingTransaction] at hsum
    simp only [processEvent, processArrival]
    split
    · split
      · left
        refine ⟨rfl, ?_⟩
        simp only [pendingService]
        linarith
      · right
        refine ⟨a.transactionTime, _, ha0, rfl, ?_⟩
        simp only [pendingService, List.map_append, List.sum_append, List.map_cons,
          List.map_nil, List.sum_cons, List.sum_nil, pendingTransaction]
        linarith
    · left
      refine ⟨rfl, ?_⟩
      simp only [pendingService, List.map_append, List.sum_append, List.map_cons,
        List.map_nil, List.sum_cons, List.sum_nil]
      linarith
  | departure d =>
    simp only [pendingTransaction] at hsum
    simp only [processEvent, processDeparture]
    split
    · rename_i c rest hline
      have hc0 : 0 ≤ c.arrivalEvent.transactionTime :=
        hs.line c (by rw [hline]; exact List.mem_cons_self _ _)
      split
      · left
        refine ⟨rfl, ?_⟩
        simp only [pendingService, hline, List.map_cons, List.sum_cons]
        linarith
      · right
        refine ⟨c.arrivalEvent.transactionTime, _, hc0, rfl, ?_⟩
        simp only [pendingService, hline, List.map_append, List.sum_append, List.map_cons,
          List.map_nil, List.sum_cons, List.sum_nil, pendingTransaction]
        linarith
    · have hsame : pendingService { s with eventQueue := s.eventQueue.erase (Event.departure d) } ≤
          pendingService s := by
        simp only [pendingService]
        linarith
      split
      · exact Or.inl ⟨rfl, hsame⟩
      · split
        · exact Or.inl ⟨rfl, hsame⟩
        · left
          refine ⟨rfl, ?_⟩
          simp only [pendingService] at hsame ⊢
          exact hsame

/-- After an iteration in a state satisfying `Exact`: the state satisfies `Exact` again,
every stored event is at or after the time of the event processed, and so is every event
that the iteration pushed, whose time is the exact sum of the current time and a
transaction time. -/
theorem loopBody_times {k : Nat} {s : BankSim3000} {e : Event}
    {r : BankSim3000 × Except Failure Unit} (hs : Exact s) (h : loopBody k s = some (e, r)) :
    Exact r.1 ∧ (∀ x ∈ r.1.eventQueue, get_event_time e ≤ get_event_time x) ∧
      (∀ x ∈ (Step.mk s e).pushed, get_event_time e ≤ get_event_time x) ∧
      (Step.mk s e).after = r.1 := by
  obtain ⟨hmem, hmin, hr⟩ := loopBody_some h
  subst hr
  have hq := processEvent_queue { s with eventQueue := s.eventQueue.erase e }
    (get_event_time e) e
  have hsv := processEvent_service hs.nonNeg (get_event_time e) hmem
  have harr : ∀ a, e = Event.arrival a → 0 ≤ a.transactionTime := by
    intro a ha
    exact hs.nonNeg.arrivals a (ha ▸ hmem)
  obtain ⟨_, hline⟩ := hq
  have hlineNN : ∀ c ∈ (processEvent { s with eventQueue := s.eventQueue.erase e }
      (get_event_time e) e).1.bankLine, 0 ≤ c.arrivalEvent.transactionTime := by
    intro c hc
    rcases hline c hc with h1 | h1
    · exact hs.nonNeg.line c h1
    · exact harr _ h1
  have hold : ∀ x ∈ s.eventQueue.erase e, get_event_time e ≤ get_event_time x :=
    fun x hx => hmin x (List.mem_of_mem_erase hx)
  have hlow := hs.low e hmem
  have hhigh := hs.high e hmem
  rcases hsv with ⟨hsame, hps⟩ | ⟨tx, i, htx0, hpush, hps⟩
  · refine ⟨⟨⟨?_, hlineNN⟩, ?_, ?_⟩, ?_, ?_, rfl⟩
    · intro a ha
      rw [hsame] at ha
      exact hs.nonNeg.arrivals a (List.mem_of_mem_erase ha)
    · intro x hx
      rw [hsame] at hx
      exact hs.low x (List.mem_of_mem_erase hx)
    · intro x hx
      rw [hsame] at hx
      have := hs.high x (List.mem_of_mem_erase hx)
      linarith
    · intro x hx
      rw [hsame] at hx
      exact hold x hx
    · intro x hx
      simp only [Step.pushed, Step.after, Step.popped, hsame, List.drop_length] at hx
      simp at hx
  · have hnn1 : NonNeg (processEvent { s with eventQueue := s.eventQueue.erase e }
        (get_event_time e) e).1 := by
      refine ⟨?_, hlineNN⟩
      intro a ha
      rw [hpush] at ha
      simp only [List.mem_append, List.mem_singleton] at ha
      rcases ha with ha | ha
      · exact hs.nonNeg.arrivals a (List.mem_of_mem_erase ha)
      · simp at ha
    have hps0 := pendingService_nonneg hnn1
    have hexact : intAdd (get_event_time e) tx = get_event_time e + tx :=
      intAdd_eq (by linarith) (by linarith)
    rw [hexact] at hpush
    refine ⟨⟨hnn1, ?_, ?_⟩, ?_, ?_, rfl⟩
    · intro x hx
      rw [hpush] at hx
      simp only [List.mem_append, List.mem_singleton] at hx
      rcases hx with hx | rfl
      · exact hs.low x (List.mem_of_mem_erase hx)
      · have hg : get_event_time (Event.departure ⟨get_event_time e + tx, i⟩) =
            get_event_time e + tx := rfl
        rw [hg]
        linarith
    · intro x hx
      rw [hpush] at hx
      simp only [List.mem_append, List.mem_singleton] at hx
      rcases hx with hx | rfl
      · have := hs.high x (List.mem_of_mem_erase hx)
        linarith
      · have hg : get_event_time (Event.departure ⟨get_event_time e + tx, i⟩) =
            get_event_time e + tx := rfl
        rw [hg]
        linarith
    · intro x hx
      rw [hpush] at hx
      simp only [List.mem_append, List.mem_singleton] at hx
      rcases hx with hx | rfl
      · exact hold x hx
      · exact le_add_of_nonneg_right htx0
    · intro x hx
      simp only [Step.pushed, Step.after, Step.popped, hpush, List.drop_left] at hx
      simp only [List.mem_singleton] at hx
      subst hx
      exact le_add_of_nonneg_right htx0

/-- In a complete run from a state satisfying `Exact` no event is processed before a
time that bounds the stored events from below. -/
theorem Run.times_ge {s s2 : BankSim3000} {log : List Step} (h : Run s log s2) (hs : Exact s)
    (t : Time) (ht : ∀ x ∈ s.eventQueue, t ≤ get_event_time x) :
    ∀ st ∈ log, t ≤ get_event_time st.event := by
  induction h with
  | done _ => simp
  | @step k s s1 s2 e log hb _ ih =>
    obtain ⟨hmem, _, _⟩ := loopBody_some hb
    obtain ⟨hnn, hge, _, _⟩ := loopBody_times hs hb
    have hte := ht e hmem
    intro st hst
    rcases List.mem_cons.1 hst with rfl | hst
    · exact hte
    · exact ih hnn (fun x hx => le_trans hte (hge x hx)) st hst

/-- In a complete run from a state satisfying `Exact` the events are processed in
non-decreasing order of time, and every event pushed is at or after the time of the
event being processed. -/
theorem Run.times_sorted {s s2 : BankSim3000} {log : List Step} (h : Run s log s2)
    (hs : Exact s) :
    (log.map (fun st => get_event_time st.event)).Pairwise (· ≤ ·) ∧
      ∀ st ∈ log, ∀ x ∈ st.pushed, get_event_time st.event ≤ get_event_time x := by
  induction h with
  | done _ => simp
  | @step k s s1 s2 e log hb hR ih =>
    obtain ⟨hnn, hge, hpushed, _⟩ := loopBody_times hs hb
    obtain ⟨ih1, ih2⟩ := ih hnn
    have hlater := Run.times_ge hR hnn (get_event_time e) hge
    constructor
    · simp only [List.map_cons, List.pairwise_cons]
      refine ⟨?_, ih1⟩
      intro t ht
      obtain ⟨st, hst, rfl⟩ := List.mem_map.1 ht
      exact hlater st hst
    · intro st hst
      rcases List.mem_cons.1 hst with rfl | hst
      · exact hpushed
      · exact ih2 st hst

theorem setupState_nonNeg (s : BankSim3000) (n : Nat)
    (h : ∀ a ∈ s.simulationInput, 0 ≤ a.transactionTime) : NonNeg (setupState s n) := by
  refine ⟨?_, ?_⟩
  · intro a ha
    simp only [setupState, List.mem_map, Event.arrival.injEq, exists_eq_right] at ha
    exact h a ha
  · intro c hc
    simp [setupState] at hc

theorem pendingService_setupState (s : BankSim3000) (n : Nat) :
    pendingService (setupState s n) = totalService s.simulationInput := by
  simp only [pendingService, setupState, List.map_map, List.map_nil, List.sum_nil, add_zero,
    totalService]
  rfl

theorem setupState_exact (s : BankSim3000) (n : Nat)
    (h : ∀ a ∈ s.simulationInput, 0 ≤ a.transactionTime) (hfits : Fits s.simulationInput) :
    Exact (setupState s n) := by
  refine ⟨setupState_nonNeg s n h, ?_, ?_⟩
  · intro e he
    simp only [setupState, List.mem_map] at he
    obtain ⟨a, ha, rfl⟩ := he
    exact (hfits.2 a ha).1
  · intro e he
    rw [pendingService_setupState]
    simp only [setupState, List.mem_map] at he
    obtain ⟨a, ha, rfl⟩ := he
    exact (hfits.2 a ha).2

/-! ### Every resolution of the ties -/

theorem top_eq_none {α : Type} {comp : α → α → Bool} {k : Nat} {q : List α}
    (h : top comp k q = none) : tops comp q = [] := by
  by_contra hne
  have hpos : 0 < (tops comp q).length := List.length_pos.2 hne
  have hlt : k % (tops comp q).length < (tops comp q).length := Nat.mod_lt _ hpos
  unfold top at h
  rw [List.getElem?_eq_getElem hlt] at h
  exact absurd h (by simp)

/-- Whatever the tie-breaks, the result of the loop is one of those listed by `runAll`. -/
theorem runLoop_mem_runAll : ∀ (fuel : Nat) (tie : Nat → Nat) (s : BankSim3000),
    runLoop fuel tie s ∈ runAll fuel s := by
  intro fuel
  induction fuel with
  | zero =>
    intro tie s
    unfold runLoop runAll loopBody
    cases htop : top CompareEvent (tie 0) s.eventQueue with
    | none => simp [top_eq_none htop]
    | some e =>
      have hmem := top_mem_tops htop
      cases htops : tops CompareEvent s.eventQueue with
      | nil => simp [htops] at hmem
      | cons c cs =>
        rw [htops] at hmem
        simp only [List.mem_flatMap]
        refine ⟨e, hmem, ?_⟩
        rcases hpe : processEvent { s with eventQueue := s.eventQueue.erase e }
          (get_event_time e) e with ⟨s1, res⟩
        cases res with
        | error f => simp
        | ok u => cases u; simp
  | succ fuel ih =>
    intro tie s
    unfold runLoop runAll loopBody
    cases htop : top CompareEvent (tie 0) s.eventQueue with
    | none => simp [top_eq_none htop]
    | some e =>
      have hmem := top_mem_tops htop
      cases htops : tops CompareEvent s.eventQueue with
      | nil => simp [htops] at hmem
      | cons c cs =>
        rw [htops] at hmem
        simp only [List.mem_flatMap]
        refine ⟨e, hmem, ?_⟩
        rcases hpe : processEvent { s with eventQueue := s.eventQueue.erase e }
          (get_event_time e) e with ⟨s1, res⟩
        cases res with
        | error f => simp
        | ok u =>
          cases u
          simp only [List.mem_map]
          refine ⟨_, ih (fun i => tie (i + 1)) s1, ?_⟩
          cases runLoop fuel (fun i => tie (i + 1)) s1 with
          | none => rfl
          | some r => rfl

/-- If every resolution of the ties ends normally and passes the check `p`, then so does
the run made by `maxTellerBusyTime(n)`, whatever the tie-breaks. -/
theorem maxTellerBusyTimeLog_of_runAll (p : List Step → BankSim3000 → Bool) {s : BankSim3000}
    {n : Nat} (h1 : 1 ≤ n) (h5 : n ≤ 5) (hq : s.eventQueue = []) (hl : s.bankLine = [])
    (hall : (runAll (pendingWork (setupState s n)) (setupState s n)).all (endsWith p) = true)
    (tie : Nat → Nat) :
    ∃ log s2, maxTellerBusyTimeLog tie s n =
        some (log, s2, (gatherResults s2).maxTellerBusyTime) ∧ p log s2 = true := by
  have hmem := runLoop_mem_runAll (pendingWork (setupState s n)) tie (setupState s n)
  have hp := List.all_eq_true.1 hall _ hmem
  cases hr : runLoop (pendingWork (setupState s n)) tie (setupState s n) with
  | none => simp [hr, endsWith] at hp
  | some r =>
    obtain ⟨log, s2, res⟩ := r
    cases res with
    | error f => simp [hr, endsWith] at hp
    | ok u =>
      cases u
      rw [hr] at hp
      simp only [endsWith] at hp
      refine ⟨log, s2, ?_, hp⟩
      simp [maxTellerBusyTimeLog, setupSimulation_ok h1 h5 hq hl, runSimulation, hr]

/-- If every resolution of the ties ends with a greatest busy time that passes `p`, then
so does the call of `maxTellerBusyTime(n)`, whatever the tie-breaks. -/
theorem maxTellerBusyTime_of_runAll (p : Time → Bool) {s : BankSim3000} {n : Nat}
    (h1 : 1 ≤ n) (h5 : n ≤ 5) (hq : s.eventQueue = []) (hl : s.bankLine = [])
    (hall : (runAll (pendingWork (setupState s n)) (setupState s n)).all
      (endsWith (fun _ s2 => maxPasses p s2)) = true)
    (tie : Nat → Nat) :
    ∃ s2 v, maxTellerBusyTime tie s n = some (s2, .ok v) ∧ p v = true := by
  obtain ⟨log, s2, hcall, hp⟩ := maxTellerBusyTimeLog_of_runAll _ h1 h5 hq hl hall tie
  simp only [maxPasses] at hp
  cases hv : (gatherResults s2).maxTellerBusyTime with
  | error f => simp [hv] at hp
  | ok v =>
    simp only [hv] at hp hcall
    exact ⟨s2, v, by simp [maxTellerBusyTime, hcall], hp⟩

/-- The input of `main` with one teller: the result is 3 under every tie-break. -/
theorem main_input_one_teller (tie : Nat → Nat) :
    ∃ s2, maxTellerBusyTime tie (BankSim3000.new SimulationInput00) 1 = some (s2, .ok 3) := by
  obtain ⟨s2, v, h, hv⟩ := maxTellerBusyTime_of_runAll (fun w => decide (w = 3))
    (s := BankSim3000.new SimulationInput00) (n := 1) (by decide) (by decide) rfl rfl
    (by decide!) tie
  have : v = 3 := by simpa using hv
  subst this
  exact ⟨s2, h⟩

/-- The input of `main` with two tellers: the result is 5 or 9, depending on the
tie-break. -/
theorem main_input_two_tellers (tie : Nat → Nat) :
    ∃ s2 v, maxTellerBusyTime tie (BankSim3000.new SimulationInput00) 2 = some (s2, .ok v) ∧
      (v = 5 ∨ v = 9) := by
  obtain ⟨s2, v, h, hv⟩ := maxTellerBusyTime_of_runAll (fun w => decide (w = 5 ∨ w = 9))
    (s := BankSim3000.new SimulationInput00) (n := 2) (by decide) (by decide) rfl rfl
    (by decide!) tie
  exact ⟨s2, v, h, by simpa using hv⟩

/-- The staggered input with two tellers: the result is 6, and the tellers are handed 10
and 11 units of service. -/
theorem staggered_two_tellers (tie : Nat → Nat) :
    ∃ log s2, maxTellerBusyTimeLog tie (BankSim3000.new staggeredInput) 2 =
        some (log, s2, .ok 6) ∧ serviceTime log 0 = 10 ∧ serviceTime log 1 = 11 := by
  obtain ⟨log, s2, h, hp⟩ := maxTellerBusyTimeLog_of_runAll
    (fun log s2 => maxPasses (fun w => decide (w = 6)) s2 &&
      (decide (serviceTime log 0 = 10) && decide (serviceTime log 1 = 11)))
    (s := BankSim3000.new staggeredInput) (n := 2) (by decide) (by decide) rfl rfl
    (by decide!) tie
  simp only [Bool.and_eq_true, decide_eq_true_eq, maxPasses] at hp
  obtain ⟨hmax, h0, h1⟩ := hp
  cases hv : (gatherResults s2).maxTellerBusyTime with
  | error f => simp [hv] at hmax
  | ok v =>
    simp only [hv, decide_eq_true_eq] at hmax h
    subst hmax
    exact ⟨log, s2, h, h0, h1⟩

/-- The staggered input with three tellers: the result is 12, and teller 0 is handed 12
units of service. -/
theorem staggered_three_tellers (tie : Nat → Nat) :
    ∃ log s2, maxTellerBusyTimeLog tie (BankSim3000.new staggeredInput) 3 =
        some (log, s2, .ok 12) ∧ serviceTime log 0 = 12 := by
  obtain ⟨log, s2, h, hp⟩ := maxTellerBusyTimeLog_of_runAll
    (fun log s2 => maxPasses (fun w => decide (w = 12)) s2 && decide (serviceTime log 0 = 12))
    (s := BankSim3000.new staggeredInput) (n := 3) (by decide) (by decide) rfl rfl
    (by decide!) tie
  simp only [Bool.and_eq_true, decide_eq_true_eq, maxPasses] at hp
  obtain ⟨hmax, h0⟩ := hp
  cases hv : (gatherResults s2).maxTellerBusyTime with
  | error f => simp [hv] at hmax
  | ok v =>
    simp only [hv, decide_eq_true_eq] at hmax h
    subst hmax
    exact ⟨log, s2, h, h0⟩

/-! ### The balance of work -/

theorem processArrival_none {s : BankSim3000} (currentTime : Time) (a : ArrivalEvent)
    (h : searchAvailableTellers s = none) :
    processArrival s currentTime a = ({ s with bankLine := s.bankLine ++ [⟨a⟩] }, .ok ()) := by
  simp [processArrival, h]

theorem processArrival_some {s : BankSim3000} (currentTime : Time) (a : ArrivalEvent) {j : Nat}
    {t : Teller} (h : searchAvailableTellers s = some j) (ht : s.tellers[j]? = some t) :
    processArrival s currentTime a =
      ({ s with
          tellers := s.tellers.set j (t.startWork currentTime)
          eventQueue := s.eventQueue ++
            [Event.departure ⟨intAdd currentTime a.transactionTime, j⟩] }, .ok ()) := by
  simp [processArrival, h, ht]

theorem processDeparture_cons {s : BankSim3000} (currentTime : Time) (d : DepartureEvent)
    {c : Customer} {rest : List Customer} {t : Teller} (hline : s.bankLine = c :: rest)
    (ht : s.tellers[d.tellerIndex]? = some t) :
    processDeparture s currentTime d =
      ({ s with
          bankLine := rest
          tellers := s.tellers.set d.tellerIndex (t.startWork currentTime)
          eventQueue := s.eventQueue ++
            [Event.departure
              ⟨intAdd currentTime c.arrivalEvent.transactionTime, d.tellerIndex⟩] },
        .ok ()) := by
  simp [processDeparture, hline, ht]

theorem processDeparture_nil {s : BankSim3000} (currentTime : Time) (d : DepartureEvent)
    {t : Teller} {st : Time} (hline : s.bankLine = [])
    (ht : s.tellers[d.tellerIndex]? = some t) (hst : t.startBusy = some st) :
    processDeparture s currentTime d =
      ({ s with
          tellers :=
            s.tellers.set d.tellerIndex
              ⟨none, intAdd t.elapsedTimeBusy (intSub currentTime st)⟩ },
        .ok ()) := by
  simp [processDeparture, hline, ht, Teller.stopWork, hst]

theorem pendingDepartures_eq_zero {i : Nat} {q : List Event}
    (h : pendingDepartures i q = 0) (d : DepartureEvent) (hd : Event.departure d ∈ q) :
    d.tellerIndex ≠ i := by
  intro hi
  have := (List.countP_eq_zero.1 h) _ hd
  simp [isDepartureOf, hi] at this

/-- An iteration keeps the invariant `Timed` and does not raise the balance of work. -/
theorem loopBody_timed {k : Nat} {s : BankSim3000} {e : Event}
    {r : BankSim3000 × Except Failure Unit} (hs : Timed s) (h : loopBody k s = some (e, r)) :
    Timed r.1 ∧ balance r.1 ≤ balance s := by
  have hcons := (loopBody_consistent hs.consistent h).2
  have hex := (loopBody_times hs.exact h).1
  have hps1 := pendingService_nonneg hex.nonNeg
  obtain ⟨hmem, _, hr⟩ := loopBody_some h
  have hsumq := sum_map_erase eventValue hmem
  have hsump := sum_map_erase pendingTransaction hmem
  have hlow := hs.exact.low e hmem
  have hhigh := hs.exact.high e hmem
  have htotal := hs.total
  cases e with
  | arrival a =>
    have ha0 : 0 ≤ a.transactionTime := hs.exact.nonNeg.arrivals a hmem
    simp only [processEvent, get_event_time] at hr hlow hhigh
    simp only [eventValue] at hsumq
    simp only [pendingTransaction] at hsump
    cases hsearch : searchAvailableTellers
        { s with eventQueue := s.eventQueue.erase (Event.arrival a) } with
    | none =>
      rw [processArrival_none _ _ hsearch] at hr
      subst hr
      have hps : pendingService { s with
          eventQueue := s.eventQueue.erase (Event.arrival a)
          bankLine := s.bankLine ++ [⟨a⟩] } = pendingService s := by
        simp only [pendingService, List.map_append, List.sum_append, List.map_cons,
          List.map_nil, List.sum_cons, List.sum_nil]
        linarith
      refine ⟨⟨hcons, hex, ?_, hs.elapsed, ?_, ?_, htotal⟩, ?_⟩
      · intro d hd
        exact hs.started d (List.mem_of_mem_erase hd)
      · intro d hd t st ht hst
        rw [hps]
        exact hs.due d (List.mem_of_mem_erase hd) t st ht hst
      · intro t ht
        rw [hps]
        exact hs.cap t ht
      · simp only [balance, List.map_append, List.sum_append, List.map_cons, List.map_nil,
          List.sum_cons, List.sum_nil, hsumq]
        linarith
    | some j =>
      obtain ⟨t, ht, hav⟩ := searchAvailableTellers_some hsearch
      simp only at ht
      rw [processArrival_some _ _ hsearch ht] at hr
      subst hr
      have hps : pendingService { s with
          tellers := s.tellers.set j (t.startWork a.arrivalTime)
          eventQueue := s.eventQueue.erase (Event.arrival a) ++
            [Event.departure ⟨intAdd a.arrivalTime a.transactionTime, j⟩] } +
            a.transactionTime = pendingService s := by
        simp only [pendingService, List.map_append, List.sum_append, List.map_cons,
          List.map_nil, List.sum_cons, List.sum_nil, pendingTransaction]
        linarith
      have hexact : intAdd a.arrivalTime a.transactionTime =
          a.arrivalTime + a.transactionTime := intAdd_eq (by linarith) (by linarith)
      rw [hexact] at hps hps1 hex hcons ⊢
      have hnone : t.startBusy = none := by
        cases hsb : t.startBusy with
        | none => rfl
        | some x => simp [Teller.isAvailable, hsb] at hav
      have h0 : pendingDepartures j s.eventQueue = 0 := by
        simpa [hav] using hs.consistent.pending j t ht
      have hj : j < s.tellers.length := (List.getElem?_eq_some.1 ht).1
      have hcapt := hs.cap t (List.getElem?_mem ht)
      refine ⟨⟨hcons, hex, ?_, ?_, ?_, ?_, htotal⟩, ?_⟩
      · intro d hd
        simp only [List.mem_append, List.mem_singleton, Event.departure.injEq] at hd
        rcases hd with hd | rfl
        · have hne := pendingDepartures_eq_zero h0 d (List.mem_of_mem_erase hd)
          obtain ⟨t1, st, h1, h2, h3⟩ := hs.started d (List.mem_of_mem_erase hd)
          refine ⟨t1, st, ?_, h2, h3⟩
          simp only [List.getElem?_set, if_neg (Ne.symm hne)]
          exact h1
        · refine ⟨t.startWork a.arrivalTime, a.arrivalTime, ?_, rfl, ?_⟩
          · simp [List.getElem?_set, hj]
          · simp only
            linarith
      · intro x hx
        rcases List.mem_or_eq_of_mem_set hx with hx | rfl
        · exact hs.elapsed x hx
        · exact hs.elapsed t (List.getElem?_mem ht)
      · intro d hd t1 st1 ht1 hst1
        simp only [List.mem_append, List.mem_singleton, Event.departure.injEq] at hd
        rcases hd with hd | rfl
        · have hne := pendingDepartures_eq_zero h0 d (List.mem_of_mem_erase hd)
          simp only [List.getElem?_set, if_neg (Ne.symm hne)] at ht1
          have := hs.due d (List.mem_of_mem_erase hd) t1 st1 ht1 hst1
          simp only at this ⊢
          linarith
        · simp only [List.getElem?_set, hj, if_true, Option.some.injEq] at ht1
          subst ht1
          simp only [Teller.startWork, Option.some.injEq] at hst1
          subst hst1
          simp only [Teller.startWork] at hps ⊢
          linarith
      · intro x hx
        simp only at hx ⊢
        rcases List.mem_or_eq_of_mem_set hx with hx | rfl
        · have := hs.cap x hx
          linarith
        · simp only [Teller.startWork] at hps ⊢
          linarith
      · have he := sum_map_set Teller.elapsedTimeBusy s.tellers j t
          (t.startWork a.arrivalTime) ht
        have hst := sum_map_set startValue s.tellers j t (t.startWork a.arrivalTime) ht
        simp only [Teller.startWork, startValue, hnone, Option.getD_none, Option.getD_some]
          at he hst
        simp only [startValue] at hst ⊢
        simp only [balance, List.map_append, List.sum_append, List.map_cons, List.map_nil,
          List.sum_cons, List.sum_nil, hsumq, eventValue, Teller.startWork, he, startValue, hst]
        linarith
  | departure d =>
    obtain ⟨t, st, ht, hst, hle⟩ := hs.started d hmem
    have hdue := hs.due d hmem t st ht hst
    have hps0 := pendingService_nonneg hs.exact.nonNeg
    have hidx : d.tellerIndex < s.tellers.length := (List.getElem?_eq_some.1 ht).1
    have herase := pendingDepartures_erase d.tellerIndex hmem
    simp only [isDepartureOf, beq_self_eq_true, if_true] at herase
    have hbusy : t.isAvailable = false := by simp [Teller.isAvailable, hst]
    have hpend := hs.consistent.pending _ t ht
    rw [hbusy] at hpend
    have h0 : pendingDepartures d.tellerIndex (s.eventQueue.erase (Event.departure d)) = 0 := by
      simp at hpend; omega
    have hothers : ∀ d1, Event.departure d1 ∈ s.eventQueue.erase (Event.departure d) →
        ∀ t1 : Teller, ∃ t2 st2, (s.tellers.set d.tellerIndex t1)[d1.tellerIndex]? = some t2 ∧
          t2.startBusy = some st2 ∧ st2 ≤ d1.departureTime := by
      intro d1 hd1 t1
      have hne := pendingDepartures_eq_zero h0 d1 hd1
      obtain ⟨t2, st2, h1, h2, h3⟩ := hs.started d1 (List.mem_of_mem_erase hd1)
      refine ⟨t2, st2, ?_, h2, h3⟩
      simp only [List.getElem?_set, if_neg (Ne.symm hne)]
      exact h1
    have hdues : ∀ d1, Event.departure d1 ∈ s.eventQueue.erase (Event.departure d) →
        ∀ (t1 t2 : Teller) (st2 : Time),
          (s.tellers.set d.tellerIndex t1)[d1.tellerIndex]? = some t2 →
          t2.startBusy = some st2 →
          t2.elapsedTimeBusy + (d1.departureTime - st2) + pendingService s ≤
            totalService s.simulationInput := by
      intro d1 hd1 t1 t2 st2 h1 h2
      have hne := pendingDepartures_eq_zero h0 d1 hd1
      simp only [List.getElem?_set, if_neg (Ne.symm hne)] at h1
      exact hs.due d1 (List.mem_of_mem_erase hd1) t2 st2 h1 h2
    simp only [processEvent, get_event_time] at hr hlow hhigh
    simp only [eventValue] at hsumq
    simp only [pendingTransaction] at hsump
    have hel := hs.elapsed t (List.getElem?_mem ht)
    cases hline : s.bankLine with
    | nil =>
      rw [processDeparture_nil (s := { s with eventQueue := s.eventQueue.erase (Event.departure d) })
        _ d hline ht hst] at hr
      subst hr
      have hps : pendingService { s with
          eventQueue := s.eventQueue.erase (Event.departure d)
          tellers := s.tellers.set d.tellerIndex
            ⟨none, intAdd t.elapsedTimeBusy (intSub d.departureTime st)⟩ } =
          pendingService s := by
        simp only [pendingService]
        linarith
      have hsub : intSub d.departureTime st = d.departureTime - st :=
        intSub_eq (by linarith) (by linarith)
      have hadd : intAdd t.elapsedTimeBusy (d.departureTime - st) =
          t.elapsedTimeBusy + (d.departureTime - st) := intAdd_eq (by linarith) (by linarith)
      rw [hsub, hadd] at hps hex hcons ⊢
      refine ⟨⟨hcons, hex, ?_, ?_, ?_, ?_, htotal⟩, ?_⟩
      · intro d1 hd1
        exact hothers d1 hd1 _
      · intro x hx
        rcases List.mem_or_eq_of_mem_set hx with hx | rfl
        · exact hs.elapsed x hx
        · simp only
          linarith
      · intro d1 hd1 t2 st2 h1 h2
        rw [hps]
        exact hdues d1 hd1 _ t2 st2 h1 h2
      · intro x hx
        rw [hps]
        rcases List.mem_or_eq_of_mem_set hx with hx | rfl
        · exact hs.cap x hx
        · simp only
          exact hdue
      · have he := sum_map_set Teller.elapsedTimeBusy s.tellers d.tellerIndex t
          ⟨none, t.elapsedTimeBusy + (d.departureTime - st)⟩ ht
        have hsv := sum_map_set startValue s.tellers d.tellerIndex t
          ⟨none, t.elapsedTimeBusy + (d.departureTime - st)⟩ ht
        simp only [startValue, hst, Option.getD_none, Option.getD_some] at he hsv
        simp only [balance, hline, List.map_nil, List.sum_nil, hsumq, he, startValue, hsv]
        linarith
    | cons c rest =>
      rw [processDeparture_cons (s := { s with eventQueue := s.eventQueue.erase (Event.departure d) })
        _ d hline ht] at hr
      subst hr
      have hc0 : 0 ≤ c.arrivalEvent.transactionTime :=
        hs.exact.nonNeg.line c (by rw [hline]; exact List.mem_cons_self _ _)
      have hps : pendingService { s with
          bankLine := rest
          tellers := s.tellers.set d.tellerIndex (t.startWork d.departureTime)
          eventQueue := s.eventQueue.erase (Event.departure d) ++
            [Event.departure
              ⟨intAdd d.departureTime c.arrivalEvent.transactionTime, d.tellerIndex⟩] } +
            c.arrivalEvent.transactionTime = pendingService s := by
        simp only [pendingService, hline, List.map_append, List.sum_append, List.map_cons,
          List.map_nil, List.sum_cons, List.sum_nil, pendingTransaction]
        linarith
      have hexact : intAdd d.departureTime c.arrivalEvent.transactionTime =
          d.departureTime + c.arrivalEvent.transactionTime :=
        intAdd_eq (by linarith) (by linarith)
      rw [hexact] at hps hps1 hex hcons ⊢
      refine ⟨⟨hcons, hex, ?_, ?_, ?_, ?_, htotal⟩, ?_⟩
      · intro d1 hd1
        simp only [List.mem_append, List.mem_singleton, Event.departure.injEq] at hd1
        rcases hd1 with hd1 | rfl
        · exact hothers d1 hd1 _
        · refine ⟨t.startWork d.departureTime, d.departureTime, ?_, rfl, ?_⟩
          · simp [List.getElem?_set, hidx]
          · simp only
            linarith
      · intro x hx
        rcases List.mem_or_eq_of_mem_set hx with hx | rfl
        · exact hs.elapsed x hx
        · exact hel
      · intro d1 hd1 t2 st2 h1 h2
        simp only [List.mem_append, List.mem_singleton, Event.departure.injEq] at hd1
        rcases hd1 with hd1 | rfl
        · have := hdues d1 hd1 _ t2 st2 h1 h2
          simp only at this ⊢
          linarith
        · simp only [List.getElem?_set, hidx, if_true, Option.some.injEq] at h1
          subst h1
          simp only [Teller.startWork, Option.some.injEq] at h2
          subst h2
          simp only [Teller.startWork] at hps ⊢
          linarith
      · intro x hx
        simp only at hx ⊢
        rcases List.mem_or_eq_of_mem_set hx with hx | rfl
        · have := hs.cap x hx
          linarith
        · simp only [Teller.startWork] at hps ⊢
          linarith
      · have he := sum_map_set Teller.elapsedTimeBusy s.tellers d.tellerIndex t
          (t.startWork d.departureTime) ht
        have hsv := sum_map_set startValue s.tellers d.tellerIndex t
          (t.startWork d.departureTime) ht
        simp only [Teller.startWork, startValue, hst, Option.getD_some] at he hsv
        simp only [startValue] at hsv ⊢
        simp only [balance, hline, List.map_append, List.sum_append, List.map_cons, List.map_nil,
          List.sum_cons, List.sum_nil, hsumq, eventValue, Teller.startWork, he, startValue, hsv]
        linarith

/-- Over a complete run the invariant `Timed` is kept and the balance of work does not
rise. -/
theorem Run.timed {s s2 : BankSim3000} {log : List Step} (h : Run s log s2) (hs : Timed s) :
    Timed s2 ∧ balance s2 ≤ balance s := by
  induction h with
  | done _ => exact ⟨hs, le_refl _⟩
  | @step k s s1 s2 e log hb _ ih =>
    obtain ⟨h1, hle1⟩ := loopBody_timed hs hb
    obtain ⟨h2, hle2⟩ := ih h1
    exact ⟨h2, le_trans hle2 hle1⟩

theorem setupState_timed (s : BankSim3000) (n : Nat)
    (h : ∀ a ∈ s.simulationInput, 0 ≤ a.transactionTime) (hfits : Fits s.simulationInput) :
    Timed (setupState s n) := by
  refine ⟨setupState_consistent s n, setupState_exact s n h hfits, ?_, ?_, ?_, ?_, hfits.1⟩
  · intro d hd
    simp [setupState] at hd
  · intro t ht
    simp only [setupState] at ht
    rw [(List.mem_replicate.1 ht).2]
    exact le_refl _
  · intro d hd
    simp [setupState] at hd
  · intro t ht
    rw [pendingService_setupState]
    simp only [setupState] at ht
    rw [(List.mem_replicate.1 ht).2]
    show (0 : Int) + totalService s.simulationInput ≤ totalService s.simulationInput
    simp

/-- At set-up the balance of work is the sum of the transaction times of the input. -/
theorem balance_setupState (s : BankSim3000) (n : Nat) :
    balance (setupState s n) = (s.simulationInput.map (fun a => a.transactionTime)).sum := by
  have h1 : ((List.replicate n Teller.new).map Teller.elapsedTimeBusy).sum = 0 := by
    simp [Teller.new]
  have h2 : ((List.replicate n Teller.new).map startValue).sum = 0 := by
    simp [Teller.new, startValue]
  have h3 : (s.simulationInput.map Event.arrival).map eventValue =
      s.simulationInput.map (fun a => a.transactionTime) := by
    simp [List.map_map, Function.comp_def, eventValue]
  simp only [balance, setupState, h1, h2, h3, List.map_nil, List.sum_nil]
  simp

/-- With nothing pending and every teller available the balance of work is the sum of
the accumulated busy times. -/
theorem balance_final {s : BankSim3000} (hq : s.eventQueue = []) (hl : s.bankLine = [])
    (hav : ∀ t ∈ s.tellers, t.isAvailable = true) :
    balance s = (s.tellers.map Teller.elapsedTimeBusy).sum := by
  have h0 : (s.tellers.map startValue).sum = 0 := by
    apply List.sum_eq_zero
    intro x hx
    obtain ⟨t, ht, rfl⟩ := List.mem_map.1 hx
    have := hav t ht
    cases hsb : t.startBusy with
    | none => simp [startValue, hsb]
    | some v => simp [Teller.isAvailable, hsb] at this
  simp only [balance, hq, hl, h0, List.map_nil, List.sum_nil]
  simp

/-- The value found by `max_element` is an element of the range. -/
theorem maxElementFrom_mem : ∀ (xs : List Time) (x : Time), maxElementFrom x xs ∈ x :: xs
  | [], x => by simp [maxElementFrom]
  | y :: ys, x => by
    have ih := maxElementFrom_mem ys (if x < y then y else x)
    simp only [maxElementFrom, List.foldl_cons] at ih ⊢
    rcases List.mem_cons.1 ih with h | h
    · rw [h]
      split
      · simp
      · simp
    · exact List.mem_cons_of_mem _ (List.mem_cons_of_mem _ h)

/-- Bound on the result: without negative transaction times and on an input that fits the
arithmetic of `int`, `maxTellerBusyTime(n)` for a valid `n` lies between 0 and the sum of
the transaction times of the input. -/
theorem maxTellerBusyTime_bound (tie : Nat → Nat) {s : BankSim3000} {n : Nat}
    (h1 : 1 ≤ n) (h5 : n ≤ 5) (hq : s.eventQueue = []) (hl : s.bankLine = [])
    (hnn : ∀ a ∈ s.simulationInput, 0 ≤ a.transactionTime) (hfits : Fits s.simulationInput) :
    ∃ s2 v, maxTellerBusyTime tie s n = some (s2, .ok v) ∧ 0 ≤ v ∧
      v ≤ (s.simulationInput.map (fun a => a.transactionTime)).sum := by
  obtain ⟨log, s2, v, hcall, hR, hv⟩ := maxTellerBusyTimeLog_run tie h1 h5 hq hl
  obtain ⟨ht2, hbal⟩ := Run.timed hR (setupState_timed s n hnn hfits)
  have hq2 := Run.eventQueue_eq_nil hR
  have hd := run_setupState_drained h1 hR
  have hav := Consistent.all_available ht2.consistent hq2
  rw [balance_setupState, balance_final hq2 hd.2.1 hav] at hbal
  have hmem : v ∈ s2.tellers.map Teller.elapsedTimeBusy := by
    simp only [gatherResults, SimulationResults.maxTellerBusyTime] at hv
    cases hts : s2.tellers.map Teller.elapsedTimeWorking with
    | nil => simp [hts] at hv
    | cons x xs =>
      simp only [hts, Except.ok.injEq] at hv
      have := maxElementFrom_mem xs x
      rw [hv] at this
      have hsame : s2.tellers.map Teller.elapsedTimeBusy =
          s2.tellers.map Teller.elapsedTimeWorking := rfl
      rw [hsame, hts]
      exact this
  have hall : ∀ x ∈ s2.tellers.map Teller.elapsedTimeBusy, 0 ≤ x := by
    intro x hx
    obtain ⟨t, ht, rfl⟩ := List.mem_map.1 hx
    exact ht2.elapsed t ht
  refine ⟨s2, v, by simp [maxTellerBusyTime, hcall], hall v hmem, ?_⟩
  exact le_trans (le_sum_of_mem_nonneg _ hall v hmem) hbal

/-! ### Facts about every iteration of a complete run -/

/-- Every entry of the log of a complete run records an iteration that the loop body can
make from the recorded state, and that succeeds and leads to `Step.after`. -/
theorem Run.steps {s s2 : BankSim3000} {log : List Step} (h : Run s log s2) :
    ∀ st ∈ log, ∃ k, loopBody k st.before = some (st.event, st.after, .ok ()) := by
  induction h with
  | done _ => simp
  | @step k s s1 s2 e log hb _ ih =>
    intro st hst
    rcases List.mem_cons.1 hst with rfl | hst
    · refine ⟨k, ?_⟩
      obtain ⟨_, _, hr⟩ := loopBody_some hb
      have h1 : s1 = (Step.mk s e).after := by
        simp only [Step.after, Step.popped, ← hr]
      rw [← h1]
      exact hb
    · exact ih st hst

/-- The first loop head of a complete run is the state in which it starts. -/
theorem Run.loopHeads_head {s s2 : BankSim3000} {log : List Step} (h : Run s log s2) :
    (loopHeads log s2).head? = some s := by
  cases h with
  | done _ => rfl
  | step _ _ => rfl

/-- A property kept by every successful iteration holds at every loop head of a complete
run that starts with it. -/
theorem Run.invariant {P : BankSim3000 → Prop}
    (hP : ∀ k s e s1, P s → loopBody k s = some (e, s1, .ok ()) → P s1)
    {s s2 : BankSim3000} {log : List Step} (h : Run s log s2) (hs : P s) :
    ∀ x ∈ loopHeads log s2, P x := by
  induction h with
  | done _ =>
    intro x hx
    simp only [loopHeads, List.map_nil, List.nil_append, List.mem_singleton] at hx
    exact hx ▸ hs
  | @step k s s1 s2 e log hb _ ih =>
    intro x hx
    simp only [loopHeads, List.map_cons, List.cons_append, List.mem_cons] at hx
    rcases hx with rfl | hx
    · exact hs
    · exact ih (hP k s e s1 hs hb) x hx

/-- A relation that every successful iteration establishes between the states before and
after it, from states with an invariant `P`, links each loop head of a complete run to
the next. -/
theorem Run.chain {P : BankSim3000 → Prop} {R : BankSim3000 → BankSim3000 → Prop}
    (hP : ∀ k s e s1, P s → loopBody k s = some (e, s1, .ok ()) → P s1)
    (hR : ∀ k s e s1, P s → loopBody k s = some (e, s1, .ok ()) → R s s1)
    {s s2 : BankSim3000} {log : List Step} (h : Run s log s2) (hs : P s) :
    List.Chain' R (loopHeads log s2) := by
  induction h with
  | done _ => simp [loopHeads]
  | @step k s s1 s2 e log hb hrun ih =>
    have hrest := ih (hP k s e s1 hs hb)
    have hhead := Run.loopHeads_head hrun
    have hcons : loopHeads (⟨s, e⟩ :: log) s2 = s :: loopHeads log s2 := rfl
    rw [hcons, List.chain'_cons']
    refine ⟨?_, hrest⟩
    intro y hy
    rw [hhead] at hy
    simp only [Option.mem_def, Option.some.injEq] at hy
    exact hy ▸ hR k s e s1 hs hb

/-- The state before an entry of the log is a loop head. -/
theorem before_mem_loopHeads {log : List Step} {st : Step} (s2 : BankSim3000) (h : st ∈ log) :
    st.before ∈ loopHeads log s2 := by
  simp only [loopHeads, List.mem_append, List.mem_map, List.mem_singleton]
  exact Or.inl ⟨st, h, rfl⟩

/-- An iteration in a state satisfying `Timed` lowers no teller's accumulated busy time. -/
theorem loopBody_elapsed_mono {k : Nat} {s : BankSim3000} {e : Event}
    {r : BankSim3000 × Except Failure Unit} (hs : Timed s) (h : loopBody k s = some (e, r)) :
    ∀ (i : Nat) (t t1 : Teller), s.tellers[i]? = some t → r.1.tellers[i]? = some t1 →
      t.elapsedTimeBusy ≤ t1.elapsedTimeBusy := by
  obtain ⟨hmem, _, hr⟩ := loopBody_some h
  intro i t t1 hi hi1
  cases e with
  | arrival a =>
    simp only [processEvent, get_event_time] at hr
    cases hsearch : searchAvailableTellers
        { s with eventQueue := s.eventQueue.erase (Event.arrival a) } with
    | none =>
      rw [processArrival_none _ _ hsearch] at hr
      subst hr
      simp only at hi1
      rw [hi] at hi1
      simp only [Option.some.injEq] at hi1
      rw [hi1]
    | some j =>
      obtain ⟨t0, ht0, _⟩ := searchAvailableTellers_some hsearch
      simp only at ht0
      rw [processArrival_some _ _ hsearch ht0] at hr
      subst hr
      simp only [List.getElem?_set] at hi1
      split at hi1
      · rename_i hji
        subst hji
        split at hi1
        · simp only [Option.some.injEq] at hi1
          rw [ht0] at hi
          simp only [Option.some.injEq] at hi
          subst hi hi1
          exact le_refl _
        · simp at hi1
      · rw [hi] at hi1
        simp only [Option.some.injEq] at hi1
        rw [hi1]
  | departure d =>
    obtain ⟨t0, st, ht0, hst, hle⟩ := hs.started d hmem
    simp only [processEvent, get_event_time] at hr
    cases hline : s.bankLine with
    | nil =>
      have hdue := hs.due d hmem t0 st ht0 hst
      have hps0 := pendingService_nonneg hs.exact.nonNeg
      have hel := hs.elapsed t0 (List.getElem?_mem ht0)
      have htotal := hs.total
      have hsub : intSub d.departureTime st = d.departureTime - st :=
        intSub_eq (by linarith) (by linarith)
      have hadd : intAdd t0.elapsedTimeBusy (d.departureTime - st) =
          t0.elapsedTimeBusy + (d.departureTime - st) := intAdd_eq (by linarith) (by linarith)
      rw [processDeparture_nil (s := { s with eventQueue := s.eventQueue.erase (Event.departure d) })
        _ d hline ht0 hst, hsub, hadd] at hr
      subst hr
      simp only [List.getElem?_set] at hi1
      split at hi1
      · rename_i hji
        subst hji
        split at hi1
        · simp only [Option.some.injEq] at hi1
          rw [ht0] at hi
          simp only [Option.some.injEq] at hi
          subst hi hi1
          simp only
          linarith
        · simp at hi1
      · rw [hi] at hi1
        simp only [Option.some.injEq] at hi1
        rw [hi1]
    | cons c rest =>
      rw [processDeparture_cons (s := { s with eventQueue := s.eventQueue.erase (Event.departure d) })
        _ d hline ht0] at hr
      subst hr
      simp only [List.getElem?_set] at hi1
      split at hi1
      · rename_i hji
        subst hji
        split at hi1
        · simp only [Option.some.injEq] at hi1
          rw [ht0] at hi
          simp only [Option.some.injEq] at hi
          subst hi hi1
          exact le_refl _
        · simp at hi1
      · rw [hi] at hi1
        simp only [Option.some.injEq] at hi1
        rw [hi1]

/-- In a consistent state with `n` tellers, teller `i < n` exists, it is busy exactly when
one departure of teller `i` is stored and available exactly when none is. -/
theorem Consistent.teller_iff {s : BankSim3000} (hs : Consistent s) {n : Nat}
    (hn : s.tellers.length = n) {i : Nat} (hi : i < n) :
    ∃ t, s.tellers[i]? = some t ∧
      (t.isAvailable = false ↔ pendingDepartures i s.eventQueue = 1) ∧
      (t.isAvailable = true ↔ pendingDepartures i s.eventQueue = 0) ∧
      pendingDepartures i s.eventQueue ≤ 1 := by
  have hlt : i < s.tellers.length := by omega
  refine ⟨s.tellers[i], List.getElem?_eq_getElem hlt, ?_⟩
  have hp := hs.pending i s.tellers[i] (List.getElem?_eq_getElem hlt)
  cases hav : s.tellers[i].isAvailable with
  | true => rw [hav] at hp; simp [hp]
  | false => rw [hav] at hp; simp [hp]

/-- At every loop head of a complete run from the set-up state the state is consistent
and has `n` tellers. -/
theorem run_loopHeads_consistent {s s2 : BankSim3000} {n : Nat} {log : List Step}
    (hR : Run (setupState s n) log s2) :
    ∀ x ∈ loopHeads log s2, Consistent x ∧ x.tellers.length = n := by
  have h := Run.invariant (P := fun x => Consistent x ∧ x.tellers.length = n)
    (fun k s e s1 hP hb =>
      ⟨(loopBody_consistent hP.1 hb).2, (loopBody_frame hb).1.trans hP.2⟩)
    hR ⟨setupState_consistent s n, by simp [setupState]⟩
  exact h

/-- The input of `main` with one teller: under every tie-break the departures are
processed at 26, 30, 32 and 35, the last event processed is at 35, and service runs over
20-26, 26-30, 30-32 and 32-35. -/
theorem main_input_trace (tie : Nat → Nat) :
    ∃ log s2, maxTellerBusyTimeLog tie (BankSim3000.new SimulationInput00) 1 =
        some (log, s2, (gatherResults s2).maxTellerBusyTime) ∧
      departureTimes log = [26, 30, 32, 35] ∧
      log.getLast?.map (fun st => get_event_time st.event) = some 35 ∧
      serviceIntervals log = [(20, 26), (26, 30), (30, 32), (32, 35)] := by
  obtain ⟨log, s2, h, hp⟩ := maxTellerBusyTimeLog_of_runAll
    (fun log _ => decide (departureTimes log = [26, 30, 32, 35]) &&
      (decide (log.getLast?.map (fun st => get_event_time st.event) = some 35) &&
        decide (serviceIntervals log = [(20, 26), (26, 30), (30, 32), (32, 35)])))
    (s := BankSim3000.new SimulationInput00) (n := 1) (by decide) (by decide) rfl rfl
    (by decide!) tie
  simp only [Bool.and_eq_true, decide_eq_true_eq] at hp
  exact ⟨log, s2, h, hp.1, hp.2.1, hp.2.2⟩

/-- The input of `main` with one teller: under every tie-break some departure is processed
while a customer waits, for the teller busy since 20, and that teller is then given
`startWork(26)`. -/
theorem main_input_hand_over (tie : Nat → Nat) :
    ∃ log s2, maxTellerBusyTimeLog tie (BankSim3000.new SimulationInput00) 1 =
        some (log, s2, (gatherResults s2).maxTellerBusyTime) ∧
      log.any (handsOverBusyTeller 20 26) = true := by
  exact maxTellerBusyTimeLog_of_runAll (fun log _ => log.any (handsOverBusyTeller 20 26))
    (s := BankSim3000.new SimulationInput00) (n := 1) (by decide) (by decide) rfl rfl
    (by decide!) tie

/-! ### The search for an available teller -/

/-- The scan from index `i` returns `j` exactly when `j` is the first index, counted from
`i`, of an available teller. -/
theorem searchFrom_eq_some_iff {i j : Nat} {ts : List Teller} :
    searchFrom i ts = some j ↔
      i ≤ j ∧ (∃ t, ts[j - i]? = some t ∧ t.isAvailable = true) ∧
        ∀ m t, m < j - i → ts[m]? = some t → t.isAvailable = false := by
  constructor
  · exact searchFrom_some
  · intro h
    induction ts generalizing i with
    | nil =>
      obtain ⟨_, ⟨t, ht, _⟩, _⟩ := h
      simp at ht
    | cons t0 ts ih =>
      obtain ⟨hle, ⟨t, ht, hav⟩, hlow⟩ := h
      unfold searchFrom
      by_cases h0 : t0.isAvailable = true
      · simp only [h0, if_true, Option.some.injEq]
        by_contra hne
        have hpos : 0 < j - i := by omega
        have := hlow 0 t0 hpos (by simp)
        rw [h0] at this
        exact absurd this (by simp)
      · simp only [h0, Bool.false_eq_true, if_false]
        have hji : j - i ≠ 0 := by
          intro hz
          rw [hz] at ht
          simp only [List.getElem?_cons_zero, Option.some.injEq] at ht
          rw [ht] at h0
          exact h0 hav
        have hj : j - i = (j - (i + 1)) + 1 := by omega
        apply ih
        refine ⟨by omega, ⟨t, ?_, hav⟩, ?_⟩
        · rw [hj] at ht
          simpa using ht
        · intro m x hm hx
          exact hlow (m + 1) x (by omega) (by simpa using hx)

/-- The search `searchAvailableTellers` returns `i` exactly when teller `i` is available
and every teller with a smaller index is busy. -/
theorem searchAvailableTellers_eq_some_iff {s : BankSim3000} {i : Nat} :
    searchAvailableTellers s = some i ↔
      (∃ t, s.tellers[i]? = some t ∧ t.isAvailable = true) ∧
        ∀ j t, j < i → s.tellers[j]? = some t → t.isAvailable = false := by
  unfold searchAvailableTellers
  rw [searchFrom_eq_some_iff]
  simp

/-- The search `searchAvailableTellers` returns no index exactly when every teller is
busy. -/
theorem searchAvailableTellers_eq_none_iff {s : BankSim3000} :
    searchAvailableTellers s = none ↔ ∀ t ∈ s.tellers, t.isAvailable = false := by
  constructor
  · exact searchFrom_none
  · intro h
    cases hs : searchAvailableTellers s with
    | none => rfl
    | some j =>
      obtain ⟨t, ht, hav⟩ := searchAvailableTellers_some hs
      have := h t (List.getElem?_mem ht)
      rw [hav] at this
      exact absurd this (by simp)

/-- With an available teller the search returns an index. -/
theorem searchAvailableTellers_of_available {s : BankSim3000}
    (h : ∃ t ∈ s.tellers, t.isAvailable = true) : ∃ i, searchAvailableTellers s = some i := by
  cases hs : searchAvailableTellers s with
  | some i => exact ⟨i, rfl⟩
  | none =>
    obtain ⟨t, ht, hav⟩ := h
    have := searchAvailableTellers_eq_none_iff.1 hs t ht
    rw [hav] at this
    exact absurd this (by simp)

/-! ### First in, first out -/

/-- What `processEvent` does to the waiting line: nothing, or one customer is appended at
the tail, or the head customer is removed. -/
theorem processEvent_line (s : BankSim3000) (currentTime : Time) (e : Event) :
    (processEvent s currentTime e).1.bankLine = s.bankLine ∨
      (∃ c, (processEvent s currentTime e).1.bankLine = s.bankLine ++ [c]) ∨
      ∃ c rest, s.bankLine = c :: rest ∧ (processEvent s currentTime e).1.bankLine = rest := by
  cases e with
  | arrival a =>
    simp only [processEvent, processArrival]
    split
    · split
      · exact Or.inl rfl
      · exact Or.inl rfl
    · exact Or.inr (Or.inl ⟨_, rfl⟩)
  | departure d =>
    cases hl : s.bankLine with
    | nil =>
      simp only [processEvent, processDeparture, hl]
      left
      repeat' split
      all_goals first | rfl | exact hl
    | cons c rest =>
      simp only [processEvent, processDeparture, hl]
      right
      right
      refine ⟨c, rest, rfl, ?_⟩
      repeat' split
      all_goals rfl

/-- The line before an iteration followed by the customers who joined it is the customers
who left it followed by the line after the iteration. -/
theorem Step.line_balance (st : Step) :
    st.before.bankLine ++ st.joined = st.left ++ st.after.bankLine := by
  have h := processEvent_line st.popped (get_event_time st.event) st.event
  have hp : st.popped.bankLine = st.before.bankLine := rfl
  rw [hp] at h
  unfold Step.joined Step.left
  rcases h with h | ⟨c, h⟩ | ⟨c, rest, hb, h⟩
  · have ha : st.after.bankLine = st.before.bankLine := h
    rw [ha]
    simp
  · have ha : st.after.bankLine = st.before.bankLine ++ [c] := h
    rw [ha]
    simp
  · have ha : st.after.bankLine = rest := h
    rw [ha, hb]
    simp

/-- A complete run can be cut at any point of its log: the rest of the log is a complete
run from an intermediate state, and up to there the customers who left the line, followed
by those still waiting, are the initial line followed by the customers who joined. -/
theorem Run.split {s s2 : BankSim3000} {log : List Step} (h : Run s log s2) :
    ∀ l1 l2, log = l1 ++ l2 →
      ∃ sm, Run sm l2 s2 ∧ s.bankLine ++ joins l1 = leaves l1 ++ sm.bankLine := by
  induction h with
  | @done s hq =>
    intro l1 l2 hl
    have h1 : l1 = [] := by
      cases l1 with
      | nil => rfl
      | cons x xs => simp at hl
    have h2 : l2 = [] := by
      subst h1
      simpa using hl.symm
    subst h1 h2
    exact ⟨s, Run.done hq, by simp [joins, leaves]⟩
  | @step k s s1 s2 e log hb hR ih =>
    intro l1 l2 hl
    cases l1 with
    | nil =>
      simp only [List.nil_append] at hl
      subst hl
      exact ⟨s, Run.step hb hR, by simp [joins, leaves]⟩
    | cons x xs =>
      simp only [List.cons_append, List.cons.injEq] at hl
      obtain ⟨hx, hrest⟩ := hl
      obtain ⟨sm, hRm, hbal⟩ := ih xs l2 hrest
      refine ⟨sm, hRm, ?_⟩
      have hstep := Step.line_balance x
      have hafter : x.after = s1 := by
        obtain ⟨_, _, hr⟩ := loopBody_some hb
        rw [← hx]
        have : (s1, (Except.ok () : Except Failure Unit)).1 = s1 := rfl
        rw [← this, hr]
        rfl
      have hbefore : x.before = s := by rw [← hx]
      rw [hafter, hbefore] at hstep
      simp only [joins, leaves, List.flatMap_cons] at hbal ⊢
      rw [← List.append_assoc, hstep, List.append_assoc, hbal, List.append_assoc]

/-- Greatest element: `max_element` returns a value that no element exceeds. -/
theorem maxElementFrom_ge : ∀ (xs : List Time) (x : Time), ∀ y ∈ x :: xs, y ≤ maxElementFrom x xs
  | [], x => by simp [maxElementFrom]
  | z :: zs, x => by
    intro y hy
    have ih := maxElementFrom_ge zs (if x < z then z else x)
    have hstep : maxElementFrom x (z :: zs) = maxElementFrom (if x < z then z else x) zs := rfl
    rw [hstep]
    have hx : x ≤ (if x < z then z else x) := by
      split
      · exact le_of_lt (by assumption)
      · exact le_refl _
    have hz : z ≤ (if x < z then z else x) := by
      split
      · exact le_refl _
      · exact not_lt.1 (by assumption)
    rcases List.mem_cons.1 hy with rfl | hy
    · exact le_trans hx (ih _ (List.mem_cons_self _ _))
    · rcases List.mem_cons.1 hy with rfl | hy
      · exact le_trans hz (ih _ (List.mem_cons_self _ _))
      · exact ih y (List.mem_cons_of_mem _ hy)

/-- A value returned by `SimulationResults::maxTellerBusyTime()` is an entry of the vector
and no entry exceeds it. -/
theorem maxTellerBusyTime_is_max {r : SimulationResults} {v : Time}
    (h : r.maxTellerBusyTime = .ok v) :
    v ∈ r.elapsedTimeBusy ∧ ∀ x ∈ r.elapsedTimeBusy, x ≤ v := by
  unfold SimulationResults.maxTellerBusyTime at h
  cases hr : r.elapsedTimeBusy with
  | nil => simp [hr] at h
  | cons x xs =>
    simp only [hr, Except.ok.injEq] at h
    subst h
    exact ⟨maxElementFrom_mem xs x, maxElementFrom_ge xs x⟩

/-! ### The state after a successful set-up -/

/-- A set-up that succeeds was given a valid teller count, found the queue and the line
empty, and produced `setupState`. -/
theorem setupSimulation_success {s s1 : BankSim3000} {n : Nat}
    (h : setupSimulation s n = (s1, .ok ())) :
    1 ≤ n ∧ n ≤ 5 ∧ s.eventQueue = [] ∧ s.bankLine = [] ∧ s1 = setupState s n := by
  unfold setupSimulation at h
  by_cases h1 : n < MIN_TELLERS
  · simp [h1] at h
  · by_cases h5 : n > MAX_TELLERS
    · simp [h1, h5] at h
    · simp only [h1, h5, if_false] at h
      have hn1 : 1 ≤ n := by
        unfold MIN_TELLERS at h1
        omega
      have hn5 : n ≤ 5 := by
        unfold MAX_TELLERS at h5
        omega
      cases hq : s.eventQueue with
      | cons e q => simp [setupEventQueue, hq] at h
      | nil =>
        cases hl : s.bankLine with
        | cons c l => simp [setupEventQueue, hq, clearBankLine, resetTellers, hl] at h
        | nil =>
          have := setupSimulation_ok (s := s) hn1 hn5 hq hl
          unfold setupSimulation at this
          simp only [h1, h5, if_false] at this
          rw [this] at h
          simp only [Prod.mk.injEq, and_true] at h
          exact ⟨hn1, hn5, rfl, rfl, h.symm⟩

/-! ### Two resolutions of a tie -/

theorem traceIs_spec (events : List Event) (v : Time)
    (r : Option (List Step × BankSim3000 × Except Failure Time)) (h : traceIs events v r = true) :
    ∃ log s2, r = some (log, s2, .ok v) ∧ log.map (fun st => st.event) = events := by
  unfold traceIs at h
  split at h
  · rename_i log s2 w
    simp only [Bool.and_eq_true, decide_eq_true_eq] at h
    exact ⟨log, s2, by rw [h.2], h.1⟩
  · exact absurd h (by simp)

/-- In a call of `maxTellerBusyTime(n)` with a valid `n` every event processed has the
least time of the events stored when it is removed. -/
theorem maxTellerBusyTimeLog_least (tie : Nat → Nat) {s : BankSim3000} {n : Nat}
    (h1 : 1 ≤ n) (h5 : n ≤ 5) (hq : s.eventQueue = []) (hl : s.bankLine = [])
    {log : List Step} {s2 : BankSim3000} {r : Except Failure Time}
    (h : maxTellerBusyTimeLog tie s n = some (log, s2, r)) :
    ∀ st ∈ log, ∀ x ∈ st.before.eventQueue, get_event_time st.event ≤ get_event_time x := by
  obtain ⟨log1, s3, v, hcall, hR, _⟩ := maxTellerBusyTimeLog_run tie h1 h5 hq hl
  rw [hcall] at h
  simp only [Option.some.injEq, Prod.mk.injEq] at h
  obtain ⟨hlog, _, _⟩ := h
  subst hlog
  intro st hst x hx
  obtain ⟨k, hk⟩ := Run.steps hR st hst
  exact (loopBody_some hk).2.1 x hx

end BusyTime

/-! ## Wait-time variant: proofs -/

namespace TrackCustomer

/-! ## Wait-time variant: one iteration of the loop -/

theorem compareEvent_key_wait (a b : Event) :
    CompareEvent a b = decide (-get_event_time b < -get_event_time a) := by
  simp [CompareEvent]

/-- The loop body does nothing exactly when the queue is empty. -/
theorem loopBody_eq_none_wait {k : Nat} {s : BankSim3000} :
    loopBody k s = none ↔ s.eventQueue = [] := by
  constructor
  · intro h
    by_contra hq
    obtain ⟨e, he⟩ := top_isSome (fun x => -get_event_time x) compareEvent_key_wait k hq
    simp [loopBody, he] at h
  · intro h
    simp [loopBody, h, top_nil]

/-- The event removed by the loop body is stored, has the greatest time of all stored
events, and the body processes it at its own time in the state without it. -/
theorem loopBody_some_wait {k : Nat} {s : BankSim3000} {e : Event}
    {r : BankSim3000 × Except Failure Unit} (h : loopBody k s = some (e, r)) :
    e ∈ s.eventQueue ∧ (∀ x ∈ s.eventQueue, get_event_time x ≤ get_event_time e) ∧
      r = processEvent { s with eventQueue := s.eventQueue.erase e } (get_event_time e) e := by
  unfold loopBody at h
  split at h
  · exact absurd h (by simp)
  · rename_i e0 he0
    simp only [Option.some.injEq, Prod.mk.injEq] at h
    obtain ⟨rfl, rfl⟩ := h
    have hm := mem_tops.1 (top_mem_tops he0)
    refine ⟨hm.1, ?_, rfl⟩
    intro x hx
    have := hm.2 x hx
    simp [compareEvent_key_wait] at this
    exact this

theorem searchFrom_none_wait {i : Nat} {ts : List Teller} (h : searchFrom i ts = none) :
    ∀ t ∈ ts, t.isAvailable = false := by
  induction ts generalizing i with
  | nil => simp
  | cons t ts ih =>
    unfold searchFrom at h
    split at h
    · exact absurd h (by simp)
    · rename_i hav
      intro x hx
      rcases List.mem_cons.1 hx with rfl | hx
      · simpa using hav
      · exact ih h x hx

theorem searchFrom_some_wait {i j : Nat} {ts : List Teller} (h : searchFrom i ts = some j) :
    i ≤ j ∧ (∃ t, ts[j - i]? = some t ∧ t.isAvailable = true) ∧
      ∀ m t, m < j - i → ts[m]? = some t → t.isAvailable = false := by
  induction ts generalizing i with
  | nil => simp [searchFrom] at h
  | cons t ts ih =>
    unfold searchFrom at h
    split at h
    · rename_i hav
      simp only [Option.some.injEq] at h
      subst h
      exact ⟨le_refl _, ⟨t, by simp, hav⟩, by intro m t hm; omega⟩
    · rename_i hav
      obtain ⟨hle, ⟨t', ht', hav'⟩, hlow⟩ := ih h
      have hj : j - i = (j - (i + 1)) + 1 := by omega
      refine ⟨by omega, ⟨t', by rw [hj]; simpa using ht', hav'⟩, ?_⟩
      intro m x hm hx
      cases m with
      | zero =>
        simp at hx
        subst hx
        simpa using hav
      | succ m =>
        simp at hx
        exact hlow m x (by omega) hx

/-- The teller found by `searchAvailableTellers` exists and is available. -/
theorem searchAvailableTellers_some_wait {s : BankSim3000} {j : Nat}
    (h : searchAvailableTellers s = some j) :
    ∃ t, s.tellers[j]? = some t ∧ t.isAvailable = true := by
  have := (searchFrom_some_wait h).2.1
  simpa using this

theorem pendingDepartures_append_wait (i : Nat) (q : List Event) (e : Event) :
    pendingDepartures i (q ++ [e]) = pendingDepartures i q + (if isDepartureOf i e then 1 else 0) := by
  simp [pendingDepartures, List.countP_append, List.countP_cons]

theorem pendingDepartures_erase_wait (i : Nat) {q : List Event} {e : Event} (h : e ∈ q) :
    pendingDepartures i q =
      pendingDepartures i (q.erase e) + (if isDepartureOf i e then 1 else 0) :=
  countP_erase_of_mem _ h

/-- Processing an arrival in a consistent state succeeds and keeps the state consistent. -/
theorem processArrival_consistent_wait {s : BankSim3000} (hs : Consistent s) (currentTime : Time)
    (a : ArrivalEvent) :
    (processArrival s currentTime a).2 = .ok () ∧ Consistent (processArrival s currentTime a).1 := by
  unfold processArrival
  cases hsearch : searchAvailableTellers s with
  | none =>
    have hbusy := searchFrom_none_wait hsearch
    refine ⟨rfl, ⟨hs.index_lt, hs.pending, fun _ => hbusy⟩⟩
  | some j =>
    obtain ⟨t, ht, hav⟩ := searchAvailableTellers_some_wait hsearch
    have hj : j < s.tellers.length := by
      rcases List.getElem?_eq_some.1 ht with ⟨h, _⟩
      exact h
    have h0 : pendingDepartures j s.eventQueue = 0 := by
      simpa [hav] using hs.pending j t ht
    simp only [ht]
    refine ⟨trivial, ⟨?_, ?_, ?_⟩⟩
    · intro d hd
      simp only [List.mem_append, List.mem_singleton, Event.departure.injEq] at hd
      rcases hd with hd | rfl
      · simpa using hs.index_lt d hd
      · simpa using hj
    · intro i t' hi
      simp only [pendingDepartures_append_wait, isDepartureOf]
      by_cases hij : j = i
      · subst hij
        simp [List.getElem?_set, hj] at hi
        subst hi
        simp [h0, Teller.isAvailable, Teller.startService]
      · simp [List.getElem?_set, hij] at hi
        simpa [hij] using hs.pending i t' hi
    · intro hline
      have := hs.line hline t (List.getElem?_mem ht)
      simp [hav] at this

/-- Processing a stored departure in a consistent state, after its removal from the
queue, succeeds and keeps the state consistent. -/
theorem processDeparture_consistent_wait {s : BankSim3000} (hs : Consistent s) (currentTime : Time)
    (d : DepartureEvent) (hd : Event.departure d ∈ s.eventQueue) :
    (processDeparture { s with eventQueue := s.eventQueue.erase (.departure d) }
        currentTime d).2 = .ok () ∧
      Consistent (processDeparture { s with eventQueue := s.eventQueue.erase (.departure d) }
        currentTime d).1 := by
  have hidx := hs.index_lt d hd
  obtain ⟨t, ht⟩ : ∃ t, s.tellers[d.tellerIndex]? = some t :=
    ⟨s.tellers[d.tellerIndex], List.getElem?_eq_getElem hidx⟩
  have herase := pendingDepartures_erase_wait d.tellerIndex hd
  simp only [isDepartureOf, beq_self_eq_true, if_true] at herase
  have hpend := hs.pending _ t ht
  have hbusy : t.isAvailable = false := by
    cases hav : t.isAvailable with
    | false => rfl
    | true => rw [hav] at hpend; simp at hpend; omega
  have h0 : pendingDepartures d.tellerIndex (s.eventQueue.erase (.departure d)) = 0 := by
    rw [hbusy] at hpend; simp at hpend; omega
  have hother : ∀ i, i ≠ d.tellerIndex →
      pendingDepartures i (s.eventQueue.erase (.departure d)) =
        pendingDepartures i s.eventQueue := by
    intro i hi
    have := pendingDepartures_erase_wait i hd
    simp only [isDepartureOf] at this
    have hne : (d.tellerIndex == i) = false := by simpa using fun h => hi h.symm
    simp [hne] at this
    exact this.symm
  have hsub : ∀ d', Event.departure d' ∈ s.eventQueue.erase (.departure d) →
      d'.tellerIndex < s.tellers.length :=
    fun d' hd' => hs.index_lt d' (List.mem_of_mem_erase hd')
  unfold processDeparture
  cases hline : s.bankLine with
  | nil =>
    simp only [hline, ht]
    refine ⟨trivial, ⟨?_, ?_, ?_⟩⟩
    · intro d' hd'
      simpa using hsub d' hd'
    · intro i t' hi
      by_cases hij : d.tellerIndex = i
      · subst hij
        simp [List.getElem?_set, hidx] at hi
        subst hi
        simp [h0, Teller.isAvailable, Teller.stopService]
      · simp [List.getElem?_set, hij] at hi
        rw [hother i (fun h => hij h.symm)]
        exact hs.pending i t' hi
    · intro h
      exact absurd rfl h
  | cons c rest =>
    have hall := hs.line (by simp [hline])
    simp only [hline, ht]
    refine ⟨trivial, ⟨?_, ?_, ?_⟩⟩
    · intro d' hd'
      simp only [List.mem_append, List.mem_singleton, Event.departure.injEq] at hd'
      rcases hd' with hd' | rfl
      · simpa using hsub d' hd'
      · simpa using hidx
    · intro i t' hi
      simp only [pendingDepartures_append_wait, isDepartureOf]
      by_cases hij : d.tellerIndex = i
      · subst hij
        simp [List.getElem?_set, hidx] at hi
        subst hi
        simp [h0, Teller.isAvailable, Teller.startService]
      · simp [List.getElem?_set, hij] at hi
        rw [hother i (fun h => hij h.symm)]
        simpa [hij] using hs.pending i t' hi
    · intro _ t' ht'
      rcases List.mem_or_eq_of_mem_set ht' with h | rfl
      · exact hall t' h
      · simp [Teller.isAvailable, Teller.startService]

/-- Removing a stored arrival keeps the state consistent. -/
theorem consistent_erase_arrival_wait {s : BankSim3000} (hs : Consistent s) (a : ArrivalEvent)
    (ha : Event.arrival a ∈ s.eventQueue) :
    Consistent { s with eventQueue := s.eventQueue.erase (.arrival a) } := by
  refine ⟨fun d hd => hs.index_lt d (List.mem_of_mem_erase hd), ?_, hs.line⟩
  intro i t hi
  have := pendingDepartures_erase_wait i ha
  simp only [isDepartureOf] at this
  simp at this
  rw [← this]
  exact hs.pending i t hi

/-- One iteration of the loop in a consistent state succeeds and keeps the state
consistent. -/
theorem loopBody_consistent_wait {k : Nat} {s : BankSim3000} {e : Event}
    {r : BankSim3000 × Except Failure Unit} (hs : Consistent s)
    (h : loopBody k s = some (e, r)) : r.2 = .ok () ∧ Consistent r.1 := by
  obtain ⟨hmem, _, rfl⟩ := loopBody_some_wait h
  cases e with
  | arrival a =>
    exact processArrival_consistent_wait (consistent_erase_arrival_wait hs a hmem) _ a
  | departure d =>
    exact processDeparture_consistent_wait hs _ d hmem

/-! ## Wait-time variant: the loop -/

theorem pendingWork_erase_wait {s : BankSim3000} {e : Event} (h : e ∈ s.eventQueue) :
    pendingWork s =
      eventWeight e + pendingWork { s with eventQueue := s.eventQueue.erase e } := by
  simp only [pendingWork]
  rw [sum_map_erase eventWeight h]
  omega

/-- A successful `processArrival` leaves at most one unit of work more. -/
theorem processArrival_pendingWork_wait (s : BankSim3000) (currentTime : Time) (a : ArrivalEvent) :
    pendingWork (processArrival s currentTime a).1 ≤ pendingWork s + 1 := by
  unfold processArrival
  split
  · split
    · simp
    · simp [pendingWork, eventWeight]; omega
  · simp [pendingWork]; omega

/-- A `processDeparture` never adds work. -/
theorem processDeparture_pendingWork_wait (s : BankSim3000) (currentTime : Time)
    (d : DepartureEvent) :
    pendingWork (processDeparture s currentTime d).1 ≤ pendingWork s := by
  unfold processDeparture
  cases hline : s.bankLine with
  | nil =>
    simp only
    cases s.tellers[d.tellerIndex]? with
    | none => simp [pendingWork, hline]
    | some t => simp [pendingWork, hline]
  | cons c rest =>
    simp only
    cases s.tellers[d.tellerIndex]? with
    | none => simp [pendingWork, hline]
    | some t => simp [pendingWork, eventWeight, hline]; omega

/-- Every iteration of the loop lowers the termination measure. -/
theorem loopBody_pendingWork_wait {k : Nat} {s : BankSim3000} {e : Event}
    {r : BankSim3000 × Except Failure Unit} (h : loopBody k s = some (e, r)) :
    pendingWork r.1 < pendingWork s := by
  obtain ⟨hmem, _, rfl⟩ := loopBody_some_wait h
  rw [pendingWork_erase_wait hmem]
  cases e with
  | arrival a =>
    have := processArrival_pendingWork_wait { s with eventQueue := s.eventQueue.erase (.arrival a) }
      a.arrivalTime a
    simp only [processEvent, get_event_time, eventWeight]
    omega
  | departure d =>
    have := processDeparture_pendingWork_wait
      { s with eventQueue := s.eventQueue.erase (.departure d) } d.departureTime d
    simp only [processEvent, get_event_time, eventWeight]
    omega

/-- Termination of the loop: with fuel at least the termination measure the loop returns,
whatever the state, the times and the tie-breaks. -/
theorem runLoop_isSome_wait : ∀ (fuel : Nat) (tie : Nat → Nat) (s : BankSim3000),
    pendingWork s ≤ fuel → (runLoop fuel tie s).isSome = true := by
  intro fuel
  induction fuel with
  | zero =>
    intro tie s hf
    unfold runLoop
    cases hb : loopBody (tie 0) s with
    | none => rfl
    | some r =>
      obtain ⟨e, s1, res⟩ := r
      have := loopBody_pendingWork_wait hb
      omega
  | succ fuel ih =>
    intro tie s hf
    unfold runLoop
    cases hb : loopBody (tie 0) s with
    | none => rfl
    | some r =>
      obtain ⟨e, s1, res⟩ := r
      have hlt := loopBody_pendingWork_wait hb
      cases res with
      | error f => rfl
      | ok u =>
        cases u
        have := ih (fun i => tie (i + 1)) s1 (by simp at hlt; omega)
        simp only
        cases hr : runLoop fuel (fun i => tie (i + 1)) s1 with
        | none => simp [hr] at this
        | some r => rfl

/-- From a consistent state and with enough fuel the loop returns normally, and what it
returns is a complete run. -/
theorem runLoop_run_wait : ∀ (fuel : Nat) (tie : Nat → Nat) (s : BankSim3000),
    Consistent s → pendingWork s ≤ fuel →
    ∃ log s2, runLoop fuel tie s = some (log, s2, .ok ()) ∧ Run s log s2 := by
  intro fuel
  induction fuel with
  | zero =>
    intro tie s _ hf
    unfold runLoop
    cases hb : loopBody (tie 0) s with
    | none => exact ⟨[], s, rfl, Run.done (loopBody_eq_none_wait.1 hb)⟩
    | some r =>
      obtain ⟨e, s1, res⟩ := r
      have := loopBody_pendingWork_wait hb
      omega
  | succ fuel ih =>
    intro tie s hs hf
    unfold runLoop
    cases hb : loopBody (tie 0) s with
    | none => exact ⟨[], s, rfl, Run.done (loopBody_eq_none_wait.1 hb)⟩
    | some r =>
      obtain ⟨e, s1, res⟩ := r
      have hlt := loopBody_pendingWork_wait hb
      obtain ⟨hok, hs1⟩ := loopBody_consistent_wait hs hb
      simp only at hok hs1 hlt
      subst hok
      obtain ⟨log, s2, hrun, hR⟩ := ih (fun i => tie (i + 1)) s1 hs1 (by omega)
      exact ⟨⟨s, e⟩ :: log, s2, by simp [hrun], Run.step hb hR⟩

/-- A complete run ends with an empty queue. -/
theorem Run.eventQueue_eq_nil_wait {s s2 : BankSim3000} {log : List Step} (h : Run s log s2) :
    s2.eventQueue = [] := by
  induction h with
  | done hq => exact hq
  | step _ _ ih => exact ih

/-- Consistency holds at the head of every iteration of a complete run and at its end. -/
theorem Run.consistent_wait {s s2 : BankSim3000} {log : List Step} (h : Run s log s2)
    (hs : Consistent s) : Consistent s2 ∧ ∀ st ∈ log, Consistent st.before := by
  induction h with
  | done _ => exact ⟨hs, by simp⟩
  | step hb _ ih =>
    obtain ⟨h2, hlog⟩ := ih (loopBody_consistent_wait hs hb).2
    refine ⟨h2, ?_⟩
    intro st hst
    rcases List.mem_cons.1 hst with rfl | hst
    · exact hs
    · exact hlog st hst

theorem processArrival_frame_wait (s : BankSim3000) (currentTime : Time) (a : ArrivalEvent) :
    (processArrival s currentTime a).1.tellers.length = s.tellers.length ∧
      (processArrival s currentTime a).1.simulationInput = s.simulationInput := by
  unfold processArrival
  split
  · split <;> simp
  · simp

theorem processDeparture_frame_wait (s : BankSim3000) (currentTime : Time) (d : DepartureEvent) :
    (processDeparture s currentTime d).1.tellers.length = s.tellers.length ∧
      (processDeparture s currentTime d).1.simulationInput = s.simulationInput := by
  unfold processDeparture
  cases s.bankLine with
  | nil =>
    simp only
    cases s.tellers[d.tellerIndex]? with
    | none => simp
    | some t => simp
  | cons c rest =>
    simp only
    cases s.tellers[d.tellerIndex]? with
    | none => simp
    | some t => simp

/-- An iteration changes neither the number of tellers nor the stored input. -/
theorem loopBody_frame_wait {k : Nat} {s : BankSim3000} {e : Event}
    {r : BankSim3000 × Except Failure Unit} (h : loopBody k s = some (e, r)) :
    r.1.tellers.length = s.tellers.length ∧ r.1.simulationInput = s.simulationInput := by
  obtain ⟨_, _, rfl⟩ := loopBody_some_wait h
  cases e with
  | arrival a => exact processArrival_frame_wait _ _ a
  | departure d => exact processDeparture_frame_wait _ _ d

theorem Run.frame_wait {s s2 : BankSim3000} {log : List Step} (h : Run s log s2) :
    s2.tellers.length = s.tellers.length ∧ s2.simulationInput = s.simulationInput := by
  induction h with
  | done _ => exact ⟨rfl, rfl⟩
  | step hb _ ih =>
    have := loopBody_frame_wait hb
    simp only at this
    exact ⟨ih.1.trans this.1, ih.2.trans this.2⟩

/-- In a consistent state with at least one teller and an empty queue nobody waits. -/
theorem Consistent.bankLine_eq_nil_wait {s : BankSim3000} (hs : Consistent s)
    (hq : s.eventQueue = []) (hn : 0 < s.tellers.length) : s.bankLine = [] := by
  by_contra hline
  have hbusy := hs.line hline (s.tellers[0]) (List.getElem_mem hn)
  have := hs.pending 0 (s.tellers[0]) (List.getElem?_eq_getElem hn)
  rw [hbusy, hq] at this
  simp [pendingDepartures] at this

/-- In a consistent state with an empty queue every teller is available. -/
theorem Consistent.all_available_wait {s : BankSim3000} (hs : Consistent s)
    (hq : s.eventQueue = []) : ∀ t ∈ s.tellers, t.isAvailable = true := by
  intro t ht
  obtain ⟨i, hi⟩ := List.mem_iff_getElem?.1 ht
  have := hs.pending i t hi
  rw [hq] at this
  cases hav : t.isAvailable with
  | true => rfl
  | false => rw [hav] at this; simp [pendingDepartures] at this

/-- With a valid teller count and nothing left over from an earlier run, the set-up
succeeds and produces `setupState`. -/
theorem setupSimulation_ok_wait {s : BankSim3000} {n : Nat} (h1 : 1 ≤ n) (h5 : n ≤ 5)
    (hq : s.eventQueue = []) (hl : s.bankLine = []) :
    setupSimulation s n = (setupState s n, .ok ()) := by
  have h1' : ¬ n < MIN_TELLERS := by simp [MIN_TELLERS]; omega
  have h5' : ¬ n > MAX_TELLERS := by simp [MAX_TELLERS]; omega
  simp [setupSimulation, h1', h5', setupEventQueue, hq, clearBankLine, resetTellers, hl,
    setupState, clearCompletedWaitTimes]

theorem pendingDepartures_arrivals_wait (i : Nat) (l : List ArrivalEvent) :
    pendingDepartures i (l.map Event.arrival) = 0 := by
  simp [pendingDepartures, List.countP_eq_zero, isDepartureOf]

/-- The state after set-up is consistent. -/
theorem setupState_consistent_wait (s : BankSim3000) (n : Nat) : Consistent (setupState s n) := by
  refine ⟨?_, ?_, ?_⟩
  · intro d hd
    simp [setupState] at hd
  · intro i t hi
    simp only [setupState] at hi ⊢
    rw [pendingDepartures_arrivals_wait]
    have : t = Teller.new := by
      have := List.getElem?_mem hi
      exact (List.mem_replicate.1 this).2
    subst this
    simp [Teller.isAvailable, Teller.new]
  · intro h
    simp [setupState] at h

/-- A call of `run(n)` with a valid `n`, on an object whose queue and line are empty,
returns the gathered results after a complete run from the set-up state. -/
theorem runLog_run_wait (tie : Nat → Nat) {s : BankSim3000} {n : Nat}
    (h1 : 1 ≤ n) (h5 : n ≤ 5) (hq : s.eventQueue = []) (hl : s.bankLine = []) :
    ∃ log s2, runLog tie s n = some (log, s2, .ok (gatherResults s2)) ∧
      Run (setupState s n) log s2 := by
  obtain ⟨log, s2, hrun, hR⟩ :=
    runLoop_run_wait (pendingWork (setupState s n)) tie (setupState s n)
      (setupState_consistent_wait s n) (le_refl _)
  refine ⟨log, s2, ?_, hR⟩
  simp [runLog, setupSimulation_ok_wait h1 h5 hq hl, runSimulation, hrun]

/-- After a complete run from the set-up state the queue and the line are empty and the
stored input is the one given. -/
theorem run_setupState_drained_wait {s s2 : BankSim3000} {n : Nat} {log : List Step} (h1 : 1 ≤ n)
    (hR : Run (setupState s n) log s2) :
    s2.eventQueue = [] ∧ s2.bankLine = [] ∧ s2.simulationInput = s.simulationInput := by
  have hc := (Run.consistent_wait hR (setupState_consistent_wait s n)).1
  have hlen : 0 < s2.tellers.length := by
    rw [(Run.frame_wait hR).1]
    simp [setupState]
    omega
  exact ⟨Run.eventQueue_eq_nil_wait hR,
    Consistent.bankLine_eq_nil_wait hc (Run.eventQueue_eq_nil_wait hR) hlen, (Run.frame_wait hR).2⟩

/-! ### Unfolding the loop, fuel, and the kinds of failure -/

theorem runLoop_of_none_wait {fuel : Nat} {tie : Nat → Nat} {s : BankSim3000}
    (h : loopBody (tie 0) s = none) : runLoop fuel tie s = some ([], s, .ok ()) := by
  unfold runLoop
  simp [h]

theorem runLoop_of_error_wait {fuel : Nat} {tie : Nat → Nat} {s s1 : BankSim3000} {e : Event}
    {f : Failure} (h : loopBody (tie 0) s = some (e, s1, .error f)) :
    runLoop fuel tie s = some ([⟨s, e⟩], s1, .error f) := by
  unfold runLoop
  simp [h]

theorem runLoop_of_ok_wait {fuel : Nat} {tie : Nat → Nat} {s s1 : BankSim3000} {e : Event}
    (h : loopBody (tie 0) s = some (e, s1, .ok ())) :
    runLoop (fuel + 1) tie s =
      (runLoop fuel (fun i => tie (i + 1)) s1).map (fun r => (⟨s, e⟩ :: r.1, r.2)) := by
  rw [runLoop]
  simp only [h]
  cases runLoop fuel (fun i => tie (i + 1)) s1 with
  | none => rfl
  | some r => rfl

/-- Fuel beyond the termination measure does not change what the loop returns. -/
theorem runLoop_fuel_wait : ∀ (f1 f2 : Nat) (tie : Nat → Nat) (s : BankSim3000),
    pendingWork s ≤ f1 → pendingWork s ≤ f2 → runLoop f1 tie s = runLoop f2 tie s := by
  intro f1
  induction f1 with
  | zero =>
    intro f2 tie s h1 _
    cases hb : loopBody (tie 0) s with
    | none => rw [runLoop_of_none_wait hb, runLoop_of_none_wait hb]
    | some r =>
      have := loopBody_pendingWork_wait hb
      omega
  | succ f1 ih =>
    intro f2 tie s h1 h2
    cases hb : loopBody (tie 0) s with
    | none => rw [runLoop_of_none_wait hb, runLoop_of_none_wait hb]
    | some r =>
      obtain ⟨e, s1, res⟩ := r
      have hlt := loopBody_pendingWork_wait hb
      simp only at hlt
      cases res with
      | error f => rw [runLoop_of_error_wait hb, runLoop_of_error_wait hb]
      | ok u =>
        cases u
        cases f2 with
        | zero => omega
        | succ f2 =>
          rw [runLoop_of_ok_wait hb, runLoop_of_ok_wait hb,
            ih f2 (fun i => tie (i + 1)) s1 (by omega) (by omega)]

/-- The failures that event processing can produce. -/
theorem processEvent_error_wait {s : BankSim3000} {currentTime : Time} {e : Event} {f : Failure}
    (h : (processEvent s currentTime e).2 = .error f) : f = .outOfBounds := by
  cases e with
  | arrival a =>
    simp only [processEvent, processArrival] at h
    split at h
    · split at h
      · simp at h; exact h.symm
      · simp at h
    · simp at h
  | departure d =>
    simp only [processEvent, processDeparture] at h
    split at h
    · split at h
      · simp at h; exact h.symm
      · simp at h
    · split at h
      · simp at h; exact h.symm
      · simp at h

/-- The failures with which the loop can end. -/
theorem runLoop_error_wait : ∀ (fuel : Nat) (tie : Nat → Nat) (s s2 : BankSim3000)
    (log : List Step) (f : Failure), runLoop fuel tie s = some (log, s2, .error f) →
    f = .outOfBounds := by
  intro fuel
  induction fuel with
  | zero =>
    intro tie s s2 log f h
    cases hb : loopBody (tie 0) s with
    | none => rw [runLoop_of_none_wait hb] at h; simp at h
    | some r =>
      obtain ⟨e, s1, res⟩ := r
      cases res with
      | error f1 =>
        rw [runLoop_of_error_wait hb] at h
        simp at h
        obtain ⟨_, _, rfl⟩ := h
        obtain ⟨_, _, hr⟩ := loopBody_some_wait hb
        exact processEvent_error_wait (by rw [← hr])
      | ok u =>
        cases u
        unfold runLoop at h
        simp [hb] at h
  | succ fuel ih =>
    intro tie s s2 log f h
    cases hb : loopBody (tie 0) s with
    | none => rw [runLoop_of_none_wait hb] at h; simp at h
    | some r =>
      obtain ⟨e, s1, res⟩ := r
      cases res with
      | error f1 =>
        rw [runLoop_of_error_wait hb] at h
        simp at h
        obtain ⟨_, _, rfl⟩ := h
        obtain ⟨_, _, hr⟩ := loopBody_some_wait hb
        exact processEvent_error_wait (by rw [← hr])
      | ok u =>
        cases u
        rw [runLoop_of_ok_wait hb] at h
        cases hr : runLoop fuel (fun i => tie (i + 1)) s1 with
        | none => simp [hr] at h
        | some r =>
          obtain ⟨log1, s3, res1⟩ := r
          simp [hr] at h
          obtain ⟨_, _, hres⟩ := h
          subst hres
          exact ih _ _ _ _ _ hr

/-! ### The configuration check -/

/-- A rejected teller count: the call throws `invalid_argument` before anything is
touched, so the log is empty and the state is the one before the call. -/
theorem runLog_invalid_wait (tie : Nat → Nat) (s : BankSim3000) {n : Nat}
    (h : n < 1 ∨ 5 < n) :
    ∃ msg, runLog tie s n = some ([], s, .error (.invalidArgument msg)) := by
  rcases h with h | h
  · have : n < MIN_TELLERS := by simpa [MIN_TELLERS] using h
    exact ⟨"Teller count must >= 1", by simp [runLog, setupSimulation, this]⟩
  · have h1 : ¬ n < MIN_TELLERS := by simp [MIN_TELLERS]; omega
    have h5 : n > MAX_TELLERS := by simpa [MAX_TELLERS] using h
    exact ⟨"Teller count must be <= 5", by
      simp [runLog, setupSimulation, h1, h5]⟩

/-- An accepted teller count: whatever the state, the call does not end with
`invalid_argument`. -/
theorem runLog_valid_wait (tie : Nat → Nat) (s : BankSim3000) {n : Nat}
    (h1 : 1 ≤ n) (h5 : n ≤ 5) (log : List Step) (s2 : BankSim3000) (msg : String) :
    runLog tie s n ≠ some (log, s2, .error (.invalidArgument msg)) := by
  have h1' : ¬ n < MIN_TELLERS := by simp [MIN_TELLERS]; omega
  have h5' : ¬ n > MAX_TELLERS := by simp [MAX_TELLERS]; omega
  intro h
  unfold runLog at h
  have hsetup : ∀ s1 f, setupSimulation s n = (s1, .error f) → f = .assertionFailed := by
    intro s1 f hs
    simp only [setupSimulation, h1', h5', if_false, setupEventQueue, clearBankLine] at hs
    split at hs
    · rename_i heq
      split at heq <;> simp at heq
      simp at hs
      exact heq.2.symm ▸ hs.2.symm ▸ rfl
    · rename_i heq
      split at hs
      · rename_i heq2
        split at heq2 <;> simp at heq2
        simp at hs
        exact heq2.2.symm ▸ hs.2.symm ▸ rfl
      · simp at hs
  split at h
  · rename_i s1 f hs
    have := hsetup s1 f hs
    subst this
    simp at h
  · rename_i s1 hs
    unfold runSimulation at h
    split at h
    · simp at h
    · rename_i log1 s3 f hr
      have := runLoop_error_wait _ _ _ _ _ _ hr
      subst this
      simp at h
    · simp at h

/-! ### Counting the events processed -/

@[simp]
theorem isArrival_arrival_wait (a : ArrivalEvent) : (Event.arrival a).isArrival = true := rfl

@[simp]
theorem isArrival_departure_wait (d : DepartureEvent) :
    (Event.departure d).isArrival = false := rfl

/-- A successful iteration on an arrival moves one customer from the pending arrivals
into the bank; one on a departure lets one customer leave the bank. -/
theorem loopBody_counts_wait {k : Nat} {s s1 : BankSim3000} {e : Event}
    (h : loopBody k s = some (e, s1, .ok ())) :
    (e.isArrival = true →
      arrivalsPending s = arrivalsPending s1 + 1 ∧ customersInside s1 = customersInside s + 1) ∧
    (e.isArrival = false →
      arrivalsPending s = arrivalsPending s1 ∧ customersInside s = customersInside s1 + 1) := by
  obtain ⟨hmem, _, hr⟩ := loopBody_some_wait h
  have hA := countP_erase_of_mem Event.isArrival hmem
  have hD := countP_erase_of_mem (fun e => !e.isArrival) hmem
  cases e with
  | arrival a =>
    simp only [isArrival_arrival_wait, if_true, Bool.not_true, Bool.false_eq_true, if_false] at hA hD
    refine ⟨fun _ => ?_, fun h => by simp at h⟩
    simp only [processEvent, processArrival] at hr
    split at hr
    · split at hr
      · simp at hr
      · simp only [Prod.mk.injEq, and_true] at hr
        subst hr
        simp only [arrivalsPending, customersInside, List.countP_append, List.countP_cons,
          List.countP_nil, isArrival_departure_wait, hA, hD, Bool.false_eq_true, if_false,
          Bool.not_false, if_true, List.length_nil]
        exact ⟨trivial, by omega⟩
    · simp only [Prod.mk.injEq, and_true] at hr
      subst hr
      simp only [arrivalsPending, customersInside, hA, hD, List.length_append,
        List.length_singleton]
      exact ⟨trivial, by omega⟩
  | departure d =>
    simp only [isArrival_departure_wait, Bool.false_eq_true, if_false, Bool.not_false, if_true]
      at hA hD
    refine ⟨fun h => by simp at h, fun _ => ?_⟩
    simp only [processEvent, processDeparture] at hr
    split at hr
    · rename_i c rest hline
      split at hr
      · simp at hr
      · simp only [Prod.mk.injEq, and_true] at hr
        subst hr
        simp only [arrivalsPending, customersInside, List.countP_append, List.countP_cons,
          List.countP_nil, isArrival_departure_wait, hA, hD, hline, List.length_cons,
          Bool.false_eq_true, if_false, Bool.not_false, if_true]
        exact ⟨trivial, by omega⟩
    · rename_i hline
      split at hr
      · simp at hr
      · simp only [Prod.mk.injEq, and_true] at hr
        subst hr
        simp only [arrivalsPending, customersInside, hA, hD, hline, List.length_nil]
        exact ⟨by omega, by trivial⟩

/-- Over a complete run that ends with an empty line, every pending arrival is processed
once, and there is one departure for every pending arrival and every customer inside. -/
theorem Run.counts_wait {s s2 : BankSim3000} {log : List Step} (h : Run s log s2)
    (hl : s2.bankLine = []) :
    arrivalsProcessed log = arrivalsPending s ∧
      departuresProcessed log = arrivalsPending s + customersInside s := by
  induction h with
  | done hq => simp [arrivalsProcessed, departuresProcessed, arrivalsPending, customersInside, hq, hl]
  | @step k s s1 s2 e log hb _ ih =>
    obtain ⟨ihA, ihD⟩ := ih hl
    have hc := loopBody_counts_wait hb
    cases he : e.isArrival with
    | true =>
      obtain ⟨h1, h2⟩ := hc.1 he
      simp [arrivalsProcessed, departuresProcessed, List.countP_cons, he] at ihA ihD ⊢
      omega
    | false =>
      obtain ⟨h1, h2⟩ := hc.2 he
      simp [arrivalsProcessed, departuresProcessed, List.countP_cons, he] at ihA ihD ⊢
      omega

theorem setupState_counts_wait (s : BankSim3000) (n : Nat) :
    arrivalsPending (setupState s n) = s.simulationInput.length ∧
      customersInside (setupState s n) = 0 := by
  simp [arrivalsPending, customersInside, setupState, List.countP_eq_zero, Event.isArrival,
    List.countP_eq_length]

/-! ### Objects that have been used before -/

/-- The outcome of a call depends on the stored input only, once queue and line are
empty. -/
theorem runLog_clean_wait (tie : Nat → Nat) {s : BankSim3000} {n : Nat}
    (h1 : 1 ≤ n) (h5 : n ≤ 5) (hq : s.eventQueue = []) (hl : s.bankLine = []) :
    runLog tie s n =
      runLog tie (BankSim3000.new s.simulationInput) n := by
  have e1 : setupSimulation s n = (setupState s n, .ok ()) := setupSimulation_ok_wait h1 h5 hq hl
  have e2 : setupSimulation (BankSim3000.new s.simulationInput) n =
      (setupState (BankSim3000.new s.simulationInput) n, .ok ()) :=
    setupSimulation_ok_wait h1 h5 rfl rfl
  have e3 : setupState (BankSim3000.new s.simulationInput) n = setupState s n := rfl
  simp only [runLog, e1, e2, e3]

/-- An object that has been used holds its input and has an empty queue and line. -/
theorem Reachable.clean_wait {input : SimulationInput} {s : BankSim3000} (h : Reachable input s) :
    s.simulationInput = input ∧ s.eventQueue = [] ∧ s.bankLine = [] := by
  induction h with
  | fresh => exact ⟨rfl, rfl, rfl⟩
  | @call s r tie n _ hcall ih =>
    obtain ⟨hin, hq, hl⟩ := ih
    by_cases hn : 1 ≤ n ∧ n ≤ 5
    · obtain ⟨log, s2, hlog, hR⟩ := runLog_run_wait tie hn.1 hn.2 hq hl
      have hd := run_setupState_drained_wait hn.1 hR
      simp [run, hlog] at hcall
      subst hcall
      exact ⟨hd.2.2.trans hin, hd.1, hd.2.1⟩
    · obtain ⟨msg, hlog⟩ := runLog_invalid_wait tie s (n := n) (by omega)
      simp [run, hlog] at hcall
      subst hcall
      exact ⟨hin, hq, hl⟩

/-! ### Runs with positive transaction times -/

theorem processArrival_some_tc {s : BankSim3000} (currentTime : Time) (a : ArrivalEvent)
    {j : Nat} {t : Teller} (h : searchAvailableTellers s = some j)
    (ht : s.tellers[j]? = some t) :
    processArrival s currentTime a =
      ({ s with
          tellers := s.tellers.set j t.startService
          eventQueue := s.eventQueue ++
            [Event.departure ⟨intAdd currentTime a.transactionTime, j, ⟨a, currentTime⟩⟩] },
        .ok ()) := by
  simp [processArrival, h, ht]

theorem processDeparture_quiet {s : BankSim3000} (currentTime : Time) (d : DepartureEvent)
    {t : Teller} (hline : s.bankLine = []) (ht : s.tellers[d.tellerIndex]? = some t)
    (hwait : waitTimeOf currentTime d.customer = 0) :
    processDeparture s currentTime d =
      ({ s with tellers := s.tellers.set d.tellerIndex t.stopService }, .ok ()) := by
  simp [processDeparture, hline, ht, hwait]

/-- An iteration succeeds and leads from a quiet state to a quiet state. -/
theorem loopBody_quiet {k : Nat} {s : BankSim3000} {e : Event}
    {r : BankSim3000 × Except Failure Unit} (hs : Quiet s) (h : loopBody k s = some (e, r)) :
    r.2 = .ok () ∧ Quiet r.1 := by
  obtain ⟨hmem, hmax, hr⟩ := loopBody_some_wait h
  rcases hs.departures with ⟨hnodep, hav⟩ | ⟨d, hd, hothers, hwait, hidx, havo⟩
  · cases e with
    | departure d => exact absurd hmem (hnodep d)
    | arrival a =>
      have hpos := hs.positive a hmem
      cases hsearch : searchAvailableTellers
          { s with eventQueue := s.eventQueue.erase (Event.arrival a) } with
      | none =>
        have hbusy := searchFrom_none_wait hsearch
        have h0 := hav _ (List.getElem_mem hs.tellers_pos)
        have h1 := hbusy _ (List.getElem_mem hs.tellers_pos)
        rw [h0] at h1
        exact absurd h1 (by simp)
      | some j =>
        obtain ⟨t, ht, _⟩ := searchAvailableTellers_some_wait hsearch
        simp only at ht
        have hj : j < s.tellers.length := (List.getElem?_eq_some.1 ht).1
        obtain ⟨hlow, hhigh⟩ := hs.fits a hmem
        have hexact : intAdd a.arrivalTime a.transactionTime =
            a.arrivalTime + a.transactionTime := intAdd_eq (by linarith) (by linarith)
        simp only [processEvent, get_event_time] at hr
        have hzero : waitTimeOf (a.arrivalTime + a.transactionTime) ⟨a, a.arrivalTime⟩ = 0 := by
          rw [← hexact]
          simp only [waitTimeOf]
          rw [intSub_intAdd_cancel, intSub_self]
        rw [processArrival_some_tc _ _ hsearch ht, hexact] at hr
        subst hr
        refine ⟨rfl, ⟨hs.line, hs.waits, ?_, ?_, by simpa using hs.tellers_pos, Or.inr ?_⟩⟩
        · intro a1 ha1
          simp only [List.mem_append, List.mem_singleton] at ha1
          rcases ha1 with ha1 | ha1
          · exact hs.positive a1 (List.mem_of_mem_erase ha1)
          · simp at ha1
        · intro a1 ha1
          simp only [List.mem_append, List.mem_singleton] at ha1
          rcases ha1 with ha1 | ha1
          · exact hs.fits a1 (List.mem_of_mem_erase ha1)
          · simp at ha1
        · refine ⟨⟨a.arrivalTime + a.transactionTime, j, ⟨a, a.arrivalTime⟩⟩, by simp, ?_, ?_,
            by simpa using hj, ?_⟩
          · intro x hx
            have hnot : Event.departure ⟨a.arrivalTime + a.transactionTime, j, ⟨a, a.arrivalTime⟩⟩ ∉
                s.eventQueue.erase (Event.arrival a) :=
              fun hin => hnodep _ (List.mem_of_mem_erase hin)
            simp only [List.erase_append_right _ hnot, List.erase_cons_head,
              List.append_nil] at hx
            have hxq := List.mem_of_mem_erase hx
            cases x with
            | departure d1 => exact absurd hxq (hnodep d1)
            | arrival a1 =>
              refine ⟨a1, rfl, ?_⟩
              have := hmax _ hxq
              simp only [get_event_time] at this
              simp only
              linarith
          · exact hzero
          · intro i t1 hi hne
            simp only [List.getElem?_set, if_neg (Ne.symm hne)] at hi
            exact hav t1 (List.getElem?_mem hi)
  · have he : e = Event.departure d := by
      by_contra hne
      have hin : e ∈ s.eventQueue.erase (Event.departure d) :=
        (List.mem_erase_of_ne hne).2 hmem
      obtain ⟨a, rfl, hlt⟩ := hothers e hin
      have := hmax _ hd
      simp only [get_event_time] at this
      linarith
    subst he
    obtain ⟨t, ht⟩ : ∃ t, s.tellers[d.tellerIndex]? = some t :=
      ⟨s.tellers[d.tellerIndex], List.getElem?_eq_getElem hidx⟩
    simp only [processEvent, get_event_time] at hr
    rw [processDeparture_quiet
      (s := { s with eventQueue := s.eventQueue.erase (Event.departure d) }) _ d hs.line ht hwait]
      at hr
    subst hr
    refine ⟨rfl, ⟨hs.line, hs.waits, ?_, ?_, by simpa using hs.tellers_pos, Or.inl ⟨?_, ?_⟩⟩⟩
    · intro a ha
      exact hs.positive a (List.mem_of_mem_erase ha)
    · intro a ha
      exact hs.fits a (List.mem_of_mem_erase ha)
    · intro d1 hd1
      obtain ⟨a, ha, _⟩ := hothers _ hd1
      simp at ha
    · intro t1 ht1
      obtain ⟨i, hi⟩ := List.mem_iff_getElem?.1 ht1
      by_cases hii : d.tellerIndex = i
      · subst hii
        simp [List.getElem?_set, hidx] at hi
        subst hi
        simp [Teller.isAvailable, Teller.stopService]
      · simp only [List.getElem?_set, if_neg hii] at hi
        exact havo i t1 hi (fun h => hii h.symm)

/-- A complete run from a quiet state ends in a quiet state. -/
theorem Run.quiet {s s2 : BankSim3000} {log : List Step} (h : Run s log s2) (hs : Quiet s) :
    Quiet s2 := by
  induction h with
  | done _ => exact hs
  | step hb _ ih => exact ih (loopBody_quiet hs hb).2

/-- The state after set-up is quiet when every transaction time of the input is positive,
the input fits the arithmetic of `int` and there is a teller. -/
theorem setupState_quiet (s : BankSim3000) {n : Nat} (h1 : 1 ≤ n)
    (hpos : ∀ a ∈ s.simulationInput, 0 < a.transactionTime) (hfits : Fits s.simulationInput) :
    Quiet (setupState s n) := by
  refine ⟨rfl, rfl, ?_, ?_, ?_, Or.inl ⟨?_, ?_⟩⟩
  · intro a ha
    simp only [setupState, List.mem_map, Event.arrival.injEq, exists_eq_right] at ha
    exact hpos a ha
  · intro a ha
    simp only [setupState, List.mem_map, Event.arrival.injEq, exists_eq_right] at ha
    exact hfits a ha
  · simp [setupState]
    omega
  · intro d hd
    simp [setupState] at hd
  · intro t ht
    simp only [setupState] at ht
    rw [(List.mem_replicate.1 ht).2]
    rfl

/-- With every transaction time positive and an input that fits the arithmetic of `int`,
`run(n)` for a valid `n` returns an empty list of wait times, whatever the tie-breaks. -/
theorem run_no_waits (tie : Nat → Nat) {s : BankSim3000} {n : Nat} (h1 : 1 ≤ n) (h5 : n ≤ 5)
    (hq : s.eventQueue = []) (hl : s.bankLine = [])
    (hpos : ∀ a ∈ s.simulationInput, 0 < a.transactionTime) (hfits : Fits s.simulationInput) :
    ∃ s2, run tie s n = some (s2, .ok ⟨[]⟩) := by
  obtain ⟨log, s2, hcall, hR⟩ := runLog_run_wait tie h1 h5 hq hl
  have hquiet := Run.quiet hR (setupState_quiet s h1 hpos hfits)
  refine ⟨s2, ?_⟩
  simp [run, hcall, gatherResults, hquiet.waits]

/-! ### Facts about every iteration of a complete run -/

/-- Every entry of the log of a complete run records an iteration that the loop body can
make from the recorded state, and that succeeds and leads to `Step.after`. -/
theorem Run.steps_wait {s s2 : BankSim3000} {log : List Step} (h : Run s log s2) :
    ∀ st ∈ log, ∃ k, loopBody k st.before = some (st.event, st.after, .ok ()) := by
  induction h with
  | done _ => simp
  | @step k s s1 s2 e log hb _ ih =>
    intro st hst
    rcases List.mem_cons.1 hst with rfl | hst
    · refine ⟨k, ?_⟩
      obtain ⟨_, _, hr⟩ := loopBody_some_wait hb
      have h1 : s1 = (Step.mk s e).after := by
        simp only [Step.after, Step.popped, ← hr]
      rw [← h1]
      exact hb
    · exact ih st hst

/-- The first loop head of a complete run is the state in which it starts. -/
theorem Run.loopHeads_head_wait {s s2 : BankSim3000} {log : List Step} (h : Run s log s2) :
    (loopHeads log s2).head? = some s := by
  cases h with
  | done _ => rfl
  | step _ _ => rfl

/-- A property kept by every successful iteration holds at every loop head of a complete
run that starts with it. -/
theorem Run.invariant_wait {P : BankSim3000 → Prop}
    (hP : ∀ k s e s1, P s → loopBody k s = some (e, s1, .ok ()) → P s1)
    {s s2 : BankSim3000} {log : List Step} (h : Run s log s2) (hs : P s) :
    ∀ x ∈ loopHeads log s2, P x := by
  induction h with
  | done _ =>
    intro x hx
    simp only [loopHeads, List.map_nil, List.nil_append, List.mem_singleton] at hx
    exact hx ▸ hs
  | @step k s s1 s2 e log hb _ ih =>
    intro x hx
    simp only [loopHeads, List.map_cons, List.cons_append, List.mem_cons] at hx
    rcases hx with rfl | hx
    · exact hs
    · exact ih (hP k s e s1 hs hb) x hx

/-- A relation that every successful iteration establishes between the states before and
after it, from states with an invariant `P`, links each loop head of a complete run to
the next. -/
theorem Run.chain_wait {P : BankSim3000 → Prop} {R : BankSim3000 → BankSim3000 → Prop}
    (hP : ∀ k s e s1, P s → loopBody k s = some (e, s1, .ok ()) → P s1)
    (hR : ∀ k s e s1, P s → loopBody k s = some (e, s1, .ok ()) → R s s1)
    {s s2 : BankSim3000} {log : List Step} (h : Run s log s2) (hs : P s) :
    List.Chain' R (loopHeads log s2) := by
  induction h with
  | done _ => simp [loopHeads]
  | @step k s s1 s2 e log hb hrun ih =>
    have hrest := ih (hP k s e s1 hs hb)
    have hhead := Run.loopHeads_head_wait hrun
    have hcons : loopHeads (⟨s, e⟩ :: log) s2 = s :: loopHeads log s2 := rfl
    rw [hcons, List.chain'_cons']
    refine ⟨?_, hrest⟩
    intro y hy
    rw [hhead] at hy
    simp only [Option.mem_def, Option.some.injEq] at hy
    exact hy ▸ hR k s e s1 hs hb

/-- The state before an entry of the log is a loop head. -/
theorem before_mem_loopHeads_wait {log : List Step} {st : Step} (s2 : BankSim3000) (h : st ∈ log) :
    st.before ∈ loopHeads log s2 := by
  simp only [loopHeads, List.mem_append, List.mem_map, List.mem_singleton]
  exact Or.inl ⟨st, h, rfl⟩

/-- In a consistent state with `n` tellers, teller `i < n` exists, it is busy exactly when
one departure of teller `i` is stored and available exactly when none is. -/
theorem Consistent.teller_iff_wait {s : BankSim3000} (hs : Consistent s) {n : Nat}
    (hn : s.tellers.length = n) {i : Nat} (hi : i < n) :
    ∃ t, s.tellers[i]? = some t ∧
      (t.isAvailable = false ↔ pendingDepartures i s.eventQueue = 1) ∧
      (t.isAvailable = true ↔ pendingDepartures i s.eventQueue = 0) ∧
      pendingDepartures i s.eventQueue ≤ 1 := by
  have hlt : i < s.tellers.length := by omega
  refine ⟨s.tellers[i], List.getElem?_eq_getElem hlt, ?_⟩
  have hp := hs.pending i s.tellers[i] (List.getElem?_eq_getElem hlt)
  cases hav : s.tellers[i].isAvailable with
  | true => rw [hav] at hp; simp [hp]
  | false => rw [hav] at hp; simp [hp]

/-- At every loop head of a complete run from the set-up state the state is consistent
and has `n` tellers. -/
theorem run_loopHeads_consistent_wait {s s2 : BankSim3000} {n : Nat} {log : List Step}
    (hR : Run (setupState s n) log s2) :
    ∀ x ∈ loopHeads log s2, Consistent x ∧ x.tellers.length = n := by
  have h := Run.invariant_wait (P := fun x => Consistent x ∧ x.tellers.length = n)
    (fun k s e s1 hP hb =>
      ⟨(loopBody_consistent_wait hP.1 hb).2, (loopBody_frame_wait hb).1.trans hP.2⟩)
    hR ⟨setupState_consistent_wait s n, by simp [setupState]⟩
  exact h

/-! ### Service start, entry time and computed wait time -/

/-- What `processEvent` does to the queue and the line: the queue is unchanged or gets one
departure at the current time plus the transaction time of its customer, who is the
arriving customer with the current time as entry time or a waiting customer; a customer
in the line afterwards was in the line before or is the arriving one with the current
time as entry time. -/
theorem processEvent_pushed_tc (s : BankSim3000) (currentTime : Time) (e : Event) :
    ((processEvent s currentTime e).1.eventQueue = s.eventQueue ∨
      ∃ d, (processEvent s currentTime e).1.eventQueue = s.eventQueue ++ [Event.departure d] ∧
        d.departureTime = intAdd currentTime d.customer.arrivalEvent.transactionTime ∧
        ((∃ a, e = Event.arrival a ∧ d.customer = ⟨a, currentTime⟩) ∨
          d.customer ∈ s.bankLine)) ∧
    (∀ c ∈ (processEvent s currentTime e).1.bankLine,
      c ∈ s.bankLine ∨ ∃ a, e = Event.arrival a ∧ c = ⟨a, currentTime⟩) := by
  cases e with
  | arrival a =>
    simp only [processEvent, processArrival]
    split
    · split
      · exact ⟨Or.inl rfl, fun c hc => Or.inl hc⟩
      · exact ⟨Or.inr ⟨_, rfl, rfl, Or.inl ⟨a, rfl, rfl⟩⟩, fun c hc => Or.inl hc⟩
    · refine ⟨Or.inl rfl, fun c hc => ?_⟩
      simp only [List.mem_append, List.mem_singleton] at hc
      rcases hc with hc | rfl
      · exact Or.inl hc
      · exact Or.inr ⟨a, rfl, rfl⟩
  | departure d =>
    cases hline : s.bankLine with
    | nil =>
      cases ht : s.tellers[d.tellerIndex]? with
      | none => simp [processEvent, processDeparture, hline, ht]
      | some t => simp [processEvent, processDeparture, hline, ht]
    | cons c rest =>
      cases ht : s.tellers[d.tellerIndex]? with
      | none =>
        simp only [processEvent, processDeparture, hline, ht]
        exact ⟨Or.inl trivial, fun x hx => Or.inl (List.mem_cons_of_mem _ hx)⟩
      | some t =>
        simp only [processEvent, processDeparture, hline, ht]
        exact ⟨Or.inr ⟨_, rfl, rfl, Or.inr (List.mem_cons_self _ _)⟩,
          fun x hx => Or.inl (List.mem_cons_of_mem _ hx)⟩

/-- After an iteration from a state in which every waiting customer entered at its arrival
time: this still holds; the queue is what `pop()` left followed by the events pushed; and
every event pushed is a departure at the time of the event processed plus the transaction
time of its customer, added in `int`, whose entry time is its arrival time. -/
theorem loopBody_entry {k : Nat} {s : BankSim3000} {e : Event}
    {r : BankSim3000 × Except Failure Unit} (hs : EntryOk s) (h : loopBody k s = some (e, r)) :
    EntryOk r.1 ∧ r.1.eventQueue = s.eventQueue.erase e ++ (Step.mk s e).pushed ∧
      ∀ x ∈ (Step.mk s e).pushed, ∃ d, x = Event.departure d ∧
        d.departureTime = intAdd (get_event_time e) d.customer.arrivalEvent.transactionTime ∧
        d.customer.entryTime = d.customer.arrivalEvent.arrivalTime := by
  obtain ⟨hmem, _, hr⟩ := loopBody_some_wait h
  subst hr
  obtain ⟨hqueue, hline⟩ := processEvent_pushed_tc
    { s with eventQueue := s.eventQueue.erase e } (get_event_time e) e
  have hentry : EntryOk (processEvent { s with eventQueue := s.eventQueue.erase e }
      (get_event_time e) e).1 := by
    intro c hc
    rcases hline c hc with h1 | ⟨a, rfl, rfl⟩
    · exact hs c h1
    · rfl
  refine ⟨hentry, ?_⟩
  rcases hqueue with hsame | ⟨d, hpush, htime, hcust⟩
  · have hp : (Step.mk s e).pushed = [] := by
      simp only [Step.pushed, Step.after, Step.popped, hsame, List.drop_length]
    rw [hp]
    exact ⟨by simpa using hsame, by simp⟩
  · have hp : (Step.mk s e).pushed = [Event.departure d] := by
      simp only [Step.pushed, Step.after, Step.popped, hpush, List.drop_left]
    rw [hp]
    refine ⟨hpush, ?_⟩
    intro x hx
    simp only [List.mem_singleton] at hx
    refine ⟨d, hx, htime, ?_⟩
    rcases hcust with ⟨a, rfl, hc⟩ | hc
    · rw [hc]; rfl
    · exact hs _ hc

/-- In a complete run every departure processed was stored at the start or was pushed by
an earlier iteration of the run. -/
theorem Run.pushed_before {s s2 : BankSim3000} {log : List Step} (h : Run s log s2)
    (hs : EntryOk s) :
    ∀ (l1 : List Step) (st : Step) (l2 : List Step) (d : DepartureEvent),
      log = l1 ++ st :: l2 → st.event = Event.departure d →
      Event.departure d ∈ s.eventQueue ∨ ∃ st0 ∈ l1, Event.departure d ∈ st0.pushed := by
  induction h with
  | done _ =>
    intro l1 st l2 d hlog
    simp at hlog
  | @step k s s1 s2 e log hb _ ih =>
    obtain ⟨hentry, hq, _⟩ := loopBody_entry hs hb
    simp only at hentry hq
    obtain ⟨hmem, _, _⟩ := loopBody_some_wait hb
    intro l1 st l2 d hlog hev
    cases l1 with
    | nil =>
      simp only [List.nil_append, List.cons.injEq] at hlog
      obtain ⟨rfl, _⟩ := hlog
      simp only at hev
      exact Or.inl (hev ▸ hmem)
    | cons st1 l1 =>
      simp only [List.cons_append, List.cons.injEq] at hlog
      obtain ⟨rfl, hlog⟩ := hlog
      rcases ih hentry l1 st l2 d hlog hev with hin | ⟨st0, hst0, hpushed⟩
      · rw [hq] at hin
        rcases List.mem_append.1 hin with hin | hin
        · exact Or.inl (List.mem_of_mem_erase hin)
        · exact Or.inr ⟨_, List.mem_cons_self _ _, hin⟩
      · exact Or.inr ⟨st0, List.mem_cons_of_mem _ hst0, hpushed⟩

/-- In a complete run from a state in which every waiting customer entered at its arrival
time, every departure pushed is at the time of the event processed plus the transaction
time of its customer, whose entry time is its arrival time. -/
theorem Run.pushed_good {s s2 : BankSim3000} {log : List Step} (h : Run s log s2)
    (hs : EntryOk s) :
    ∀ st ∈ log, ∀ d, Event.departure d ∈ st.pushed →
      d.departureTime =
        intAdd (get_event_time st.event) d.customer.arrivalEvent.transactionTime ∧
      d.customer.entryTime = d.customer.arrivalEvent.arrivalTime := by
  induction h with
  | done _ => simp
  | @step k s s1 s2 e log hb _ ih =>
    obtain ⟨hentry, _, hgood⟩ := loopBody_entry hs hb
    intro st hst d hd
    rcases List.mem_cons.1 hst with rfl | hst
    · obtain ⟨d1, hd1, h1, h2⟩ := hgood _ hd
      simp only [Event.departure.injEq] at hd1
      subst hd1
      exact ⟨h1, h2⟩
    · exact ih hentry st hst d hd

/-- The computed wait time is the start of service minus the arrival time (wait-time
variant): in a call of `run(n)` with a valid `n`, every departure processed was pushed by
an earlier iteration, at whose time the customer's service began, and the wait time that
`processDeparture` computes for it is that time minus the customer's arrival time, the
difference being taken in `int`. -/
theorem run_wait_is_start_minus_arrival (tie : Nat → Nat) {s : BankSim3000} {n : Nat}
    (h1 : 1 ≤ n) (h5 : n ≤ 5) (hq : s.eventQueue = []) (hl : s.bankLine = []) :
    ∃ log s2, runLog tie s n = some (log, s2, .ok (gatherResults s2)) ∧
      ∀ (l1 : List Step) (st : Step) (l2 : List Step) (d : DepartureEvent),
        log = l1 ++ st :: l2 → st.event = Event.departure d →
        ∃ st0 ∈ l1, Event.departure d ∈ st0.pushed ∧
          d.customer.entryTime = d.customer.arrivalEvent.arrivalTime ∧
          d.departureTime =
            intAdd (get_event_time st0.event) d.customer.arrivalEvent.transactionTime ∧
          waitTimeOf (get_event_time st.event) d.customer =
            intSub (get_event_time st0.event) d.customer.arrivalEvent.arrivalTime := by
  obtain ⟨log, s2, hcall, hR⟩ := runLog_run_wait tie h1 h5 hq hl
  have h0 : EntryOk (setupState s n) := by
    intro c hc
    simp [setupState] at hc
  refine ⟨log, s2, hcall, ?_⟩
  intro l1 st l2 d hlog hev
  rcases Run.pushed_before hR h0 l1 st l2 d hlog hev with hin | ⟨st0, hst0, hpushed⟩
  · simp [setupState] at hin
  · have hmem : st0 ∈ log := by
      rw [hlog]
      exact List.mem_append_left _ hst0
    obtain ⟨htime, hentry⟩ := Run.pushed_good hR h0 st0 hmem d hpushed
    refine ⟨st0, hst0, hpushed, hentry, htime, ?_⟩
    simp only [waitTimeOf, hev, get_event_time, hentry, htime]
    exact intSub_intAdd_cancel _ _ _

/-! ### Computed wait times with positive transaction times, and with enough tellers -/

/-- A departure removed by the loop body in a quiet state has computed wait time 0. -/
theorem quiet_departure_wait_zero {k : Nat} {s : BankSim3000} {d : DepartureEvent}
    {r : BankSim3000 × Except Failure Unit} (hs : Quiet s)
    (h : loopBody k s = some (Event.departure d, r)) :
    waitTimeOf d.departureTime d.customer = 0 := by
  obtain ⟨hmem, _, _⟩ := loopBody_some_wait h
  rcases hs.departures with ⟨hnodep, _⟩ | ⟨d0, _, hothers, hwait, _, _⟩
  · exact absurd hmem (hnodep d)
  · by_cases hd : d = d0
    · rw [hd]; exact hwait
    · have hne : Event.departure d ≠ Event.departure d0 := by
        intro heq
        exact hd (Event.departure.inj heq)
      obtain ⟨a, ha, _⟩ := hothers _ ((List.mem_erase_of_ne hne).2 hmem)
      simp at ha

/-- With every transaction time positive and an input that fits the arithmetic of `int`,
every departure processed in a call of `run(n)` with a valid `n` has computed wait
time 0. -/
theorem run_waits_zero (tie : Nat → Nat) {s : BankSim3000} {n : Nat} (h1 : 1 ≤ n) (h5 : n ≤ 5)
    (hq : s.eventQueue = []) (hl : s.bankLine = [])
    (hpos : ∀ a ∈ s.simulationInput, 0 < a.transactionTime) (hfits : Fits s.simulationInput) :
    ∃ log s2, runLog tie s n = some (log, s2, .ok (gatherResults s2)) ∧
      ∀ st ∈ log, ∀ d, st.event = Event.departure d →
        waitTimeOf (get_event_time st.event) d.customer = 0 := by
  obtain ⟨log, s2, hcall, hR⟩ := runLog_run_wait tie h1 h5 hq hl
  have hheads := Run.invariant_wait (P := Quiet)
    (fun k s e s1 hs hb => (loopBody_quiet hs hb).2) hR (setupState_quiet s h1 hpos hfits)
  refine ⟨log, s2, hcall, ?_⟩
  intro st hst d hev
  obtain ⟨k, hk⟩ := Run.steps_wait hR st hst
  rw [hev] at hk
  have := quiet_departure_wait_zero (hheads _ (before_mem_loopHeads_wait s2 hst)) hk
  simpa [hev, get_event_time] using this

/-- With enough tellers an iteration succeeds, keeps the state roomy, and an arrival
processed in it finds an available teller. -/
theorem loopBody_roomy {k : Nat} {s : BankSim3000} {e : Event}
    {r : BankSim3000 × Except Failure Unit} (hs : Roomy s) (h : loopBody k s = some (e, r)) :
    r.2 = .ok () ∧ Roomy r.1 ∧
      ∀ a, e = Event.arrival a → (searchAvailableTellers s).isSome = true := by
  obtain ⟨hok, hcons⟩ := loopBody_consistent_wait hs.consistent h
  obtain ⟨s1, res⟩ := r
  simp only at hok hcons
  subst hok
  have hcounts := loopBody_counts_wait h
  obtain ⟨hmem, _, hr⟩ := loopBody_some_wait h
  cases e with
  | arrival a =>
    have hA := (hcounts.1 rfl).1
    have hroom := hs.room
    have hpos : 0 < s.tellers.countP Teller.isAvailable := by omega
    obtain ⟨t0, ht0, hav0⟩ := List.countP_pos_iff.1 hpos
    cases hsearch : searchAvailableTellers
        { s with eventQueue := s.eventQueue.erase (Event.arrival a) } with
    | none =>
      have := searchFrom_none_wait hsearch t0 ht0
      rw [hav0] at this
      exact absurd this (by simp)
    | some j =>
      obtain ⟨t, ht, hav⟩ := searchAvailableTellers_some_wait hsearch
      simp only at ht
      simp only [processEvent, get_event_time] at hr
      rw [processArrival_some_tc _ _ hsearch ht] at hr
      simp only [Prod.mk.injEq, and_true] at hr
      have hset := countP_set Teller.isAvailable s.tellers j t t.startService ht
      have hnew : Teller.isAvailable t.startService = false := rfl
      rw [hav, hnew] at hset
      simp only [if_true, Bool.false_eq_true, if_false] at hset
      refine ⟨rfl, ⟨hcons, ?_, ?_, ?_, ?_⟩, ?_⟩
      · rw [hr]; exact hs.line
      · rw [hr]; exact hs.waits
      · show arrivalsPending s1 ≤ List.countP Teller.isAvailable s1.tellers
        have : s1.tellers = s.tellers.set j t.startService := by rw [hr]
        rw [this]
        omega
      · intro d hd
        rw [hr] at hd
        simp only [List.mem_append, List.mem_singleton, Event.departure.injEq] at hd
        rcases hd with hd | rfl
        · exact hs.served d (List.mem_of_mem_erase hd)
        · simp only [waitTimeOf]
          rw [intSub_intAdd_cancel, intSub_self]
      · intro a1 _
        have : searchAvailableTellers s = some j := hsearch
        simp [this]
  | departure d =>
    have hA := (hcounts.2 rfl).1
    have hwait := hs.served d hmem
    have hidx := hs.consistent.index_lt d hmem
    obtain ⟨t, ht⟩ : ∃ t, s.tellers[d.tellerIndex]? = some t :=
      ⟨s.tellers[d.tellerIndex], List.getElem?_eq_getElem hidx⟩
    simp only [processEvent, get_event_time] at hr
    rw [processDeparture_quiet
      (s := { s with eventQueue := s.eventQueue.erase (Event.departure d) }) _ d hs.line ht hwait]
      at hr
    simp only [Prod.mk.injEq, and_true] at hr
    have hset := countP_set Teller.isAvailable s.tellers d.tellerIndex t t.stopService ht
    refine ⟨rfl, ⟨hcons, ?_, ?_, ?_, ?_⟩, ?_⟩
    · rw [hr]; exact hs.line
    · rw [hr]; exact hs.waits
    · show arrivalsPending s1 ≤ List.countP Teller.isAvailable s1.tellers
      have : s1.tellers = s.tellers.set d.tellerIndex t.stopService := by rw [hr]
      rw [this]
      have hroom := hs.room
      have hstop : Teller.isAvailable t.stopService = true := rfl
      rw [hstop] at hset
      simp only [if_true] at hset
      have hle : (if t.isAvailable = true then 1 else 0) ≤ 1 := by split <;> omega
      omega
    · intro d1 hd1
      rw [hr] at hd1
      exact hs.served d1 (List.mem_of_mem_erase hd1)
    · intro a ha
      simp at ha

/-- The state after set-up is roomy when the tellers are at least as many as the
arrivals. -/
theorem setupState_roomy (s : BankSim3000) {n : Nat} (hlen : s.simulationInput.length ≤ n) :
    Roomy (setupState s n) := by
  refine ⟨setupState_consistent_wait s n, rfl, rfl, ?_, ?_⟩
  · rw [(setupState_counts_wait s n).1]
    have : (setupState s n).tellers.countP Teller.isAvailable = n := by
      simp only [setupState]
      rw [List.countP_eq_length.2]
      · simp
      · intro t ht
        rw [(List.mem_replicate.1 ht).2]
        rfl
    omega
  · intro d hd
    simp [setupState] at hd

/-- With at most `n` arrivals, `run(n)` for a valid `n` returns; the line is empty at every
loop head, every arrival processed finds an available teller, and the list of wait times
returned is empty. -/
theorem run_roomy (tie : Nat → Nat) {s : BankSim3000} {n : Nat} (h1 : 1 ≤ n) (h5 : n ≤ 5)
    (hq : s.eventQueue = []) (hl : s.bankLine = []) (hlen : s.simulationInput.length ≤ n) :
    ∃ log s2, runLog tie s n = some (log, s2, .ok ⟨[]⟩) ∧
      (∀ x ∈ loopHeads log s2, x.bankLine = []) ∧
      ∀ st ∈ log, ∀ a, st.event = Event.arrival a →
        (searchAvailableTellers st.before).isSome = true := by
  obtain ⟨log, s2, hcall, hR⟩ := runLog_run_wait tie h1 h5 hq hl
  have hheads := Run.invariant_wait (P := Roomy)
    (fun k s e s1 hs hb => (loopBody_roomy hs hb).2.1) hR (setupState_roomy s hlen)
  have h2 := hheads s2 (by simp [loopHeads])
  refine ⟨log, s2, ?_, fun x hx => (hheads x hx).line, ?_⟩
  · rw [hcall]
    simp [gatherResults, h2.waits]
  · intro st hst a hev
    obtain ⟨k, hk⟩ := Run.steps_wait hR st hst
    exact (loopBody_roomy (hheads _ (before_mem_loopHeads_wait s2 hst)) hk).2.2 a hev

/-! ### The search for an available teller -/

/-- The scan from index `i` returns `j` exactly when `j` is the first index, counted from
`i`, of an available teller. -/
theorem searchFrom_eq_some_iff_wait {i j : Nat} {ts : List Teller} :
    searchFrom i ts = some j ↔
      i ≤ j ∧ (∃ t, ts[j - i]? = some t ∧ t.isAvailable = true) ∧
        ∀ m t, m < j - i → ts[m]? = some t → t.isAvailable = false := by
  constructor
  · exact searchFrom_some_wait
  · intro h
    induction ts generalizing i with
    | nil =>
      obtain ⟨_, ⟨t, ht, _⟩, _⟩ := h
      simp at ht
    | cons t0 ts ih =>
      obtain ⟨hle, ⟨t, ht, hav⟩, hlow⟩ := h
      unfold searchFrom
      by_cases h0 : t0.isAvailable = true
      · simp only [h0, if_true, Option.some.injEq]
        by_contra hne
        have hpos : 0 < j - i := by omega
        have := hlow 0 t0 hpos (by simp)
        rw [h0] at this
        exact absurd this (by simp)
      · simp only [h0, Bool.false_eq_true, if_false]
        have hji : j - i ≠ 0 := by
          intro hz
          rw [hz] at ht
          simp only [List.getElem?_cons_zero, Option.some.injEq] at ht
          rw [ht] at h0
          exact h0 hav
        have hj : j - i = (j - (i + 1)) + 1 := by omega
        apply ih
        refine ⟨by omega, ⟨t, ?_, hav⟩, ?_⟩
        · rw [hj] at ht
          simpa using ht
        · intro m x hm hx
          exact hlow (m + 1) x (by omega) (by simpa using hx)

/-- The search `searchAvailableTellers` returns `i` exactly when teller `i` is available
and every teller with a smaller index is busy. -/
theorem searchAvailableTellers_eq_some_iff_wait {s : BankSim3000} {i : Nat} :
    searchAvailableTellers s = some i ↔
      (∃ t, s.tellers[i]? = some t ∧ t.isAvailable = true) ∧
        ∀ j t, j < i → s.tellers[j]? = some t → t.isAvailable = false := by
  unfold searchAvailableTellers
  rw [searchFrom_eq_some_iff_wait]
  simp

/-- The search `searchAvailableTellers` returns no index exactly when every teller is
busy. -/
theorem searchAvailableTellers_eq_none_iff_wait {s : BankSim3000} :
    searchAvailableTellers s = none ↔ ∀ t ∈ s.tellers, t.isAvailable = false := by
  constructor
  · exact searchFrom_none_wait
  · intro h
    cases hs : searchAvailableTellers s with
    | none => rfl
    | some j =>
      obtain ⟨t, ht, hav⟩ := searchAvailableTellers_some_wait hs
      have := h t (List.getElem?_mem ht)
      rw [hav] at this
      exact absurd this (by simp)

/-- With an available teller the search returns an index. -/
theorem searchAvailableTellers_of_available_wait {s : BankSim3000}
    (h : ∃ t ∈ s.tellers, t.isAvailable = true) : ∃ i, searchAvailableTellers s = some i := by
  cases hs : searchAvailableTellers s with
  | some i => exact ⟨i, rfl⟩
  | none =>
    obtain ⟨t, ht, hav⟩ := h
    have := searchAvailableTellers_eq_none_iff_wait.1 hs t ht
    rw [hav] at this
    exact absurd this (by simp)

/-! ### Single calls of the wait-time variant -/

theorem processArrival_none_tc {s : BankSim3000} (currentTime : Time) (a : ArrivalEvent)
    (h : searchAvailableTellers s = none) :
    processArrival s currentTime a =
      ({ s with bankLine := s.bankLine ++ [⟨a, currentTime⟩] }, .ok ()) := by
  simp [processArrival, h]

theorem processDeparture_cons_tc {s : BankSim3000} (currentTime : Time) (d : DepartureEvent)
    {c : Customer} {rest : List Customer} {t : Teller} (hline : s.bankLine = c :: rest)
    (ht : s.tellers[d.tellerIndex]? = some t) :
    processDeparture s currentTime d =
      ({ s with
          completedCustomerWaitTimes :=
            if waitTimeOf currentTime d.customer > 0 then
              s.completedCustomerWaitTimes ++ [waitTimeOf currentTime d.customer]
            else s.completedCustomerWaitTimes
          bankLine := rest
          tellers := s.tellers.set d.tellerIndex t.startService
          eventQueue := s.eventQueue ++
            [Event.departure
              ⟨intAdd currentTime c.arrivalEvent.transactionTime, d.tellerIndex, c⟩] },
        .ok ()) := by
  simp [processDeparture, hline, ht]

/-! ### First in, first out -/

/-- What `processEvent` does to the waiting line: nothing, or one customer is appended at
the tail, or the head customer is removed. -/
theorem processEvent_line_tc (s : BankSim3000) (currentTime : Time) (e : Event) :
    (processEvent s currentTime e).1.bankLine = s.bankLine ∨
      (∃ c, (processEvent s currentTime e).1.bankLine = s.bankLine ++ [c]) ∨
      ∃ c rest, s.bankLine = c :: rest ∧ (processEvent s currentTime e).1.bankLine = rest := by
  cases e with
  | arrival a =>
    simp only [processEvent, processArrival]
    split
    · split
      · exact Or.inl rfl
      · exact Or.inl rfl
    · exact Or.inr (Or.inl ⟨_, rfl⟩)
  | departure d =>
    cases hl : s.bankLine with
    | nil =>
      simp only [processEvent, processDeparture, hl]
      left
      repeat' split
      all_goals rfl
    | cons c rest =>
      simp only [processEvent, processDeparture, hl]
      right
      right
      refine ⟨c, rest, rfl, ?_⟩
      repeat' split
      all_goals rfl

/-- The line before an iteration followed by the customers who joined it is the customers
who left it followed by the line after the iteration. -/
theorem Step.line_balance_tc (st : Step) :
    st.before.bankLine ++ st.joined = st.left ++ st.after.bankLine := by
  have h := processEvent_line_tc st.popped (get_event_time st.event) st.event
  have hp : st.popped.bankLine = st.before.bankLine := rfl
  rw [hp] at h
  unfold Step.joined Step.left
  rcases h with h | ⟨c, h⟩ | ⟨c, rest, hb, h⟩
  · have ha : st.after.bankLine = st.before.bankLine := h
    rw [ha]
    simp
  · have ha : st.after.bankLine = st.before.bankLine ++ [c] := h
    rw [ha]
    simp
  · have ha : st.after.bankLine = rest := h
    rw [ha, hb]
    simp

/-- A complete run can be cut at any point of its log: the rest of the log is a complete
run from an intermediate state, and up to there the customers who left the line, followed
by those still waiting, are the initial line followed by the customers who joined. -/
theorem Run.split_tc {s s2 : BankSim3000} {log : List Step} (h : Run s log s2) :
    ∀ l1 l2, log = l1 ++ l2 →
      ∃ sm, Run sm l2 s2 ∧ s.bankLine ++ joins l1 = leaves l1 ++ sm.bankLine := by
  induction h with
  | @done s hq =>
    intro l1 l2 hl
    have h1 : l1 = [] := by
      cases l1 with
      | nil => rfl
      | cons x xs => simp at hl
    have h2 : l2 = [] := by
      subst h1
      simpa using hl.symm
    subst h1 h2
    exact ⟨s, Run.done hq, by simp [joins, leaves]⟩
  | @step k s s1 s2 e log hb hR ih =>
    intro l1 l2 hl
    cases l1 with
    | nil =>
      simp only [List.nil_append] at hl
      subst hl
      exact ⟨s, Run.step hb hR, by simp [joins, leaves]⟩
    | cons x xs =>
      simp only [List.cons_append, List.cons.injEq] at hl
      obtain ⟨hx, hrest⟩ := hl
      obtain ⟨sm, hRm, hbal⟩ := ih xs l2 hrest
      refine ⟨sm, hRm, ?_⟩
      have hstep := Step.line_balance_tc x
      have hafter : x.after = s1 := by
        obtain ⟨_, _, hr⟩ := loopBody_some_wait hb
        rw [← hx]
        have : (s1, (Except.ok () : Except Failure Unit)).1 = s1 := rfl
        rw [← this, hr]
        rfl
      have hbefore : x.before = s := by rw [← hx]
      rw [hafter, hbefore] at hstep
      simp only [joins, leaves, List.flatMap_cons] at hbal ⊢
      rw [← List.append_assoc, hstep, List.append_assoc, hbal, List.append_assoc]

/-! ### Aggregation of the wait times -/

/-- The left fold that `max_element` performs returns an element of the range. -/
theorem foldl_max_mem : ∀ (xs : List Time) (x : Time),
    xs.foldl (fun largest y => if largest < y then y else largest) x ∈ x :: xs
  | [], x => by simp
  | z :: zs, x => by
    have ih := foldl_max_mem zs (if x < z then z else x)
    simp only [List.foldl_cons]
    rcases List.mem_cons.1 ih with h | h
    · rw [h]
      split
      · simp
      · simp
    · exact List.mem_cons_of_mem _ (List.mem_cons_of_mem _ h)

/-- The left fold that `max_element` performs returns a value that no element exceeds. -/
theorem foldl_max_ge : ∀ (xs : List Time) (x : Time), ∀ y ∈ x :: xs,
    y ≤ xs.foldl (fun largest y => if largest < y then y else largest) x
  | [], x => by simp
  | z :: zs, x => by
    intro y hy
    have ih := foldl_max_ge zs (if x < z then z else x)
    simp only [List.foldl_cons]
    have hx : x ≤ (if x < z then z else x) := by
      split
      · exact le_of_lt (by assumption)
      · exact le_refl _
    have hz : z ≤ (if x < z then z else x) := by
      split
      · exact le_refl _
      · exact not_lt.1 (by assumption)
    rcases List.mem_cons.1 hy with rfl | hy
    · exact le_trans hx (ih _ (List.mem_cons_self _ _))
    · rcases List.mem_cons.1 hy with rfl | hy
      · exact le_trans hz (ih _ (List.mem_cons_self _ _))
      · exact ih y (List.mem_cons_of_mem _ hy)

/-- The left fold of `accumulate` with an `int` accumulator, started at the value that
holds `a`: the result is the integer sum of `a` and the list, reduced to the range of
`int`. -/
theorem foldl_intAdd_wrap (w : List Time) (a : Int) :
    w.foldl (fun acc x => intAdd acc x) (wrap a) = wrap (a + w.sum) := by
  induction w generalizing a with
  | nil => simp
  | cons x xs ih =>
    simp only [List.foldl_cons, List.sum_cons]
    have h : intAdd (wrap a) x = wrap (a + x) := wrap_add_left a x
    rw [h, ih, add_assoc]

/-- The left fold of `accumulate(..., 0)` computes the integer sum of the list reduced to
the range of `int`. -/
theorem foldl_intAdd_eq_wrap (w : List Time) :
    w.foldl (fun acc x => intAdd acc x) 0 = wrap w.sum := by
  have h := foldl_intAdd_wrap w 0
  have h0 : wrap 0 = 0 := by decide
  rw [h0, zero_add] at h
  exact h

/-! ### The wait times recorded by a run -/

/-- What `processEvent` does to the recorded wait times: an arrival leaves them as they
are, a departure appends the computed wait time when it is positive. -/
theorem processEvent_waits (s : BankSim3000) (e : Event) :
    (processEvent s (get_event_time e) e).1.completedCustomerWaitTimes =
      s.completedCustomerWaitTimes ++ Step.recorded ⟨s, e⟩ := by
  cases e with
  | arrival a =>
    simp only [processEvent, processArrival, Step.recorded, List.append_nil]
    split
    · split <;> rfl
    · rfl
  | departure d =>
    simp only [processEvent, processDeparture, Step.recorded]
    by_cases hw : waitTimeOf (get_event_time (Event.departure d)) d.customer > 0
    · simp only [hw, if_true]
      repeat' split
      all_goals rfl
    · simp only [hw, if_false, List.append_nil]
      repeat' split
      all_goals rfl

/-- Over a complete run the recorded wait times grow by what the iterations record, in
order. -/
theorem Run.waits {s s2 : BankSim3000} {log : List Step} (h : Run s log s2) :
    s2.completedCustomerWaitTimes =
      s.completedCustomerWaitTimes ++ log.flatMap Step.recorded := by
  induction h with
  | done _ => simp
  | @step k s s1 s2 e log hb _ ih =>
    obtain ⟨_, _, hr⟩ := loopBody_some_wait hb
    have h1 : s1.completedCustomerWaitTimes =
        s.completedCustomerWaitTimes ++ Step.recorded ⟨s, e⟩ := by
      have := processEvent_waits { s with eventQueue := s.eventQueue.erase e } e
      rw [← hr] at this
      exact this
    rw [ih, h1, List.flatMap_cons, List.append_assoc]

/-- Every wait time that an iteration records is positive. -/
theorem Step.recorded_pos (st : Step) : ∀ w ∈ st.recorded, 0 < w := by
  intro w hw
  unfold Step.recorded at hw
  split at hw
  · simp at hw
  · split at hw
    · simp only [List.mem_singleton] at hw
      subst hw
      assumption
    · simp at hw

/-- The iterations of a log record at most one wait time per departure processed. -/
theorem recorded_length_le (log : List Step) :
    (log.flatMap Step.recorded).length ≤ departuresProcessed log := by
  induction log with
  | nil => simp [departuresProcessed]
  | cons st log ih =>
    have hst : st.recorded.length ≤ if (!st.event.isArrival) = true then 1 else 0 := by
      unfold Step.recorded
      cases st.event with
      | arrival a => simp
      | departure d =>
        simp only [Event.isArrival, Bool.not_false, if_true]
        split <;> simp
    simp only [List.flatMap_cons, List.length_append, departuresProcessed,
      List.countP_cons] at ih ⊢
    omega

/-! ### An arrival is followed by its own departure -/

/-- In a quiet state the iteration on an arrival pushes the departure of that customer,
and every other stored event is an arrival that is earlier. -/
theorem loopBody_quiet_arrival {k : Nat} {s s1 : BankSim3000} {a : ArrivalEvent}
    {res : Except Failure Unit} (hs : Quiet s)
    (h : loopBody k s = some (Event.arrival a, s1, res)) :
    ∃ j, Event.departure ⟨a.arrivalTime + a.transactionTime, j, ⟨a, a.arrivalTime⟩⟩ ∈
        s1.eventQueue ∧
      ∀ x ∈ s1.eventQueue, x ≠ Event.departure
          ⟨a.arrivalTime + a.transactionTime, j, ⟨a, a.arrivalTime⟩⟩ →
        get_event_time x < a.arrivalTime + a.transactionTime := by
  obtain ⟨hmem, hmax, hr⟩ := loopBody_some_wait h
  rcases hs.departures with ⟨hnodep, hav⟩ | ⟨d, hd, hothers, _, _, _⟩
  · have hpos := hs.positive a hmem
    cases hsearch : searchAvailableTellers
        { s with eventQueue := s.eventQueue.erase (Event.arrival a) } with
    | none =>
      have hbusy := searchFrom_none_wait hsearch
      have h0 := hav _ (List.getElem_mem hs.tellers_pos)
      have h1 := hbusy _ (List.getElem_mem hs.tellers_pos)
      rw [h0] at h1
      exact absurd h1 (by simp)
    | some j =>
      obtain ⟨t, ht, _⟩ := searchAvailableTellers_some_wait hsearch
      simp only at ht
      obtain ⟨hlow, hhigh⟩ := hs.fits a hmem
      have hexact : intAdd a.arrivalTime a.transactionTime =
          a.arrivalTime + a.transactionTime := intAdd_eq (by linarith) (by linarith)
      simp only [processEvent, get_event_time] at hr
      rw [processArrival_some_tc _ _ hsearch ht, hexact] at hr
      simp only [Prod.mk.injEq] at hr
      obtain ⟨hs1, _⟩ := hr
      subst hs1
      refine ⟨j, by simp, ?_⟩
      intro x hx hne
      simp only [List.mem_append, List.mem_singleton] at hx
      rcases hx with hx | hx
      · have := hmax x (List.mem_of_mem_erase hx)
        have hta : get_event_time (Event.arrival a) = a.arrivalTime := rfl
        rw [hta] at this
        linarith
      · exact absurd hx hne
  · exfalso
    have hin : Event.arrival a ∈ s.eventQueue.erase (Event.departure d) :=
      (List.mem_erase_of_ne (by simp)).2 hmem
    obtain ⟨a1, ha1, hlt⟩ := hothers _ hin
    have := hmax _ hd
    simp only [get_event_time] at this
    simp only [Event.arrival.injEq] at ha1
    subst ha1
    linarith

/-- In a complete run with every transaction time positive, the iteration after one on an
arrival is on the departure of the same customer. -/
theorem Run.arrival_then_departure {s s2 : BankSim3000} {log : List Step}
    (h : Run s log s2) :
    Quiet s → ∀ (l1 : List Step) (st : Step) (l2 : List Step) (a : ArrivalEvent),
      log = l1 ++ st :: l2 → st.event = Event.arrival a →
      ∃ j st1 l3, l2 = st1 :: l3 ∧ st1.event =
        Event.departure ⟨a.arrivalTime + a.transactionTime, j, ⟨a, a.arrivalTime⟩⟩ := by
  induction h with
  | done _ =>
    intro _ l1 st l2 a hl _
    cases l1 <;> cases hl
  | @step k s s1 s2 e log hb hR ih =>
    intro hs l1 st l2 a hl hst
    have hs1 := (loopBody_quiet hs hb).2
    cases l1 with
    | cons x xs =>
      simp only [List.cons_append, List.cons.injEq] at hl
      exact ih hs1 xs st l2 a hl.2 hst
    | nil =>
      simp only [List.nil_append, List.cons.injEq] at hl
      obtain ⟨hhead, htail⟩ := hl
      have he : e = Event.arrival a := by
        rw [← hst, ← hhead]
      subst he
      obtain ⟨j, hin, hlow⟩ := loopBody_quiet_arrival hs hb
      refine ⟨j, ?_⟩
      cases hR with
      | done hq =>
        rw [hq] at hin
        simp at hin
      | @step k1 _ s3 _ e1 log1 hb1 hR1 =>
        refine ⟨⟨s1, e1⟩, log1, htail.symm, ?_⟩
        obtain ⟨hmem1, hmax1, _⟩ := loopBody_some_wait hb1
        by_contra hne
        have h1 := hlow e1 hmem1 hne
        have h2 := hmax1 _ hin
        have htd : get_event_time (Event.departure
            ⟨a.arrivalTime + a.transactionTime, j, ⟨a, a.arrivalTime⟩⟩) =
            a.arrivalTime + a.transactionTime := rfl
        rw [htd] at h2
        linarith

/-! ### The state after a successful set-up -/

/-- A set-up that succeeds was given a valid teller count, found the queue and the line
empty, and produced `setupState`. -/
theorem setupSimulation_success_wait {s s1 : BankSim3000} {n : Nat}
    (h : setupSimulation s n = (s1, .ok ())) :
    1 ≤ n ∧ n ≤ 5 ∧ s.eventQueue = [] ∧ s.bankLine = [] ∧ s1 = setupState s n := by
  unfold setupSimulation at h
  by_cases h1 : n < MIN_TELLERS
  · simp [h1] at h
  · by_cases h5 : n > MAX_TELLERS
    · simp [h1, h5] at h
    · simp only [h1, h5, if_false] at h
      have hn1 : 1 ≤ n := by
        unfold MIN_TELLERS at h1
        omega
      have hn5 : n ≤ 5 := by
        unfold MAX_TELLERS at h5
        omega
      cases hq : s.eventQueue with
      | cons e q => simp [setupEventQueue, hq] at h
      | nil =>
        cases hl : s.bankLine with
        | cons c l => simp [setupEventQueue, hq, clearBankLine, resetTellers, hl] at h
        | nil =>
          have := setupSimulation_ok_wait (s := s) hn1 hn5 hq hl
          unfold setupSimulation at this
          simp only [h1, h5, if_false] at this
          rw [this] at h
          simp only [Prod.mk.injEq, and_true] at h
          exact ⟨hn1, hn5, rfl, rfl, h.symm⟩

end TrackCustomer

end BankSim

/-! ## Postfix conversion: proofs -/

namespace Lab2

theorem isOperator_cases {op : Char} (h : isOperator op = true) :
    op = '+' ∨ op = '-' ∨ op = '*' ∨ op = '/' := by
  simpa [isOperator, or_assoc] using h

theorem isOperand_of_isOperator {op : Char} (h : isOperator op = true) :
    isOperand op = false := by
  rcases isOperator_cases h with rfl | rfl | rfl | rfl <;> rfl

theorem ne_open_of_isOperator {op : Char} (h : isOperator op = true) : op ≠ '(' := by
  rcases isOperator_cases h with rfl | rfl | rfl | rfl <;> decide

theorem ne_close_of_isOperator {op : Char} (h : isOperator op = true) : op ≠ ')' := by
  rcases isOperator_cases h with rfl | rfl | rfl | rfl <;> decide

/-- On an operator the `assert` of `precedence` holds, and the value returned is the
binding strength. -/
theorem precedence_of_isOperator {op : Char} (h : isOperator op = true) :
    precedence op = .ok (strength op : Int) := by
  rcases isOperator_cases h with rfl | rfl | rfl | rfl <;> rfl

theorem popAll_eq (aStack : List Char) : ∀ postfixExp : List Char,
    popAll aStack postfixExp = postfixExp ++ aStack := by
  induction aStack with
  | nil => intro p; simp [popAll]
  | cons top rest ih => intro p; simp [popAll, ih]

/-- The loop on an operator moves to the output the operators on top of the stack that
bind at least as strongly, and stops at a top that is lower. -/
theorem popHigher_spec {op : Char} (hop : isOperator op = true) (st : List Char)
    (hst : LowTop (strength op) st) :
    ∀ (P postfixExp : List Char),
      (∀ c ∈ P, isOperator c = true ∧ strength op ≤ strength c) →
      popHigher op (P ++ st) postfixExp = .ok (st, postfixExp ++ P) := by
  intro P
  induction P with
  | nil =>
    intro out _
    cases st with
    | nil => simp [popHigher]
    | cons top rest =>
      rcases hst with h | ⟨h1, h2⟩
      · subst h
        simp [popHigher]
      · have hlt : ¬ ((strength op : Int) ≤ (strength top : Int)) := by omega
        simp [popHigher, ne_open_of_isOperator h1, precedence_of_isOperator hop,
          precedence_of_isOperator h1, hlt]
  | cons c P ih =>
    intro out hP
    have hc := hP c (List.mem_cons_self _ _)
    have hle : (strength op : Int) ≤ (strength c : Int) := by
      have := hc.2
      omega
    have hrest := ih (out ++ [c]) (fun x hx => hP x (List.mem_cons_of_mem _ hx))
    simp only [List.cons_append, popHigher, ne_eq, ne_open_of_isOperator hc.1,
      not_false_eq_true, if_true, precedence_of_isOperator hop, precedence_of_isOperator hc.1,
      hle]
    simpa using hrest

/-- The loop on a closing parenthesis moves to the output the operators above the
innermost opening parenthesis. -/
theorem popToParen_spec (st : List Char) :
    ∀ (P postfixExp : List Char), (∀ c ∈ P, isOperator c = true) →
      popToParen (P ++ '(' :: st) postfixExp = ('(' :: st, postfixExp ++ P) := by
  intro P
  induction P with
  | nil =>
    intro out _
    simp [popToParen]
  | cons c P ih =>
    intro out hP
    have hc := hP c (List.mem_cons_self _ _)
    have hrest := ih (out ++ [c]) (fun x hx => hP x (List.mem_cons_of_mem _ hx))
    simp only [List.cons_append, popToParen, ne_eq, ne_open_of_isOperator hc,
      not_false_eq_true, if_true]
    simpa using hrest

theorem LowTop.mono {q r : Nat} (h : q ≤ r) : ∀ {st : List Char}, LowTop q st → LowTop r st
  | [], _ => trivial
  | _ :: _, hst => by
    rcases hst with h1 | ⟨h1, h2⟩
    · exact Or.inl h1
    · exact Or.inr ⟨h1, by omega⟩

namespace StdStack

theorem processAll_append : ∀ (xs ys aStack postfixExp : List Char) {s o : List Char},
    processAll xs aStack postfixExp = .ok (s, o) →
    processAll (xs ++ ys) aStack postfixExp = processAll ys s o
  | [], ys, aStack, postfixExp, s, o, h => by
    simp only [processAll, Except.ok.injEq, Prod.mk.injEq] at h
    obtain ⟨rfl, rfl⟩ := h
    rfl
  | ch :: xs, ys, aStack, postfixExp, s, o, h => by
    simp only [List.cons_append, processAll] at h ⊢
    cases hc : processChar ch aStack postfixExp with
    | error f => simp [hc] at h
    | ok r =>
      obtain ⟨s1, o1⟩ := r
      simp only [hc] at h ⊢
      exact processAll_append xs ys s1 o1 h

/-- The loop over the text of a well-formed expression, from any stack whose top is lower
than the expression and any output, succeeds: it leaves on the stack, above what was
there, operators `P` that bind at least as strongly as the expression, and the output
extended so that, followed by `P`, it is the output before followed by the postfix form
of the expression. -/
theorem processAll_written : ∀ (e : Expr), e.WellFormed →
    ∀ (st out : List Char), LowTop e.level st →
    ∃ P out1, processAll e.written st out = .ok (P ++ st, out1) ∧
      out1 ++ P = out ++ e.reversePolish ∧
      ∀ c ∈ P, isOperator c = true ∧ e.level ≤ strength c
  | .operand c, hwf, st, out, _ => by
    have hc : isOperand c = true := hwf
    refine ⟨[], out ++ [c], ?_, by simp [Expr.reversePolish], by simp⟩
    simp [Expr.written, processAll, processChar, hc]
  | .group e, hwf, st, out, _ => by
    have hwf1 : e.WellFormed := hwf
    obtain ⟨P, out1, hrun, hout, hP⟩ :=
      processAll_written e hwf1 ('(' :: st) out (Or.inl rfl)
    refine ⟨[], out1 ++ P, ?_, by simpa [Expr.reversePolish] using hout, by simp⟩
    have hopen : processChar '(' st out = .ok ('(' :: st, out) := rfl
    have hclose : processChar ')' (P ++ '(' :: st) out1 = .ok (st, out1 ++ P) := by
      have h1 : isOperand ')' = false := rfl
      have h2 : isOperator ')' = false := rfl
      have h3 : ¬ (')' = '(') := by decide
      simp only [processChar, h1, h2, h3, Bool.false_eq_true, if_false, if_true,
        popToParen_spec st P out1 (fun c hc => (hP c hc).1)]
    show processAll ('(' :: (e.written ++ [')'])) st out = _
    simp only [processAll, hopen]
    rw [processAll_append e.written [')'] ('(' :: st) out hrun]
    simp only [processAll, hclose, List.nil_append]
  | .binary op left right, hwf, st, out, hst => by
    obtain ⟨hop, hwl, hwr, hl, hr⟩ := hwf
    have hlev : (Expr.binary op left right).level = strength op := rfl
    rw [hlev] at hst
    obtain ⟨Pl, outl, hrunl, houtl, hPl⟩ :=
      processAll_written left hwl st out (LowTop.mono hl hst)
    have hstep : processChar op (Pl ++ st) outl = .ok (op :: st, outl ++ Pl) := by
      simp only [processChar, isOperand_of_isOperator hop, Bool.false_eq_true, if_false,
        ne_open_of_isOperator hop, hop, if_true,
        popHigher_spec hop st hst Pl outl
          (fun c hc => ⟨(hPl c hc).1, le_trans hl (hPl c hc).2⟩)]
    obtain ⟨Pr, outr, hrunr, houtr, hPr⟩ :=
      processAll_written right hwr (op :: st) (outl ++ Pl) (Or.inr ⟨hop, hr⟩)
    refine ⟨Pr ++ [op], outr, ?_, ?_, ?_⟩
    · simp only [Expr.written]
      rw [processAll_append left.written (op :: right.written) st out hrunl]
      simp only [processAll, hstep]
      rw [hrunr]
      simp
    · simp only [Expr.reversePolish]
      rw [← List.append_assoc, houtr, houtl]
      simp
    · intro c hc
      rw [hlev]
      rcases List.mem_append.1 hc with hc | hc
      · exact ⟨(hPr c hc).1, le_trans (le_of_lt hr) (hPr c hc).2⟩
      · simp only [List.mem_singleton] at hc
        subst hc
        exact ⟨hop, le_refl _⟩

/-- On the text of a well-formed expression `infixToPostFix` of `lab2.cpp` returns the
postfix form. -/
theorem infixToPostFix_written (e : Expr) (hwf : e.WellFormed) :
    infixToPostFix e.written = .ok e.reversePolish := by
  obtain ⟨P, out1, hrun, hout, _⟩ := processAll_written e hwf [] [] trivial
  simp only [List.append_nil] at hrun
  simp only [infixToPostFix, hrun, popAll_eq, hout, List.nil_append]

end StdStack

namespace ListStack

/-- Where the body of the loop of `lab2.cpp` succeeds, the body of the loop of
`lab2#2.cpp` does the same. -/
theorem processChar_of_stdStack {ch : Char} {aStack postfixExp : List Char}
    {r : List Char × List Char} (h : StdStack.processChar ch aStack postfixExp = .ok r) :
    processChar ch aStack postfixExp = .ok r := by
  unfold StdStack.processChar at h
  unfold processChar
  by_cases h1 : isOperand ch = true
  · simpa [h1] using h
  · by_cases h2 : isOperator ch = true
    · have h3 : ch ≠ '(' := ne_open_of_isOperator h2
      simpa [h1, h2, h3] using h
    · by_cases h3 : ch = '('
      · simpa [h1, h2, h3] using h
      · by_cases h4 : ch = ')'
        · subst h4
          have e1 : isOperand ')' = false := rfl
          have e2 : isOperator ')' = false := rfl
          have e3 : ¬ (')' = '(') := by decide
          simp only [e1, e2, e3, Bool.false_eq_true, if_false, if_true] at h ⊢
          cases hp : popToParen aStack postfixExp with
          | mk s o =>
            cases s with
            | nil => simp [hp] at h
            | cons top rest => simpa [hp] using h
        · simpa [h1, h2, h3, h4] using h

theorem processAll_of_stdStack : ∀ (xs aStack postfixExp : List Char)
    {r : List Char × List Char}, StdStack.processAll xs aStack postfixExp = .ok r →
    processAll xs aStack postfixExp = .ok r
  | [], _, _, _, h => h
  | ch :: xs, aStack, postfixExp, r, h => by
    simp only [StdStack.processAll] at h
    cases hc : StdStack.processChar ch aStack postfixExp with
    | error f => simp [hc] at h
    | ok r1 =>
      obtain ⟨s1, o1⟩ := r1
      simp only [hc] at h
      simp only [processAll, processChar_of_stdStack hc]
      exact processAll_of_stdStack xs s1 o1 h

/-- Where `infixToPostFix` of `lab2.cpp` returns a value, `infixToPostFix` of `lab2#2.cpp`
returns the same value. -/
theorem infixToPostFix_of_stdStack {infixExp result : List Char}
    (h : StdStack.infixToPostFix infixExp = .ok result) :
    infixToPostFix infixExp = .ok result := by
  unfold StdStack.infixToPostFix at h
  cases hp : StdStack.processAll infixExp [] [] with
  | error f => simp [hp] at h
  | ok r =>
    obtain ⟨s, o⟩ := r
    simp only [hp] at h
    simp only [infixToPostFix, processAll_of_stdStack infixExp [] [] hp]
    exact h

end ListStack

/-- The postfix form of a well-formed expression holds letters and operators only. -/
theorem reversePolish_chars : ∀ (e : Expr), e.WellFormed →
    ∀ c ∈ e.reversePolish, isOperand c = true ∨ isOperator c = true
  | .operand c, hwf, x, hx => by
    simp only [Expr.reversePolish, List.mem_singleton] at hx
    subst hx
    exact Or.inl hwf
  | .group e, hwf, x, hx => reversePolish_chars e hwf x hx
  | .binary op left right, hwf, x, hx => by
    obtain ⟨hop, hwl, hwr, _, _⟩ := hwf
    simp only [Expr.reversePolish, List.mem_append, List.mem_singleton] at hx
    rcases hx with (hx | hx) | hx
    · exact reversePolish_chars left hwl x hx
    · exact reversePolish_chars right hwr x hx
    · subst hx
      exact Or.inr hop

/-- The postfix form of a well-formed expression lists the operands in the order of the
text. -/
theorem reversePolish_operands : ∀ (e : Expr), e.WellFormed →
    e.reversePolish.filter isOperand = e.written.filter isOperand
  | .operand _, _ => rfl
  | .group e, hwf => by
    have h1 : isOperand '(' = false := rfl
    have h2 : isOperand ')' = false := rfl
    simp [Expr.reversePolish, Expr.written, List.filter_cons, h1, h2,
      reversePolish_operands e hwf]
  | .binary op left right, hwf => by
    obtain ⟨hop, hwl, hwr, _, _⟩ := hwf
    simp [Expr.reversePolish, Expr.written, List.filter_cons, isOperand_of_isOperator hop,
      reversePolish_operands left hwl, reversePolish_operands right hwr]

/-! ### Matching braces -/

/-- The loop of `areCurleyBracesMatched`, started with any stack, ends with an empty stack
exactly when no leading part of the rest of the input closes more braces than the stack
holds and the input opens, and the whole of it closes exactly as many. -/
theorem bracesLoop_eq_some_nil : ∀ (s stack : List Char),
    bracesLoop s stack = some [] ↔
      (∀ p, p <+: s → p.count '\x7d' ≤ stack.length + p.count '\x7b') ∧
        stack.length + s.count '\x7b' = s.count '\x7d'
  | [], stack => by
    simp only [bracesLoop, Option.some.injEq, List.prefix_nil, List.count_nil, add_zero]
    constructor
    · intro h
      subst h
      exact ⟨fun p hp => by subst hp; simp, rfl⟩
    · intro h
      exact List.length_eq_zero.1 h.2
  | ch :: rest, stack => by
    have hpre : ∀ (P : List Char → Prop),
        (∀ p, p <+: ch :: rest → P p) ↔ P [] ∧ ∀ q, q <+: rest → P (ch :: q) := by
      intro P
      constructor
      · intro h
        exact ⟨h [] (List.nil_prefix), fun q hq => h (ch :: q) ((List.prefix_cons_inj ch).2 hq)⟩
      · intro h p hp
        cases p with
        | nil => exact h.1
        | cons c q =>
          obtain ⟨rfl, hq⟩ := List.cons_prefix_cons.1 hp
          exact h.2 q hq
    rw [hpre]
    by_cases h1 : ch = '\x7b'
    · subst h1
      have ih := bracesLoop_eq_some_nil rest ('\x7b' :: stack)
      simp only [bracesLoop, if_true]
      rw [ih]
      have hc : ∀ q : List Char, ('\x7b' :: q).count '\x7d' = q.count '\x7d' := by
        intro q
        rw [List.count_cons_of_ne (by decide)]
      have ho : ∀ q : List Char, ('\x7b' :: q).count '\x7b' = q.count '\x7b' + 1 := by
        intro q
        rw [List.count_cons_self]
      simp only [hc, ho, List.length_cons, List.count_nil]
      constructor
      · rintro ⟨ha, hb⟩
        exact ⟨⟨by omega, fun q hq => by have := ha q hq; omega⟩, by omega⟩
      · rintro ⟨⟨_, ha⟩, hb⟩
        exact ⟨fun q hq => by have := ha q hq; omega, by omega⟩
    · by_cases h2 : ch = '\x7d'
      · subst h2
        have hc : ∀ q : List Char, ('\x7d' :: q).count '\x7d' = q.count '\x7d' + 1 := by
          intro q
          rw [List.count_cons_self]
        have ho : ∀ q : List Char, ('\x7d' :: q).count '\x7b' = q.count '\x7b' := by
          intro q
          rw [List.count_cons_of_ne (by decide)]
        simp only [bracesLoop, h1, if_false, if_true, hc, ho, List.count_nil]
        cases stack with
        | nil =>
          simp only [List.length_nil]
          constructor
          · intro h
            exact absurd h (by simp)
          · rintro ⟨⟨_, ha⟩, _⟩
            have := ha [] List.nil_prefix
            simp at this
        | cons top stack1 =>
          have ih := bracesLoop_eq_some_nil rest stack1
          simp only
          rw [ih]
          simp only [List.length_cons]
          constructor
          · rintro ⟨ha, hb⟩
            exact ⟨⟨by omega, fun q hq => by have := ha q hq; omega⟩, by omega⟩
          · rintro ⟨⟨_, ha⟩, hb⟩
            exact ⟨fun q hq => by have := ha q hq; omega, by omega⟩
      · have ih := bracesLoop_eq_some_nil rest stack
        have hc : ∀ q : List Char, (ch :: q).count '\x7d' = q.count '\x7d' := by
          intro q
          rw [List.count_cons_of_ne (Ne.symm h2)]
        have ho : ∀ q : List Char, (ch :: q).count '\x7b' = q.count '\x7b' := by
          intro q
          rw [List.count_cons_of_ne (Ne.symm h1)]
        simp only [bracesLoop, h1, h2, if_false, hc, ho, List.count_nil]
        rw [ih]
        constructor
        · rintro ⟨ha, hb⟩
          exact ⟨⟨by omega, ha⟩, hb⟩
        · rintro ⟨⟨_, ha⟩, hb⟩
          exact ⟨ha, hb⟩

/-- Function `areCurleyBracesMatched` returns `true` exactly on the strings whose braces
are balanced. -/
theorem areCurleyBracesMatched_iff (s : List Char) :
    areCurleyBracesMatched s = true ↔ BracesBalanced s := by
  have h := bracesLoop_eq_some_nil s []
  simp only [List.length_nil, zero_add] at h
  unfold BracesBalanced
  rw [← h]
  unfold areCurleyBracesMatched
  cases hb : bracesLoop s [] with
  | none => simp
  | some st =>
    cases st with
    | nil => simp
    | cons c st => simp

/-- The loop of `areCurleyBracesMatched` passes over every character that is not a
brace. -/
theorem bracesLoop_filter : ∀ (s stack : List Char),
    bracesLoop (s.filter (fun ch => ch = '\x7b' || ch = '\x7d')) stack = bracesLoop s stack
  | [], _ => rfl
  | ch :: rest, stack => by
    by_cases h1 : ch = '\x7b'
    · subst h1
      simp only [List.filter_cons, decide_True, Bool.true_or, if_true, bracesLoop]
      exact bracesLoop_filter rest _
    · by_cases h2 : ch = '\x7d'
      · subst h2
        simp only [List.filter_cons, decide_True, Bool.or_true, if_true, bracesLoop, h1,
          if_false]
        cases stack with
        | nil => rfl
        | cons top stack1 => exact bracesLoop_filter rest _
      · simp only [List.filter_cons, h1, h2, decide_False, Bool.or_self, Bool.false_eq_true,
          if_false, bracesLoop]
        exact bracesLoop_filter rest _

/-! ### Palindromes -/

theorem pushLoop_eq (s : List Char) : ∀ stack : List Char,
    ReverseCompare.pushLoop s stack = s.reverse ++ stack := by
  induction s with
  | nil => intro stack; rfl
  | cons ch rest ih =>
    intro stack
    simp [ReverseCompare.pushLoop, ih]

theorem popLoop_eq (stack : List Char) : ∀ reversed : List Char,
    ReverseCompare.popLoop stack reversed = reversed ++ stack := by
  induction stack with
  | nil => intro r; simp [ReverseCompare.popLoop]
  | cons top rest ih => intro r; simp [ReverseCompare.popLoop, ih]

/-- Function `isPalindrome` of `lab2.cpp` compares the string with its reversal. -/
theorem reverseCompare_isPalindrome (s : List Char) :
    ReverseCompare.isPalindrome s = decide (s = s.reverse) := by
  simp [ReverseCompare.isPalindrome, pushLoop_eq, popLoop_eq]

/-- The first loop of `isPalindrome` of `lab2#2.cpp`, over `k` indices from `a` on that lie
in the string, pushes the characters at these indices. -/
theorem halfStack_pushLoop (s : List Char) : ∀ (k a : Nat) (stack : List Char),
    a + k ≤ s.length →
    HalfStack.pushLoop s (List.range' a k) stack = .ok (((s.drop a).take k).reverse ++ stack)
  | 0, a, stack, _ => by simp [HalfStack.pushLoop]
  | k + 1, a, stack, h => by
    have ha : a < s.length := by omega
    have hd : s.drop a = s[a] :: s.drop (a + 1) := List.drop_eq_getElem_cons ha
    have hc : HalfStack.charAt s a = .ok s[a] := by
      simp [HalfStack.charAt, List.getElem?_eq_getElem ha]
    simp only [List.range'_succ, HalfStack.pushLoop, hc]
    rw [halfStack_pushLoop s k (a + 1) (s[a] :: stack) (by omega), hd, List.take_succ_cons,
      List.reverse_cons, List.append_assoc]
    rfl

/-- The second loop of `isPalindrome` of `lab2#2.cpp`, over `k` indices from `a` on that
lie in the string, compares the characters at these indices with the stack. -/
theorem halfStack_compareLoop (s : List Char) : ∀ (k a : Nat) (stack : List Char),
    a + k ≤ s.length →
    HalfStack.compareLoop s (List.range' a k) stack = .ok (matchTop ((s.drop a).take k) stack)
  | 0, a, stack, _ => by simp [HalfStack.compareLoop, matchTop]
  | k + 1, a, stack, h => by
    have ha : a < s.length := by omega
    have hd : s.drop a = s[a] :: s.drop (a + 1) := List.drop_eq_getElem_cons ha
    have hc : HalfStack.charAt s a = .ok s[a] := by
      simp [HalfStack.charAt, List.getElem?_eq_getElem ha]
    cases stack with
    | nil =>
      simp only [List.range'_succ, HalfStack.compareLoop]
      rw [hd, List.take_succ_cons]
      rfl
    | cons top stack1 =>
      simp only [List.range'_succ, HalfStack.compareLoop, hc, hd, List.take_succ_cons, matchTop]
      by_cases hne : top ≠ s[a]
      · simp [hne]
      · simp only [hne, if_false]
        exact halfStack_compareLoop s k (a + 1) stack1 (by omega)

/-- The comparison leaves the stack `r` exactly when the stack is the characters
compared followed by `r`. -/
theorem matchTop_eq_some : ∀ (cs stack r : List Char),
    matchTop cs stack = some r ↔ stack = cs ++ r
  | [], stack, r => by
    simp only [matchTop, Option.some.injEq, List.nil_append]
  | c :: cs, [], r => by simp [matchTop]
  | c :: cs, top :: stack, r => by
    have ih := matchTop_eq_some cs stack r
    show (if top ≠ c then none else matchTop cs stack) = some r ↔
      top :: stack = c :: (cs ++ r)
    by_cases he : top = c
    · subst he
      rw [if_neg (by simp), ih]
      simp
    · rw [if_pos he]
      constructor
      · intro h
        exact absurd h (by simp)
      · intro h
        exact absurd (List.cons.inj h).1 he

/-- A string cut into a first part, a middle of at most one character and a last part as
long as the first equals its reversal exactly when the last part is the first part
reversed. -/
theorem palindrome_by_halves (A M B : List Char) (hlen : A.length = B.length)
    (hM : M.length ≤ 1) :
    A ++ M ++ B = (A ++ M ++ B).reverse ↔ A.reverse = B := by
  have hMr : M.reverse = M := by
    cases M with
    | nil => rfl
    | cons m M1 =>
      cases M1 with
      | nil => rfl
      | cons m1 M2 => simp at hM
  simp only [List.reverse_append, hMr, List.append_assoc]
  constructor
  · intro h
    have := (List.append_inj h (by simp [hlen])).1
    rw [this, List.reverse_reverse]
  · intro h
    rw [← h, List.reverse_reverse]

/-- Function `isPalindrome` of `lab2#2.cpp` returns normally, with the comparison of the
string with its reversal. -/
theorem halfStack_isPalindrome (s : List Char) :
    HalfStack.isPalindrome s = .ok (decide (s = s.reverse)) := by
  unfold HalfStack.isPalindrome
  cases hs : s with
  | nil => simp
  | cons c0 s0 =>
    rw [← hs]
    have hne : s.isEmpty = false := by rw [hs]; rfl
    simp only [hne, Bool.false_eq_true, if_false]
    have hpush := halfStack_pushLoop s (s.length / 2) 0 [] (by omega)
    rw [List.range_eq_range', hpush]
    simp only [List.drop_zero, List.append_nil]
    have hstart : (if s.length % 2 = 0 then s.length / 2 else s.length / 2 + 1) =
        s.length - s.length / 2 := by
      split <;> omega
    rw [hstart]
    have hcmp := halfStack_compareLoop s (s.length - (s.length - s.length / 2))
      (s.length - s.length / 2) (s.take (s.length / 2)).reverse (by omega)
    rw [hcmp]
    have hk : s.length - (s.length - s.length / 2) = s.length / 2 := by omega
    have htake : (s.drop (s.length - s.length / 2)).take
        (s.length - (s.length - s.length / 2)) = s.drop (s.length - s.length / 2) := by
      apply List.take_of_length_le
      rw [List.length_drop]
    rw [htake]
    have hsplit : s = s.take (s.length / 2) ++
        (s.drop (s.length / 2)).take (s.length - s.length / 2 - s.length / 2) ++
        s.drop (s.length - s.length / 2) := by
      have h1 : s.drop (s.length / 2) =
          (s.drop (s.length / 2)).take (s.length - s.length / 2 - s.length / 2) ++
            (s.drop (s.length / 2)).drop (s.length - s.length / 2 - s.length / 2) :=
        (List.take_append_drop _ _).symm
      rw [List.drop_drop] at h1
      have h2' : s.length / 2 + (s.length - s.length / 2 - s.length / 2) =
          s.length - s.length / 2 := by omega
      rw [List.append_assoc]
      conv_lhs => rw [← List.take_append_drop (s.length / 2) s]
      congr 1
      rw [h2'] at h1
      exact h1
    have hiff := palindrome_by_halves (s.take (s.length / 2))
      ((s.drop (s.length / 2)).take (s.length - s.length / 2 - s.length / 2))
      (s.drop (s.length - s.length / 2))
      (by rw [List.length_take, List.length_drop]; omega)
      (by rw [List.length_take, List.length_drop]; omega)
    rw [← hsplit] at hiff
    cases hm : matchTop (s.drop (s.length - s.length / 2)) (s.take (s.length / 2)).reverse with
    | none =>
      have hn : ¬ (s = s.reverse) := by
        intro hp
        have := (matchTop_eq_some (s.drop (s.length - s.length / 2))
          (s.take (s.length / 2)).reverse []).2 (by rw [List.append_nil]; exact hiff.1 hp)
        rw [hm] at this
        exact absurd this (by simp)
      rw [decide_eq_false hn]
    | some r =>
      have hr := (matchTop_eq_some _ _ r).1 hm
      have hrlen : r = [] := by
        have := congrArg List.length hr
        simp only [List.length_reverse, List.length_take, List.length_append,
          List.length_drop] at this
        exact List.length_eq_zero.1 (by omega)
      subst hrlen
      rw [List.append_nil] at hr
      rw [decide_eq_true (hiff.2 hr)]
      rfl

end Lab2

/-! ## Lists and insertion sort: proofs -/

namespace Lab3

theorem readAt_natCast (items : List Int) (k : Nat) {v : Int} (h : items[k]? = some v) :
    readAt items (k : Int) = .ok v := by
  simp [readAt, h]

theorem writeAt_natCast (items : List Int) (k : Nat) (v : Int) (h : k < items.length) :
    writeAt items (k : Int) v = .ok (items.set k v) := by
  simp [writeAt, h]

/-- The loop of `ArrayList::insert` over the positions `hi, hi - 1, …, hi - n + 1` succeeds
when they are in range, and moves each entry at these positions from the position
before; the other elements of the array are unchanged. -/
theorem shiftUp_spec : ∀ (n hi : Nat) (items : List Int), n ≤ hi → hi < items.length →
    ∃ items1, ArrayList.shiftUp items (countDownFrom n (hi : Int)) = .ok items1 ∧
      items1.length = items.length ∧
      ∀ i : Nat, items1[i]? = if hi - n < i ∧ i ≤ hi then items[i - 1]? else items[i]?
  | 0, hi, items, _, _ => by
    refine ⟨items, rfl, rfl, ?_⟩
    intro i
    rw [if_neg (by omega)]
  | n + 1, hi, items, hn, hlen => by
    have hpos : 1 ≤ hi := by omega
    obtain ⟨v, hv⟩ : ∃ v, items[hi - 1]? = some v :=
      ⟨items[hi - 1], List.getElem?_eq_getElem (by omega)⟩
    have hcast : (hi : Int) - 1 = ((hi - 1 : Nat) : Int) := by omega
    obtain ⟨items1, hrun, hlen1, hpt⟩ :=
      shiftUp_spec n (hi - 1) (items.set hi v) (by omega) (by simp; omega)
    refine ⟨items1, ?_, by simpa using hlen1, ?_⟩
    · simp only [countDownFrom, ArrayList.shiftUp, hcast, readAt_natCast items (hi - 1) hv,
        writeAt_natCast items hi v hlen]
      exact hrun
    · intro i
      rw [hpt i]
      by_cases h1 : hi - 1 - n < i ∧ i ≤ hi - 1
      · have h2 : hi - (n + 1) < i ∧ i ≤ hi := by omega
        rw [if_pos h1, if_pos h2, List.getElem?_set_ne (by omega)]
      · rw [if_neg h1]
        by_cases h3 : i = hi
        · subst h3
          have h2 : i - (n + 1) < i ∧ i ≤ i := by omega
          rw [if_pos h2, List.getElem?_set_self hlen, hv]
        · have h2 : ¬ (hi - (n + 1) < i ∧ i ≤ hi) := by omega
          rw [if_neg h2, List.getElem?_set_ne (by omega)]

/-- An `insert` that is able to insert succeeds: the array keeps its size, the new entry is
at the new position, the entries from there to the last are each moved by one position
towards the end, and the other elements are unchanged. -/
theorem arrayList_insert_able (l : ArrayList) (h : l.WF) (p x : Int) (hp1 : 1 ≤ p)
    (hp2 : p ≤ l.itemCount + 1) (hcap : l.itemCount < l.maxItems) :
    ∃ items2, l.insert p x =
        .ok ({ l with items := items2, itemCount := l.itemCount + 1 }, true) ∧
      items2.length = l.items.length ∧
      ∀ i : Nat, items2[i]? =
        if (i : Int) = p - 1 then some x
        else if p ≤ (i : Int) ∧ (i : Int) ≤ l.itemCount then l.items[i - 1]? else l.items[i]? := by
  obtain ⟨h0, _, hmax⟩ := h
  obtain ⟨c, hc⟩ := Int.eq_ofNat_of_zero_le h0
  obtain ⟨k, hk⟩ := Int.eq_ofNat_of_zero_le (show 0 ≤ p - 1 by omega)
  have hp : p = (k : Int) + 1 := by omega
  subst hp
  have hclen : c < l.items.length := by omega
  obtain ⟨items1, hrun, hlen1, hpt⟩ := shiftUp_spec (c - k) c l.items (by omega) hclen
  have hcount : countDown l.itemCount ((k : Int) + 1) = countDownFrom (c - k) (c : Int) := by
    unfold countDown
    rw [hc]
    congr 1
    omega
  have hklen : k < items1.length := by omega
  refine ⟨items1.set k x, ?_, by simpa using hlen1, ?_⟩
  · have hable : (decide ((k : Int) + 1 ≥ 1) && decide ((k : Int) + 1 ≤ l.itemCount + 1) &&
        decide (l.itemCount < l.maxItems)) = true := by
      simp only [Bool.and_eq_true, decide_eq_true_eq]
      exact ⟨⟨hp1, hp2⟩, hcap⟩
    have hw : writeAt items1 ((k : Int) + 1 - 1) x = .ok (items1.set k x) := by
      rw [show (k : Int) + 1 - 1 = (k : Int) by omega]
      exact writeAt_natCast items1 k x hklen
    simp only [ArrayList.insert, hable, if_true, hcount, hrun, hw]
  · intro i
    by_cases hik : i = k
    · subst hik
      rw [if_pos (by omega), List.getElem?_set_self hklen]
    · rw [if_neg (by omega), List.getElem?_set_ne (by omega), hpt i]
      by_cases h1 : c - (c - k) < i ∧ i ≤ c
      · rw [if_pos h1, if_pos (by omega)]
      · rw [if_neg h1, if_neg (by omega)]

/-- An `insert` that is not able to insert returns `false` and leaves the object as it
is. -/
theorem arrayList_insert_unable (l : ArrayList) (p x : Int)
    (h : ¬ (1 ≤ p ∧ p ≤ l.itemCount + 1 ∧ l.itemCount < l.maxItems)) :
    l.insert p x = .ok (l, false) := by
  have hable : (decide (p ≥ 1) && decide (p ≤ l.itemCount + 1) &&
      decide (l.itemCount < l.maxItems)) = false := by
    rw [Bool.eq_false_iff]
    intro ht
    simp only [Bool.and_eq_true, decide_eq_true_eq] at ht
    exact h ⟨ht.1.1, ht.1.2, ht.2⟩
  simp only [ArrayList.insert, hable, Bool.false_eq_true, if_false]

/-- Within the range of positions, `ArrayList::getEntry` reads the array. -/
theorem arrayList_getEntry_of_range (l : ArrayList) (q : Int) (h1 : 1 ≤ q)
    (h2 : q ≤ l.itemCount) : l.getEntry q = readAt l.items (q - 1) := by
  have hable : (decide (q ≥ 1) && decide (q ≤ l.itemCount)) = true := by
    simp only [Bool.and_eq_true, decide_eq_true_eq]
    exact ⟨h1, h2⟩
  simp only [ArrayList.getEntry, hable, if_true]

/-- Outside the range of positions, `ArrayList::getEntry` throws. -/
theorem arrayList_getEntry_out_of_range (l : ArrayList) (q : Int)
    (h : ¬ (1 ≤ q ∧ q ≤ l.itemCount)) :
    l.getEntry q =
      .error (.invalidArgument "getEntry() called with an empty list or invalid position.") := by
  have hable : (decide (q ≥ 1) && decide (q ≤ l.itemCount)) = false := by
    rw [Bool.eq_false_iff]
    intro ht
    simp only [Bool.and_eq_true, decide_eq_true_eq] at ht
    exact h ht
  simp only [ArrayList.getEntry, hable, Bool.false_eq_true, if_false]

/-- A read at a non-negative index is determined by the element of the list there. -/
theorem readAt_congr {xs ys : List Int} {i j : Int} (hi : 0 ≤ i) (hj : 0 ≤ j)
    (h : xs[i.toNat]? = ys[j.toNat]?) : readAt xs i = readAt ys j := by
  simp only [readAt, hi, hj, if_true, h]

theorem arrayList_entries_getElem? (l : ArrayList) (k : Nat) (hk : (k : Int) < l.itemCount) :
    l.entries[k]? = l.items[k]? := by
  unfold ArrayList.entries
  rw [List.getElem?_take_of_lt (by omega)]

theorem arrayList_entries_length (l : ArrayList) (h : l.WF) :
    (l.entries.length : Int) = l.itemCount := by
  obtain ⟨h0, h1, h2⟩ := h
  unfold ArrayList.entries
  rw [List.length_take]
  omega

/-- The class `ArrayList` behaves as a list. -/
theorem arrayList_lawful : Lawful ArrayList.interface ArrayList.WF ArrayList.entries := by
  constructor
  · intro l h
    exact (arrayList_entries_length l h).symm
  · intro l k x h hk
    have hlen := arrayList_entries_length l h
    have hklt : k < l.entries.length := by
      by_contra hge
      rw [List.getElem?_eq_none (by omega)] at hk
      exact absurd hk (by simp)
    show l.getEntry ((k : Int) + 1) = .ok x
    rw [arrayList_getEntry_of_range l _ (by omega) (by omega)]
    rw [arrayList_entries_getElem? l k (by omega)] at hk
    rw [show (k : Int) + 1 - 1 = (k : Int) by omega]
    exact readAt_natCast _ k hk
  · intro l k x h hk
    have hlen := arrayList_entries_length l h
    obtain ⟨h0, h1, h2⟩ := h
    have hable : (decide ((k : Int) + 1 ≥ 1) && decide ((k : Int) + 1 ≤ l.itemCount)) = true := by
      simp only [Bool.and_eq_true, decide_eq_true_eq]
      omega
    have hw : writeAt l.items ((k : Int) + 1 - 1) x = .ok (l.items.set k x) := by
      rw [show (k : Int) + 1 - 1 = (k : Int) by omega]
      exact writeAt_natCast _ k x (by omega)
    refine ⟨{ l with items := l.items.set k x }, ?_, ?_, ?_⟩
    · show l.setEntry ((k : Int) + 1) x = _
      simp only [ArrayList.setEntry, hable, if_true, hw]
    · exact ⟨h0, h1, by simpa using h2⟩
    · unfold ArrayList.entries
      simp only
      rw [List.set_take]

/-- The loop of `getNodeAt` makes `n` steps along the chain when the chain has that many
nodes from the node it starts at. -/
theorem follow_spec (chain : List Int) : ∀ (n : Nat) (lo : Int) (curPtr : Nat),
    curPtr + n ≤ chain.length →
    LinkedList.follow chain (countUpFrom n lo) curPtr = .ok (curPtr + n)
  | 0, _, _, _ => rfl
  | n + 1, lo, curPtr, h => by
    have hlt : curPtr < chain.length := by omega
    simp only [countUpFrom, LinkedList.follow, hlt, if_true]
    rw [follow_spec chain n (lo + 1) (curPtr + 1) (by omega)]
    congr 1
    omega

/-- Within the range of positions, `getNodeAt` returns the node at the position. -/
theorem linkedList_getNodeAt_of_range (l : LinkedList) (h : l.WF) (k : Nat)
    (hk : k < l.headPtr.length) : l.getNodeAt ((k : Int) + 1) = .ok k := by
  unfold LinkedList.WF at h
  have hr : (k : Int) + 1 ≥ 1 ∧ (k : Int) + 1 ≤ l.itemCount := by omega
  have hcount : countUp 1 ((k : Int) + 1 - 1) = countUpFrom k 1 := by
    unfold countUp
    congr 1
    omega
  simp only [LinkedList.getNodeAt, hr, and_self, if_true, hcount]
  rw [follow_spec l.headPtr k 1 0 (by omega)]
  simp

/-- Outside the range of positions, the `assert` of `getNodeAt` fails. -/
theorem linkedList_getNodeAt_out_of_range (l : LinkedList) (p : Int)
    (h : ¬ (1 ≤ p ∧ p ≤ l.itemCount)) : l.getNodeAt p = .error .assertionFailed := by
  have hr : ¬ (p ≥ 1 ∧ p ≤ l.itemCount) := h
  simp only [LinkedList.getNodeAt, hr, if_false]

/-- An `insert` at a position from 1 to the length plus one succeeds: the new entry is
linked into the chain before the node that was at that position. -/
theorem linkedList_insert_able (l : LinkedList) (h : l.WF) (k : Nat) (x : Int)
    (hk : k ≤ l.headPtr.length) :
    l.insert ((k : Int) + 1) x =
      .ok (⟨l.headPtr.take k ++ x :: l.headPtr.drop k, l.itemCount + 1⟩, true) := by
  have hwf : l.itemCount = l.headPtr.length := h
  have hable : (decide ((k : Int) + 1 ≥ 1) && decide ((k : Int) + 1 ≤ l.itemCount + 1)) =
      true := by
    simp only [Bool.and_eq_true, decide_eq_true_eq]
    omega
  cases k with
  | zero =>
    simp only [LinkedList.insert, hable, if_true]
    simp
  | succ j =>
    have hne : ¬ (((j + 1 : Nat) : Int) + 1 = 1) := by omega
    have hnode : l.getNodeAt (((j + 1 : Nat) : Int) + 1 - 1) = .ok j := by
      rw [show ((j + 1 : Nat) : Int) + 1 - 1 = (j : Int) + 1 by omega]
      exact linkedList_getNodeAt_of_range l h j (by omega)
    have hj : j < l.headPtr.length := by omega
    simp only [LinkedList.insert, hable, if_true, hne, if_false, hnode, hj]

/-- An `insert` at another position returns `false` and leaves the object as it is. -/
theorem linkedList_insert_unable (l : LinkedList) (p x : Int)
    (h : ¬ (1 ≤ p ∧ p ≤ l.itemCount + 1)) : l.insert p x = .ok (l, false) := by
  have hable : (decide (p ≥ 1) && decide (p ≤ l.itemCount + 1)) = false := by
    rw [Bool.eq_false_iff]
    intro ht
    simp only [Bool.and_eq_true, decide_eq_true_eq] at ht
    exact h ht
  simp only [LinkedList.insert, hable, Bool.false_eq_true, if_false]

/-- Within the range of positions, `LinkedList::getEntry` returns the item of the node at
the position. -/
theorem linkedList_getEntry_of_range (l : LinkedList) (h : l.WF) (k : Nat) {x : Int}
    (hk : l.headPtr[k]? = some x) : l.getEntry ((k : Int) + 1) = .ok x := by
  have hwf : l.itemCount = l.headPtr.length := h
  have hklt : k < l.headPtr.length := by
    by_contra hge
    rw [List.getElem?_eq_none (by omega)] at hk
    exact absurd hk (by simp)
  have hable : (decide ((k : Int) + 1 ≥ 1) && decide ((k : Int) + 1 ≤ l.itemCount)) = true := by
    simp only [Bool.and_eq_true, decide_eq_true_eq]
    omega
  simp only [LinkedList.getEntry, hable, if_true, linkedList_getNodeAt_of_range l h k hklt, hk]

/-- Outside the range of positions, `LinkedList::getEntry` throws. -/
theorem linkedList_getEntry_out_of_range (l : LinkedList) (q : Int)
    (h : ¬ (1 ≤ q ∧ q ≤ l.itemCount)) :
    l.getEntry q =
      .error (.invalidArgument "getEntry() called with an empty list or invalid position.") := by
  have hable : (decide (q ≥ 1) && decide (q ≤ l.itemCount)) = false := by
    rw [Bool.eq_false_iff]
    intro ht
    simp only [Bool.and_eq_true, decide_eq_true_eq] at ht
    exact h ht
  simp only [LinkedList.getEntry, hable, Bool.false_eq_true, if_false]

/-- The class `LinkedList` behaves as a list. -/
theorem linkedList_lawful : Lawful LinkedList.interface LinkedList.WF LinkedList.entries := by
  constructor
  · intro l h
    exact h
  · intro l k x h hk
    exact linkedList_getEntry_of_range l h k hk
  · intro l k x h hk
    have hk1 : k < l.headPtr.length := hk
    refine ⟨{ l with headPtr := l.headPtr.set k x }, ?_, ?_, rfl⟩
    · show l.setEntry ((k : Int) + 1) x = _
      simp only [LinkedList.setEntry, linkedList_getNodeAt_of_range l h k hk1, hk1, if_true]
    · show l.itemCount = ((l.headPtr.set k x).length : Int)
      rw [List.length_set]
      exact h

/-- Entries of a list into which `x` has been inserted before index `k`. -/
theorem getElem?_inserted (xs : List Int) (k : Nat) (x : Int) (hk : k ≤ xs.length) (i : Nat) :
    (xs.take k ++ x :: xs.drop k)[i]? =
      if i < k then xs[i]? else if i = k then some x else xs[i - 1]? := by
  have hlen : (xs.take k).length = k := by
    rw [List.length_take]
    omega
  by_cases h1 : i < k
  · rw [if_pos h1, List.getElem?_append_left (by omega), List.getElem?_take_of_lt h1]
  · rw [if_neg h1, List.getElem?_append_right (by omega), hlen]
    by_cases h2 : i = k
    · subst h2
      simp
    · rw [if_neg h2]
      obtain ⟨j, hj⟩ : ∃ j, i - k = j + 1 := ⟨i - k - 1, by omega⟩
      rw [hj, List.getElem?_cons_succ, List.getElem?_drop]
      congr 1
      omega

theorem set_at_length (A : List Int) (h x : Int) (C : List Int) :
    (A ++ h :: C).set A.length x = A ++ x :: C := by
  induction A with
  | nil => rfl
  | cons a A ih => simp [ih]

theorem getElem?_at_length (A : List Int) (h : Int) (C : List Int) :
    (A ++ h :: C)[A.length]? = some h := by
  induction A with
  | nil => simp
  | cons a A ih => simpa using ih

/-- In a sorted list no element exceeds the last one. -/
theorem sorted_le_getLast {A : List Int} (hs : A.Pairwise (· ≤ ·)) {a z : Int} (ha : a ∈ A)
    (hz : A.getLast? = some z) : a ≤ z := by
  obtain ⟨ys, rfl⟩ := List.getLast?_eq_some_iff.1 hz
  rcases List.mem_append.1 ha with h | h
  · exact (List.pairwise_append.1 hs).2.2 a h z (by simp)
  · simp only [List.mem_singleton] at h
    exact le_of_eq h

/-- Putting `x` between the entries that do not exceed it and the entries that exceed it
keeps a sorted list sorted. -/
theorem sorted_insert_between {A1 A2 : List Int} {x : Int}
    (hs : (A1 ++ A2).Pairwise (· ≤ ·)) (hgt : ∀ a ∈ A2, x < a)
    (hle : ∀ a, A1.getLast? = some a → a ≤ x) : (A1 ++ x :: A2).Pairwise (· ≤ ·) := by
  obtain ⟨h1, h2, h12⟩ := List.pairwise_append.1 hs
  have hA1 : ∀ a ∈ A1, a ≤ x := by
    intro a ha
    cases hz : A1.getLast? with
    | none =>
      rw [List.getLast?_eq_none_iff] at hz
      subst hz
      simp at ha
    | some z => exact le_trans (sorted_le_getLast h1 ha hz) (hle z hz)
  rw [List.pairwise_append]
  refine ⟨h1, ?_, ?_⟩
  · rw [List.pairwise_cons]
    exact ⟨fun b hb => le_of_lt (hgt b hb), h2⟩
  · intro a ha b hb
    rcases List.mem_cons.1 hb with rfl | hb
    · exact hA1 a ha
    · exact h12 a ha b hb

section Sorting

variable {L : Type} {list : ListInterface L} {inv : L → Prop} {entries : L → List Int}

/-- The `while` loop of `insertionSort`, started with `loc` entries `A` before the
position to fill, succeeds: it stops after moving the trailing entries `A2` of `A` that
exceed `nextItem` by one position, with `loc` the number of the remaining entries `A1`,
of which the last does not exceed `nextItem`. -/
theorem shiftLarger_spec (hlaw : Lawful list inv entries) (nextItem : Int) :
    ∀ (loc : Nat) (l : L) (A : List Int) (h : Int) (C : List Int),
      inv l → entries l = A ++ h :: C → A.length = loc →
      ∃ l1 A1 A2 h1, shiftLarger list nextItem loc l = .ok (l1, A1.length) ∧ inv l1 ∧
        A = A1 ++ A2 ∧ (∀ a ∈ A2, nextItem < a) ∧
        (∀ a, A1.getLast? = some a → a ≤ nextItem) ∧
        entries l1 = A1 ++ h1 :: (A2 ++ C)
  | 0, l, A, h, C, hinv, he, hlen => by
    have hA : A = [] := List.length_eq_zero.1 hlen
    subst hA
    exact ⟨l, [], [], h, rfl, hinv, rfl, by simp, by simp, by simpa using he⟩
  | loc + 1, l, A, h, C, hinv, he, hlen => by
    have hne : A ≠ [] := by
      intro hA
      subst hA
      simp at hlen
    obtain ⟨A0, a, hA⟩ : ∃ A0 a, A = A0 ++ [a] :=
      ⟨A.dropLast, A.getLast hne, (List.dropLast_append_getLast hne).symm⟩
    subst hA
    have hlen0 : A0.length = loc := by simpa using hlen
    have he1 : entries l = A0 ++ a :: (h :: C) := by simp [he]
    have hget : list.getEntry l ((loc : Int) + 1) = .ok a := by
      apply hlaw.getEntry l loc a hinv
      rw [he1, ← hlen0]
      exact getElem?_at_length A0 a (h :: C)
    by_cases hgt : a > nextItem
    · have hidx : loc + 1 < (entries l).length := by
        rw [he1]
        simp
        omega
      obtain ⟨l1, hset, hinv1, he2⟩ := hlaw.setEntry l (loc + 1) a hinv hidx
      have hset1 : list.setEntry l ((loc : Int) + 1 + 1) a = .ok l1 := by
        rw [← hset]
        congr 1
      have he3 : entries l1 = A0 ++ a :: (a :: C) := by
        rw [he2, he]
        have := set_at_length (A0 ++ [a]) h a C
        rw [show (A0 ++ [a]).length = loc + 1 by simp [hlen0]] at this
        rw [this]
        simp
      obtain ⟨l2, A1, A2, h1, hrun, hinv2, hsplit, hall, hlast, he4⟩ :=
        shiftLarger_spec hlaw nextItem loc l1 A0 a (a :: C) hinv1 he3 hlen0
      refine ⟨l2, A1, A2 ++ [a], h1, ?_, hinv2, ?_, ?_, hlast, ?_⟩
      · simp only [shiftLarger, hget, hgt, if_true, hset1]
        exact hrun
      · rw [hsplit, List.append_assoc]
      · intro b hb
        rcases List.mem_append.1 hb with hb | hb
        · exact hall b hb
        · simp only [List.mem_singleton] at hb
          rw [hb]
          exact hgt
      · rw [he4]
        simp
    · refine ⟨l, A0 ++ [a], [], h, ?_, hinv, by simp, by simp, ?_, by simpa using he⟩
      · simp only [shiftLarger, hget, hgt, if_false]
        rw [hlen]
      · intro b hb
        rw [List.getLast?_concat] at hb
        simp only [Option.some.injEq] at hb
        rw [← hb]
        exact not_lt.1 hgt

/-- The `for` loop of `insertionSort`, started with a sorted run `P` of entries followed
by the entries `S` still to be inserted, succeeds and leaves a sorted permutation of the
entries. -/
theorem sortLoop_spec (hlaw : Lawful list inv entries) :
    ∀ (k : Nat) (l : L) (P S : List Int),
      inv l → entries l = P ++ S → S.length = k → P.Pairwise (· ≤ ·) →
      ∃ l1, sortLoop list (countUpFrom k ((P.length : Int) + 1)) l = .ok l1 ∧ inv l1 ∧
        (entries l1).Pairwise (· ≤ ·) ∧ (entries l1).Perm (entries l)
  | 0, l, P, S, hinv, he, hlen, hs => by
    have hS : S = [] := List.length_eq_zero.1 hlen
    subst hS
    refine ⟨l, rfl, hinv, ?_, List.Perm.refl _⟩
    rw [he]
    simpa using hs
  | k + 1, l, P, S, hinv, he, hlen, hs => by
    cases S with
    | nil => simp at hlen
    | cons x S0 =>
      have hlen0 : S0.length = k := by simpa using hlen
      have hget : list.getEntry l ((P.length : Int) + 1) = .ok x := by
        apply hlaw.getEntry l P.length x hinv
        rw [he]
        exact getElem?_at_length P x S0
      obtain ⟨l1, A1, A2, h1, hrun, hinv1, hsplit, hall, hlast, he1⟩ :=
        shiftLarger_spec hlaw x P.length l P x S0 hinv he rfl
      have hidx : A1.length < (entries l1).length := by
        rw [he1]
        simp
      obtain ⟨l2, hset, hinv2, he2⟩ := hlaw.setEntry l1 A1.length x hinv1 hidx
      have he3 : entries l2 = (A1 ++ x :: A2) ++ S0 := by
        rw [he2, he1, set_at_length]
        simp
      have hs1 : (A1 ++ x :: A2).Pairwise (· ≤ ·) :=
        sorted_insert_between (hsplit ▸ hs) hall hlast
      obtain ⟨l3, hloop, hinv3, hsorted, hperm⟩ :=
        sortLoop_spec hlaw k l2 (A1 ++ x :: A2) S0 hinv2 he3 hlen0 hs1
      have hPlen : ((A1 ++ x :: A2).length : Int) + 1 = (P.length : Int) + 1 + 1 := by
        rw [hsplit]
        simp
        omega
      have htoNat : ((P.length : Int) + 1 - 1).toNat = P.length := by omega
      refine ⟨l3, ?_, hinv3, hsorted, ?_⟩
      · simp only [countUpFrom, sortLoop, hget, htoNat, hrun, hset]
        rw [← hPlen]
        exact hloop
      · refine hperm.trans ?_
        rw [he3, he, hsplit]
        have e1 : (A1 ++ x :: A2) ++ S0 = A1 ++ x :: (A2 ++ S0) := by simp
        have e2 : x :: (A1 ++ (A2 ++ S0)) = x :: ((A1 ++ A2) ++ S0) := by simp
        rw [e1]
        refine List.perm_middle.trans ?_
        rw [e2]
        exact List.perm_middle.symm

/-- Function `insertionSort` succeeds on every list that satisfies the class invariant,
and leaves a sorted permutation of its entries. -/
theorem insertionSort_spec (hlaw : Lawful list inv entries) (l : L) (hinv : inv l) :
    ∃ l1, insertionSort list l = .ok l1 ∧ inv l1 ∧
      (entries l1).Pairwise (· ≤ ·) ∧ (entries l1).Perm (entries l) := by
  unfold insertionSort
  simp only
  rw [hlaw.getLength l hinv]
  cases he : entries l with
  | nil =>
    refine ⟨l, ?_, hinv, ?_, ?_⟩
    · simp [countUp, countUpFrom, sortLoop]
    · rw [he]
      exact List.Pairwise.nil
    · rw [he]
  | cons x S =>
    obtain ⟨l1, hloop, hinv1, hsorted, hperm⟩ :=
      sortLoop_spec hlaw S.length l [x] S hinv (by simpa using he) rfl (List.pairwise_singleton _ _)
    refine ⟨l1, ?_, hinv1, hsorted, he ▸ hperm⟩
    have hcount : countUp 2 (((x :: S).length : Nat) : Int) =
        countUpFrom S.length ((([x] : List Int).length : Int) + 1) := by
      unfold countUp
      simp only [List.length_cons, List.length_nil]
      congr 1
      omega
    rw [hcount]
    exact hloop

end Sorting

/-- On a sorted chain the loop of `isSorted` finds no pair out of order. -/
theorem isSortedLoop_spec (l : LinkedList) (hwf : l.WF) (hs : l.headPtr.Pairwise (· ≤ ·)) :
    ∀ (k j : Nat), j + k < l.headPtr.length →
      isSortedLoop l (countUpFrom k ((j : Int) + 1)) = .ok true
  | 0, _, _ => rfl
  | k + 1, j, h => by
    have h1 : j < l.headPtr.length := by omega
    have h2 : j + 1 < l.headPtr.length := by omega
    have hg1 : l.getEntry ((j : Int) + 1) = .ok l.headPtr[j] :=
      linkedList_getEntry_of_range l hwf j (List.getElem?_eq_getElem h1)
    have hg2 : l.getEntry ((j : Int) + 1 + 1) = .ok l.headPtr[j + 1] := by
      have := linkedList_getEntry_of_range l hwf (j + 1) (List.getElem?_eq_getElem h2)
      rw [← this]
      congr 1
    have hle : l.headPtr[j] ≤ l.headPtr[j + 1] :=
      List.pairwise_iff_getElem.1 hs j (j + 1) h1 h2 (by omega)
    have hng : ¬ (l.headPtr[j] > l.headPtr[j + 1]) := not_lt.2 hle
    simp only [countUpFrom, isSortedLoop, hg1, hg2, hng, if_false]
    have := isSortedLoop_spec l hwf hs k (j + 1) (by omega)
    rw [← this]
    congr 2

/-- On a sorted `LinkedList` the function `isSorted` returns `true`. -/
theorem isSorted_of_sorted (l : LinkedList) (hwf : l.WF) (hs : l.headPtr.Pairwise (· ≤ ·)) :
    isSorted l = .ok true := by
  have hlen : l.itemCount = l.headPtr.length := hwf
  unfold isSorted LinkedList.getLength
  simp only
  by_cases hn : l.itemCount ≤ 1
  · rw [if_pos hn]
  · rw [if_neg hn]
    have hcount : countUp 1 (l.itemCount - 1) =
        countUpFrom (l.headPtr.length - 1) (((0 : Nat) : Int) + 1) := by
      unfold countUp
      congr 1
      omega
    rw [hcount]
    exact isSortedLoop_spec l hwf hs (l.headPtr.length - 1) 0 (by omega)

theorem readAt_of_getElem? {items : List Int} {index v : Int} (h0 : 0 ≤ index)
    (h : items[index.toNat]? = some v) : readAt items index = .ok v := by
  simp [readAt, h0, h]

/-- Method `ArrayList::insert` on an object that satisfies the class invariant. -/
theorem arrayList_insert_spec (a : ArrayList) (ha : a.WF) (p x : Int) :
    ∃ a1 b, a.insert p x = .ok (a1, b) ∧ a1.WF ∧
      (b = true ↔ 1 ≤ p ∧ p ≤ a.getLength + 1 ∧ a.getLength < a.maxItems) ∧
      (b = true → a1.getLength = a.getLength + 1 ∧ a1.getEntry p = .ok x ∧
        (∀ q, 1 ≤ q → q < p → ∃ v, a.getEntry q = .ok v ∧ a1.getEntry q = .ok v) ∧
        (∀ q, p ≤ q → q ≤ a.getLength →
          ∃ v, a.getEntry q = .ok v ∧ a1.getEntry (q + 1) = .ok v)) ∧
      (b = false → a1 = a) := by
  by_cases hable : 1 ≤ p ∧ p ≤ a.itemCount + 1 ∧ a.itemCount < a.maxItems
  · obtain ⟨hp1, hp2, hcap⟩ := hable
    obtain ⟨items2, hins, hlen2, hpt⟩ := arrayList_insert_able a ha p x hp1 hp2 hcap
    obtain ⟨h0, hmaxle, hmax⟩ := ha
    have hold : ∀ q, 1 ≤ q → q ≤ a.itemCount →
        a.getEntry q = .ok (a.items[(q - 1).toNat]?.getD 0) ∧
          a.items[(q - 1).toNat]? = some (a.items[(q - 1).toNat]?.getD 0) := by
      intro q hq1 hq2
      have hlt : (q - 1).toNat < a.items.length := by omega
      have hsome : a.items[(q - 1).toNat]? = some (a.items[(q - 1).toNat]?.getD 0) := by
        rw [List.getElem?_eq_getElem hlt]
        rfl
      refine ⟨?_, hsome⟩
      rw [arrayList_getEntry_of_range a q hq1 hq2]
      exact readAt_of_getElem? (by omega) hsome
    refine ⟨{ a with items := items2, itemCount := a.itemCount + 1 }, true, hins, ?_, ?_, ?_, ?_⟩
    · exact ⟨by show 0 ≤ a.itemCount + 1; omega, by show a.itemCount + 1 ≤ a.maxItems; omega,
        by show a.maxItems = (items2.length : Int); rw [hlen2]; exact hmax⟩
    · exact ⟨fun _ => ⟨hp1, hp2, hcap⟩, fun _ => rfl⟩
    · intro _
      refine ⟨rfl, ?_, ?_, ?_⟩
      · rw [arrayList_getEntry_of_range _ p hp1 (by show p ≤ a.itemCount + 1; exact hp2)]
        apply readAt_of_getElem? (by omega)
        show items2[(p - 1).toNat]? = some x
        rw [hpt, if_pos (by omega)]
      · intro q hq1 hq2
        obtain ⟨hget, hsome⟩ := hold q hq1 (by omega)
        refine ⟨_, hget, ?_⟩
        rw [arrayList_getEntry_of_range _ q hq1 (by show q ≤ a.itemCount + 1; omega)]
        apply readAt_of_getElem? (by omega)
        show items2[(q - 1).toNat]? = _
        rw [hpt, if_neg (by omega), if_neg (by omega)]
        exact hsome
      · intro q hq1 hq2
        have hq2c : q ≤ a.itemCount := hq2
        obtain ⟨hget, hsome⟩ := hold q (by omega) hq2c
        refine ⟨_, hget, ?_⟩
        rw [arrayList_getEntry_of_range _ (q + 1) (by omega)
          (by show q + 1 ≤ a.itemCount + 1; omega)]
        apply readAt_of_getElem? (by omega)
        show items2[(q + 1 - 1).toNat]? = _
        rw [hpt, if_neg (by omega), if_pos (by omega)]
        rw [show (q + 1 - 1).toNat - 1 = (q - 1).toNat by omega]
        exact hsome
    · intro hb
      exact absurd hb (by simp)
  · refine ⟨a, false, arrayList_insert_unable a p x hable, ha, ?_, ?_, fun _ => rfl⟩
    · exact ⟨fun hb => absurd hb (by simp), fun h => absurd h hable⟩
    · intro hb
      exact absurd hb (by simp)

/-- Method `LinkedList::insert` on an object that satisfies the class invariant. -/
theorem linkedList_insert_spec (l : LinkedList) (hl : l.WF) (p x : Int) :
    ∃ l1 b, l.insert p x = .ok (l1, b) ∧ l1.WF ∧
      (b = true ↔ 1 ≤ p ∧ p ≤ l.getLength + 1) ∧
      (b = true → l1.getLength = l.getLength + 1 ∧ l1.getEntry p = .ok x ∧
        (∀ q, 1 ≤ q → q < p → ∃ v, l.getEntry q = .ok v ∧ l1.getEntry q = .ok v) ∧
        (∀ q, p ≤ q → q ≤ l.getLength →
          ∃ v, l.getEntry q = .ok v ∧ l1.getEntry (q + 1) = .ok v)) ∧
      (b = false → l1 = l) := by
  have hwf : l.itemCount = l.headPtr.length := hl
  by_cases hable : 1 ≤ p ∧ p ≤ l.itemCount + 1
  · obtain ⟨hp1, hp2⟩ := hable
    obtain ⟨k, hk⟩ := Int.eq_ofNat_of_zero_le (show 0 ≤ p - 1 by omega)
    have hp : p = (k : Int) + 1 := by omega
    subst hp
    have hkl : k ≤ l.headPtr.length := by omega
    have hwf1 : LinkedList.WF ⟨l.headPtr.take k ++ x :: l.headPtr.drop k, l.itemCount + 1⟩ := by
      show l.itemCount + 1 = ((l.headPtr.take k ++ x :: l.headPtr.drop k).length : Int)
      simp only [List.length_append, List.length_take, List.length_cons, List.length_drop]
      omega
    have hold : ∀ j : Nat, j < l.headPtr.length →
        l.headPtr[j]? = some (l.headPtr[j]?.getD 0) := by
      intro j hj
      rw [List.getElem?_eq_getElem hj]
      rfl
    refine ⟨_, true, linkedList_insert_able l hl k x hkl, hwf1, ?_, ?_, ?_⟩
    · exact ⟨fun _ => ⟨hp1, hp2⟩, fun _ => rfl⟩
    · intro _
      refine ⟨rfl, ?_, ?_, ?_⟩
      · apply linkedList_getEntry_of_range _ hwf1 k
        show (l.headPtr.take k ++ x :: l.headPtr.drop k)[k]? = some x
        rw [getElem?_inserted _ k x hkl, if_neg (by omega), if_pos rfl]
      · intro q hq1 hq2
        obtain ⟨j, hj⟩ := Int.eq_ofNat_of_zero_le (show 0 ≤ q - 1 by omega)
        have hq : q = (j : Int) + 1 := by omega
        subst hq
        have hjk : j < k := by omega
        refine ⟨_, linkedList_getEntry_of_range l hl j (hold j (by omega)), ?_⟩
        apply linkedList_getEntry_of_range _ hwf1 j
        show (l.headPtr.take k ++ x :: l.headPtr.drop k)[j]? = _
        rw [getElem?_inserted _ k x hkl, if_pos hjk]
        exact hold j (by omega)
      · intro q hq1 hq2
        have hq2c : q ≤ l.itemCount := hq2
        obtain ⟨j, hj⟩ := Int.eq_ofNat_of_zero_le (show 0 ≤ q - 1 by omega)
        have hq : q = (j : Int) + 1 := by omega
        subst hq
        refine ⟨_, linkedList_getEntry_of_range l hl j (hold j (by omega)), ?_⟩
        have := linkedList_getEntry_of_range _ hwf1 (j + 1)
          (x := l.headPtr[j]?.getD 0) (by
            show (l.headPtr.take k ++ x :: l.headPtr.drop k)[j + 1]? = _
            rw [getElem?_inserted _ k x hkl, if_neg (by omega), if_neg (by omega)]
            exact hold j (by omega))
        rw [← this]
        congr 1
    · intro hb
      exact absurd hb (by simp)
  · refine ⟨l, false, linkedList_insert_unable l p x hable, hl, ?_, ?_, fun _ => rfl⟩
    · exact ⟨fun hb => absurd hb (by simp), fun h => absurd h hable⟩
    · intro hb
      exact absurd hb (by simp)

end Lab3

/-! ## Eight-queens search: proofs -/

namespace Lab2Part4

theorem searchLoop_succ {st st1 : State} (hrow : st.row ≥ 0) (hbody : loopBody st = .ok st1)
    (fuel : Nat) : searchLoop (fuel + 1) st = searchLoop fuel st1 := by
  rw [searchLoop]
  simp only [hrow, if_true, hbody]

/-- The search loop passes through the states that `reaches` lists. -/
theorem searchLoop_reaches : ∀ (k : Nat) (st st1 : State), reaches k st = some st1 →
    ∀ fuel, searchLoop (fuel + k) st = searchLoop fuel st1
  | 0, st, st1, h, fuel => by
    simp only [reaches, Option.some.injEq] at h
    rw [h]
    rfl
  | k + 1, st, st1, h, fuel => by
    unfold reaches at h
    by_cases hrow : st.row ≥ 0
    · simp only [hrow, if_true] at h
      cases hb : loopBody st with
      | error f => simp [hb] at h
      | ok st2 =>
        simp only [hb] at h
        rw [← Nat.add_assoc, searchLoop_succ hrow hb]
        exact searchLoop_reaches k st2 st1 h fuel
    · simp [hrow] at h

/-- More fuel does not change a result of the search loop. -/
theorem searchLoop_mono : ∀ (fuel : Nat) (st : State) (r : Except Failure State),
    searchLoop fuel st = some r → ∀ more, searchLoop (fuel + more) st = some r
  | fuel, st, r, h, more => by
    by_cases hrow : st.row ≥ 0
    · cases fuel with
      | zero =>
        rw [searchLoop] at h
        simp [hrow] at h
      | succ fuel =>
        rw [searchLoop] at h
        simp only [hrow, if_true] at h
        cases hb : loopBody st with
        | error f =>
          simp only [hb] at h
          rw [show fuel + 1 + more = (fuel + more) + 1 by omega, searchLoop]
          simp only [hrow, if_true, hb]
          exact h
        | ok st1 =>
          simp only [hb] at h
          rw [show fuel + 1 + more = (fuel + more) + 1 by omega, searchLoop_succ hrow hb]
          exact searchLoop_mono fuel st1 r h more
    · unfold searchLoop at h ⊢
      simp only [hrow, if_false] at h ⊢
      exact h

/-- Once the first placement is found, an iteration of the search loop finds it again and
changes nothing else. -/
theorem loopBody_repeating (times : Nat) :
    loopBody (State.repeating times) = .ok (State.repeating (times + 1)) := rfl

theorem reaches_repeating (times : Nat) : ∀ k,
    reaches k (State.repeating times) = some (State.repeating (times + k))
  | 0 => rfl
  | k + 1 => by
    have hrow : (State.repeating times).row ≥ 0 := by
      show (7 : Int) ≥ 0
      decide
    rw [reaches]
    simp only [hrow, if_true, loopBody_repeating]
    rw [reaches_repeating (times + 1) k]
    congr 2
    omega

theorem searchLoop_repeating : ∀ (fuel times : Nat),
    searchLoop fuel (State.repeating times) = none
  | 0, times => by
    have hrow : (State.repeating times).row ≥ 0 := by
      show (7 : Int) ≥ 0
      decide
    rw [searchLoop]
    simp only [hrow, if_true]
  | fuel + 1, times => by
    have hrow : (State.repeating times).row ≥ 0 := by
      show (7 : Int) ≥ 0
      decide
    rw [searchLoop_succ hrow (loopBody_repeating times)]
    exact searchLoop_repeating fuel (times + 1)

theorem reaches_trans : ∀ (k m : Nat) (st st1 st2 : State), reaches k st = some st1 →
    reaches m st1 = some st2 → reaches (k + m) st = some st2
  | 0, m, st, st1, st2, h1, h2 => by
    simp only [reaches, Option.some.injEq] at h1
    rw [Nat.zero_add, h1]
    exact h2
  | k + 1, m, st, st1, st2, h1, h2 => by
    rw [show k + 1 + m = (k + m) + 1 by omega]
    unfold reaches at h1 ⊢
    by_cases hrow : st.row ≥ 0
    · simp only [hrow, if_true] at h1 ⊢
      cases hb : loopBody st with
      | error f => simp [hb] at h1
      | ok st3 =>
        simp only [hb] at h1 ⊢
        exact reaches_trans k m st3 st1 st2 h1 h2
    · simp [hrow] at h1

/-- The search finds the first placement in its 218th iteration. -/
theorem reaches_first : reaches 218 State.initial = some (State.repeating 1) := by
  decide!

/-- No amount of fuel lets the search loop end. -/
theorem searchLoop_initial (fuel : Nat) : searchLoop fuel State.initial = none := by
  cases h : searchLoop fuel State.initial with
  | none => rfl
  | some r =>
    have h1 := searchLoop_mono fuel State.initial r h 218
    rw [searchLoop_reaches 218 State.initial _ reaches_first fuel, searchLoop_repeating] at h1
    exact absurd h1 (by simp)

end Lab2Part4

/-! ## N-queens solver: proofs -/

namespace Lab2Part4New

theorem tabulate_length (n : Nat) (f : Nat → Nat → Int) : (tabulate n f).length = n := by
  simp [tabulate]

theorem tabulate_getElem? {n : Nat} (f : Nat → Nat → Int) {i : Nat} (hi : i < n) :
    (tabulate n f)[i]? = some ((List.range n).map (fun j => f i j)) := by
  simp [tabulate, List.getElem?_map, List.getElem?_range hi]

theorem tabulate_getElem?_none {n : Nat} (f : Nat → Nat → Int) {i : Nat} (hi : n ≤ i) :
    (tabulate n f)[i]? = none := by
  apply List.getElem?_eq_none
  rw [tabulate_length]
  exact hi

theorem readCell_tabulate {n : Nat} (f : Nat → Nat → Int) {i j : Nat} (hi : i < n)
    (hj : j < n) : readCell (tabulate n f) i j = .ok (f i j) := by
  simp [readCell, tabulate_getElem? f hi, List.getElem?_map, List.getElem?_range hj]

theorem tabulate_congr {n : Nat} {f g : Nat → Nat → Int}
    (h : ∀ i j, i < n → j < n → f i j = g i j) : tabulate n f = tabulate n g := by
  unfold tabulate
  apply List.map_congr_left
  intro i hi
  apply List.map_congr_left
  intro j hj
  exact h i j (List.mem_range.1 hi) (List.mem_range.1 hj)

theorem writeCell_tabulate {n : Nat} (f : Nat → Nat → Int) {i j : Nat} (hi : i < n)
    (hj : j < n) (v : Int) :
    writeCell (tabulate n f) i j v =
      .ok (tabulate n (fun i1 j1 => if i1 = i ∧ j1 = j then v else f i1 j1)) := by
  have hlen : j < ((List.range n).map (fun j => f i j)).length := by simpa using hj
  simp only [writeCell, tabulate_getElem? f hi, hlen, if_true, Except.ok.injEq]
  apply List.ext_getElem?
  intro i1
  by_cases hi1 : i1 < n
  · rw [tabulate_getElem? _ hi1, List.getElem?_set]
    by_cases hii : i = i1
    · subst hii
      simp only [if_true, tabulate_length, hi, Option.some.injEq]
      apply List.ext_getElem?
      intro j1
      rw [List.getElem?_set]
      by_cases hj1 : j1 < n
      · by_cases hjj : j = j1
        · subst hjj
          simp [hj, List.getElem?_range hj]
        · have hjj1 : ¬ j1 = j := fun h => hjj h.symm
          simp [hjj, hjj1, List.getElem?_map, List.getElem?_range hj1]
      · have hjj : ¬ j = j1 := by omega
        simp only [hjj, if_false]
        rw [List.getElem?_eq_none (by simpa using hj1),
          List.getElem?_eq_none (by simpa using hj1)]
    · have hii1 : ¬ i1 = i := fun h => hii h.symm
      simp only [hii, if_false, tabulate_getElem? f hi1, Option.some.injEq]
      apply List.map_congr_left
      intro j1 _
      simp [hii1]
  · rw [tabulate_getElem?_none _ (by omega)]
    apply List.getElem?_eq_none
    rw [List.length_set, tabulate_length]
    omega

/-- The first loop of `isSafe` on a tabulated board. -/
theorem rowLoop_tabulate {n : Nat} (f : Nat → Nat → Int) {row : Nat} (hrow : row < n) :
    ∀ (js : List Nat), (∀ j ∈ js, j < n) →
      ∃ b, rowLoop (tabulate n f) row js = .ok b ∧ (b = true ↔ ∀ j ∈ js, f row j ≠ 1)
  | [], _ => ⟨true, rfl, by simp⟩
  | j :: js, hjs => by
    have hj : j < n := hjs j (List.mem_cons_self _ _)
    obtain ⟨b, hb, hiff⟩ := rowLoop_tabulate f hrow js
      (fun x hx => hjs x (List.mem_cons_of_mem _ hx))
    by_cases hv : f row j = 1
    · refine ⟨false, by simp [rowLoop, readCell_tabulate f hrow hj, hv], ?_⟩
      constructor
      · intro h
        exact absurd h (by simp)
      · intro h
        exact absurd hv (h j (List.mem_cons_self _ _))
    · refine ⟨b, by simp [rowLoop, readCell_tabulate f hrow hj, hv, hb], ?_⟩
      rw [hiff]
      constructor
      · intro h x hx
        rcases List.mem_cons.1 hx with rfl | hx
        · exact hv
        · exact h x hx
      · intro h x hx
        exact h x (List.mem_cons_of_mem _ hx)

/-- The second loop of `isSafe` on a tabulated board. -/
theorem upperLoop_tabulate {n : Nat} (f : Nat → Nat → Int) :
    ∀ (i j : Nat), i < n → j < n →
      ∃ b, upperLoop (tabulate n f) i j = .ok b ∧
        (b = true ↔ ∀ k, k ≤ i → k ≤ j → f (i - k) (j - k) ≠ 1)
  | 0, j, hi, hj => by
    by_cases hv : f 0 j = 1
    · refine ⟨false, by simp [upperLoop, readCell_tabulate f hi hj, hv], ?_⟩
      constructor
      · intro h
        exact absurd h (by simp)
      · intro h
        exact absurd hv (h 0 (le_refl _) (Nat.zero_le _))
    · refine ⟨true, by simp [upperLoop, readCell_tabulate f hi hj, hv], ?_⟩
      simp only [true_iff]
      intro k hk _
      have : k = 0 := by omega
      subst this
      exact hv
  | i + 1, 0, hi, hj => by
    by_cases hv : f (i + 1) 0 = 1
    · refine ⟨false, by simp [upperLoop, readCell_tabulate f hi hj, hv], ?_⟩
      constructor
      · intro h
        exact absurd h (by simp)
      · intro h
        exact absurd hv (h 0 (Nat.zero_le _) (le_refl _))
    · refine ⟨true, by simp [upperLoop, readCell_tabulate f hi hj, hv], ?_⟩
      simp only [true_iff]
      intro k _ hk
      have : k = 0 := by omega
      subst this
      exact hv
  | i + 1, j + 1, hi, hj => by
    obtain ⟨b, hb, hiff⟩ := upperLoop_tabulate (n := n) f i j (by omega) (by omega)
    by_cases hv : f (i + 1) (j + 1) = 1
    · refine ⟨false, by simp [upperLoop, readCell_tabulate f hi hj, hv], ?_⟩
      constructor
      · intro h
        exact absurd h (by simp)
      · intro h
        exact absurd hv (h 0 (Nat.zero_le _) (Nat.zero_le _))
    · refine ⟨b, by simp [upperLoop, readCell_tabulate f hi hj, hv, hb], ?_⟩
      rw [hiff]
      constructor
      · intro h k hk1 hk2
        cases k with
        | zero => exact hv
        | succ k =>
          have := h k (by omega) (by omega)
          rw [show i + 1 - (k + 1) = i - k by omega, show j + 1 - (k + 1) = j - k by omega]
          exact this
      · intro h k hk1 hk2
        have := h (k + 1) (by omega) (by omega)
        rw [show i + 1 - (k + 1) = i - k by omega, show j + 1 - (k + 1) = j - k by omega]
          at this
        exact this

/-- The third loop of `isSafe` on a tabulated board. -/
theorem lowerLoop_tabulate {n : Nat} (f : Nat → Nat → Int) :
    ∀ (j i : Nat), j < n →
      ∃ b, lowerLoop (tabulate n f) n i j = .ok b ∧
        (b = true ↔ ∀ k, k ≤ j → i + k < n → f (i + k) (j - k) ≠ 1)
  | 0, i, hj => by
    by_cases hi : i < n
    · by_cases hv : f i 0 = 1
      · refine ⟨false, by simp [lowerLoop, hi, readCell_tabulate f hi hj, hv], ?_⟩
        constructor
        · intro h
          exact absurd h (by simp)
        · intro h
          exact absurd hv (h 0 (le_refl _) (by omega))
      · refine ⟨true, by simp [lowerLoop, hi, readCell_tabulate f hi hj, hv], ?_⟩
        simp only [true_iff]
        intro k hk _
        have : k = 0 := by omega
        subst this
        exact hv
    · refine ⟨true, by simp [lowerLoop, hi], ?_⟩
      simp only [true_iff]
      intro k _ hk
      omega
  | j + 1, i, hj => by
    by_cases hi : i < n
    · obtain ⟨b, hb, hiff⟩ := lowerLoop_tabulate (n := n) f j (i + 1) (by omega)
      by_cases hv : f i (j + 1) = 1
      · refine ⟨false, by simp [lowerLoop, hi, readCell_tabulate f hi hj, hv], ?_⟩
        constructor
        · intro h
          exact absurd h (by simp)
        · intro h
          exact absurd hv (h 0 (Nat.zero_le _) (by omega))
      · refine ⟨b, by simp [lowerLoop, hi, readCell_tabulate f hi hj, hv, hb], ?_⟩
        rw [hiff]
        constructor
        · intro h k hk1 hk2
          cases k with
          | zero => exact hv
          | succ k =>
            have := h k (by omega) (by omega)
            rw [show i + (k + 1) = i + 1 + k by omega, show j + 1 - (k + 1) = j - k by omega]
            exact this
        · intro h k hk1 hk2
          have := h (k + 1) (by omega) (by omega)
          rw [show i + (k + 1) = i + 1 + k by omega, show j + 1 - (k + 1) = j - k by omega]
            at this
          exact this
    · refine ⟨true, by simp [lowerLoop, hi], ?_⟩
      simp only [true_iff]
      intro k _ hk
      omega

theorem boardOf_length (n : Nat) (qs : List Nat) : (boardOf n qs).length = n :=
  tabulate_length n _

/-- The empty board that `solveNQ` starts from holds no queens. -/
theorem boardOf_nil (n : Nat) :
    boardOf n [] = List.replicate n (List.replicate n 0) := by
  unfold boardOf tabulate
  have hrow : ∀ m : Nat, (List.range m).map (fun j => cellOf [] 0 j) = List.replicate m 0 := by
    intro m
    apply List.ext_getElem?
    intro j
    by_cases hj : j < m
    · simp [List.getElem?_map, List.getElem?_range hj, List.getElem?_replicate, hj, cellOf]
    · rw [List.getElem?_eq_none (by simpa using hj), List.getElem?_eq_none (by simpa using hj)]
  have hcell : ∀ i j, cellOf [] i j = cellOf [] 0 j := by
    intro i j
    simp [cellOf]
  simp only [hcell, hrow]
  apply List.ext_getElem?
  intro i
  by_cases hi : i < n
  · simp [List.getElem?_map, List.getElem?_range hi, List.getElem?_replicate, hi]
  · rw [List.getElem?_eq_none (by simpa using hi), List.getElem?_eq_none (by simpa using hi)]

theorem cellOf_append_lt (qs : List Nat) (row i j : Nat) (hj : j < qs.length) :
    cellOf (qs ++ [row]) i j = cellOf qs i j := by
  simp [cellOf, List.getElem?_append_left hj]

theorem cellOf_of_le (qs : List Nat) (i j : Nat) (hj : qs.length ≤ j) : cellOf qs i j = 0 := by
  simp [cellOf, List.getElem?_eq_none hj]

theorem cellOf_append_self (qs : List Nat) (row i : Nat) :
    cellOf (qs ++ [row]) i qs.length = if i = row then 1 else 0 := by
  have h : (qs ++ [row])[qs.length]? = some row := by simp
  simp only [cellOf, h, Option.some.injEq]
  by_cases hi : i = row
  · simp [hi]
  · have : ¬ row = i := fun h => hi h.symm
    simp [hi, this]

/-- Placing a queen in row `row` of the first free column. -/
theorem writeCell_place {n : Nat} (qs : List Nat) {row : Nat} (hrow : row < n)
    (hlen : qs.length < n) :
    writeCell (boardOf n qs) row qs.length 1 = .ok (boardOf n (qs ++ [row])) := by
  unfold boardOf
  rw [writeCell_tabulate _ hrow hlen]
  congr 1
  apply tabulate_congr
  intro i j _ _
  by_cases hj : j = qs.length
  · subst hj
    rw [cellOf_append_self]
    by_cases hi : i = row
    · simp [hi]
    · simp [hi, cellOf_of_le qs i qs.length (le_refl _)]
  · have hne : ¬ (i = row ∧ j = qs.length) := fun h => hj h.2
    rw [if_neg hne]
    by_cases hlt : j < qs.length
    · rw [cellOf_append_lt qs row i j hlt]
    · rw [cellOf_of_le qs i j (by omega), cellOf_of_le (qs ++ [row]) i j (by simp; omega)]

/-- Removing the queen of the last occupied column. -/
theorem writeCell_remove {n : Nat} (qs : List Nat) {row : Nat} (hrow : row < n)
    (hlen : qs.length < n) :
    writeCell (boardOf n (qs ++ [row])) row qs.length 0 = .ok (boardOf n qs) := by
  unfold boardOf
  rw [writeCell_tabulate _ hrow hlen]
  congr 1
  apply tabulate_congr
  intro i j _ _
  by_cases hj : j = qs.length
  · subst hj
    rw [cellOf_append_self, cellOf_of_le qs i qs.length (le_refl _)]
    by_cases hi : i = row
    · simp [hi]
    · simp [hi]
  · have hne : ¬ (i = row ∧ j = qs.length) := fun h => hj h.2
    rw [if_neg hne]
    by_cases hlt : j < qs.length
    · rw [cellOf_append_lt qs row i j hlt]
    · rw [cellOf_of_le qs i j (by omega), cellOf_of_le (qs ++ [row]) i j (by simp; omega)]

theorem cellOf_ne_one (qs : List Nat) (i j : Nat) : cellOf qs i j ≠ 1 ↔ qs[j]? ≠ some i := by
  unfold cellOf
  by_cases h : qs[j]? = some i
  · simp [h]
  · simp [h]

/-- Function `isSafe` on the board with the queens `qs`, for a row of the first free
column: it returns normally, and `true` exactly when a queen there shares no row and no
diagonal with the queens on the board. -/
theorem isSafe_boardOf {n : Nat} (qs : List Nat) (hwithin : ∀ r ∈ qs, r < n) {row : Nat}
    (hrow : row < n) (hlen : qs.length < n) :
    ∃ b, isSafe (boardOf n qs) row qs.length = .ok b ∧ (b = true ↔ SafeAt qs row) := by
  obtain ⟨b1, h1, hiff1⟩ := rowLoop_tabulate (cellOf qs) hrow (List.range qs.length)
    (fun j hj => by have := List.mem_range.1 hj; omega)
  obtain ⟨b2, h2, hiff2⟩ := upperLoop_tabulate (cellOf qs) row qs.length hrow hlen
  obtain ⟨b3, h3, hiff3⟩ := lowerLoop_tabulate (cellOf qs) qs.length row hlen
  simp only [cellOf_ne_one] at hiff1 hiff2 hiff3
  have hrun : isSafe (boardOf n qs) row qs.length = .ok (b1 && b2 && b3) := by
    unfold isSafe boardOf
    simp only [tabulate_length, h1]
    cases b1 with
    | false => rfl
    | true =>
      simp only [h2]
      cases b2 with
      | false => rfl
      | true =>
        simp only [h3]
        cases b3 <;> rfl
  refine ⟨_, hrun, ?_⟩
  rw [Bool.and_eq_true, Bool.and_eq_true, hiff1, hiff2, hiff3]
  constructor
  · rintro ⟨⟨hr, hu⟩, hl⟩ j r hj
    have hjlt : j < qs.length := by
      by_contra hge
      rw [List.getElem?_eq_none (by omega)] at hj
      exact absurd hj (by simp)
    have hrn : r < n := hwithin r (List.getElem?_mem hj)
    refine ⟨?_, ?_, ?_⟩
    · intro he
      subst he
      exact hr j (List.mem_range.2 hjlt) hj
    · intro he
      have := hu (qs.length - j) (by omega) (by omega)
      rw [show qs.length - (qs.length - j) = j by omega,
        show row - (qs.length - j) = r by omega] at this
      exact this hj
    · intro he
      have := hl (qs.length - j) (by omega) (by omega)
      rw [show qs.length - (qs.length - j) = j by omega, he] at this
      exact this hj
  · intro h
    refine ⟨⟨?_, ?_⟩, ?_⟩
    · intro j _ hj
      exact (h j row hj).1 rfl
    · intro k hk1 hk2 hj
      have hjlt : qs.length - k < qs.length := by
        by_contra hge
        rw [List.getElem?_eq_none (by omega)] at hj
        exact absurd hj (by simp)
      have := (h _ _ hj).2.1
      apply this
      omega
    · intro k hk1 hk2 hj
      have hjlt : qs.length - k < qs.length := by
        by_contra hge
        rw [List.getElem?_eq_none (by omega)] at hj
        exact absurd hj (by simp)
      have := (h _ _ hj).2.2
      apply this
      omega

/-- The queens of the first columns of safe queens are safe. -/
theorem safe_of_leading {qs qs1 : List Nat} (h : Safe qs1) (hp : qs <+: qs1) : Safe qs := by
  intro j1 j2 r1 r2 hlt h1 h2
  obtain ⟨t, rfl⟩ := hp
  have hj1 : j1 < qs.length := by
    by_contra hge
    rw [List.getElem?_eq_none (by omega)] at h1
    exact absurd h1 (by simp)
  have hj2 : j2 < qs.length := by
    by_contra hge
    rw [List.getElem?_eq_none (by omega)] at h2
    exact absurd h2 (by simp)
  exact h j1 j2 r1 r2 hlt (by rw [List.getElem?_append_left hj1]; exact h1)
    (by rw [List.getElem?_append_left hj2]; exact h2)

/-- Safe queens with one more queen are safe exactly when the new queen is safe with
respect to the others. -/
theorem safe_append (qs : List Nat) (row : Nat) :
    Safe (qs ++ [row]) ↔ Safe qs ∧ SafeAt qs row := by
  constructor
  · intro h
    refine ⟨safe_of_leading h (List.prefix_append _ _), ?_⟩
    intro j r hj
    have hjlt : j < qs.length := by
      by_contra hge
      rw [List.getElem?_eq_none (by omega)] at hj
      exact absurd hj (by simp)
    have := h j qs.length r row hjlt (by rw [List.getElem?_append_left hjlt]; exact hj)
      (by simp)
    exact this
  · rintro ⟨hs, hat⟩ j1 j2 r1 r2 hlt h1 h2
    have hj2 : j2 < (qs ++ [row]).length := by
      by_contra hge
      rw [List.getElem?_eq_none (by omega)] at h2
      exact absurd h2 (by simp)
    simp only [List.length_append, List.length_singleton] at hj2
    have hj1 : j1 < qs.length := by omega
    rw [List.getElem?_append_left hj1] at h1
    by_cases hlast : j2 = qs.length
    · subst hlast
      have hrow : r2 = row := by
        simpa using h2.symm
      subst hrow
      exact hat j1 r1 h1
    · have hj2' : j2 < qs.length := by omega
      rw [List.getElem?_append_left hj2'] at h2
      exact hs j1 j2 r1 r2 hlt h1 h2

/-- The loop of `solveNQUtil` over rows on the board, when the recursive call is good for
every safe queen in one of the rows: it returns the board of a solution with `true`, or
it returns the board as it was with `false` when no solution has the queens `qs` and a
queen in one of the rows. -/
theorem tryRows_spec {n : Nat} (solveNext : Board → Option (Except Failure (Board × Bool)))
    (qs : List Nat) (hwithin : ∀ r ∈ qs, r < n) (hlen : qs.length < n) :
    ∀ (rows : List Nat), (∀ i ∈ rows, i < n) →
      (∀ i ∈ rows, SafeAt qs i → Good n (qs ++ [i]) (solveNext (boardOf n (qs ++ [i])))) →
      ∃ b r, tryRows solveNext qs.length rows (boardOf n qs) = some (.ok (b, r)) ∧
        (r = true → ∃ qs1, Solution n qs1 ∧ qs <+: qs1 ∧ b = boardOf n qs1) ∧
        (r = false → b = boardOf n qs ∧
          ∀ i ∈ rows, ∀ qs1, Solution n qs1 → ¬ (qs ++ [i]) <+: qs1)
  | [], _, _ => ⟨boardOf n qs, false, rfl, fun h => absurd h (by simp),
      fun _ => ⟨rfl, fun i hi => absurd hi (by simp)⟩⟩
  | i :: rest, hrows, hnext => by
    have hi : i < n := hrows i (List.mem_cons_self _ _)
    obtain ⟨b0, r0, hrest, ht, hf⟩ := tryRows_spec solveNext qs hwithin hlen rest
      (fun x hx => hrows x (List.mem_cons_of_mem _ hx))
      (fun x hx => hnext x (List.mem_cons_of_mem _ hx))
    obtain ⟨s, hsafe, hiff⟩ := isSafe_boardOf qs hwithin hi hlen
    cases s with
    | false =>
      have hnot : ¬ SafeAt qs i := fun h => absurd (hiff.2 h) (by simp)
      refine ⟨b0, r0, by simp only [tryRows, hsafe, hrest], ht, ?_⟩
      intro hr0
      refine ⟨(hf hr0).1, ?_⟩
      intro x hx qs1 hsol hpre
      rcases List.mem_cons.1 hx with rfl | hx
      · exact hnot ((safe_append qs x).1 (safe_of_leading hsol.2.2 hpre)).2
      · exact (hf hr0).2 x hx qs1 hsol hpre
    | true =>
      have hat : SafeAt qs i := hiff.1 rfl
      obtain ⟨b1, r1, hcall, ht1, hf1⟩ := hnext i (List.mem_cons_self _ _) hat
      cases r1 with
      | true =>
        obtain ⟨qs1, hsol, hpre, hb1⟩ := ht1 rfl
        refine ⟨b1, true, by simp only [tryRows, hsafe, writeCell_place qs hi hlen, hcall],
          fun _ => ⟨qs1, hsol, (List.prefix_append _ _).trans hpre, hb1⟩,
          fun h => absurd h (by simp)⟩
      | false =>
        obtain ⟨hb1, hnone⟩ := hf1 rfl
        subst hb1
        refine ⟨b0, r0, by simp only [tryRows, hsafe, writeCell_place qs hi hlen, hcall,
          writeCell_remove qs hi hlen, hrest], ht, ?_⟩
        intro hr0
        refine ⟨(hf hr0).1, ?_⟩
        intro x hx qs1 hsol hpre
        rcases List.mem_cons.1 hx with rfl | hx
        · exact hnone qs1 hsol hpre
        · exact (hf hr0).2 x hx qs1 hsol hpre

/-- Function `solveNQUtil` on the board with safe queens in the first columns, with fuel
for the columns that remain: it returns the board of a solution that keeps these queens
with `true`, or the board as it was with `false` when there is no such solution. -/
theorem solveNQUtil_spec {n : Nat} : ∀ (fuel : Nat) (qs : List Nat),
    qs.length ≤ n → (∀ r ∈ qs, r < n) → Safe qs → n - qs.length < fuel →
    Good n qs (solveNQUtil fuel (boardOf n qs) qs.length)
  | 0, _, _, _, _, hfuel => absurd hfuel (by omega)
  | fuel + 1, qs, hle, hwithin, hsafe, hfuel => by
    by_cases hfull : qs.length ≥ n
    · refine ⟨boardOf n qs, true, ?_, fun _ => ⟨qs, ⟨by omega, hwithin, hsafe⟩,
        List.prefix_refl _, rfl⟩, fun h => absurd h (by simp)⟩
      simp only [solveNQUtil, boardOf_length, hfull, if_true]
    · have hlen : qs.length < n := by omega
      obtain ⟨b, r, hrun, ht, hf⟩ := tryRows_spec (n := n)
        (fun b => solveNQUtil fuel b (qs.length + 1)) qs hwithin hlen (List.range n)
        (fun i hi => List.mem_range.1 hi)
        (fun i hi hat => by
          have hi1 : i < n := List.mem_range.1 hi
          have := solveNQUtil_spec (n := n) fuel (qs ++ [i]) (by simp; omega)
            (fun r hr => by
              rcases List.mem_append.1 hr with hr | hr
              · exact hwithin r hr
              · simp only [List.mem_singleton] at hr
                omega)
            ((safe_append qs i).2 ⟨hsafe, hat⟩) (by simp; omega)
          simpa using this)
      refine ⟨b, r, ?_, ht, ?_⟩
      · simp only [solveNQUtil, boardOf_length, hfull, if_false]
        exact hrun
      · intro hr
        refine ⟨(hf hr).1, ?_⟩
        intro qs1 hsol hpre
        obtain ⟨t, ht1⟩ := hpre
        cases t with
        | nil =>
          rw [List.append_nil] at ht1
          rw [← ht1] at hsol
          exact absurd hsol.1 (by omega)
        | cons i t =>
          have hmem : i ∈ qs1 := by
            rw [← ht1]
            simp
          have hi : i < n := hsol.2.1 i hmem
          refine (hf hr).2 i (List.mem_range.2 hi) qs1 hsol ⟨t, ?_⟩
          rw [← ht1]
          simp

theorem attacks_eq_false (p q : Nat × Nat) :
    attacks p q = false ↔
      p.1 ≠ q.1 ∧ p.2 ≠ q.2 ∧ p.1 + q.2 ≠ q.1 + p.2 ∧ p.1 + p.2 ≠ q.1 + q.2 := by
  simp [attacks, and_assoc]

theorem queenAt_boardOf {n : Nat} (qs : List Nat) {i j : Nat} (hi : i < n) (hj : j < n) :
    queenAt (boardOf n qs) i j = true ↔ qs[j]? = some i := by
  unfold queenAt boardOf
  rw [tabulate_getElem? _ hi]
  simp only [List.getElem?_map, List.getElem?_range hj, Option.map_some', beq_iff_eq,
    Option.some.injEq]
  unfold cellOf
  by_cases h : qs[j]? = some i
  · simp [h]
  · simp [h]

theorem mem_queens_boardOf {n : Nat} (qs : List Nat) (p : Nat × Nat) :
    p ∈ queens n (boardOf n qs) ↔ p.1 < n ∧ p.2 < n ∧ qs[p.2]? = some p.1 := by
  unfold queens
  rw [Finset.mem_filter, Finset.mem_product, Finset.mem_range, Finset.mem_range]
  constructor
  · rintro ⟨⟨h1, h2⟩, h⟩
    exact ⟨h1, h2, (queenAt_boardOf qs h1 h2).1 h⟩
  · rintro ⟨h1, h2, h⟩
    exact ⟨⟨h1, h2⟩, (queenAt_boardOf qs h1 h2).2 h⟩

theorem boardOf_row_length (n : Nat) (qs : List Nat) :
    ∀ row ∈ boardOf n qs, row.length = n := by
  intro row hrow
  unfold boardOf tabulate at hrow
  obtain ⟨i, _, rfl⟩ := List.mem_map.1 hrow
  simp

/-- The board of a solution is a valid board. -/
theorem solution_validBoard {n : Nat} {qs : List Nat} (h : Solution n qs) :
    ValidBoard n (boardOf n qs) := by
  obtain ⟨hlen, hwithin, hsafe⟩ := h
  refine ⟨boardOf_length n qs, boardOf_row_length n qs, ?_, ?_, ?_⟩
  · intro p hp
    have := (mem_queens_boardOf qs p).1 hp
    simp only [Finset.mem_product, Finset.mem_range]
    exact ⟨this.1, this.2.1⟩
  · have himage : queens n (boardOf n qs) =
        (Finset.range n).image (fun j => (qs.getD j 0, j)) := by
      ext p
      rw [mem_queens_boardOf, Finset.mem_image]
      constructor
      · rintro ⟨_, h2, h3⟩
        refine ⟨p.2, Finset.mem_range.2 h2, ?_⟩
        rw [List.getD_eq_getElem?_getD, h3]
        rfl
      · rintro ⟨j, hj, rfl⟩
        have hj1 : j < n := Finset.mem_range.1 hj
        have hj2 : j < qs.length := by omega
        have hget : qs[j]? = some qs[j] := List.getElem?_eq_getElem hj2
        refine ⟨?_, hj1, ?_⟩
        · show qs.getD j 0 < n
          rw [List.getD_eq_getElem?_getD, hget]
          exact hwithin _ (List.getElem_mem hj2)
        · show qs[j]? = some (qs.getD j 0)
          rw [List.getD_eq_getElem?_getD, hget]
          rfl
    rw [himage, Finset.card_image_of_injective, Finset.card_range]
    intro a b hab
    exact (Prod.mk.inj hab).2
  · intro p hp q hq hne
    obtain ⟨_, _, hp3⟩ := (mem_queens_boardOf qs p).1 hp
    obtain ⟨_, _, hq3⟩ := (mem_queens_boardOf qs q).1 hq
    rw [attacks_eq_false]
    have hcol : p.2 ≠ q.2 := by
      intro he
      rw [he, hq3] at hp3
      exact hne (Prod.ext (Option.some.inj hp3).symm he)
    rcases Nat.lt_or_gt_of_ne hcol with hlt | hgt
    · have := hsafe p.2 q.2 p.1 q.1 hlt hp3 hq3
      refine ⟨this.1, hcol, ?_, ?_⟩ <;> omega
    · have := hsafe q.2 p.2 q.1 p.1 hgt hq3 hp3
      refine ⟨fun h => this.1 h.symm, hcol, ?_, ?_⟩ <;> omega

/-- Every placement has one queen in each column, so it is given by the rows of its
queens. -/
theorem placement_solution {n : Nat} {squares : Finset (Nat × Nat)}
    (h : Placement n squares) : ∃ qs, Solution n qs := by
  obtain ⟨hsub, hcard, hno⟩ := h
  have hinj : Set.InjOn Prod.snd (squares : Set (Nat × Nat)) := by
    intro p hp q hq hpq
    by_contra hne
    have := (attacks_eq_false p q).1 (hno p hp q hq hne)
    exact this.2.1 hpq
  have himage : squares.image Prod.snd = Finset.range n := by
    apply Finset.eq_of_subset_of_card_le
    · intro j hj
      obtain ⟨p, hp, rfl⟩ := Finset.mem_image.1 hj
      exact (Finset.mem_product.1 (hsub hp)).2
    · rw [Finset.card_image_of_injOn hinj, hcard, Finset.card_range]
  have hex : ∀ j, ∃ i, j < n → (i, j) ∈ squares := by
    intro j
    by_cases hj : j < n
    · have : j ∈ squares.image Prod.snd := by
        rw [himage]
        exact Finset.mem_range.2 hj
      obtain ⟨p, hp, rfl⟩ := Finset.mem_image.1 this
      exact ⟨p.1, fun _ => hp⟩
    · exact ⟨0, fun h => absurd h hj⟩
  choose f hf using hex
  have hget : ∀ (j r : Nat), ((List.range n).map f)[j]? = some r → j < n ∧ (r, j) ∈ squares := by
    intro j r hjr
    have hj : j < n := by
      by_contra hge
      rw [List.getElem?_eq_none (by simpa using hge)] at hjr
      exact absurd hjr (by simp)
    rw [List.getElem?_map, List.getElem?_range hj] at hjr
    have : f j = r := by simpa using hjr
    rw [← this]
    exact ⟨hj, hf j hj⟩
  refine ⟨(List.range n).map f, by simp, ?_, ?_⟩
  · intro r hr
    obtain ⟨j, hj, rfl⟩ := List.mem_map.1 hr
    have := hsub (hf j (List.mem_range.1 hj))
    exact Finset.mem_range.1 (Finset.mem_product.1 this).1
  · intro j1 j2 r1 r2 hlt h1 h2
    obtain ⟨_, hm1⟩ := hget j1 r1 h1
    obtain ⟨_, hm2⟩ := hget j2 r2 h2
    have hne : ((r1, j1) : Nat × Nat) ≠ (r2, j2) := by
      intro he
      have := (Prod.mk.inj he).2
      omega
    have := (attacks_eq_false _ _).1 (hno _ hm1 _ hm2 hne)
    simp only at this
    refine ⟨this.1, ?_, ?_⟩ <;> omega

/-- Function `solveNQ` in terms of the rows of the queens: it returns the board of a
solution, or the empty board when there is no solution. -/
theorem solveNQ_spec (n : Nat) :
    ∃ b, solveNQ n = some (.ok b) ∧
      ((∃ qs, Solution n qs ∧ b = boardOf n qs) ∨ (b = [] ∧ ¬ ∃ qs, Solution n qs)) := by
  have hsafe : Safe [] := by
    intro j1 j2 r1 r2 _ h1
    exact absurd h1 (by simp)
  obtain ⟨b, r, hrun, ht, hf⟩ := solveNQUtil_spec (n := n) (n + 1) [] (by simp)
    (fun r hr => absurd hr (by simp)) hsafe (by simp)
  rw [boardOf_nil] at hrun
  simp only [List.length_nil] at hrun
  cases r with
  | true =>
    obtain ⟨qs, hsol, _, hb⟩ := ht rfl
    exact ⟨b, by simp only [solveNQ, hrun], Or.inl ⟨qs, hsol, hb⟩⟩
  | false =>
    refine ⟨[], by simp only [solveNQ, hrun], Or.inr ⟨rfl, ?_⟩⟩
    rintro ⟨qs, hsol⟩
    exact (hf rfl).2 qs hsol (List.nil_prefix)

theorem solveNQ_eight : solveNQ 8 = some (.ok board8) := by
  have h : (solveNQ 8).map (fun r => r.toOption) = some (some board8) := by decide!
  cases hr : solveNQ 8 with
  | none => rw [hr] at h; exact absurd h (by simp)
  | some r =>
    rw [hr] at h
    cases r with
    | error f => exact absurd h (by simp [Except.toOption])
    | ok b =>
      simp only [Option.map_some', Except.toOption, Option.some.injEq] at h
      rw [h]

theorem board8_eq : board8 = boardOf 8 [0, 4, 7, 5, 2, 6, 1, 3] := by decide

end Lab2Part4New

namespace BankSim

/-! ## The claims -/

/-- C1 (drain property, both variants): for every stored arrival list, every tie-break
and every teller count `n` with `1 ≤ n ≤ 5`, a call of `maxTellerBusyTime(n)`
(resp. `run(n)`) on an object whose event queue and waiting line are empty (a new object,
or one left by an earlier call) returns normally, and when it returns the event queue
and the waiting line are empty again; so the two assertions of the next set-up hold. -/
theorem drain_property (tie : Nat → Nat) (n : Nat) (h1 : 1 ≤ n) (h5 : n ≤ 5) :
    (∀ s : BusyTime.BankSim3000, s.eventQueue = [] → s.bankLine = [] →
      ∃ s2 v, BusyTime.maxTellerBusyTime tie s n = some (s2, .ok v) ∧
        s2.eventQueue = [] ∧ s2.bankLine = []) ∧
    (∀ s : TrackCustomer.BankSim3000, s.eventQueue = [] → s.bankLine = [] →
      ∃ s2 r, TrackCustomer.run tie s n = some (s2, .ok r) ∧
        s2.eventQueue = [] ∧ s2.bankLine = []) := by
  constructor
  · intro s hq hl
    obtain ⟨log, s2, v, hcall, hR, _⟩ := BusyTime.maxTellerBusyTimeLog_run tie h1 h5 hq hl
    have hd := BusyTime.run_setupState_drained h1 hR
    exact ⟨s2, v, by simp [BusyTime.maxTellerBusyTime, hcall], hd.1, hd.2.1⟩
  · intro s hq hl
    obtain ⟨log, s2, hcall, hR⟩ := TrackCustomer.runLog_run_wait tie h1 h5 hq hl
    have hd := TrackCustomer.run_setupState_drained_wait h1 hR
    exact ⟨s2, TrackCustomer.gatherResults s2, by simp [TrackCustomer.run, hcall], hd.1, hd.2.1⟩

/-- Instance of C1: the input of `main` with one teller and first-come tie-breaks. -/
theorem drain_property_witness :
    (∃ s2 v, BusyTime.maxTellerBusyTime (fun _ => 0)
        (BusyTime.BankSim3000.new SimulationInput00) 1 = some (s2, .ok v) ∧
        s2.eventQueue = [] ∧ s2.bankLine = []) ∧
    (∃ s2 r, TrackCustomer.run (fun _ => 0)
        (TrackCustomer.BankSim3000.new SimulationInput00) 1 = some (s2, .ok r) ∧
        s2.eventQueue = [] ∧ s2.bankLine = []) :=
  ⟨(drain_property (fun _ => 0) 1 (by decide) (by decide)).1 _ rfl rfl,
    (drain_property (fun _ => 0) 1 (by decide) (by decide)).2 _ rfl rfl⟩

/-- C4 (configuration check, both variants): whatever the state of the object and the
tie-breaks, `maxTellerBusyTime(n)` (resp. `run(n)`) ends with `invalid_argument` if and
only if `n < 1` or `n > 5`; and when it does, no event has been processed (the log is
empty) and the object (event queue, waiting line, tellers, recorded wait times, input)
is exactly as before the call. -/
theorem configuration_check (tie : Nat → Nat) (n : Nat) :
    (∀ s : BusyTime.BankSim3000,
      ((∃ log s2 msg, BusyTime.maxTellerBusyTimeLog tie s n =
          some (log, s2, .error (.invalidArgument msg))) ↔ (n < 1 ∨ 5 < n)) ∧
      (∀ log s2 msg, BusyTime.maxTellerBusyTimeLog tie s n =
          some (log, s2, .error (.invalidArgument msg)) → log = [] ∧ s2 = s)) ∧
    (∀ s : TrackCustomer.BankSim3000,
      ((∃ log s2 msg, TrackCustomer.runLog tie s n =
          some (log, s2, .error (.invalidArgument msg))) ↔ (n < 1 ∨ 5 < n)) ∧
      (∀ log s2 msg, TrackCustomer.runLog tie s n =
          some (log, s2, .error (.invalidArgument msg)) → log = [] ∧ s2 = s)) := by
  constructor
  · intro s
    by_cases hn : n < 1 ∨ 5 < n
    · obtain ⟨msg, h⟩ := BusyTime.maxTellerBusyTimeLog_invalid tie s hn
      refine ⟨⟨fun _ => hn, fun _ => ⟨[], s, msg, h⟩⟩, ?_⟩
      intro log s2 msg2 h2
      rw [h] at h2
      simp only [Option.some.injEq, Prod.mk.injEq] at h2
      exact ⟨h2.1.symm, h2.2.1.symm⟩
    · have hv := BusyTime.maxTellerBusyTimeLog_valid tie s (n := n) (by omega) (by omega)
      refine ⟨⟨fun ⟨log, s2, msg, h⟩ => absurd h (hv log s2 msg), fun h => absurd h hn⟩, ?_⟩
      intro log s2 msg h
      exact absurd h (hv log s2 msg)
  · intro s
    by_cases hn : n < 1 ∨ 5 < n
    · obtain ⟨msg, h⟩ := TrackCustomer.runLog_invalid_wait tie s hn
      refine ⟨⟨fun _ => hn, fun _ => ⟨[], s, msg, h⟩⟩, ?_⟩
      intro log s2 msg2 h2
      rw [h] at h2
      simp only [Option.some.injEq, Prod.mk.injEq] at h2
      exact ⟨h2.1.symm, h2.2.1.symm⟩
    · have hv := TrackCustomer.runLog_valid_wait tie s (n := n) (by omega) (by omega)
      refine ⟨⟨fun ⟨log, s2, msg, h⟩ => absurd h (hv log s2 msg), fun h => absurd h hn⟩, ?_⟩
      intro log s2 msg h
      exact absurd h (hv log s2 msg)

/-- C5 (conservation, both variants): for every stored arrival list, every tie-break and
every teller count `n` with `1 ≤ n ≤ 5`, the call returns normally and over its run the
number of departure events processed and the number of arrival events processed both
equal the length of the input list. -/
theorem conservation (tie : Nat → Nat) (n : Nat) (h1 : 1 ≤ n) (h5 : n ≤ 5)
    (input : SimulationInput) :
    (∃ log s2 v, BusyTime.maxTellerBusyTimeLog tie (BusyTime.BankSim3000.new input) n =
        some (log, s2, .ok v) ∧
      BusyTime.arrivalsProcessed log = input.length ∧
      BusyTime.departuresProcessed log = input.length) ∧
    (∃ log s2 r, TrackCustomer.runLog tie (TrackCustomer.BankSim3000.new input) n =
        some (log, s2, .ok r) ∧
      TrackCustomer.arrivalsProcessed log = input.length ∧
      TrackCustomer.departuresProcessed log = input.length) := by
  constructor
  · obtain ⟨log, s2, v, hcall, hR, _⟩ :=
      BusyTime.maxTellerBusyTimeLog_run tie (s := BusyTime.BankSim3000.new input) h1 h5 rfl rfl
    have hd := BusyTime.run_setupState_drained h1 hR
    have hc := BusyTime.Run.counts hR hd.2.1
    have hs := BusyTime.setupState_counts (BusyTime.BankSim3000.new input) n
    refine ⟨log, s2, v, hcall, ?_, ?_⟩
    · rw [hc.1, hs.1]; rfl
    · rw [hc.2, hs.1, hs.2]; rfl
  · obtain ⟨log, s2, hcall, hR⟩ :=
      TrackCustomer.runLog_run_wait tie (s := TrackCustomer.BankSim3000.new input) h1 h5 rfl rfl
    have hd := TrackCustomer.run_setupState_drained_wait h1 hR
    have hc := TrackCustomer.Run.counts_wait hR hd.2.1
    have hs := TrackCustomer.setupState_counts_wait (TrackCustomer.BankSim3000.new input) n
    refine ⟨log, s2, _, hcall, ?_, ?_⟩
    · rw [hc.1, hs.1]; rfl
    · rw [hc.2, hs.1, hs.2]; rfl

/-- Instance of C5: the input of `main`, two tellers, first-come tie-breaks. -/
theorem conservation_witness :
    (∃ log s2 v, BusyTime.maxTellerBusyTimeLog (fun _ => 0)
        (BusyTime.BankSim3000.new SimulationInput00) 2 = some (log, s2, .ok v) ∧
      BusyTime.arrivalsProcessed log = 4 ∧ BusyTime.departuresProcessed log = 4) ∧
    (∃ log s2 r, TrackCustomer.runLog (fun _ => 0)
        (TrackCustomer.BankSim3000.new SimulationInput00) 2 = some (log, s2, .ok r) ∧
      TrackCustomer.arrivalsProcessed log = 4 ∧ TrackCustomer.departuresProcessed log = 4) :=
  conservation (fun _ => 0) 2 (by decide) (by decide) SimulationInput00

/-- C6 (idempotence, both variants): on a simulator object constructed from `input` that
has already been through any sequence of calls, a call with a valid teller count `n`
gives exactly what the same call gives on a new object with the same input (same log,
same final state, same result), and it returns a value; in particular a second call
with the same `n`, made right after the first, returns the same result. -/
theorem history_independence (tie : Nat → Nat) (n : Nat) (h1 : 1 ≤ n) (h5 : n ≤ 5)
    (input : SimulationInput) :
    (∀ s, BusyTime.Reachable input s →
      BusyTime.maxTellerBusyTimeLog tie s n =
        BusyTime.maxTellerBusyTimeLog tie (BusyTime.BankSim3000.new input) n ∧
      ∃ s2 v, BusyTime.maxTellerBusyTime tie s n = some (s2, .ok v) ∧
        BusyTime.maxTellerBusyTime tie s2 n = some (s2, .ok v)) ∧
    (∀ s, TrackCustomer.Reachable input s →
      TrackCustomer.runLog tie s n =
        TrackCustomer.runLog tie (TrackCustomer.BankSim3000.new input) n ∧
      ∃ s2 r, TrackCustomer.run tie s n = some (s2, .ok r) ∧
        TrackCustomer.run tie s2 n = some (s2, .ok r)) := by
  constructor
  · intro s hs
    obtain ⟨hin, hq, hl⟩ := BusyTime.Reachable.clean hs
    have heq := BusyTime.maxTellerBusyTimeLog_clean tie h1 h5 hq hl
    rw [hin] at heq
    refine ⟨heq, ?_⟩
    obtain ⟨log, s2, v, hcall, hR, _⟩ := BusyTime.maxTellerBusyTimeLog_run tie h1 h5 hq hl
    have h1st : BusyTime.maxTellerBusyTime tie s n = some (s2, .ok v) := by
      simp [BusyTime.maxTellerBusyTime, hcall]
    have hs2 : BusyTime.Reachable input s2 := BusyTime.Reachable.call tie n hs h1st
    obtain ⟨hin2, hq2, hl2⟩ := BusyTime.Reachable.clean hs2
    have heq2 := BusyTime.maxTellerBusyTimeLog_clean tie h1 h5 hq2 hl2
    rw [hin2, ← heq] at heq2
    exact ⟨s2, v, h1st, by simp [BusyTime.maxTellerBusyTime, heq2, hcall]⟩
  · intro s hs
    obtain ⟨hin, hq, hl⟩ := TrackCustomer.Reachable.clean_wait hs
    have heq := TrackCustomer.runLog_clean_wait tie h1 h5 hq hl
    rw [hin] at heq
    refine ⟨heq, ?_⟩
    obtain ⟨log, s2, hcall, hR⟩ := TrackCustomer.runLog_run_wait tie h1 h5 hq hl
    have h1st : TrackCustomer.run tie s n = some (s2, .ok (TrackCustomer.gatherResults s2)) := by
      simp [TrackCustomer.run, hcall]
    have hs2 : TrackCustomer.Reachable input s2 := TrackCustomer.Reachable.call tie n hs h1st
    obtain ⟨hin2, hq2, hl2⟩ := TrackCustomer.Reachable.clean_wait hs2
    have heq2 := TrackCustomer.runLog_clean_wait tie h1 h5 hq2 hl2
    rw [hin2, ← heq] at heq2
    exact ⟨s2, _, h1st, by simp [TrackCustomer.run, heq2, hcall]⟩

/-- Instance of C6: the input of `main`, `maxTellerBusyTime(1)` resp. `run(1)` on a new
object, called twice. -/
theorem history_independence_witness :
    (∃ s2 v, BusyTime.maxTellerBusyTime (fun _ => 0)
        (BusyTime.BankSim3000.new SimulationInput00) 1 = some (s2, .ok v) ∧
      BusyTime.maxTellerBusyTime (fun _ => 0) s2 1 = some (s2, .ok v)) ∧
    (∃ s2 r, TrackCustomer.run (fun _ => 0)
        (TrackCustomer.BankSim3000.new SimulationInput00) 1 = some (s2, .ok r) ∧
      TrackCustomer.run (fun _ => 0) s2 1 = some (s2, .ok r)) :=
  ⟨((history_independence (fun _ => 0) 1 (by decide) (by decide) SimulationInput00).1 _
      BusyTime.Reachable.fresh).2,
    ((history_independence (fun _ => 0) 1 (by decide) (by decide) SimulationInput00).2 _
      TrackCustomer.Reachable.fresh).2⟩

/-- C7 (termination, both variants): for every state of the object (any arrival list, any
number of tellers, any time values) and every tie-break, `runSimulation` returns; each
iteration of its loop lowers the measure `pendingWork` (two per pending arrival, one per
pending departure, one per waiting customer), and any fuel that is at least the measure
gives the same result. -/
theorem simulation_terminates (tie : Nat → Nat) :
    (∀ s : BusyTime.BankSim3000,
      (BusyTime.runSimulation tie s).isSome = true ∧
      (∀ fuel, BusyTime.pendingWork s ≤ fuel →
        BusyTime.runLoop fuel tie s = BusyTime.runSimulation tie s) ∧
      (∀ k e r, BusyTime.loopBody k s = some (e, r) →
        BusyTime.pendingWork r.1 < BusyTime.pendingWork s)) ∧
    (∀ s : TrackCustomer.BankSim3000,
      (TrackCustomer.runSimulation tie s).isSome = true ∧
      (∀ fuel, TrackCustomer.pendingWork s ≤ fuel →
        TrackCustomer.runLoop fuel tie s = TrackCustomer.runSimulation tie s) ∧
      (∀ k e r, TrackCustomer.loopBody k s = some (e, r) →
        TrackCustomer.pendingWork r.1 < TrackCustomer.pendingWork s)) := by
  constructor
  · intro s
    exact ⟨BusyTime.runLoop_isSome _ tie s (le_refl _),
      fun fuel hf => BusyTime.runLoop_fuel fuel _ tie s hf (le_refl _),
      fun _ _ _ h => BusyTime.loopBody_pendingWork h⟩
  · intro s
    exact ⟨TrackCustomer.runLoop_isSome_wait _ tie s (le_refl _),
      fun fuel hf => TrackCustomer.runLoop_fuel_wait fuel _ tie s hf (le_refl _),
      fun _ _ _ h => TrackCustomer.loopBody_pendingWork_wait h⟩

/-- C2 as stated fails.  The times are `int` values.  On the arrivals
(2000000000, 2000000000) and (2100000000, 5), whose transaction times are not negative,
with one teller, the first iteration computes the departure time
`2000000000 + 2000000000` in `int`, which is `-294967296`: the departure pushed is before
the time of the event being processed, and the events are processed at the times
2000000000, -294967296, 2100000000 and 2100000005, under every tie-break. -/
theorem events_out_of_time_order :
    (∀ a ∈ ([⟨2000000000, 2000000000⟩, ⟨2100000000, 5⟩] : SimulationInput),
      0 ≤ a.transactionTime) ∧
    (∀ tie, ∃ log s2, BusyTime.maxTellerBusyTimeLog tie
        (BusyTime.BankSim3000.new [⟨2000000000, 2000000000⟩, ⟨2100000000, 5⟩]) 1 =
        some (log, s2, (BusyTime.gatherResults s2).maxTellerBusyTime) ∧
      log.map (fun st => BusyTime.get_event_time st.event) =
        [2000000000, -294967296, 2100000000, 2100000005] ∧
      log.map (fun st => st.pushed) =
        [[.departure ⟨-294967296, 0⟩], [], [.departure ⟨2100000005, 0⟩], []]) ∧
    intAdd 2000000000 2000000000 = -294967296 := by
  refine ⟨by decide, ?_, by decide⟩
  intro tie
  obtain ⟨log, s2, h, hp⟩ := BusyTime.maxTellerBusyTimeLog_of_runAll
    (fun log _ => decide (log.map (fun st => BusyTime.get_event_time st.event) =
        [2000000000, -294967296, 2100000000, 2100000005]) &&
      decide (log.map (fun st => st.pushed) =
        [[.departure ⟨-294967296, 0⟩], [], [.departure ⟨2100000005, 0⟩], []]))
    (s := BusyTime.BankSim3000.new [⟨2000000000, 2000000000⟩, ⟨2100000000, 5⟩]) (n := 1)
    (by decide) (by decide) rfl rfl (by decide!) tie
  simp only [Bool.and_eq_true, decide_eq_true_eq] at hp
  exact ⟨log, s2, h, hp.1, hp.2⟩

/-- C2 as amended (busy-time variant, time order): for every arrival list without negative
transaction times that fits the arithmetic of `int` (every arrival time is a value of
`int`, and the sum of all transaction times, alone and added to any arrival time, does
not exceed 2147483647), every teller count `n` with `1 ≤ n ≤ 5` and every tie-break, the
call returns normally, the times of the events passed to `processEvent` form a
non-decreasing sequence, and every departure event pushed during an iteration has a
departure time at or after the time of the event processed in that iteration. -/
theorem events_in_time_order (tie : Nat → Nat) (n : Nat) (h1 : 1 ≤ n) (h5 : n ≤ 5)
    (input : SimulationInput) (hnn : ∀ a ∈ input, 0 ≤ a.transactionTime)
    (hfits : BusyTime.Fits input) :
    ∃ log s2 v, BusyTime.maxTellerBusyTimeLog tie (BusyTime.BankSim3000.new input) n =
        some (log, s2, .ok v) ∧
      (log.map (fun st => BusyTime.get_event_time st.event)).Pairwise (· ≤ ·) ∧
      ∀ st ∈ log, ∀ d, BusyTime.Event.departure d ∈ st.pushed →
        BusyTime.get_event_time st.event ≤ d.departureTime := by
  obtain ⟨log, s2, v, hcall, hR, _⟩ :=
    BusyTime.maxTellerBusyTimeLog_run tie (s := BusyTime.BankSim3000.new input) h1 h5 rfl rfl
  have hs := BusyTime.setupState_exact (BusyTime.BankSim3000.new input) n hnn hfits
  obtain ⟨hsorted, hpushed⟩ := BusyTime.Run.times_sorted hR hs
  exact ⟨log, s2, v, hcall, hsorted, fun st hst d hd => hpushed st hst _ hd⟩

/-- Instance of the amended C2: the input of `main` with one teller. -/
theorem events_in_time_order_witness :
    ∃ log s2 v, BusyTime.maxTellerBusyTimeLog (fun _ => 0)
        (BusyTime.BankSim3000.new SimulationInput00) 1 = some (log, s2, .ok v) ∧
      (log.map (fun st => BusyTime.get_event_time st.event)).Pairwise (· ≤ ·) ∧
      ∀ st ∈ log, ∀ d, BusyTime.Event.departure d ∈ st.pushed →
        BusyTime.get_event_time st.event ≤ d.departureTime :=
  events_in_time_order (fun _ => 0) 1 (by decide) (by decide) SimulationInput00 (by decide)
    (by unfold BusyTime.Fits BusyTime.totalService; decide)

/-- C3 (wait-time variant, the code at the input of `main`): with the queue holding the
arrivals at times 20, 22, 23 and 30, the first iteration of `runSimulation` removes the
arrival at time 30, under every tie-break: the event removed has the greatest time, not
the smallest. -/
theorem latest_event_dequeued_first (k : Nat) :
    (TrackCustomer.loopBody k
        (TrackCustomer.setupState (TrackCustomer.BankSim3000.new SimulationInput00) 1)).map
      (fun r => r.1) = some (TrackCustomer.Event.arrival ⟨30, 3⟩) ∧
    TrackCustomer.Event.arrival ⟨20, 6⟩ ∈
      (TrackCustomer.setupState (TrackCustomer.BankSim3000.new SimulationInput00) 1).eventQueue := by
  have htops : tops TrackCustomer.CompareEvent
      (TrackCustomer.setupState (TrackCustomer.BankSim3000.new SimulationInput00) 1).eventQueue =
      [TrackCustomer.Event.arrival ⟨30, 3⟩] := by decide
  constructor
  · simp [TrackCustomer.loopBody, top, htops, Nat.mod_one]
  · decide

/-- C10 (busy-time variant, the code at the input of `main`): with one teller
`maxTellerBusyTime(1)` returns 3 under every tie-break, although the teller is never
idle between the first arrival and the last departure and the transaction times add
up to 15. -/
theorem one_teller_busy_time_is_three (tie : Nat → Nat) :
    (∃ s2, BusyTime.maxTellerBusyTime tie (BusyTime.BankSim3000.new SimulationInput00) 1 =
      some (s2, .ok 3)) ∧
    (SimulationInput00.map (fun a => a.transactionTime)).sum = 15 := by
  exact ⟨BusyTime.main_input_one_teller tie, by decide⟩

/-- C8 as stated fails.  On the input of `main` (non-negative arrival times, positive
transaction times) `maxTellerBusyTime(1)` is 3 under every tie-break and
`maxTellerBusyTime(2)` is 5 or 9, so two tellers give a larger value than the
single-teller baseline.  On the input {(1,6),(5,5),(6,4),(8,6)} two tellers give 6 and
three tellers give 12 under every tie-break; there even the service time handed to a
teller grows, from at most 11 with two tellers to 12 for teller 0 with three. -/
theorem busy_time_not_monotone :
    (∀ a ∈ SimulationInput00, 0 ≤ a.arrivalTime ∧ 0 < a.transactionTime) ∧
    (∀ tie, ∃ s2, BusyTime.maxTellerBusyTime tie (BusyTime.BankSim3000.new SimulationInput00) 1 =
      some (s2, .ok 3)) ∧
    (∀ tie, ∃ s2 v, BusyTime.maxTellerBusyTime tie (BusyTime.BankSim3000.new SimulationInput00) 2 =
      some (s2, .ok v) ∧ 3 < v) ∧
    (∀ a ∈ BusyTime.staggeredInput, 0 ≤ a.arrivalTime ∧ 0 < a.transactionTime) ∧
    (∀ tie, ∃ log s2,
      BusyTime.maxTellerBusyTimeLog tie (BusyTime.BankSim3000.new BusyTime.staggeredInput) 2 =
        some (log, s2, .ok 6) ∧
      BusyTime.serviceTime log 0 = 10 ∧ BusyTime.serviceTime log 1 = 11) ∧
    (∀ tie, ∃ log s2,
      BusyTime.maxTellerBusyTimeLog tie (BusyTime.BankSim3000.new BusyTime.staggeredInput) 3 =
        some (log, s2, .ok 12) ∧
      BusyTime.serviceTime log 0 = 12) := by
  refine ⟨by decide, BusyTime.main_input_one_teller, ?_, by decide,
    BusyTime.staggered_two_tellers, BusyTime.staggered_three_tellers⟩
  intro tie
  obtain ⟨s2, v, h, hv⟩ := BusyTime.main_input_two_tellers tie
  refine ⟨s2, v, h, ?_⟩
  rcases hv with rfl | rfl <;> decide

/-- C8 as amended (busy-time variant): for every arrival list without negative transaction
times that fits the arithmetic of `int` (every arrival time is a value of `int`, and the
sum of all transaction times, alone and added to any arrival time, does not exceed
2147483647), every teller count `n` with `1 ≤ n ≤ 5` and every tie-break,
`maxTellerBusyTime(n)` returns a value between 0 and the sum of all transaction times. -/
theorem busy_time_bounded (tie : Nat → Nat) (n : Nat) (h1 : 1 ≤ n) (h5 : n ≤ 5)
    (input : SimulationInput) (hnn : ∀ a ∈ input, 0 ≤ a.transactionTime)
    (hfits : BusyTime.Fits input) :
    ∃ s2 v, BusyTime.maxTellerBusyTime tie (BusyTime.BankSim3000.new input) n =
        some (s2, .ok v) ∧
      0 ≤ v ∧ v ≤ (input.map (fun a => a.transactionTime)).sum :=
  BusyTime.maxTellerBusyTime_bound tie h1 h5 rfl rfl hnn hfits

/-- Instance of the amended C8: the input of `main` with two tellers; the sum of the
transaction times is 15. -/
theorem busy_time_bounded_witness :
    ∃ s2 v, BusyTime.maxTellerBusyTime (fun _ => 0)
        (BusyTime.BankSim3000.new SimulationInput00) 2 = some (s2, .ok v) ∧
      0 ≤ v ∧ v ≤ 15 :=
  busy_time_bounded (fun _ => 0) 2 (by decide) (by decide) SimulationInput00 (by decide)
    (by unfold BusyTime.Fits BusyTime.totalService; decide)

/-- C9 as stated fails.  The times are `int` values.  On the arrivals
(2000000002, 2000000000), (2000000001, 2000000000) and (2000000000, 5), with non-negative
arrival times and positive transaction times, the departure times overflow, and
`run(1).maxWaitTime()` is 2000000001 while `run(2).maxWaitTime()` is 2000000002 (no two
events of these runs have the same time). -/
theorem max_wait_not_monotone :
    (∀ a ∈ ([⟨2000000002, 2000000000⟩, ⟨2000000001, 2000000000⟩, ⟨2000000000, 5⟩] :
        SimulationInput), 0 ≤ a.arrivalTime ∧ 0 < a.transactionTime) ∧
    (TrackCustomer.run (fun _ => 0) (TrackCustomer.BankSim3000.new
        [⟨2000000002, 2000000000⟩, ⟨2000000001, 2000000000⟩, ⟨2000000000, 5⟩]) 1).map
      (fun r => r.2.toOption.map (fun x => (x.customerWaitTimes, x.maxWaitTime))) =
      some (some ([2000000001], 2000000001)) ∧
    (TrackCustomer.run (fun _ => 0) (TrackCustomer.BankSim3000.new
        [⟨2000000002, 2000000000⟩, ⟨2000000001, 2000000000⟩, ⟨2000000000, 5⟩]) 2).map
      (fun r => r.2.toOption.map (fun x => (x.customerWaitTimes, x.maxWaitTime))) =
      some (some ([2000000002], 2000000002)) ∧
    (TrackCustomer.runLog (fun _ => 0) (TrackCustomer.BankSim3000.new
        [⟨2000000002, 2000000000⟩, ⟨2000000001, 2000000000⟩, ⟨2000000000, 5⟩]) 1).map
      (fun r => r.1.map (fun st => TrackCustomer.get_event_time st.event)) =
      some [2000000002, 2000000001, 2000000000, -294967294, 1705032706, 1705032711] ∧
    (TrackCustomer.runLog (fun _ => 0) (TrackCustomer.BankSim3000.new
        [⟨2000000002, 2000000000⟩, ⟨2000000001, 2000000000⟩, ⟨2000000000, 5⟩]) 2).map
      (fun r => r.1.map (fun st => TrackCustomer.get_event_time st.event)) =
      some [2000000002, 2000000001, 2000000000, -294967294, -294967289, -294967295] := by
  refine ⟨by decide, by decide!, by decide!, by decide!, by decide!⟩

/-- C9 as amended (wait-time variant, monotonicity of the maximum wait): for every arrival
list with non-negative arrival times and positive transaction times that fits the
arithmetic of `int` (no arrival time plus the transaction time of the same customer
exceeds 2147483647), all teller counts `1 ≤ m ≤ n ≤ 5` and all tie-breaks, `run(m)` and
`run(n)` return normally and `run(n).maxWaitTime() ≤ run(m).maxWaitTime()`. -/
theorem max_wait_monotone (tieM tieN : Nat → Nat) (m n : Nat) (h1 : 1 ≤ m) (hmn : m ≤ n)
    (h5 : n ≤ 5) (input : SimulationInput)
    (hin : ∀ a ∈ input, 0 ≤ a.arrivalTime ∧ 0 < a.transactionTime)
    (hfits : TrackCustomer.Fits input) :
    ∃ sm rm sn rn,
      TrackCustomer.run tieM (TrackCustomer.BankSim3000.new input) m = some (sm, .ok rm) ∧
      TrackCustomer.run tieN (TrackCustomer.BankSim3000.new input) n = some (sn, .ok rn) ∧
      rn.maxWaitTime ≤ rm.maxWaitTime := by
  have hpos : ∀ a ∈ (TrackCustomer.BankSim3000.new input).simulationInput,
      0 < a.transactionTime := fun a ha => (hin a ha).2
  obtain ⟨sm, hm⟩ := TrackCustomer.run_no_waits tieM (n := m) h1 (by omega) rfl rfl hpos hfits
  obtain ⟨sn, hn⟩ := TrackCustomer.run_no_waits tieN (n := n) (by omega) h5 rfl rfl hpos hfits
  exact ⟨sm, _, sn, _, hm, hn, le_refl _⟩

/-- Instance of the amended C9: the input of `main` with one and with two tellers. -/
theorem max_wait_monotone_witness :
    ∃ sm rm sn rn,
      TrackCustomer.run (fun _ => 0) (TrackCustomer.BankSim3000.new SimulationInput00) 1 =
        some (sm, .ok rm) ∧
      TrackCustomer.run (fun _ => 0) (TrackCustomer.BankSim3000.new SimulationInput00) 2 =
        some (sn, .ok rn) ∧
      rn.maxWaitTime ≤ rm.maxWaitTime :=
  max_wait_monotone (fun _ => 0) (fun _ => 0) 1 2 (by decide) (by decide) (by decide)
    SimulationInput00 (by decide) (by unfold TrackCustomer.Fits; decide)

/-- C11 (busy-time variant, trace of the input of `main` with one teller): under every
tie-break the call returns, the departure events processed have the times 26, 30, 32, 35
in that order, the last event processed has time 35, and the customers are served over
the intervals 20-26, 26-30, 30-32 and 32-35. -/
theorem scenario_trace_one_teller (tie : Nat → Nat) :
    ∃ log s2 v, BusyTime.maxTellerBusyTimeLog tie (BusyTime.BankSim3000.new SimulationInput00) 1 =
        some (log, s2, .ok v) ∧
      BusyTime.departureTimes log = [26, 30, 32, 35] ∧
      log.getLast?.map (fun st => BusyTime.get_event_time st.event) = some 35 ∧
      BusyTime.serviceIntervals log = [(20, 26), (26, 30), (30, 32), (32, 35)] := by
  obtain ⟨log, s2, h, h1, h2, h3⟩ := BusyTime.main_input_trace tie
  obtain ⟨log1, s3, v, hv, _, _⟩ := BusyTime.maxTellerBusyTimeLog_run tie
    (s := BusyTime.BankSim3000.new SimulationInput00) (n := 1) (by decide) (by decide) rfl rfl
  rw [h] at hv
  simp only [Option.some.injEq, Prod.mk.injEq] at hv
  exact ⟨log, s2, v, by rw [h, hv.2.2], h1, h2, h3⟩

/-- C16 (busy-time variant, `Teller::startWork`, the code on a busy teller): a teller busy
since 20 with no accumulated time that is given `startWork(26)` does not keep its
busy-since marker: the call goes through and the marker becomes 26. -/
theorem startWork_on_busy_teller_overwrites :
    (BusyTime.Teller.mk (some 20) 0).isAvailable = false ∧
    (BusyTime.Teller.mk (some 20) 0).startWork 26 = BusyTime.Teller.mk (some 26) 0 ∧
    ((BusyTime.Teller.mk (some 20) 0).startWork 26).startBusy ≠
      (BusyTime.Teller.mk (some 20) 0).startBusy := by
  decide

/-- C16 as amended (busy-time variant, `Teller::startWork`): on every teller, busy or not,
`startWork(t)` goes through, sets the busy-since marker to `t`, leaves the teller busy
and leaves the accumulated busy time unchanged. -/
theorem startWork_always_restarts (t : BusyTime.Teller) (currentTime : Time) :
    (t.startWork currentTime).startBusy = some currentTime ∧
    (t.startWork currentTime).isAvailable = false ∧
    (t.startWork currentTime).elapsedTimeBusy = t.elapsedTimeBusy := by
  simp [BusyTime.Teller.startWork, BusyTime.Teller.isAvailable]

/-- C17 (busy-time variant, `Teller::stopWork`): on a teller busy since `s`,
`stopWork(t)` makes the teller available and adds exactly `t - s` to the accumulated busy
time, the difference and the sum being those of `int`: they are the exact difference and
the exact sum whenever these are values of `int`; on a teller that is not busy it fails
with `bad_optional_access` and returns no changed teller. -/
theorem stopWork_spec (t : BusyTime.Teller) (currentTime : Time) :
    (∀ s, t.startBusy = some s →
      ∃ t1, t.stopWork currentTime = .ok t1 ∧ t1.isAvailable = true ∧
        t1.elapsedTimeBusy = intAdd t.elapsedTimeBusy (intSub currentTime s) ∧
        (-2147483648 ≤ currentTime - s → currentTime - s ≤ 2147483647 →
          -2147483648 ≤ t.elapsedTimeBusy + (currentTime - s) →
          t.elapsedTimeBusy + (currentTime - s) ≤ 2147483647 →
          t1.elapsedTimeBusy = t.elapsedTimeBusy + (currentTime - s))) ∧
    (t.isAvailable = true → t.stopWork currentTime = .error .badOptionalAccess) := by
  constructor
  · intro s hs
    refine ⟨⟨none, intAdd t.elapsedTimeBusy (intSub currentTime s)⟩,
      by simp [BusyTime.Teller.stopWork, hs], rfl, rfl, ?_⟩
    intro h1 h2 h3 h4
    show intAdd t.elapsedTimeBusy (intSub currentTime s) = t.elapsedTimeBusy + (currentTime - s)
    rw [intSub_eq h1 h2, intAdd_eq h3 h4]
  · intro hav
    cases hsb : t.startBusy with
    | none => simp [BusyTime.Teller.stopWork, hsb]
    | some v => simp [BusyTime.Teller.isAvailable, hsb] at hav

/-- C18 (busy-time variant, the code at the input of `main` with one teller): under every
tie-break the run contains a departure processed while a customer waits, whose teller has
been busy since 20 and is not stopped: `processDeparture` gives this busy teller
`startWork(26)`. -/
theorem startWork_invoked_on_busy_teller (tie : Nat → Nat) :
    ∃ log s2 v, BusyTime.maxTellerBusyTimeLog tie (BusyTime.BankSim3000.new SimulationInput00) 1 =
        some (log, s2, .ok v) ∧
      ∃ st ∈ log, BusyTime.handsOverBusyTeller 20 26 st = true := by
  obtain ⟨log, s2, h, hany⟩ := BusyTime.main_input_hand_over tie
  obtain ⟨log1, s3, v, hv, _, _⟩ := BusyTime.maxTellerBusyTimeLog_run tie
    (s := BusyTime.BankSim3000.new SimulationInput00) (n := 1) (by decide) (by decide) rfl rfl
  rw [h] at hv
  simp only [Option.some.injEq, Prod.mk.injEq] at hv
  exact ⟨log, s2, v, by rw [h, hv.2.2], List.any_eq_true.1 hany⟩

/-- C19 (busy-time variant, unreachable failures): for every arrival list, every teller
count `n` with `1 ≤ n ≤ 5` and every tie-break, the call returns a value (no failure of
any kind), and in every iteration of the run: the event removed is stored in the queue
(`top`/`pop` on a non-empty queue), every stored departure event carries a teller index
below `n`, the teller of a departure being processed is busy (so `startBusy.value()`
is defined), and the iteration succeeds; the result vector has `n ≥ 1` entries. -/
theorem failures_unreachable (tie : Nat → Nat) (n : Nat) (h1 : 1 ≤ n) (h5 : n ≤ 5)
    (input : SimulationInput) :
    ∃ log s2 v, BusyTime.maxTellerBusyTimeLog tie (BusyTime.BankSim3000.new input) n =
        some (log, s2, .ok v) ∧
      (∀ st ∈ log,
        st.event ∈ st.before.eventQueue ∧
        (∀ d, BusyTime.Event.departure d ∈ st.before.eventQueue → d.tellerIndex < n) ∧
        (∀ d, st.event = BusyTime.Event.departure d →
          ∃ t, st.before.tellers[d.tellerIndex]? = some t ∧ t.startBusy.isSome = true) ∧
        (BusyTime.processEvent st.popped (BusyTime.get_event_time st.event) st.event).2 =
          .ok ()) ∧
      (BusyTime.gatherResults s2).elapsedTimeBusy.length = n := by
  obtain ⟨log, s2, v, hcall, hR, _⟩ := BusyTime.maxTellerBusyTimeLog_run tie
    (s := BusyTime.BankSim3000.new input) h1 h5 rfl rfl
  have hheads := BusyTime.run_loopHeads_consistent hR
  refine ⟨log, s2, v, hcall, ?_, ?_⟩
  · intro st hst
    obtain ⟨hcons, hlen⟩ := hheads _ (BusyTime.before_mem_loopHeads s2 hst)
    obtain ⟨k, hk⟩ := BusyTime.Run.steps hR st hst
    obtain ⟨hmem, _, hr⟩ := BusyTime.loopBody_some hk
    refine ⟨hmem, ?_, ?_, ?_⟩
    · intro d hd
      exact hlen ▸ hcons.index_lt d hd
    · intro d hd
      rw [hd] at hmem
      have hidx := hcons.index_lt d hmem
      refine ⟨st.before.tellers[d.tellerIndex], List.getElem?_eq_getElem hidx, ?_⟩
      have hp := hcons.pending _ _ (List.getElem?_eq_getElem hidx)
      have hpos : 0 < BusyTime.pendingDepartures d.tellerIndex st.before.eventQueue :=
        List.countP_pos_iff.2 ⟨_, hmem, by simp [BusyTime.isDepartureOf]⟩
      cases hav : (st.before.tellers[d.tellerIndex]).isAvailable with
      | true => rw [hav] at hp; simp at hp; omega
      | false => simpa [BusyTime.Teller.isAvailable] using hav
    · have := congrArg (fun r => r.2) hr
      simp only at this
      exact this.symm
  · have hlen := (hheads s2 (by simp [BusyTime.loopHeads])).2
    simp [BusyTime.gatherResults, hlen]

/-- Instance of C19: the input of `main` with one teller. -/
theorem failures_unreachable_witness :
    ∃ log s2 v, BusyTime.maxTellerBusyTimeLog (fun _ => 0)
        (BusyTime.BankSim3000.new SimulationInput00) 1 = some (log, s2, .ok v) ∧
      (∀ st ∈ log,
        st.event ∈ st.before.eventQueue ∧
        (∀ d, BusyTime.Event.departure d ∈ st.before.eventQueue → d.tellerIndex < 1) ∧
        (∀ d, st.event = BusyTime.Event.departure d →
          ∃ t, st.before.tellers[d.tellerIndex]? = some t ∧ t.startBusy.isSome = true) ∧
        (BusyTime.processEvent st.popped (BusyTime.get_event_time st.event) st.event).2 =
          .ok ()) ∧
      (BusyTime.gatherResults s2).elapsedTimeBusy.length = 1 :=
  failures_unreachable (fun _ => 0) 1 (by decide) (by decide) SimulationInput00

/-- C20 as stated fails.  The times are `int` values.  On the arrivals (0, 2000000000)
and (2100000000, 2000000000), whose transaction times are not negative, with one teller,
the accumulated busy time of the teller is 0, 0, 2000000000, 2000000000 and -294967296
at the loop heads of the run, under every tie-break: the last `stopWork` adds 2000000000
to 2000000000 in `int`, the accumulated busy time decreases, and the result is
negative. -/
theorem busy_time_decreases :
    (∀ a ∈ ([⟨0, 2000000000⟩, ⟨2100000000, 2000000000⟩] : SimulationInput),
      0 ≤ a.transactionTime) ∧
    (∀ tie, ∃ log s2, BusyTime.maxTellerBusyTimeLog tie
        (BusyTime.BankSim3000.new [⟨0, 2000000000⟩, ⟨2100000000, 2000000000⟩]) 1 =
        some (log, s2, (BusyTime.gatherResults s2).maxTellerBusyTime) ∧
      (BusyTime.loopHeads log s2).map
          (fun x => x.tellers.map BusyTime.Teller.elapsedTimeBusy) =
        [[0], [0], [2000000000], [2000000000], [-294967296]] ∧
      (BusyTime.gatherResults s2).maxTellerBusyTime = .ok (-294967296)) ∧
    intAdd 2000000000 2000000000 = -294967296 := by
  refine ⟨by decide, ?_, by decide⟩
  intro tie
  obtain ⟨log, s2, h, hp⟩ := BusyTime.maxTellerBusyTimeLog_of_runAll
    (fun log s2 => decide ((BusyTime.loopHeads log s2).map
          (fun x => x.tellers.map BusyTime.Teller.elapsedTimeBusy) =
        [[0], [0], [2000000000], [2000000000], [-294967296]]) &&
      BusyTime.maxPasses (fun w => decide (w = -294967296)) s2)
    (s := BusyTime.BankSim3000.new [⟨0, 2000000000⟩, ⟨2100000000, 2000000000⟩]) (n := 1)
    (by decide) (by decide) rfl rfl (by decide!) tie
  simp only [Bool.and_eq_true, decide_eq_true_eq, BusyTime.maxPasses] at hp
  refine ⟨log, s2, h, hp.1, ?_⟩
  cases hv : (BusyTime.gatherResults s2).maxTellerBusyTime with
  | error f => simp [hv] at hp
  | ok v =>
    have := hp.2
    rw [hv] at this
    simp only [decide_eq_true_eq] at this
    rw [this]

/-- C20 as amended (busy-time variant): for every arrival list without negative
transaction times that fits the arithmetic of `int` (every arrival time is a value of
`int`, and the sum of all transaction times, alone and added to any arrival time, does
not exceed 2147483647), every teller count `n` with `1 ≤ n ≤ 5` and every tie-break, the
call returns, from each loop head of the run to the next no teller's accumulated busy
time decreases, and every entry of the result vector is at least 0. -/
theorem busy_time_never_decreases (tie : Nat → Nat) (n : Nat) (h1 : 1 ≤ n) (h5 : n ≤ 5)
    (input : SimulationInput) (hnn : ∀ a ∈ input, 0 ≤ a.transactionTime)
    (hfits : BusyTime.Fits input) :
    ∃ log s2 v, BusyTime.maxTellerBusyTimeLog tie (BusyTime.BankSim3000.new input) n =
        some (log, s2, .ok v) ∧
      List.Chain' (fun (a b : BusyTime.BankSim3000) =>
          ∀ (i : Nat) (t t1 : BusyTime.Teller), a.tellers[i]? = some t →
            b.tellers[i]? = some t1 → t.elapsedTimeBusy ≤ t1.elapsedTimeBusy)
        (BusyTime.loopHeads log s2) ∧
      ∀ x ∈ (BusyTime.gatherResults s2).elapsedTimeBusy, 0 ≤ x := by
  obtain ⟨log, s2, v, hcall, hR, _⟩ := BusyTime.maxTellerBusyTimeLog_run tie
    (s := BusyTime.BankSim3000.new input) h1 h5 rfl rfl
  have h0 := BusyTime.setupState_timed (BusyTime.BankSim3000.new input) n hnn hfits
  have hP : ∀ k s e s1, BusyTime.Timed s → BusyTime.loopBody k s = some (e, s1, .ok ()) →
      BusyTime.Timed s1 := fun k s e s1 hs hb => (BusyTime.loopBody_timed hs hb).1
  refine ⟨log, s2, v, hcall, ?_, ?_⟩
  · exact BusyTime.Run.chain hP
      (fun k s e s1 hs hb => BusyTime.loopBody_elapsed_mono hs hb) hR h0
  · intro x hx
    have ht2 := BusyTime.Run.invariant hP hR h0 s2 (by simp [BusyTime.loopHeads])
    simp only [BusyTime.gatherResults, List.mem_map] at hx
    obtain ⟨t, ht, rfl⟩ := hx
    exact ht2.elapsed t ht

/-- Instance of the amended C20: the input of `main` with two tellers. -/
theorem busy_time_never_decreases_witness :
    ∃ log s2 v, BusyTime.maxTellerBusyTimeLog (fun _ => 0)
        (BusyTime.BankSim3000.new SimulationInput00) 2 = some (log, s2, .ok v) ∧
      List.Chain' (fun (a b : BusyTime.BankSim3000) =>
          ∀ (i : Nat) (t t1 : BusyTime.Teller), a.tellers[i]? = some t →
            b.tellers[i]? = some t1 → t.elapsedTimeBusy ≤ t1.elapsedTimeBusy)
        (BusyTime.loopHeads log s2) ∧
      ∀ x ∈ (BusyTime.gatherResults s2).elapsedTimeBusy, 0 ≤ x :=
  busy_time_never_decreases (fun _ => 0) 2 (by decide) (by decide) SimulationInput00
    (by decide) (by unfold BusyTime.Fits BusyTime.totalService; decide)

/-- C12 (wait-time variant, enough tellers): for every arrival list with at most `n`
arrivals, where `n` is the teller count and `1 ≤ n ≤ 5`, and every tie-break, `run(n)`
returns; the waiting line is empty at every loop head of the run, every arrival processed
finds an available teller, and the result has `averageWaitTime = 0` and
`maxWaitTime = 0`. -/
theorem enough_tellers_no_wait (tie : Nat → Nat) (n : Nat) (h1 : 1 ≤ n) (h5 : n ≤ 5)
    (input : SimulationInput) (hlen : input.length ≤ n) :
    ∃ log s2 r, TrackCustomer.runLog tie (TrackCustomer.BankSim3000.new input) n =
        some (log, s2, .ok r) ∧
      (∀ x ∈ TrackCustomer.loopHeads log s2, x.bankLine = []) ∧
      (∀ st ∈ log, ∀ a, st.event = TrackCustomer.Event.arrival a →
        (TrackCustomer.searchAvailableTellers st.before).isSome = true) ∧
      r.averageWaitTime = 0 ∧ r.maxWaitTime = 0 := by
  obtain ⟨log, s2, hcall, hline, hfree⟩ := TrackCustomer.run_roomy tie
    (s := TrackCustomer.BankSim3000.new input) h1 h5 rfl rfl hlen
  exact ⟨log, s2, ⟨[]⟩, hcall, hline, hfree,
    by simp [TrackCustomer.SimulationResults.averageWaitTime], rfl⟩

/-- Instance of C12: the input of `main` (four arrivals) with five tellers. -/
theorem enough_tellers_no_wait_witness :
    ∃ log s2 r, TrackCustomer.runLog (fun _ => 0)
        (TrackCustomer.BankSim3000.new SimulationInput00) 5 = some (log, s2, .ok r) ∧
      (∀ x ∈ TrackCustomer.loopHeads log s2, x.bankLine = []) ∧
      (∀ st ∈ log, ∀ a, st.event = TrackCustomer.Event.arrival a →
        (TrackCustomer.searchAvailableTellers st.before).isSome = true) ∧
      r.averageWaitTime = 0 ∧ r.maxWaitTime = 0 :=
  enough_tellers_no_wait (fun _ => 0) 5 (by decide) (by decide) SimulationInput00 (by decide)

/-- C13 (wait-time variant, meaning of the computed wait time): for every arrival list,
every teller count `n` with `1 ≤ n ≤ 5` and every tie-break, `run(n)` returns, and every
departure event processed in the run was pushed by an earlier iteration (the one in which
the customer's service began), carries a customer whose entry time is its arrival time,
has departure time equal to that service start plus the transaction time, and the wait
time computed for it by `processDeparture` equals the service start minus the customer's
arrival time.  The sum and the difference are those of `int`, in which the wait time is
computed; the difference is the exact one whenever that is a value of `int`. -/
theorem wait_time_is_start_minus_arrival (tie : Nat → Nat) (n : Nat) (h1 : 1 ≤ n)
    (h5 : n ≤ 5) (input : SimulationInput) :
    ∃ log s2 r, TrackCustomer.runLog tie (TrackCustomer.BankSim3000.new input) n =
        some (log, s2, .ok r) ∧
      ∀ (l1 : List TrackCustomer.Step) (st : TrackCustomer.Step) (l2 : List TrackCustomer.Step)
        (d : TrackCustomer.DepartureEvent),
        log = l1 ++ st :: l2 → st.event = TrackCustomer.Event.departure d →
        ∃ st0 ∈ l1, TrackCustomer.Event.departure d ∈ st0.pushed ∧
          d.customer.entryTime = d.customer.arrivalEvent.arrivalTime ∧
          d.departureTime = intAdd (TrackCustomer.get_event_time st0.event)
            d.customer.arrivalEvent.transactionTime ∧
          TrackCustomer.waitTimeOf (TrackCustomer.get_event_time st.event) d.customer =
            intSub (TrackCustomer.get_event_time st0.event)
              d.customer.arrivalEvent.arrivalTime ∧
          (-2147483648 ≤ TrackCustomer.get_event_time st0.event -
              d.customer.arrivalEvent.arrivalTime →
            TrackCustomer.get_event_time st0.event -
              d.customer.arrivalEvent.arrivalTime ≤ 2147483647 →
            TrackCustomer.waitTimeOf (TrackCustomer.get_event_time st.event) d.customer =
              TrackCustomer.get_event_time st0.event -
                d.customer.arrivalEvent.arrivalTime) := by
  obtain ⟨log, s2, hcall, h⟩ := TrackCustomer.run_wait_is_start_minus_arrival tie
    (s := TrackCustomer.BankSim3000.new input) h1 h5 rfl rfl
  refine ⟨log, s2, _, hcall, ?_⟩
  intro l1 st l2 d hlog hev
  obtain ⟨st0, hst0, hpushed, hentry, htime, hwait⟩ := h l1 st l2 d hlog hev
  refine ⟨st0, hst0, hpushed, hentry, htime, hwait, ?_⟩
  intro hlo hhi
  rw [hwait, intSub_eq hlo hhi]

/-- Instance of C13: the input of `main` with one teller. -/
theorem wait_time_is_start_minus_arrival_witness :
    ∃ log s2 r, TrackCustomer.runLog (fun _ => 0)
        (TrackCustomer.BankSim3000.new SimulationInput00) 1 = some (log, s2, .ok r) ∧
      ∀ (l1 : List TrackCustomer.Step) (st : TrackCustomer.Step) (l2 : List TrackCustomer.Step)
        (d : TrackCustomer.DepartureEvent),
        log = l1 ++ st :: l2 → st.event = TrackCustomer.Event.departure d →
        ∃ st0 ∈ l1, TrackCustomer.Event.departure d ∈ st0.pushed ∧
          d.customer.entryTime = d.customer.arrivalEvent.arrivalTime ∧
          d.departureTime = intAdd (TrackCustomer.get_event_time st0.event)
            d.customer.arrivalEvent.transactionTime ∧
          TrackCustomer.waitTimeOf (TrackCustomer.get_event_time st.event) d.customer =
            intSub (TrackCustomer.get_event_time st0.event)
              d.customer.arrivalEvent.arrivalTime ∧
          (-2147483648 ≤ TrackCustomer.get_event_time st0.event -
              d.customer.arrivalEvent.arrivalTime →
            TrackCustomer.get_event_time st0.event -
              d.customer.arrivalEvent.arrivalTime ≤ 2147483647 →
            TrackCustomer.waitTimeOf (TrackCustomer.get_event_time st.event) d.customer =
              TrackCustomer.get_event_time st0.event -
                d.customer.arrivalEvent.arrivalTime) :=
  wait_time_is_start_minus_arrival (fun _ => 0) 1 (by decide) (by decide) SimulationInput00

/-- C14 as stated fails.  The times are `int` values.  On the arrivals
(2000000000, 2000000000) and (1000000000, 5), with non-negative arrival times and
positive transaction times, with one teller, the departure of the first customer is
computed as `-294967296`, so it is processed after the second arrival: the second
customer waits in the line, and the wait time computed at the departure of that customer
is `-1294967296`, which the guard `waitTime > 0` discards. -/
theorem computed_wait_negative :
    (∀ a ∈ ([⟨2000000000, 2000000000⟩, ⟨1000000000, 5⟩] : SimulationInput),
      0 ≤ a.arrivalTime ∧ 0 < a.transactionTime) ∧
    (TrackCustomer.runLog (fun _ => 0) (TrackCustomer.BankSim3000.new
        [⟨2000000000, 2000000000⟩, ⟨1000000000, 5⟩]) 1).map
      (fun r => (r.1.map (fun st =>
          (TrackCustomer.get_event_time st.event,
            match st.event with
            | .departure d =>
              some (TrackCustomer.waitTimeOf (TrackCustomer.get_event_time st.event) d.customer)
            | .arrival _ => none)),
        r.2.2.toOption.map (fun x => x.customerWaitTimes))) =
      some ([(2000000000, none), (1000000000, none), (-294967296, some 0),
        (-294967291, some (-1294967296))], some []) := by
  exact ⟨by decide, by decide!⟩

/-- C14 as amended (wait-time variant, no negative wait): for every arrival list with
non-negative arrival times and positive transaction times that fits the arithmetic of
`int` (no arrival time plus the transaction time of the same customer exceeds
2147483647), every teller count `n` with `1 ≤ n ≤ 5` and every tie-break, `run(n)`
returns and the wait time computed by `processDeparture` is not negative at any departure
processed in the run. -/
theorem computed_wait_never_negative (tie : Nat → Nat) (n : Nat) (h1 : 1 ≤ n) (h5 : n ≤ 5)
    (input : SimulationInput)
    (hin : ∀ a ∈ input, 0 ≤ a.arrivalTime ∧ 0 < a.transactionTime)
    (hfits : TrackCustomer.Fits input) :
    ∃ log s2 r, TrackCustomer.runLog tie (TrackCustomer.BankSim3000.new input) n =
        some (log, s2, .ok r) ∧
      ∀ st ∈ log, ∀ d, st.event = TrackCustomer.Event.departure d →
        0 ≤ TrackCustomer.waitTimeOf (TrackCustomer.get_event_time st.event) d.customer := by
  obtain ⟨log, s2, hcall, h⟩ := TrackCustomer.run_waits_zero tie
    (s := TrackCustomer.BankSim3000.new input) h1 h5 rfl rfl (fun a ha => (hin a ha).2) hfits
  exact ⟨log, s2, _, hcall, fun st hst d hd => le_of_eq (h st hst d hd).symm⟩

/-- Instance of the amended C14: the input of `main` with two tellers. -/
theorem computed_wait_never_negative_witness :
    ∃ log s2 r, TrackCustomer.runLog (fun _ => 0)
        (TrackCustomer.BankSim3000.new SimulationInput00) 2 = some (log, s2, .ok r) ∧
      ∀ st ∈ log, ∀ d, st.event = TrackCustomer.Event.departure d →
        0 ≤ TrackCustomer.waitTimeOf (TrackCustomer.get_event_time st.event) d.customer :=
  computed_wait_never_negative (fun _ => 0) 2 (by decide) (by decide) SimulationInput00
    (by decide) (by unfold TrackCustomer.Fits; decide)

/-- C15 (teller/event invariant, both variants): for every arrival list, every teller
count `n` with `1 ≤ n ≤ 5` and every tie-break, the call returns, and at every loop head
of the run (between two event-processing steps, before the first and after the last) every
teller index `i < n` names a teller that is busy if and only if exactly one departure
event with teller index `i` is stored in the event queue, and available if and only if
none is; there are never two or more. -/
theorem teller_event_invariant (tie : Nat → Nat) (n : Nat) (h1 : 1 ≤ n) (h5 : n ≤ 5)
    (input : SimulationInput) :
    (∃ log s2 v, BusyTime.maxTellerBusyTimeLog tie (BusyTime.BankSim3000.new input) n =
        some (log, s2, .ok v) ∧
      ∀ x ∈ BusyTime.loopHeads log s2, ∀ i, i < n →
        ∃ t, x.tellers[i]? = some t ∧
          (t.isAvailable = false ↔ BusyTime.pendingDepartures i x.eventQueue = 1) ∧
          (t.isAvailable = true ↔ BusyTime.pendingDepartures i x.eventQueue = 0) ∧
          BusyTime.pendingDepartures i x.eventQueue ≤ 1) ∧
    (∃ log s2 r, TrackCustomer.runLog tie (TrackCustomer.BankSim3000.new input) n =
        some (log, s2, .ok r) ∧
      ∀ x ∈ TrackCustomer.loopHeads log s2, ∀ i, i < n →
        ∃ t, x.tellers[i]? = some t ∧
          (t.isAvailable = false ↔ TrackCustomer.pendingDepartures i x.eventQueue = 1) ∧
          (t.isAvailable = true ↔ TrackCustomer.pendingDepartures i x.eventQueue = 0) ∧
          TrackCustomer.pendingDepartures i x.eventQueue ≤ 1) := by
  constructor
  · obtain ⟨log, s2, v, hcall, hR, _⟩ := BusyTime.maxTellerBusyTimeLog_run tie
      (s := BusyTime.BankSim3000.new input) h1 h5 rfl rfl
    refine ⟨log, s2, v, hcall, ?_⟩
    intro x hx i hi
    obtain ⟨hc, hlen⟩ := BusyTime.run_loopHeads_consistent hR x hx
    exact BusyTime.Consistent.teller_iff hc hlen hi
  · obtain ⟨log, s2, hcall, hR⟩ := TrackCustomer.runLog_run_wait tie
      (s := TrackCustomer.BankSim3000.new input) h1 h5 rfl rfl
    refine ⟨log, s2, _, hcall, ?_⟩
    intro x hx i hi
    obtain ⟨hc, hlen⟩ := TrackCustomer.run_loopHeads_consistent_wait hR x hx
    exact TrackCustomer.Consistent.teller_iff_wait hc hlen hi

/-- Instance of C15: the input of `main` with two tellers. -/
theorem teller_event_invariant_witness :
    (∃ log s2 v, BusyTime.maxTellerBusyTimeLog (fun _ => 0)
        (BusyTime.BankSim3000.new SimulationInput00) 2 = some (log, s2, .ok v) ∧
      ∀ x ∈ BusyTime.loopHeads log s2, ∀ i, i < 2 →
        ∃ t, x.tellers[i]? = some t ∧
          (t.isAvailable = false ↔ BusyTime.pendingDepartures i x.eventQueue = 1) ∧
          (t.isAvailable = true ↔ BusyTime.pendingDepartures i x.eventQueue = 0) ∧
          BusyTime.pendingDepartures i x.eventQueue ≤ 1) ∧
    (∃ log s2 r, TrackCustomer.runLog (fun _ => 0)
        (TrackCustomer.BankSim3000.new SimulationInput00) 2 = some (log, s2, .ok r) ∧
      ∀ x ∈ TrackCustomer.loopHeads log s2, ∀ i, i < 2 →
        ∃ t, x.tellers[i]? = some t ∧
          (t.isAvailable = false ↔ TrackCustomer.pendingDepartures i x.eventQueue = 1) ∧
          (t.isAvailable = true ↔ TrackCustomer.pendingDepartures i x.eventQueue = 0) ∧
          TrackCustomer.pendingDepartures i x.eventQueue ≤ 1) :=
  teller_event_invariant (fun _ => 0) 2 (by decide) (by decide) SimulationInput00

/-- C21 (search for a teller, both variants): in every state, `searchAvailableTellers`
returns index `i` exactly when teller `i` is available and every teller with a smaller
index is busy, and it returns no index exactly when every teller is busy. -/
theorem teller_search_lowest_index (sb : BusyTime.BankSim3000) (sw : TrackCustomer.BankSim3000) :
    (∀ i, BusyTime.searchAvailableTellers sb = some i ↔
      (∃ t, sb.tellers[i]? = some t ∧ t.isAvailable = true) ∧
        ∀ j t, j < i → sb.tellers[j]? = some t → t.isAvailable = false) ∧
    (BusyTime.searchAvailableTellers sb = none ↔ ∀ t ∈ sb.tellers, t.isAvailable = false) ∧
    (∀ i, TrackCustomer.searchAvailableTellers sw = some i ↔
      (∃ t, sw.tellers[i]? = some t ∧ t.isAvailable = true) ∧
        ∀ j t, j < i → sw.tellers[j]? = some t → t.isAvailable = false) ∧
    (TrackCustomer.searchAvailableTellers sw = none ↔
      ∀ t ∈ sw.tellers, t.isAvailable = false) :=
  ⟨fun _ => BusyTime.searchAvailableTellers_eq_some_iff,
    BusyTime.searchAvailableTellers_eq_none_iff,
    fun _ => TrackCustomer.searchAvailableTellers_eq_some_iff_wait,
    TrackCustomer.searchAvailableTellers_eq_none_iff_wait⟩

/-- C22 (arrival with a free teller, both variants): when at least one teller is
available, `processArrival(currentTime, a)` succeeds; with `i` the lowest index of an
available teller, the state afterwards differs from the state before only in that teller
`i` has started work (and is busy) and that one departure event with departure time
`currentTime + a.transactionTime` and teller index `i` (carrying, in the wait-time
variant, the customer of `a` with entry time `currentTime`) has been pushed; the waiting
line and all other tellers are unchanged.  The sum is that of `int`: it is the exact sum
whenever that is a value of `int`. -/
theorem arrival_with_free_teller (sb : BusyTime.BankSim3000) (sw : TrackCustomer.BankSim3000)
    (currentTime : Time) (a : ArrivalEvent)
    (hb : ∃ t ∈ sb.tellers, t.isAvailable = true)
    (hw : ∃ t ∈ sw.tellers, t.isAvailable = true) :
    (∃ i t, sb.tellers[i]? = some t ∧ t.isAvailable = true ∧
      (∀ j u, j < i → sb.tellers[j]? = some u → u.isAvailable = false) ∧
      BusyTime.processArrival sb currentTime a =
        ({ sb with
            tellers := sb.tellers.set i (t.startWork currentTime)
            eventQueue := sb.eventQueue ++
              [BusyTime.Event.departure ⟨intAdd currentTime a.transactionTime, i⟩] }, .ok ()) ∧
      (t.startWork currentTime).isAvailable = false ∧
      ∀ j, j ≠ i → (sb.tellers.set i (t.startWork currentTime))[j]? = sb.tellers[j]?) ∧
    (∃ i t, sw.tellers[i]? = some t ∧ t.isAvailable = true ∧
      (∀ j u, j < i → sw.tellers[j]? = some u → u.isAvailable = false) ∧
      TrackCustomer.processArrival sw currentTime a =
        ({ sw with
            tellers := sw.tellers.set i t.startService
            eventQueue := sw.eventQueue ++
              [TrackCustomer.Event.departure
                ⟨intAdd currentTime a.transactionTime, i, ⟨a, currentTime⟩⟩] }, .ok ()) ∧
      t.startService.isAvailable = false ∧
      ∀ j, j ≠ i → (sw.tellers.set i t.startService)[j]? = sw.tellers[j]?) ∧
    (-2147483648 ≤ currentTime + a.transactionTime →
      currentTime + a.transactionTime ≤ 2147483647 →
      intAdd currentTime a.transactionTime = currentTime + a.transactionTime) := by
  refine ⟨?_, ?_, fun hlo hhi => intAdd_eq hlo hhi⟩
  · obtain ⟨i, hi⟩ := BusyTime.searchAvailableTellers_of_available hb
    obtain ⟨⟨t, ht, hav⟩, hlow⟩ := BusyTime.searchAvailableTellers_eq_some_iff.1 hi
    refine ⟨i, t, ht, hav, hlow, BusyTime.processArrival_some currentTime a hi ht, rfl, ?_⟩
    intro j hj
    exact List.getElem?_set_ne (Ne.symm hj)
  · obtain ⟨i, hi⟩ := TrackCustomer.searchAvailableTellers_of_available_wait hw
    obtain ⟨⟨t, ht, hav⟩, hlow⟩ := TrackCustomer.searchAvailableTellers_eq_some_iff_wait.1 hi
    refine ⟨i, t, ht, hav, hlow, TrackCustomer.processArrival_some_tc currentTime a hi ht,
      rfl, ?_⟩
    intro j hj
    exact List.getElem?_set_ne (Ne.symm hj)

/-- Instance of C22: two tellers of which the first is busy, and an arrival at time 22. -/
theorem arrival_with_free_teller_witness :
    (∃ i t, BusyTime.oneBusyOneFree.tellers[i]? = some t ∧
      t.isAvailable = true ∧
      (∀ j u, j < i →
        BusyTime.oneBusyOneFree.tellers[j]? = some u →
        u.isAvailable = false) ∧
      BusyTime.processArrival BusyTime.oneBusyOneFree 22
          ⟨22, 4⟩ =
        ({ BusyTime.oneBusyOneFree with
            tellers := BusyTime.oneBusyOneFree.tellers.set i
              (t.startWork 22)
            eventQueue := BusyTime.oneBusyOneFree.eventQueue ++
              [BusyTime.Event.departure ⟨intAdd 22 (ArrivalEvent.mk 22 4).transactionTime, i⟩] },
          .ok ()) ∧
      (t.startWork 22).isAvailable = false ∧
      ∀ j, j ≠ i →
        (BusyTime.oneBusyOneFree.tellers.set i
          (t.startWork 22))[j]? =
        BusyTime.oneBusyOneFree.tellers[j]?) ∧
    (∃ i t, TrackCustomer.oneBusyOneFree.tellers[i]? = some t ∧
      t.isAvailable = true ∧
      (∀ j u, j < i →
        TrackCustomer.oneBusyOneFree.tellers[j]? = some u →
        u.isAvailable = false) ∧
      TrackCustomer.processArrival TrackCustomer.oneBusyOneFree 22
          ⟨22, 4⟩ =
        ({ TrackCustomer.oneBusyOneFree with
            tellers := TrackCustomer.oneBusyOneFree.tellers.set i
              t.startService
            eventQueue :=
              TrackCustomer.oneBusyOneFree.eventQueue ++
              [TrackCustomer.Event.departure
                ⟨intAdd 22 (ArrivalEvent.mk 22 4).transactionTime, i, ⟨⟨22, 4⟩, 22⟩⟩] }, .ok ()) ∧
      t.startService.isAvailable = false ∧
      ∀ j, j ≠ i →
        (TrackCustomer.oneBusyOneFree.tellers.set i
          t.startService)[j]? =
        TrackCustomer.oneBusyOneFree.tellers[j]?) ∧
    (-2147483648 ≤ (22 : Time) + (ArrivalEvent.mk 22 4).transactionTime →
      (22 : Time) + (ArrivalEvent.mk 22 4).transactionTime ≤ 2147483647 →
      intAdd 22 (ArrivalEvent.mk 22 4).transactionTime =
        22 + (ArrivalEvent.mk 22 4).transactionTime) :=
  arrival_with_free_teller BusyTime.oneBusyOneFree
    TrackCustomer.oneBusyOneFree 22 ⟨22, 4⟩
    ⟨⟨none, 0⟩, by decide, rfl⟩ ⟨⟨false⟩, by decide, rfl⟩

/-- C23 (arrival with no free teller, both variants): when every teller is busy,
`processArrival(currentTime, a)` succeeds and the state afterwards differs from the state
before only in that one customer for `a` (with entry time `currentTime` in the wait-time
variant) has been appended at the tail of the waiting line; the earlier contents of the
line keep their order, and the event queue, every teller and the recorded wait times are
unchanged. -/
theorem arrival_with_no_free_teller (sb : BusyTime.BankSim3000)
    (sw : TrackCustomer.BankSim3000) (currentTime : Time) (a : ArrivalEvent)
    (hb : ∀ t ∈ sb.tellers, t.isAvailable = false)
    (hw : ∀ t ∈ sw.tellers, t.isAvailable = false) :
    BusyTime.processArrival sb currentTime a =
      ({ sb with bankLine := sb.bankLine ++ [⟨a⟩] }, .ok ()) ∧
    TrackCustomer.processArrival sw currentTime a =
      ({ sw with bankLine := sw.bankLine ++ [⟨a, currentTime⟩] }, .ok ()) :=
  ⟨BusyTime.processArrival_none currentTime a (BusyTime.searchAvailableTellers_eq_none_iff.2 hb),
    TrackCustomer.processArrival_none_tc currentTime a
      (TrackCustomer.searchAvailableTellers_eq_none_iff_wait.2 hw)⟩

/-- Instance of C23: one busy teller, one customer already waiting, and an arrival at
time 23. -/
theorem arrival_with_no_free_teller_witness :
    BusyTime.processArrival BusyTime.allBusyOneWaiting 23 ⟨23, 2⟩ =
      ({ BusyTime.allBusyOneWaiting with
          bankLine := BusyTime.allBusyOneWaiting.bankLine ++ [⟨⟨23, 2⟩⟩] }, .ok ()) ∧
    TrackCustomer.processArrival TrackCustomer.allBusyOneWaiting 23 ⟨23, 2⟩ =
      ({ TrackCustomer.allBusyOneWaiting with
          bankLine := TrackCustomer.allBusyOneWaiting.bankLine ++ [⟨⟨23, 2⟩, 23⟩] }, .ok ()) :=
  arrival_with_no_free_teller BusyTime.allBusyOneWaiting TrackCustomer.allBusyOneWaiting 23
    ⟨23, 2⟩ (by decide) (by decide)

/-- C24 (departure with a non-empty line, both variants): when the waiting line is not
empty and the teller index of the departure event `d` denotes a teller,
`processDeparture(currentTime, d)` succeeds; it removes exactly the head customer `c` of
the line and keeps the rest in order, leaves teller `d.tellerIndex` busy, and pushes
exactly one departure event with departure time `currentTime + c.transactionTime` and
the same teller index (carrying `c` in the wait-time variant); all other tellers are
unchanged.  The sum is that of `int`: it is the exact sum whenever that is a value of
`int`. -/
theorem departure_with_waiting_customer (sb : BusyTime.BankSim3000)
    (sw : TrackCustomer.BankSim3000) (currentTime : Time) (db : BusyTime.DepartureEvent)
    (dw : TrackCustomer.DepartureEvent) (cb : BusyTime.Customer)
    (restb : List BusyTime.Customer) (cw : TrackCustomer.Customer)
    (restw : List TrackCustomer.Customer)
    (hlb : sb.bankLine = cb :: restb) (hib : db.tellerIndex < sb.tellers.length)
    (hlw : sw.bankLine = cw :: restw) (hiw : dw.tellerIndex < sw.tellers.length) :
    (∃ t, sb.tellers[db.tellerIndex]? = some t ∧
      BusyTime.processDeparture sb currentTime db =
        ({ sb with
            bankLine := restb
            tellers := sb.tellers.set db.tellerIndex (t.startWork currentTime)
            eventQueue := sb.eventQueue ++
              [BusyTime.Event.departure
                ⟨intAdd currentTime cb.arrivalEvent.transactionTime, db.tellerIndex⟩] }, .ok ()) ∧
      (t.startWork currentTime).isAvailable = false ∧
      (sb.tellers.set db.tellerIndex (t.startWork currentTime))[db.tellerIndex]? =
        some (t.startWork currentTime) ∧
      ∀ j, j ≠ db.tellerIndex →
        (sb.tellers.set db.tellerIndex (t.startWork currentTime))[j]? = sb.tellers[j]?) ∧
    (∃ t, sw.tellers[dw.tellerIndex]? = some t ∧
      TrackCustomer.processDeparture sw currentTime dw =
        ({ sw with
            completedCustomerWaitTimes :=
              if TrackCustomer.waitTimeOf currentTime dw.customer > 0 then
                sw.completedCustomerWaitTimes ++
                  [TrackCustomer.waitTimeOf currentTime dw.customer]
              else sw.completedCustomerWaitTimes
            bankLine := restw
            tellers := sw.tellers.set dw.tellerIndex t.startService
            eventQueue := sw.eventQueue ++
              [TrackCustomer.Event.departure
                ⟨intAdd currentTime cw.arrivalEvent.transactionTime, dw.tellerIndex, cw⟩] },
          .ok ()) ∧
      t.startService.isAvailable = false ∧
      (sw.tellers.set dw.tellerIndex t.startService)[dw.tellerIndex]? =
        some t.startService ∧
      ∀ j, j ≠ dw.tellerIndex →
        (sw.tellers.set dw.tellerIndex t.startService)[j]? = sw.tellers[j]?) ∧
    (∀ tx : Time, -2147483648 ≤ currentTime + tx → currentTime + tx ≤ 2147483647 →
      intAdd currentTime tx = currentTime + tx) := by
  refine ⟨?_, ?_, fun tx hlo hhi => intAdd_eq hlo hhi⟩
  · have ht : sb.tellers[db.tellerIndex]? = some (sb.tellers.get ⟨db.tellerIndex, hib⟩) :=
      List.getElem?_eq_getElem hib
    refine ⟨_, ht, BusyTime.processDeparture_cons currentTime db hlb ht, rfl, ?_, ?_⟩
    · simp [hib]
    · intro j hj
      exact List.getElem?_set_ne (Ne.symm hj)
  · have ht : sw.tellers[dw.tellerIndex]? = some (sw.tellers.get ⟨dw.tellerIndex, hiw⟩) :=
      List.getElem?_eq_getElem hiw
    refine ⟨_, ht, TrackCustomer.processDeparture_cons_tc currentTime dw hlw ht, rfl, ?_, ?_⟩
    · simp [hiw]
    · intro j hj
      exact List.getElem?_set_ne (Ne.symm hj)

/-- Instance of C24: one busy teller whose departure is processed at time 26 while one
customer waits. -/
theorem departure_with_waiting_customer_witness :
    (∃ t, BusyTime.allBusyOneWaiting.tellers[(BusyTime.DepartureEvent.mk 26 0).tellerIndex]? =
        some t ∧
      BusyTime.processDeparture BusyTime.allBusyOneWaiting 26 ⟨26, 0⟩ =
        ({ BusyTime.allBusyOneWaiting with
            bankLine := []
            tellers := BusyTime.allBusyOneWaiting.tellers.set
              (BusyTime.DepartureEvent.mk 26 0).tellerIndex (t.startWork 26)
            eventQueue := BusyTime.allBusyOneWaiting.eventQueue ++
              [BusyTime.Event.departure
                ⟨intAdd 26 (BusyTime.Customer.mk ⟨22, 4⟩).arrivalEvent.transactionTime,
                  (BusyTime.DepartureEvent.mk 26 0).tellerIndex⟩] }, .ok ()) ∧
      (t.startWork 26).isAvailable = false ∧
      (BusyTime.allBusyOneWaiting.tellers.set (BusyTime.DepartureEvent.mk 26 0).tellerIndex
          (t.startWork 26))[(BusyTime.DepartureEvent.mk 26 0).tellerIndex]? =
        some (t.startWork 26) ∧
      ∀ j, j ≠ (BusyTime.DepartureEvent.mk 26 0).tellerIndex →
        (BusyTime.allBusyOneWaiting.tellers.set (BusyTime.DepartureEvent.mk 26 0).tellerIndex
          (t.startWork 26))[j]? = BusyTime.allBusyOneWaiting.tellers[j]?) ∧
    (∃ t, TrackCustomer.allBusyOneWaiting.tellers[
        (TrackCustomer.DepartureEvent.mk 26 0 ⟨⟨20, 6⟩, 20⟩).tellerIndex]? = some t ∧
      TrackCustomer.processDeparture TrackCustomer.allBusyOneWaiting 26
          ⟨26, 0, ⟨⟨20, 6⟩, 20⟩⟩ =
        ({ TrackCustomer.allBusyOneWaiting with
            completedCustomerWaitTimes :=
              if TrackCustomer.waitTimeOf 26
                  (TrackCustomer.DepartureEvent.mk 26 0 ⟨⟨20, 6⟩, 20⟩).customer > 0 then
                TrackCustomer.allBusyOneWaiting.completedCustomerWaitTimes ++
                  [TrackCustomer.waitTimeOf 26
                    (TrackCustomer.DepartureEvent.mk 26 0 ⟨⟨20, 6⟩, 20⟩).customer]
              else TrackCustomer.allBusyOneWaiting.completedCustomerWaitTimes
            bankLine := []
            tellers := TrackCustomer.allBusyOneWaiting.tellers.set
              (TrackCustomer.DepartureEvent.mk 26 0 ⟨⟨20, 6⟩, 20⟩).tellerIndex t.startService
            eventQueue := TrackCustomer.allBusyOneWaiting.eventQueue ++
              [TrackCustomer.Event.departure
                ⟨intAdd 26 (TrackCustomer.Customer.mk ⟨22, 4⟩ 22).arrivalEvent.transactionTime,
                  (TrackCustomer.DepartureEvent.mk 26 0 ⟨⟨20, 6⟩, 20⟩).tellerIndex,
                  ⟨⟨22, 4⟩, 22⟩⟩] },
          .ok ()) ∧
      t.startService.isAvailable = false ∧
      (TrackCustomer.allBusyOneWaiting.tellers.set
          (TrackCustomer.DepartureEvent.mk 26 0 ⟨⟨20, 6⟩, 20⟩).tellerIndex
          t.startService)[(TrackCustomer.DepartureEvent.mk 26 0 ⟨⟨20, 6⟩, 20⟩).tellerIndex]? =
        some t.startService ∧
      ∀ j, j ≠ (TrackCustomer.DepartureEvent.mk 26 0 ⟨⟨20, 6⟩, 20⟩).tellerIndex →
        (TrackCustomer.allBusyOneWaiting.tellers.set
          (TrackCustomer.DepartureEvent.mk 26 0 ⟨⟨20, 6⟩, 20⟩).tellerIndex
          t.startService)[j]? = TrackCustomer.allBusyOneWaiting.tellers[j]?) ∧
    (∀ tx : Time, -2147483648 ≤ (26 : Time) + tx → (26 : Time) + tx ≤ 2147483647 →
      intAdd 26 tx = 26 + tx) :=
  departure_with_waiting_customer BusyTime.allBusyOneWaiting TrackCustomer.allBusyOneWaiting 26
    ⟨26, 0⟩ ⟨26, 0, ⟨⟨20, 6⟩, 20⟩⟩ ⟨⟨22, 4⟩⟩ [] ⟨⟨22, 4⟩, 22⟩ [] rfl (by decide) rfl (by decide)

/-- C25 (first in, first out, both variants): for every arrival list, every teller count
`n` with `1 ≤ n ≤ 5` and every tie-break, the call returns, and over the run the
customers leave the waiting line to begin service in exactly the order in which they
joined it: at every point of the run the sequence of customers who have left is a prefix
of the sequence of customers who have joined, and over the whole run the two sequences
are equal. -/
theorem line_is_first_in_first_out (tie : Nat → Nat) (n : Nat) (h1 : 1 ≤ n) (h5 : n ≤ 5)
    (input : SimulationInput) :
    (∃ log s2 v, BusyTime.maxTellerBusyTimeLog tie (BusyTime.BankSim3000.new input) n =
        some (log, s2, .ok v) ∧
      BusyTime.leaves log = BusyTime.joins log ∧
      ∀ l1 l2, log = l1 ++ l2 → BusyTime.leaves l1 <+: BusyTime.joins l1) ∧
    (∃ log s2 r, TrackCustomer.runLog tie (TrackCustomer.BankSim3000.new input) n =
        some (log, s2, .ok r) ∧
      TrackCustomer.leaves log = TrackCustomer.joins log ∧
      ∀ l1 l2, log = l1 ++ l2 → TrackCustomer.leaves l1 <+: TrackCustomer.joins l1) := by
  constructor
  · obtain ⟨log, s2, v, hcall, hR, _⟩ := BusyTime.maxTellerBusyTimeLog_run tie
      (s := BusyTime.BankSim3000.new input) h1 h5 rfl rfl
    refine ⟨log, s2, v, hcall, ?_, ?_⟩
    · obtain ⟨sm, hRm, hbal⟩ := BusyTime.Run.split hR log [] (by simp)
      cases hRm with
      | done _ =>
        have hl := (BusyTime.run_setupState_drained h1 hR).2.1
        rw [hl] at hbal
        simpa [BusyTime.setupState] using hbal.symm
    · intro l1 l2 hl
      obtain ⟨sm, _, hbal⟩ := BusyTime.Run.split hR l1 l2 hl
      refine ⟨sm.bankLine, ?_⟩
      simpa [BusyTime.setupState] using hbal.symm
  · obtain ⟨log, s2, hcall, hR⟩ := TrackCustomer.runLog_run_wait tie
      (s := TrackCustomer.BankSim3000.new input) h1 h5 rfl rfl
    refine ⟨log, s2, _, hcall, ?_, ?_⟩
    · obtain ⟨sm, hRm, hbal⟩ := TrackCustomer.Run.split_tc hR log [] (by simp)
      cases hRm with
      | done _ =>
        have hl := (TrackCustomer.run_setupState_drained_wait h1 hR).2.1
        rw [hl] at hbal
        simpa [TrackCustomer.setupState] using hbal.symm
    · intro l1 l2 hl
      obtain ⟨sm, _, hbal⟩ := TrackCustomer.Run.split_tc hR l1 l2 hl
      refine ⟨sm.bankLine, ?_⟩
      simpa [TrackCustomer.setupState] using hbal.symm

/-- Instance of C25: the input of `main` with one teller. -/
theorem line_is_first_in_first_out_witness :
    (∃ log s2 v, BusyTime.maxTellerBusyTimeLog (fun _ => 0)
        (BusyTime.BankSim3000.new SimulationInput00) 1 = some (log, s2, .ok v) ∧
      BusyTime.leaves log = BusyTime.joins log ∧
      ∀ l1 l2, log = l1 ++ l2 → BusyTime.leaves l1 <+: BusyTime.joins l1) ∧
    (∃ log s2 r, TrackCustomer.runLog (fun _ => 0)
        (TrackCustomer.BankSim3000.new SimulationInput00) 1 = some (log, s2, .ok r) ∧
      TrackCustomer.leaves log = TrackCustomer.joins log ∧
      ∀ l1 l2, log = l1 ++ l2 → TrackCustomer.leaves l1 <+: TrackCustomer.joins l1) :=
  line_is_first_in_first_out (fun _ => 0) 1 (by decide) (by decide) SimulationInput00

/-- C26 (busy-time aggregation): for every arrival list, every teller count `n` with
`1 ≤ n ≤ 5` and every tie-break, `maxTellerBusyTime(n)` returns a value; the vector
produced by `gatherResults` has exactly `n` entries, its `i`-th entry is the accumulated
busy time of teller `i`, and the value returned is the maximum of that vector: no entry
exceeds it and it is one of the entries. -/
theorem busy_time_aggregation (tie : Nat → Nat) (n : Nat) (h1 : 1 ≤ n) (h5 : n ≤ 5)
    (input : SimulationInput) :
    ∃ log s2 v, BusyTime.maxTellerBusyTimeLog tie (BusyTime.BankSim3000.new input) n =
        some (log, s2, .ok v) ∧
      (BusyTime.gatherResults s2).elapsedTimeBusy.length = n ∧
      (∀ (i : Nat) (t : BusyTime.Teller), s2.tellers[i]? = some t →
        (BusyTime.gatherResults s2).elapsedTimeBusy[i]? = some t.elapsedTimeBusy) ∧
      (∀ x ∈ (BusyTime.gatherResults s2).elapsedTimeBusy, x ≤ v) ∧
      v ∈ (BusyTime.gatherResults s2).elapsedTimeBusy := by
  obtain ⟨log, s2, v, hcall, hR, hv⟩ := BusyTime.maxTellerBusyTimeLog_run tie
    (s := BusyTime.BankSim3000.new input) h1 h5 rfl rfl
  obtain ⟨hmem, hge⟩ := BusyTime.maxTellerBusyTime_is_max hv
  refine ⟨log, s2, v, hcall, ?_, ?_, hge, hmem⟩
  · simp [BusyTime.gatherResults, (BusyTime.Run.frame hR).1, BusyTime.setupState]
  · intro i t ht
    simp [BusyTime.gatherResults, ht, BusyTime.Teller.elapsedTimeWorking]

/-- Instance of C26: the input of `main` with two tellers. -/
theorem busy_time_aggregation_witness :
    ∃ log s2 v, BusyTime.maxTellerBusyTimeLog (fun _ => 0)
        (BusyTime.BankSim3000.new SimulationInput00) 2 = some (log, s2, .ok v) ∧
      (BusyTime.gatherResults s2).elapsedTimeBusy.length = 2 ∧
      (∀ (i : Nat) (t : BusyTime.Teller), s2.tellers[i]? = some t →
        (BusyTime.gatherResults s2).elapsedTimeBusy[i]? = some t.elapsedTimeBusy) ∧
      (∀ x ∈ (BusyTime.gatherResults s2).elapsedTimeBusy, x ≤ v) ∧
      v ∈ (BusyTime.gatherResults s2).elapsedTimeBusy :=
  busy_time_aggregation (fun _ => 0) 2 (by decide) (by decide) SimulationInput00

/-- C27 as stated fails.  Function `averageWaitTime` sums the wait times with
`accumulate(..., 0)`, whose accumulator is an `int`.  For the list that holds 2147483647
and 1 the sum in `int` is `-2147483648` and `averageWaitTime` is `-1073741824`, while the
integer sum 2147483648 divided by the length 2 is 1073741824. -/
theorem average_of_wrapped_sum :
    (TrackCustomer.SimulationResults.mk [2147483647, 1]).averageWaitTime = -1073741824 ∧
    ((([2147483647, 1] : List Time).sum : Int) : ℚ) /
      (([2147483647, 1] : List Time).length : ℚ) = 1073741824 ∧
    intAdd (intAdd 0 2147483647) 1 = -2147483648 := by
  refine ⟨?_, by norm_num, by decide⟩
  have h : ([2147483647, 1] : List Time).foldl (fun acc x => intAdd acc x) 0 =
      -2147483648 := by decide
  simp only [TrackCustomer.SimulationResults.averageWaitTime, List.isEmpty_cons,
    Bool.false_eq_true, if_false, h]
  norm_num

/-- C27 as amended (wait-time aggregation): for every list `w` of recorded wait times, if
`w` is empty then `averageWaitTime` and `maxWaitTime` are both 0; otherwise `maxWaitTime`
is the largest element of `w` (an element that no element exceeds) and `averageWaitTime`
is the sum of `w` computed in `int`, that is the integer sum of `w` reduced to the range
of `int`, divided by the length of `w`, as an exact rational number; it is the integer
sum of `w` divided by the length whenever the integer sum is a value of `int`. -/
theorem wait_time_aggregation (w : List Time) :
    (w = [] →
      (TrackCustomer.SimulationResults.mk w).averageWaitTime = 0 ∧
      (TrackCustomer.SimulationResults.mk w).maxWaitTime = 0) ∧
    (w ≠ [] →
      (TrackCustomer.SimulationResults.mk w).maxWaitTime ∈ w ∧
      (∀ x ∈ w, x ≤ (TrackCustomer.SimulationResults.mk w).maxWaitTime) ∧
      (TrackCustomer.SimulationResults.mk w).averageWaitTime =
        ((wrap w.sum : Int) : ℚ) / (w.length : ℚ) ∧
      (-2147483648 ≤ w.sum → w.sum ≤ 2147483647 →
        (TrackCustomer.SimulationResults.mk w).averageWaitTime =
          ((w.sum : Int) : ℚ) / (w.length : ℚ))) := by
  constructor
  · intro hw
    subst hw
    exact ⟨by simp [TrackCustomer.SimulationResults.averageWaitTime], rfl⟩
  · intro hw
    cases w with
    | nil => exact absurd rfl hw
    | cons x xs =>
      have havg : (TrackCustomer.SimulationResults.mk (x :: xs)).averageWaitTime =
          ((wrap (x :: xs).sum : Int) : ℚ) / ((x :: xs).length : ℚ) := by
        simp only [TrackCustomer.SimulationResults.averageWaitTime, List.isEmpty_cons,
          Bool.false_eq_true, if_false]
        rw [TrackCustomer.foldl_intAdd_eq_wrap]
      refine ⟨TrackCustomer.foldl_max_mem xs x, TrackCustomer.foldl_max_ge xs x, havg, ?_⟩
      intro hlo hhi
      rw [havg, wrap_eq hlo hhi]

/-- C35 (set-up postcondition, both variants): whenever `setupSimulation(n)` succeeds, the
teller count satisfies `1 ≤ n ≤ 5`, and afterwards the event queue holds exactly the
arrival events of the stored input, one per element and no departure, the waiting line is
empty, there are exactly `n` tellers, all available (with zero accumulated busy time in
the busy-time variant), the recorded wait times are empty (wait-time variant), and the
stored input is unchanged. -/
theorem setup_postcondition (sb s1b : BusyTime.BankSim3000)
    (sw s1w : TrackCustomer.BankSim3000) (n : Nat)
    (hb : BusyTime.setupSimulation sb n = (s1b, .ok ()))
    (hw : TrackCustomer.setupSimulation sw n = (s1w, .ok ())) :
    1 ≤ n ∧ n ≤ 5 ∧
    (s1b.eventQueue = sb.simulationInput.map BusyTime.Event.arrival ∧ s1b.bankLine = [] ∧
      s1b.tellers.length = n ∧
      (∀ t ∈ s1b.tellers, t.isAvailable = true ∧ t.elapsedTimeWorking = 0) ∧
      s1b.simulationInput = sb.simulationInput) ∧
    (s1w.eventQueue = sw.simulationInput.map TrackCustomer.Event.arrival ∧
      s1w.bankLine = [] ∧ s1w.tellers.length = n ∧
      (∀ t ∈ s1w.tellers, t.isAvailable = true) ∧
      s1w.completedCustomerWaitTimes = [] ∧ s1w.simulationInput = sw.simulationInput) := by
  obtain ⟨h1, h5, _, _, hsb⟩ := BusyTime.setupSimulation_success hb
  obtain ⟨_, _, _, _, hsw⟩ := TrackCustomer.setupSimulation_success_wait hw
  subst hsb hsw
  refine ⟨h1, h5, ⟨rfl, rfl, by simp [BusyTime.setupState], ?_, rfl⟩,
    ⟨rfl, rfl, by simp [TrackCustomer.setupState], ?_, rfl, rfl⟩⟩
  · intro t ht
    simp only [BusyTime.setupState] at ht
    rw [(List.mem_replicate.1 ht).2]
    exact ⟨rfl, rfl⟩
  · intro t ht
    simp only [TrackCustomer.setupState] at ht
    rw [(List.mem_replicate.1 ht).2]
    rfl

/-- Instance of C35: the set-up for two tellers of fresh objects that store the input of
`main`. -/
theorem setup_postcondition_witness :
    1 ≤ 2 ∧ 2 ≤ 5 ∧
    ((BusyTime.setupState (BusyTime.BankSim3000.new SimulationInput00) 2).eventQueue =
        (BusyTime.BankSim3000.new SimulationInput00).simulationInput.map
          BusyTime.Event.arrival ∧
      (BusyTime.setupState (BusyTime.BankSim3000.new SimulationInput00) 2).bankLine = [] ∧
      (BusyTime.setupState (BusyTime.BankSim3000.new SimulationInput00) 2).tellers.length = 2 ∧
      (∀ t ∈ (BusyTime.setupState (BusyTime.BankSim3000.new SimulationInput00) 2).tellers,
        t.isAvailable = true ∧ t.elapsedTimeWorking = 0) ∧
      (BusyTime.setupState (BusyTime.BankSim3000.new SimulationInput00) 2).simulationInput =
        (BusyTime.BankSim3000.new SimulationInput00).simulationInput) ∧
    ((TrackCustomer.setupState (TrackCustomer.BankSim3000.new SimulationInput00) 2).eventQueue =
        (TrackCustomer.BankSim3000.new SimulationInput00).simulationInput.map
          TrackCustomer.Event.arrival ∧
      (TrackCustomer.setupState (TrackCustomer.BankSim3000.new SimulationInput00) 2).bankLine =
        [] ∧
      (TrackCustomer.setupState
        (TrackCustomer.BankSim3000.new SimulationInput00) 2).tellers.length = 2 ∧
      (∀ t ∈ (TrackCustomer.setupState
          (TrackCustomer.BankSim3000.new SimulationInput00) 2).tellers,
        t.isAvailable = true) ∧
      (TrackCustomer.setupState
        (TrackCustomer.BankSim3000.new SimulationInput00) 2).completedCustomerWaitTimes = [] ∧
      (TrackCustomer.setupState
        (TrackCustomer.BankSim3000.new SimulationInput00) 2).simulationInput =
        (TrackCustomer.BankSim3000.new SimulationInput00).simulationInput) :=
  setup_postcondition (BusyTime.BankSim3000.new SimulationInput00)
    (BusyTime.setupState (BusyTime.BankSim3000.new SimulationInput00) 2)
    (TrackCustomer.BankSim3000.new SimulationInput00)
    (TrackCustomer.setupState (TrackCustomer.BankSim3000.new SimulationInput00) 2) 2
    rfl rfl

/-- C36 as stated fails.  The times are `int` values.  On the arrivals
(2000000000, 2000000000) and (1000000000, 5), whose transaction times are positive, with
one teller, the departure of the first customer is computed as `-294967296`: the
iteration after the one on the first arrival is on the second arrival, not on the
departure of the first customer, and the second customer enters the waiting line, which
holds one customer at the third loop head. -/
theorem arrival_not_followed_by_departure :
    (∀ a ∈ ([⟨2000000000, 2000000000⟩, ⟨1000000000, 5⟩] : SimulationInput),
      0 < a.transactionTime) ∧
    (TrackCustomer.runLog (fun _ => 0) (TrackCustomer.BankSim3000.new
        [⟨2000000000, 2000000000⟩, ⟨1000000000, 5⟩]) 1).map
      (fun r => r.1.map (fun st => (st.event, st.before.bankLine))) =
      some [(.arrival ⟨2000000000, 2000000000⟩, []),
        (.arrival ⟨1000000000, 5⟩, []),
        (.departure ⟨-294967296, 0, ⟨⟨2000000000, 2000000000⟩, 2000000000⟩⟩,
          [⟨⟨1000000000, 5⟩, 1000000000⟩]),
        (.departure ⟨-294967291, 0, ⟨⟨1000000000, 5⟩, 1000000000⟩⟩, [])] ∧
    intAdd 2000000000 2000000000 = -294967296 := by
  exact ⟨by decide, by decide!, by decide⟩

/-- C36 as amended (wait-time variant as written): for every arrival list whose
transaction times are all positive and that fits the arithmetic of `int` (every arrival
time is a value of `int`, and no arrival time plus the transaction time of the same
customer exceeds 2147483647), every teller count `n` with `1 ≤ n ≤ 5` and every
tie-break, `run(n)` returns an empty wait-time list, with `averageWaitTime = 0` and
`maxWaitTime = 0`; in its run the iteration after one on an arrival event is on the
departure event of that same customer, and at every loop head the waiting line and the
recorded wait times are empty. -/
theorem wait_variant_as_written (tie : Nat → Nat) (n : Nat) (h1 : 1 ≤ n) (h5 : n ≤ 5)
    (input : SimulationInput) (hpos : ∀ a ∈ input, 0 < a.transactionTime)
    (hfits : TrackCustomer.Fits input) :
    ∃ log s2 r, TrackCustomer.runLog tie (TrackCustomer.BankSim3000.new input) n =
        some (log, s2, .ok r) ∧
      (∀ (l1 : List TrackCustomer.Step) (st : TrackCustomer.Step)
          (l2 : List TrackCustomer.Step) (a : ArrivalEvent),
        log = l1 ++ st :: l2 → st.event = TrackCustomer.Event.arrival a →
        ∃ j st1 l3, l2 = st1 :: l3 ∧ st1.event = TrackCustomer.Event.departure
          ⟨a.arrivalTime + a.transactionTime, j, ⟨a, a.arrivalTime⟩⟩) ∧
      (∀ x ∈ TrackCustomer.loopHeads log s2,
        x.bankLine = [] ∧ x.completedCustomerWaitTimes = []) ∧
      r.customerWaitTimes = [] ∧ r.averageWaitTime = 0 ∧ r.maxWaitTime = 0 := by
  obtain ⟨log, s2, hcall, hR⟩ := TrackCustomer.runLog_run_wait tie
    (s := TrackCustomer.BankSim3000.new input) h1 h5 rfl rfl
  have hq0 := TrackCustomer.setupState_quiet (TrackCustomer.BankSim3000.new input) h1 hpos
    hfits
  have hheads := TrackCustomer.Run.invariant_wait
    (fun k s e s1 hs hb => (TrackCustomer.loopBody_quiet hs hb).2) hR hq0
  have hq2 := TrackCustomer.Run.quiet hR hq0
  refine ⟨log, s2, _, hcall, TrackCustomer.Run.arrival_then_departure hR hq0, ?_, ?_, ?_, ?_⟩
  · intro x hx
    exact ⟨(hheads x hx).line, (hheads x hx).waits⟩
  · exact hq2.waits
  · simp [TrackCustomer.gatherResults, hq2.waits,
      TrackCustomer.SimulationResults.averageWaitTime]
  · simp [TrackCustomer.gatherResults, hq2.waits, TrackCustomer.SimulationResults.maxWaitTime]

/-- Instance of the amended C36: the input of `main` with one teller. -/
theorem wait_variant_as_written_witness :
    ∃ log s2 r, TrackCustomer.runLog (fun _ => 0)
        (TrackCustomer.BankSim3000.new SimulationInput00) 1 = some (log, s2, .ok r) ∧
      (∀ (l1 : List TrackCustomer.Step) (st : TrackCustomer.Step)
          (l2 : List TrackCustomer.Step) (a : ArrivalEvent),
        log = l1 ++ st :: l2 → st.event = TrackCustomer.Event.arrival a →
        ∃ j st1 l3, l2 = st1 :: l3 ∧ st1.event = TrackCustomer.Event.departure
          ⟨a.arrivalTime + a.transactionTime, j, ⟨a, a.arrivalTime⟩⟩) ∧
      (∀ x ∈ TrackCustomer.loopHeads log s2,
        x.bankLine = [] ∧ x.completedCustomerWaitTimes = []) ∧
      r.customerWaitTimes = [] ∧ r.averageWaitTime = 0 ∧ r.maxWaitTime = 0 :=
  wait_variant_as_written (fun _ => 0) 1 (by decide) (by decide) SimulationInput00 (by decide)
    (by unfold TrackCustomer.Fits; decide)

/-- C37 (work-conserving invariant, both variants): for every arrival list, every teller
count `n` with `1 ≤ n ≤ 5` and every tie-break, the call returns, and at every loop head
of the run (between two event-processing steps) a waiting line that is not empty means
that every teller is busy, and an empty event queue means that every teller is available;
the run ends with the event queue empty. -/
theorem work_conserving (tie : Nat → Nat) (n : Nat) (h1 : 1 ≤ n) (h5 : n ≤ 5)
    (input : SimulationInput) :
    (∃ log s2 v, BusyTime.maxTellerBusyTimeLog tie (BusyTime.BankSim3000.new input) n =
        some (log, s2, .ok v) ∧
      (∀ x ∈ BusyTime.loopHeads log s2,
        (x.bankLine ≠ [] → ∀ t ∈ x.tellers, t.isAvailable = false) ∧
        (x.eventQueue = [] → ∀ t ∈ x.tellers, t.isAvailable = true)) ∧
      s2.eventQueue = [] ∧ ∀ t ∈ s2.tellers, t.isAvailable = true) ∧
    (∃ log s2 r, TrackCustomer.runLog tie (TrackCustomer.BankSim3000.new input) n =
        some (log, s2, .ok r) ∧
      (∀ x ∈ TrackCustomer.loopHeads log s2,
        (x.bankLine ≠ [] → ∀ t ∈ x.tellers, t.isAvailable = false) ∧
        (x.eventQueue = [] → ∀ t ∈ x.tellers, t.isAvailable = true)) ∧
      s2.eventQueue = [] ∧ ∀ t ∈ s2.tellers, t.isAvailable = true) := by
  constructor
  · obtain ⟨log, s2, v, hcall, hR, _⟩ := BusyTime.maxTellerBusyTimeLog_run tie
      (s := BusyTime.BankSim3000.new input) h1 h5 rfl rfl
    have hheads := BusyTime.run_loopHeads_consistent hR
    have hq := (BusyTime.run_setupState_drained h1 hR).1
    have hs2 : s2 ∈ BusyTime.loopHeads log s2 := by simp [BusyTime.loopHeads]
    refine ⟨log, s2, v, hcall, ?_, hq, BusyTime.Consistent.all_available (hheads s2 hs2).1 hq⟩
    intro x hx
    exact ⟨(hheads x hx).1.line, BusyTime.Consistent.all_available (hheads x hx).1⟩
  · obtain ⟨log, s2, hcall, hR⟩ := TrackCustomer.runLog_run_wait tie
      (s := TrackCustomer.BankSim3000.new input) h1 h5 rfl rfl
    have hheads := TrackCustomer.run_loopHeads_consistent_wait hR
    have hq := (TrackCustomer.run_setupState_drained_wait h1 hR).1
    have hs2 : s2 ∈ TrackCustomer.loopHeads log s2 := by simp [TrackCustomer.loopHeads]
    refine ⟨log, s2, _, hcall, ?_, hq,
      TrackCustomer.Consistent.all_available_wait (hheads s2 hs2).1 hq⟩
    intro x hx
    exact ⟨(hheads x hx).1.line, TrackCustomer.Consistent.all_available_wait (hheads x hx).1⟩

/-- Instance of C37: the input of `main` with one teller. -/
theorem work_conserving_witness :
    (∃ log s2 v, BusyTime.maxTellerBusyTimeLog (fun _ => 0)
        (BusyTime.BankSim3000.new SimulationInput00) 1 = some (log, s2, .ok v) ∧
      (∀ x ∈ BusyTime.loopHeads log s2,
        (x.bankLine ≠ [] → ∀ t ∈ x.tellers, t.isAvailable = false) ∧
        (x.eventQueue = [] → ∀ t ∈ x.tellers, t.isAvailable = true)) ∧
      s2.eventQueue = [] ∧ ∀ t ∈ s2.tellers, t.isAvailable = true) ∧
    (∃ log s2 r, TrackCustomer.runLog (fun _ => 0)
        (TrackCustomer.BankSim3000.new SimulationInput00) 1 = some (log, s2, .ok r) ∧
      (∀ x ∈ TrackCustomer.loopHeads log s2,
        (x.bankLine ≠ [] → ∀ t ∈ x.tellers, t.isAvailable = false) ∧
        (x.eventQueue = [] → ∀ t ∈ x.tellers, t.isAvailable = true)) ∧
      s2.eventQueue = [] ∧ ∀ t ∈ s2.tellers, t.isAvailable = true) :=
  work_conserving (fun _ => 0) 1 (by decide) (by decide) SimulationInput00

/-- C38 (busy-time variant, tie-break sensitivity): for the input of `main` with two
tellers there are two executions, each of which always removes an event of least time,
that differ only in the order of the two departures at time 26: when the departure of
teller 0 is processed before that of teller 1 the call returns 5, and in the opposite
order it returns 9. -/
theorem tie_break_sensitivity :
    ∃ (tie1 tie2 : Nat → Nat) (log1 log2 : List BusyTime.Step)
      (s1 s2 : BusyTime.BankSim3000),
      BusyTime.maxTellerBusyTimeLog tie1 (BusyTime.BankSim3000.new SimulationInput00) 2 =
        some (log1, s1, .ok 5) ∧
      BusyTime.maxTellerBusyTimeLog tie2 (BusyTime.BankSim3000.new SimulationInput00) 2 =
        some (log2, s2, .ok 9) ∧
      log1.map (fun st => st.event) =
        [.arrival ⟨20, 6⟩, .arrival ⟨22, 4⟩, .arrival ⟨23, 2⟩, .departure ⟨26, 0⟩,
          .departure ⟨26, 1⟩, .departure ⟨28, 0⟩, .arrival ⟨30, 3⟩, .departure ⟨33, 0⟩] ∧
      log2.map (fun st => st.event) =
        [.arrival ⟨20, 6⟩, .arrival ⟨22, 4⟩, .arrival ⟨23, 2⟩, .departure ⟨26, 1⟩,
          .departure ⟨26, 0⟩, .departure ⟨28, 1⟩, .arrival ⟨30, 3⟩, .departure ⟨33, 0⟩] ∧
      (∀ st ∈ log1, ∀ x ∈ st.before.eventQueue,
        BusyTime.get_event_time st.event ≤ BusyTime.get_event_time x) ∧
      (∀ st ∈ log2, ∀ x ∈ st.before.eventQueue,
        BusyTime.get_event_time st.event ≤ BusyTime.get_event_time x) := by
  obtain ⟨log1, s1, h1, e1⟩ := BusyTime.traceIs_spec
    [.arrival ⟨20, 6⟩, .arrival ⟨22, 4⟩, .arrival ⟨23, 2⟩, .departure ⟨26, 0⟩,
      .departure ⟨26, 1⟩, .departure ⟨28, 0⟩, .arrival ⟨30, 3⟩, .departure ⟨33, 0⟩] 5
    (BusyTime.maxTellerBusyTimeLog (fun _ => 0)
      (BusyTime.BankSim3000.new SimulationInput00) 2) (by decide!)
  obtain ⟨log2, s2, h2, e2⟩ := BusyTime.traceIs_spec
    [.arrival ⟨20, 6⟩, .arrival ⟨22, 4⟩, .arrival ⟨23, 2⟩, .departure ⟨26, 1⟩,
      .departure ⟨26, 0⟩, .departure ⟨28, 1⟩, .arrival ⟨30, 3⟩, .departure ⟨33, 0⟩] 9
    (BusyTime.maxTellerBusyTimeLog (fun _ => 1)
      (BusyTime.BankSim3000.new SimulationInput00) 2) (by decide!)
  exact ⟨fun _ => 0, fun _ => 1, log1, log2, s1, s2, h1, h2, e1, e2,
    BusyTime.maxTellerBusyTimeLog_least _ (by decide) (by decide) rfl rfl h1,
    BusyTime.maxTellerBusyTimeLog_least _ (by decide) (by decide) rfl rfl h2⟩

/-- C39 as stated fails in its last part.  Function `averageWaitTime` sums the entries
with an `int` accumulator.  For the arrivals (10,0), (10,1500000000), (10,1), (10,1) with
one teller and the first candidate taken at every tie the list returned is
`[1500000000, 1500000001]`, whose sum in `int` is `-1294967295`: `averageWaitTime` is
`-1294967295/2`, not the mean `3000000001/2` of the two entries.  For the arrivals
(2000000002, 2000000000), (2000000001, 5), (2000000000, 5) with one teller, where no two
events have the same time, the list is `[2000000001, 2000000007]` and `averageWaitTime`
is `-147483644`. -/
theorem average_not_the_mean :
    (TrackCustomer.run (fun _ => 0)
        (TrackCustomer.BankSim3000.new [⟨10, 0⟩, ⟨10, 1500000000⟩, ⟨10, 1⟩, ⟨10, 1⟩]) 1).map
      (fun r => r.2.toOption.map (fun x => (x.customerWaitTimes, x.averageWaitTime))) =
      some (some ([1500000000, 1500000001], -1294967295 / 2)) ∧
    ((([1500000000, 1500000001] : List Time).sum : Int) : ℚ) / 2 = 3000000001 / 2 ∧
    (TrackCustomer.run (fun _ => 0) (TrackCustomer.BankSim3000.new
        [⟨2000000002, 2000000000⟩, ⟨2000000001, 5⟩, ⟨2000000000, 5⟩]) 1).map
      (fun r => r.2.toOption.map (fun x => (x.customerWaitTimes, x.averageWaitTime))) =
      some (some ([2000000001, 2000000007], -147483644)) := by
  refine ⟨by decide!, by norm_num, by decide!⟩

/-- C39 as amended (wait-time variant, what is recorded): for every arrival list, every
teller count `n` with `1 ≤ n ≤ 5` and every tie-break, `run(n)` returns; the wait-time
list returned holds, in order, the wait times computed for the departures processed that
are positive, so that every entry is positive, a departure whose computed wait is zero
or less contributes no entry, and there are at most as many entries as arrivals;
`averageWaitTime` divides the sum of the entries, computed in `int`, by their number,
and is the mean of the entries whenever their integer sum is a value of `int`.  For the
arrivals (10,0), (10,4), (10,1) with one teller and the first candidate taken at every
tie the list is `[4]` and the average is 4, not 4/3. -/
theorem recorded_waits_positive (tie : Nat → Nat) (n : Nat) (h1 : 1 ≤ n) (h5 : n ≤ 5)
    (input : SimulationInput) :
    (∃ log s2 r, TrackCustomer.runLog tie (TrackCustomer.BankSim3000.new input) n =
        some (log, s2, .ok r) ∧
      r.customerWaitTimes = log.flatMap TrackCustomer.Step.recorded ∧
      (∀ st ∈ log, st.after.completedCustomerWaitTimes =
        st.before.completedCustomerWaitTimes ++ st.recorded) ∧
      (∀ st ∈ log, ∀ d, st.event = TrackCustomer.Event.departure d →
        TrackCustomer.waitTimeOf (TrackCustomer.get_event_time st.event) d.customer ≤ 0 →
        st.recorded = []) ∧
      (∀ w ∈ r.customerWaitTimes, 0 < w) ∧
      r.customerWaitTimes.length ≤ input.length ∧
      r.averageWaitTime =
        (if r.customerWaitTimes = [] then 0
        else ((wrap r.customerWaitTimes.sum : Int) : ℚ) / (r.customerWaitTimes.length : ℚ)) ∧
      (r.customerWaitTimes.sum ≤ 2147483647 →
        r.averageWaitTime =
          if r.customerWaitTimes = [] then 0
          else ((r.customerWaitTimes.sum : Int) : ℚ) / (r.customerWaitTimes.length : ℚ))) ∧
    (TrackCustomer.run (fun _ => 0)
        (TrackCustomer.BankSim3000.new [⟨10, 0⟩, ⟨10, 4⟩, ⟨10, 1⟩]) 1).map
      (fun r => r.2.toOption.map (fun x => (x.customerWaitTimes, x.averageWaitTime))) =
      some (some ([4], 4)) := by
  constructor
  · obtain ⟨log, s2, hcall, hR⟩ := TrackCustomer.runLog_run_wait tie
      (s := TrackCustomer.BankSim3000.new input) h1 h5 rfl rfl
    have hw := TrackCustomer.Run.waits hR
    have hd := TrackCustomer.run_setupState_drained_wait h1 hR
    have hc := TrackCustomer.Run.counts_wait hR hd.2.1
    have hs := TrackCustomer.setupState_counts_wait (TrackCustomer.BankSim3000.new input) n
    have hres : (TrackCustomer.gatherResults s2).customerWaitTimes =
        log.flatMap TrackCustomer.Step.recorded := by
      rw [show (TrackCustomer.gatherResults s2).customerWaitTimes =
        s2.completedCustomerWaitTimes from rfl, hw]
      simp [TrackCustomer.setupState]
    have hpos : ∀ w ∈ (TrackCustomer.gatherResults s2).customerWaitTimes, 0 < w := by
      intro w hw1
      rw [hres] at hw1
      obtain ⟨st, _, hst⟩ := List.mem_flatMap.1 hw1
      exact TrackCustomer.Step.recorded_pos st w hst
    have havg : (TrackCustomer.gatherResults s2).averageWaitTime =
        if (TrackCustomer.gatherResults s2).customerWaitTimes = [] then 0
        else ((wrap (TrackCustomer.gatherResults s2).customerWaitTimes.sum : Int) : ℚ) /
          ((TrackCustomer.gatherResults s2).customerWaitTimes.length : ℚ) := by
      by_cases hnil : (TrackCustomer.gatherResults s2).customerWaitTimes = []
      · simp [hnil, TrackCustomer.SimulationResults.averageWaitTime]
      · rw [if_neg hnil]
        have hne : (TrackCustomer.gatherResults s2).customerWaitTimes.isEmpty = false := by
          cases hl : (TrackCustomer.gatherResults s2).customerWaitTimes with
          | nil => exact absurd hl hnil
          | cons x xs => rfl
        simp only [TrackCustomer.SimulationResults.averageWaitTime, hne, Bool.false_eq_true,
          if_false]
        rw [TrackCustomer.foldl_intAdd_eq_wrap]
    refine ⟨log, s2, _, hcall, hres, ?_, ?_, hpos, ?_, havg, ?_⟩
    · intro st _
      exact TrackCustomer.processEvent_waits st.popped st.event
    · intro st _ d hd hle
      unfold TrackCustomer.Step.recorded
      rw [hd] at hle ⊢
      simp only
      rw [if_neg (not_lt.2 hle)]
    · rw [hres]
      have := TrackCustomer.recorded_length_le log
      rw [hc.2, hs.1, hs.2] at this
      exact this
    · intro hhi
      have hlo : 0 ≤ (TrackCustomer.gatherResults s2).customerWaitTimes.sum :=
        List.sum_nonneg (fun w hw1 => le_of_lt (hpos w hw1))
      rw [havg, wrap_eq (by linarith) hhi]
  · decide!

/-- Instance of the amended C39: the arrivals (10,0), (10,4), (10,1) with one teller. -/
theorem recorded_waits_positive_witness :
    (∃ log s2 r, TrackCustomer.runLog (fun _ => 0)
        (TrackCustomer.BankSim3000.new [⟨10, 0⟩, ⟨10, 4⟩, ⟨10, 1⟩]) 1 =
        some (log, s2, .ok r) ∧
      r.customerWaitTimes = log.flatMap TrackCustomer.Step.recorded ∧
      (∀ st ∈ log, st.after.completedCustomerWaitTimes =
        st.before.completedCustomerWaitTimes ++ st.recorded) ∧
      (∀ st ∈ log, ∀ d, st.event = TrackCustomer.Event.departure d →
        TrackCustomer.waitTimeOf (TrackCustomer.get_event_time st.event) d.customer ≤ 0 →
        st.recorded = []) ∧
      (∀ w ∈ r.customerWaitTimes, 0 < w) ∧
      r.customerWaitTimes.length ≤ ([⟨10, 0⟩, ⟨10, 4⟩, ⟨10, 1⟩] : SimulationInput).length ∧
      r.averageWaitTime =
        (if r.customerWaitTimes = [] then 0
        else ((wrap r.customerWaitTimes.sum : Int) : ℚ) / (r.customerWaitTimes.length : ℚ)) ∧
      (r.customerWaitTimes.sum ≤ 2147483647 →
        r.averageWaitTime =
          if r.customerWaitTimes = [] then 0
          else ((r.customerWaitTimes.sum : Int) : ℚ) / (r.customerWaitTimes.length : ℚ))) ∧
    (TrackCustomer.run (fun _ => 0)
        (TrackCustomer.BankSim3000.new [⟨10, 0⟩, ⟨10, 4⟩, ⟨10, 1⟩]) 1).map
      (fun r => r.2.toOption.map (fun x => (x.customerWaitTimes, x.averageWaitTime))) =
      some (some ([4], 4)) :=
  recorded_waits_positive (fun _ => 0) 1 (by decide) (by decide) [⟨10, 0⟩, ⟨10, 4⟩, ⟨10, 1⟩]

end BankSim

namespace Lab2

/-- C28 (conversion to postfix form, both versions of lab2): for every well-formed infix
expression built from single-letter operands, the binary operators `+ - * /` and
parentheses, `infixToPostFix` applied to the text of the expression returns the postfix
form of the expression as parsed with `*` and `/` binding tighter than `+` and `-` and
with all operators left-associative; the output holds no parenthesis and lists the
operands in the order of the input.  In particular `a+b*c` gives `abc*+` and `(a+b)*c`
gives `ab+c*`. -/
theorem infixToPostFix_is_postfix_form (e : Expr) (hwf : e.WellFormed) :
    StdStack.infixToPostFix e.written = .ok e.reversePolish ∧
    ListStack.infixToPostFix e.written = .ok e.reversePolish ∧
    (∀ c ∈ e.reversePolish, c ≠ '(' ∧ c ≠ ')') ∧
    e.reversePolish.filter isOperand = e.written.filter isOperand ∧
    StdStack.infixToPostFix "a+b*c".toList = .ok "abc*+".toList ∧
    StdStack.infixToPostFix "(a+b)*c".toList = .ok "ab+c*".toList ∧
    ListStack.infixToPostFix "a+b*c".toList = .ok "abc*+".toList ∧
    ListStack.infixToPostFix "(a+b)*c".toList = .ok "ab+c*".toList := by
  refine ⟨StdStack.infixToPostFix_written e hwf,
    ListStack.infixToPostFix_of_stdStack (StdStack.infixToPostFix_written e hwf), ?_,
    reversePolish_operands e hwf, rfl, rfl, rfl, rfl⟩
  intro c hc
  rcases reversePolish_chars e hwf c hc with h | h
  · constructor
    · intro hopen
      subst hopen
      exact absurd h (by decide)
    · intro hclose
      subst hclose
      exact absurd h (by decide)
  · exact ⟨ne_open_of_isOperator h, ne_close_of_isOperator h⟩

/-- Instance of C28: the expression `a+b*c`. -/
theorem infixToPostFix_is_postfix_form_witness :
    StdStack.infixToPostFix Expr.sumWithProduct.written = .ok Expr.sumWithProduct.reversePolish ∧
    ListStack.infixToPostFix Expr.sumWithProduct.written =
      .ok Expr.sumWithProduct.reversePolish ∧
    (∀ c ∈ Expr.sumWithProduct.reversePolish, c ≠ '(' ∧ c ≠ ')') ∧
    Expr.sumWithProduct.reversePolish.filter isOperand =
      Expr.sumWithProduct.written.filter isOperand ∧
    StdStack.infixToPostFix "a+b*c".toList = .ok "abc*+".toList ∧
    StdStack.infixToPostFix "(a+b)*c".toList = .ok "ab+c*".toList ∧
    ListStack.infixToPostFix "a+b*c".toList = .ok "abc*+".toList ∧
    ListStack.infixToPostFix "(a+b)*c".toList = .ok "ab+c*".toList :=
  infixToPostFix_is_postfix_form Expr.sumWithProduct
    ⟨rfl, rfl, ⟨rfl, rfl, rfl, by decide, by decide⟩, by decide, by decide⟩

/-- C31 (`isPalindrome`, both versions of lab2): for every string, `isPalindrome` of
`lab2.cpp` is `true` exactly when the string equals its reversal, and the half-stack
`isPalindrome` of `lab2#2.cpp` returns normally with the same result; this holds for the
strings of the tests, among them the empty string and strings of odd and of even
length. -/
theorem isPalindrome_is_reversal_test (s : List Char) :
    (ReverseCompare.isPalindrome s = true ↔ s = s.reverse) ∧
    HalfStack.isPalindrome s = .ok (ReverseCompare.isPalindrome s) ∧
    ["", "a", "aa", "aba", "abba", "ab", "abaa"].map
        (fun t => ReverseCompare.isPalindrome t.toList) =
      [true, true, true, true, true, false, false] ∧
    ["", "a", "aa", "aba", "abba", "ab", "abaa"].map
        (fun t => (HalfStack.isPalindrome t.toList).toOption) =
      [some true, some true, some true, some true, some true, some false, some false] := by
  refine ⟨?_, ?_, by decide, by decide⟩
  · rw [reverseCompare_isPalindrome]
    simp
  · rw [reverseCompare_isPalindrome, halfStack_isPalindrome]

/-- C32 (`areCurleyBracesMatched`, the same text in both versions of lab2): for every
string the result is `true` exactly when the braces of the string are balanced, that is,
every leading part of the string holds at least as many opening as closing braces and
the string holds equally many of each; the result is that for the string with all other
characters removed. -/
theorem areCurleyBracesMatched_is_balance (s : List Char) :
    (areCurleyBracesMatched s = true ↔
      (∀ p, p <+: s → p.count '\x7d' ≤ p.count '\x7b') ∧ s.count '\x7b' = s.count '\x7d') ∧
    areCurleyBracesMatched (s.filter (fun ch => ch = '\x7b' || ch = '\x7d')) =
      areCurleyBracesMatched s ∧
    ["", "\x7b\x7d", "a\x7bbc\x7dd", "\x7b", "\x7d", "a\x7bb\x7bc\x7d"].map
        (fun t => areCurleyBracesMatched t.toList) =
      [true, true, true, false, false, false] := by
  refine ⟨areCurleyBracesMatched_iff s, ?_, by decide⟩
  unfold areCurleyBracesMatched
  rw [bracesLoop_filter]

end Lab2

namespace Lab3

/-- C29 (insertion sort): for every `ArrayList` and every `LinkedList` of integers that
satisfies its class invariant, `insertionSort` returns normally, and afterwards the list
has the same length, its entries are in non-decreasing order (for the `LinkedList`,
`isSorted` returns `true`), and they are a permutation of the entries before. -/
theorem insertionSort_sorts (a : ArrayList) (l : LinkedList) (ha : a.WF) (hl : l.WF) :
    (∃ a1, insertionSort ArrayList.interface a = .ok a1 ∧ a1.WF ∧
      a1.getLength = a.getLength ∧ a1.entries.Sorted (· ≤ ·) ∧ a1.entries.Perm a.entries) ∧
    (∃ l1, insertionSort LinkedList.interface l = .ok l1 ∧ l1.WF ∧
      l1.getLength = l.getLength ∧ l1.entries.Sorted (· ≤ ·) ∧ l1.entries.Perm l.entries ∧
      isSorted l1 = .ok true) := by
  constructor
  · obtain ⟨a1, hrun, hwf, hsorted, hperm⟩ := insertionSort_spec arrayList_lawful a ha
    refine ⟨a1, hrun, hwf, ?_, hsorted, hperm⟩
    have h1 := arrayList_entries_length a1 hwf
    have h2 := arrayList_entries_length a ha
    show a1.itemCount = a.itemCount
    rw [← h1, ← h2, hperm.length_eq]
  · obtain ⟨l1, hrun, hwf, hsorted, hperm⟩ := insertionSort_spec linkedList_lawful l hl
    refine ⟨l1, hrun, hwf, ?_, hsorted, hperm, isSorted_of_sorted l1 hwf hsorted⟩
    have h1 : l1.itemCount = (l1.entries.length : Int) := hwf
    have h2 : l.itemCount = (l.entries.length : Int) := hl
    show l1.itemCount = l.itemCount
    rw [h1, h2, hperm.length_eq]

/-- Instance of C29: the lists that hold 30, 10, 20. -/
theorem insertionSort_sorts_witness :
    (∃ a1, insertionSort ArrayList.interface ArrayList.example3 = .ok a1 ∧ a1.WF ∧
      a1.getLength = ArrayList.example3.getLength ∧ a1.entries.Sorted (· ≤ ·) ∧
      a1.entries.Perm ArrayList.example3.entries) ∧
    (∃ l1, insertionSort LinkedList.interface LinkedList.example3 = .ok l1 ∧ l1.WF ∧
      l1.getLength = LinkedList.example3.getLength ∧ l1.entries.Sorted (· ≤ ·) ∧
      l1.entries.Perm LinkedList.example3.entries ∧ isSorted l1 = .ok true) :=
  insertionSort_sorts ArrayList.example3 LinkedList.example3
    ⟨by decide, by decide, by decide⟩ (by unfold LinkedList.WF; decide)

/-- C30 (list insert, positions counted from 1): for every `ArrayList` and every
`LinkedList` that satisfies its class invariant, `insert(p, x)` returns normally; it
returns `true` exactly when `1 ≤ p ≤ getLength() + 1` (and, for the `ArrayList`, the list
holds fewer than `N` items); when it returns `true`, `getLength()` has grown by one,
`getEntry(p)` is `x`, the entries at positions below `p` are unchanged and every entry
formerly at a position `q ≥ p` is at `q + 1`; when it returns `false`, the list is
unchanged. -/
theorem list_insert_contract (a : ArrayList) (l : LinkedList) (ha : a.WF) (hl : l.WF)
    (p x : Int) :
    (∃ a1 b, a.insert p x = .ok (a1, b) ∧ a1.WF ∧
      (b = true ↔ 1 ≤ p ∧ p ≤ a.getLength + 1 ∧ a.getLength < a.maxItems) ∧
      (b = true → a1.getLength = a.getLength + 1 ∧ a1.getEntry p = .ok x ∧
        (∀ q, 1 ≤ q → q < p → ∃ v, a.getEntry q = .ok v ∧ a1.getEntry q = .ok v) ∧
        (∀ q, p ≤ q → q ≤ a.getLength →
          ∃ v, a.getEntry q = .ok v ∧ a1.getEntry (q + 1) = .ok v)) ∧
      (b = false → a1 = a)) ∧
    (∃ l1 b, l.insert p x = .ok (l1, b) ∧ l1.WF ∧
      (b = true ↔ 1 ≤ p ∧ p ≤ l.getLength + 1) ∧
      (b = true → l1.getLength = l.getLength + 1 ∧ l1.getEntry p = .ok x ∧
        (∀ q, 1 ≤ q → q < p → ∃ v, l.getEntry q = .ok v ∧ l1.getEntry q = .ok v) ∧
        (∀ q, p ≤ q → q ≤ l.getLength →
          ∃ v, l.getEntry q = .ok v ∧ l1.getEntry (q + 1) = .ok v)) ∧
      (b = false → l1 = l)) :=
  ⟨arrayList_insert_spec a ha p x, linkedList_insert_spec l hl p x⟩

/-- Instance of C30: 15 inserted at position 2 of the lists that hold 30, 10, 20. -/
theorem list_insert_contract_witness :
    (∃ a1 b, ArrayList.example3.insert 2 15 = .ok (a1, b) ∧ a1.WF ∧
      (b = true ↔ (1 : Int) ≤ 2 ∧ 2 ≤ ArrayList.example3.getLength + 1 ∧
        ArrayList.example3.getLength < ArrayList.example3.maxItems) ∧
      (b = true → a1.getLength = ArrayList.example3.getLength + 1 ∧
        a1.getEntry 2 = .ok 15 ∧
        (∀ q, 1 ≤ q → q < 2 →
          ∃ v, ArrayList.example3.getEntry q = .ok v ∧ a1.getEntry q = .ok v) ∧
        (∀ q, 2 ≤ q → q ≤ ArrayList.example3.getLength →
          ∃ v, ArrayList.example3.getEntry q = .ok v ∧ a1.getEntry (q + 1) = .ok v)) ∧
      (b = false → a1 = ArrayList.example3)) ∧
    (∃ l1 b, LinkedList.example3.insert 2 15 = .ok (l1, b) ∧ l1.WF ∧
      (b = true ↔ (1 : Int) ≤ 2 ∧ 2 ≤ LinkedList.example3.getLength + 1) ∧
      (b = true → l1.getLength = LinkedList.example3.getLength + 1 ∧
        l1.getEntry 2 = .ok 15 ∧
        (∀ q, 1 ≤ q → q < 2 →
          ∃ v, LinkedList.example3.getEntry q = .ok v ∧ l1.getEntry q = .ok v) ∧
        (∀ q, 2 ≤ q → q ≤ LinkedList.example3.getLength →
          ∃ v, LinkedList.example3.getEntry q = .ok v ∧ l1.getEntry (q + 1) = .ok v)) ∧
      (b = false → l1 = LinkedList.example3)) :=
  list_insert_contract ArrayList.example3 LinkedList.example3
    ⟨by decide, by decide, by decide⟩ (by unfold LinkedList.WF; decide) 2 15

/-- C34 (`LinkedList::setEntry`, the code): with a position below 1 or above the length,
`LinkedList::setEntry` does not throw `invalid_argument` as its documentation says and as
`ArrayList::setEntry` does: the only check is the `assert` of `getNodeAt`, which fails.
For the list that holds 30, 10, 20 this is so at the positions 0 and 4.  With a position
in range it replaces the entry at that position and changes nothing else. -/
theorem linkedList_setEntry_no_exception :
    (∀ (l : LinkedList) (p x : Int), ¬ (1 ≤ p ∧ p ≤ l.getLength) →
      l.setEntry p x = .error .assertionFailed) ∧
    (∀ (a : ArrayList) (p x : Int), ¬ (1 ≤ p ∧ p ≤ a.getLength) →
      a.setEntry p x = .error
        (.invalidArgument "setEntry() called with an empty list or invalid position.")) ∧
    LinkedList.example3.setEntry 4 15 = .error .assertionFailed ∧
    LinkedList.example3.setEntry 0 15 = .error .assertionFailed ∧
    ArrayList.example3.setEntry 4 15 = .error
      (.invalidArgument "setEntry() called with an empty list or invalid position.") ∧
    (∀ (l : LinkedList) (k : Nat) (x : Int), l.WF → k < l.entries.length →
      ∃ l1, l.setEntry ((k : Int) + 1) x = .ok l1 ∧ l1.WF ∧
        l1.getLength = l.getLength ∧ l1.entries = l.entries.set k x) := by
  refine ⟨?_, ?_, rfl, rfl, rfl, ?_⟩
  · intro l p x h
    simp only [LinkedList.setEntry, linkedList_getNodeAt_out_of_range l p h]
  · intro a p x h
    have hable : (decide (p ≥ 1) && decide (p ≤ a.itemCount)) = false := by
      rw [Bool.eq_false_iff]
      intro ht
      simp only [Bool.and_eq_true, decide_eq_true_eq] at ht
      exact h ht
    simp only [ArrayList.setEntry, hable, Bool.false_eq_true, if_false]
  · intro l k x hwf hk
    obtain ⟨l1, hset, hwf1, he⟩ := linkedList_lawful.setEntry l k x hwf hk
    refine ⟨l1, hset, hwf1, ?_, he⟩
    have h1 : l1.itemCount = (l1.entries.length : Int) := hwf1
    have h2 : l.itemCount = (l.entries.length : Int) := hwf
    show l1.itemCount = l.itemCount
    rw [h1, h2, he, List.length_set]

end Lab3

namespace Lab2Part4

/-- C40 (`solveEightQueens` of `lab2part4.cpp`, the code): the search loop
`while (row >= 0)` does not terminate.  Its 218th iteration finds the placement
0, 4, 7, 5, 2, 6, 1, 3, pushes it and resets row 7; as `col` is then 3 and not 8, `row`
stays 7, and every later iteration searches row 7 from column 0 again, finds the same
placement and pushes it once more: after `218 + k` iterations the stack holds that
placement `k + 1` times, and no number of iterations ends the loop. -/
theorem search_loop_never_ends :
    (∀ fuel, searchLoop fuel State.initial = none) ∧
    reaches 218 State.initial =
      some ⟨[[0, 4, 7, 5, 2, 6, 1, 3]], [0, 4, 7, 5, 2, 6, 1, -1], 7⟩ ∧
    (∀ k, reaches (218 + k) State.initial =
      some ⟨List.replicate (k + 1) [0, 4, 7, 5, 2, 6, 1, 3], [0, 4, 7, 5, 2, 6, 1, -1], 7⟩) := by
  refine ⟨searchLoop_initial, reaches_first, ?_⟩
  intro k
  have h := reaches_trans 218 k State.initial _ _ reaches_first (reaches_repeating 1 k)
  rw [h, Nat.add_comm 1 k]
  rfl

end Lab2Part4

namespace Lab2Part4New

/-- C33, the case the claim misses.  Function `solveNQ` on 0 returns the empty board,
although a placement of 0 queens exists: the board with no rows is itself the solved
board of size 0, and it holds the placement without squares. -/
theorem solveNQ_zero_returns_empty_board :
    solveNQ 0 = some (.ok []) ∧ Placement 0 ∅ ∧ (∃ squares, Placement 0 squares) ∧
      ValidBoard 0 [] ∧ queens 0 [] = ∅ := by
  have hp : Placement 0 ∅ := ⟨by simp, by simp, by simp⟩
  exact ⟨rfl, hp, ⟨∅, hp⟩, ⟨rfl, by simp, hp⟩, rfl⟩

/-- C33, amended.  For every size `n`, `solveNQ n` returns normally, and it returns
either an `n` by `n` board that contains exactly `n` queens with no two queens in the
same row, in the same column or on a common diagonal, or the empty board when no
placement of `n` queens exists.  For a size `n` of at least 1 it therefore returns the
empty board only when no placement exists, and it returns a valid board whenever one
exists; for the size 0 it returns the empty board, which is the valid board of size 0.
For the size 8 it returns a valid board, with the queens of the columns in the rows
0, 4, 7, 5, 2, 6, 1 and 3. -/
theorem solveNQ_returns_placement :
    (∀ n, ∃ b, solveNQ n = some (.ok b) ∧
      (ValidBoard n b ∨ (b = [] ∧ ¬ ∃ squares, Placement n squares))) ∧
    (∀ n, 0 < n → solveNQ n = some (.ok []) → ¬ ∃ squares, Placement n squares) ∧
    (∀ n, (∃ squares, Placement n squares) →
      ∃ b, solveNQ n = some (.ok b) ∧ ValidBoard n b) ∧
    solveNQ 0 = some (.ok []) ∧
    solveNQ 8 = some (.ok board8) ∧ ValidBoard 8 board8 ∧
    queens 8 board8 = {(0, 0), (4, 1), (7, 2), (5, 3), (2, 4), (6, 5), (1, 6), (3, 7)} := by
  have hmain : ∀ n, ∃ b, solveNQ n = some (.ok b) ∧
      (ValidBoard n b ∨ (b = [] ∧ ¬ ∃ squares, Placement n squares)) := by
    intro n
    obtain ⟨b, hrun, hcases⟩ := solveNQ_spec n
    refine ⟨b, hrun, ?_⟩
    rcases hcases with ⟨qs, hsol, rfl⟩ | ⟨hb, hnone⟩
    · exact Or.inl (solution_validBoard hsol)
    · refine Or.inr ⟨hb, ?_⟩
      rintro ⟨squares, hp⟩
      exact hnone (placement_solution hp)
  have hsol8 : Solution 8 [0, 4, 7, 5, 2, 6, 1, 3] := by
    obtain ⟨b, hrun, hcases⟩ := solveNQ_spec 8
    rw [solveNQ_eight] at hrun
    have hb : board8 = b := by
      injection hrun with hrun
      injection hrun
    subst hb
    rcases hcases with ⟨qs, hsol, hqs⟩ | ⟨hb, _⟩
    · have hq : qs = [0, 4, 7, 5, 2, 6, 1, 3] := by
        apply List.ext_getElem?
        intro j
        by_cases hj : j < 8
        · have h1 := queenAt_boardOf (n := 8) qs (i := (([0, 4, 7, 5, 2, 6, 1, 3] : List Nat).getD j 0))
            (j := j) (by interval_cases j <;> decide) hj
          rw [← hqs] at h1
          interval_cases j <;> exact h1.1 (by decide)
        · rw [List.getElem?_eq_none (by rw [hsol.1]; omega),
            List.getElem?_eq_none (by simp; omega)]
      rw [← hq]
      exact hsol
    · exact absurd hb (by decide)
  refine ⟨hmain, ?_, ?_, rfl, solveNQ_eight, ?_, by decide⟩
  · intro n hn hrun
    obtain ⟨b, hrun1, hcases⟩ := hmain n
    rw [hrun] at hrun1
    have hb : [] = b := by
      injection hrun1 with hrun1
      injection hrun1
    subst hb
    rcases hcases with hvalid | ⟨_, hnone⟩
    · have : (0 : Nat) = n := hvalid.1
      omega
    · exact hnone
  · intro n hex
    obtain ⟨b, hrun, hcases⟩ := hmain n
    rcases hcases with hvalid | ⟨_, hnone⟩
    · exact ⟨b, hrun, hvalid⟩
    · exact absurd hex hnone
  · rw [board8_eq]
    exact solution_validBoard hsol8

end Lab2Part4New
